import Mathlib

/-!
# jsonptr: an index from JSON Pointer paths to byte offsets

A verification development for `lestrrat-go/jsonptr` (`jsonptr.go`).

The package drives Go's `encoding/json` `Decoder` (`Token`, `InputOffset`,
`Decode`) over a byte buffer.  The first part of this file is a model of the
pieces of `encoding/json` that the package calls: the byte scanner
(`scanner.go`), `Decoder.readValue`, `Decoder.Token` with its token state
machine, and `Decoder.InputOffset` (`stream.go`).  The second part embeds
`jsonptr.go` itself: `Register`, `Get`, `Unmarshal`, `Parse`, `parse`,
`parseObject` and `parseArray`.

Bytes are natural numbers (a Go `byte` is a number below 256), buffers and Go
strings are lists of bytes.  A Go `map[string]int64` is an association list
without duplicate keys.
-/

namespace Jsonptr

/-! ## encoding/json: the scanner -/

/-- Go `isSpace` of `encoding/json`: space, tab, carriage return, newline. -/
def isSpace (c : Nat) : Bool := c = 32 || c = 9 || c = 13 || c = 10

/-- Decimal digit `'0'..'9'`. -/
def isDigit (c : Nat) : Bool := decide (48 ≤ c) && decide (c ≤ 57)

/-- Hexadecimal digit as accepted by `stateInStringEscU`. -/
def isHex (c : Nat) : Bool :=
  isDigit c || (decide (97 ≤ c) && decide (c ≤ 102)) || (decide (65 ≤ c) && decide (c ≤ 70))

/-- The step functions of the scanner (`scanner.step`). -/
inductive Step
  | beginValue | beginValueOrEmpty | beginStringOrEmpty | beginString
  | endValue | endTop
  | inString | inStringEsc | inStringEscU | inStringEscU1 | inStringEscU12 | inStringEscU123
  | neg | s0 | s1 | dot | dot0 | sE | sESign | sE0
  | sT | sTr | sTru | sF | sFa | sFal | sFals | sN | sNu | sNul
  | error
  deriving DecidableEq, Repr

/-- Entries of the scanner's `parseState` stack. -/
inductive PState
  | objectKey | objectValue | arrayValue
  deriving DecidableEq, Repr

/-- The opcodes returned by a scanner step. -/
inductive Op
  | scanContinue | scanBeginLiteral | scanBeginObject | scanObjectKey | scanObjectValue
  | scanEndObject | scanBeginArray | scanArrayValue | scanEndArray | scanSkipSpace
  | scanEnd | scanError
  deriving DecidableEq, Repr

/-- The scanner: its current step function and the `parseState` stack (top first). -/
structure Scanner where
  step : Step
  parseState : List PState
  deriving DecidableEq, Repr

/-- Go `maxNestingDepth`. -/
def maxNestingDepth : Nat := 10000

/-- Go `scanner.error`. -/
def Scanner.fail (s : Scanner) : Scanner × Op := ({ s with step := .error }, .scanError)

/-- Go `scanner.pushParseState`; `next` is the step function the caller has just set. -/
def Scanner.pushParseState (s : Scanner) (next : Step) (p : PState) (success : Op) : Scanner × Op :=
  if s.parseState.length + 1 ≤ maxNestingDepth then
    ({ step := next, parseState := p :: s.parseState }, success)
  else
    ({ step := .error, parseState := p :: s.parseState }, .scanError)

/-- Go `stateEndTop`: a non-space byte is an error for the next call, the result is `scanEnd`. -/
def stateEndTop (s : Scanner) (c : Nat) : Scanner × Op :=
  if isSpace c then (s, .scanEnd) else ({ s with step := .error }, .scanEnd)

/-- Go `stateEndValue` (with `popParseState` inlined for `}` and `]`). -/
def stateEndValue (s : Scanner) (c : Nat) : Scanner × Op :=
  match s.parseState with
  | [] => stateEndTop { s with step := .endTop } c
  | ps :: below =>
    if isSpace c then ({ s with step := .endValue }, .scanSkipSpace)
    else
      match ps with
      | .objectKey =>
        if c = 58 then ({ step := .beginValue, parseState := .objectValue :: below }, .scanObjectKey)
        else s.fail
      | .objectValue =>
        if c = 44 then ({ step := .beginString, parseState := .objectKey :: below }, .scanObjectValue)
        else if c = 125 then
          ({ step := if below = [] then .endTop else .endValue, parseState := below }, .scanEndObject)
        else s.fail
      | .arrayValue =>
        if c = 44 then ({ s with step := .beginValue }, .scanArrayValue)
        else if c = 93 then
          ({ step := if below = [] then .endTop else .endValue, parseState := below }, .scanEndArray)
        else s.fail

/-- Go `stateBeginValue`. -/
def stateBeginValue (s : Scanner) (c : Nat) : Scanner × Op :=
  if isSpace c then (s, .scanSkipSpace)
  else if c = 123 then s.pushParseState .beginStringOrEmpty .objectKey .scanBeginObject
  else if c = 91 then s.pushParseState .beginValueOrEmpty .arrayValue .scanBeginArray
  else if c = 34 then ({ s with step := .inString }, .scanBeginLiteral)
  else if c = 45 then ({ s with step := .neg }, .scanBeginLiteral)
  else if c = 48 then ({ s with step := .s0 }, .scanBeginLiteral)
  else if c = 116 then ({ s with step := .sT }, .scanBeginLiteral)
  else if c = 102 then ({ s with step := .sF }, .scanBeginLiteral)
  else if c = 110 then ({ s with step := .sN }, .scanBeginLiteral)
  else if 49 ≤ c ∧ c ≤ 57 then ({ s with step := .s1 }, .scanBeginLiteral)
  else s.fail

/-- Go `stateBeginString`. -/
def stateBeginString (s : Scanner) (c : Nat) : Scanner × Op :=
  if isSpace c then (s, .scanSkipSpace)
  else if c = 34 then ({ s with step := .inString }, .scanBeginLiteral)
  else s.fail

/-- Go `state0`. -/
def state0 (s : Scanner) (c : Nat) : Scanner × Op :=
  if c = 46 then ({ s with step := .dot }, .scanContinue)
  else if c = 101 ∨ c = 69 then ({ s with step := .sE }, .scanContinue)
  else stateEndValue s c

/-- Go `stateESign`. -/
def stateESign (s : Scanner) (c : Nat) : Scanner × Op :=
  if isDigit c then ({ s with step := .sE0 }, .scanContinue) else s.fail

/-- A step that expects exactly the byte `want` and then moves to `next`. -/
def expectByte (s : Scanner) (c want : Nat) (next : Step) : Scanner × Op :=
  if c = want then ({ s with step := next }, .scanContinue) else s.fail

/-- One scanner step, `s.step(s, c)` in Go. -/
def Scanner.next (s : Scanner) (c : Nat) : Scanner × Op :=
  match s.step with
  | .beginValue => stateBeginValue s c
  | .beginValueOrEmpty =>
    if isSpace c then (s, .scanSkipSpace)
    else if c = 93 then stateEndValue s c
    else stateBeginValue s c
  | .beginStringOrEmpty =>
    if isSpace c then (s, .scanSkipSpace)
    else if c = 125 then
      match s.parseState with
      | [] => s.fail
      | _ :: below => stateEndValue { s with parseState := .objectValue :: below } c
    else stateBeginString s c
  | .beginString => stateBeginString s c
  | .endValue => stateEndValue s c
  | .endTop => stateEndTop s c
  | .inString =>
    if c = 34 then ({ s with step := .endValue }, .scanContinue)
    else if c = 92 then ({ s with step := .inStringEsc }, .scanContinue)
    else if c < 32 then s.fail
    else (s, .scanContinue)
  | .inStringEsc =>
    if c = 98 ∨ c = 102 ∨ c = 110 ∨ c = 114 ∨ c = 116 ∨ c = 92 ∨ c = 47 ∨ c = 34 then
      ({ s with step := .inString }, .scanContinue)
    else if c = 117 then ({ s with step := .inStringEscU }, .scanContinue)
    else s.fail
  | .inStringEscU =>
    if isHex c then ({ s with step := .inStringEscU1 }, .scanContinue) else s.fail
  | .inStringEscU1 =>
    if isHex c then ({ s with step := .inStringEscU12 }, .scanContinue) else s.fail
  | .inStringEscU12 =>
    if isHex c then ({ s with step := .inStringEscU123 }, .scanContinue) else s.fail
  | .inStringEscU123 =>
    if isHex c then ({ s with step := .inString }, .scanContinue) else s.fail
  | .neg =>
    if c = 48 then ({ s with step := .s0 }, .scanContinue)
    else if 49 ≤ c ∧ c ≤ 57 then ({ s with step := .s1 }, .scanContinue)
    else s.fail
  | .s1 => if isDigit c then ({ s with step := .s1 }, .scanContinue) else state0 s c
  | .s0 => state0 s c
  | .dot => if isDigit c then ({ s with step := .dot0 }, .scanContinue) else s.fail
  | .dot0 =>
    if isDigit c then (s, .scanContinue)
    else if c = 101 ∨ c = 69 then ({ s with step := .sE }, .scanContinue)
    else stateEndValue s c
  | .sE =>
    if c = 43 ∨ c = 45 then ({ s with step := .sESign }, .scanContinue) else stateESign s c
  | .sESign => stateESign s c
  | .sE0 => if isDigit c then (s, .scanContinue) else stateEndValue s c
  | .sT => expectByte s c 114 .sTr
  | .sTr => expectByte s c 117 .sTru
  | .sTru => expectByte s c 101 .endValue
  | .sF => expectByte s c 97 .sFa
  | .sFa => expectByte s c 108 .sFal
  | .sFal => expectByte s c 115 .sFals
  | .sFals => expectByte s c 101 .endValue
  | .sN => expectByte s c 117 .sNu
  | .sNu => expectByte s c 108 .sNul
  | .sNul => expectByte s c 108 .endValue
  | .error => (s, .scanError)

/-- The scanning loop of Go `Decoder.readValue`: `n` bytes have been scanned so far.  The result
is the length of the encoding of the value, or `none` for an error. At the end of the input the
scanner is fed one space (the `io.EOF` branch). -/
def readLoop (s : Scanner) : List Nat → Nat → Option Nat
  | [], n => if (s.next 32).2 = .scanEnd then some n else none
  | c :: cs, n =>
    match s.next c with
    | (s1, op) =>
      if op = .scanEnd then some n
      else if op = .scanEndObject ∨ op = .scanEndArray then
        if (stateEndValue s1 32).2 = .scanEnd then some (n + 1) else readLoop s1 cs (n + 1)
      else if op = .scanError then none
      else readLoop s1 cs (n + 1)

/-- Go `scanner.reset`. -/
def Scanner.reset : Scanner := { step := .beginValue, parseState := [] }

/-- Go `Decoder.readValue` on the unread input: the length of the next value's encoding
(leading white space included). -/
def readValue (input : List Nat) : Option Nat := readLoop Scanner.reset input 0

/-! ## encoding/json: the token stream -/

/-- The two conversions of `encoding/json` that depend on the text of a scalar and that the
scanner does not decide: `unquote` turns the text of a string literal (quotes included) into the
Go string it denotes, and `floatOk` tells whether `strconv.ParseFloat(s, 64)` accepts the text of
a number literal (it reports a range error for a literal beyond the `float64` range). -/
structure Lib where
  unquote : List Nat → List Nat
  floatOk : List Nat → Bool

/-- The values of `Decoder.tokenState`. -/
inductive TokState
  | topValue | arrayStart | arrayValue | arrayComma
  | objectStart | objectKey | objectColon | objectValue | objectComma
  deriving DecidableEq, Repr

/-- What `Decoder.Token` returns, as far as a type switch can tell: a `json.Delim`, a Go `string`
(an object key or a string value), or any other value (`float64`, `bool`, `nil`). -/
inductive Token
  | delim (c : Nat)
  | str (s : List Nat)
  | other
  deriving DecidableEq, Repr

/-- The decoder: the unread input (`buf[scanp:]` followed by what the reader still holds), the
number of bytes consumed so far (`scanned + scanp`), and the token state with its stack (top
first). -/
structure Decoder where
  rest : List Nat
  off : Nat
  tokenState : TokState
  tokenStack : List TokState
  deriving DecidableEq, Repr

/-- Go `json.NewDecoder(bytes.NewReader(data))`. -/
def NewDecoder (data : List Nat) : Decoder :=
  { rest := data, off := 0, tokenState := .topValue, tokenStack := [] }

/-- Go `Decoder.InputOffset`. -/
def Decoder.InputOffset (dec : Decoder) : Nat := dec.off

/-- Go `Decoder.tokenValueAllowed`. -/
def tokenValueAllowed (st : TokState) : Bool :=
  match st with
  | .topValue | .arrayStart | .arrayValue | .objectValue => true
  | _ => false

/-- Go `Decoder.tokenValueEnd`. -/
def tokenValueEnd (st : TokState) : TokState :=
  match st with
  | .arrayStart | .arrayValue => .arrayComma
  | .objectValue => .objectComma
  | st => st

/-- The value that `Decode(&x)` with `x any` stores for the text of a scalar, or `none` when
storing fails: a number whose text `strconv.ParseFloat` rejects is an `UnmarshalTypeError`. -/
def scalarToken (L : Lib) (item : List Nat) : Option Token :=
  match item with
  | [] => none
  | c :: _ =>
    if c = 34 then some (.str (L.unquote item))
    else if c = 110 ∨ c = 116 ∨ c = 102 then some .other
    else if L.floatOk item then some .other
    else none

/-- Go `Decoder.Token` on the unread input `rest` at offset `off`, token state `st` and stack
`stk`: the loop of `Token` with `peek` inlined (white space is skipped, `:` and `,` are consumed
and the loop continues).  `none` is an error return; an opening bracket nested deeper than
`maxNestingDepth` is an error (`exceeded max depth`), the stack holding one state for each open
bracket. -/
def tokenLoop (L : Lib) : List Nat → Nat → TokState → List TokState → Option (Token × Decoder)
  | [], _, _, _ => none
  | c :: cs, off, st, stk =>
    if isSpace c then tokenLoop L cs (off + 1) st stk
    else if c = 91 then
      if tokenValueAllowed st then
        if stk.length + 1 ≤ maxNestingDepth then
          some (.delim 91, { rest := cs, off := off + 1, tokenState := .arrayStart,
                             tokenStack := st :: stk })
        else none
      else none
    else if c = 93 then
      if st = .arrayStart ∨ st = .arrayComma then
        match stk with
        | [] => none
        | top :: below =>
          some (.delim 93, { rest := cs, off := off + 1, tokenState := tokenValueEnd top,
                             tokenStack := below })
      else none
    else if c = 123 then
      if tokenValueAllowed st then
        if stk.length + 1 ≤ maxNestingDepth then
          some (.delim 123, { rest := cs, off := off + 1, tokenState := .objectStart,
                              tokenStack := st :: stk })
        else none
      else none
    else if c = 125 then
      if st = .objectStart ∨ st = .objectComma then
        match stk with
        | [] => none
        | top :: below =>
          some (.delim 125, { rest := cs, off := off + 1, tokenState := tokenValueEnd top,
                              tokenStack := below })
      else none
    else if c = 58 then
      if st = .objectColon then tokenLoop L cs (off + 1) .objectValue stk else none
    else if c = 44 then
      if st = .arrayComma then tokenLoop L cs (off + 1) .arrayValue stk
      else if st = .objectComma then tokenLoop L cs (off + 1) .objectKey stk
      else none
    else if c = 34 ∧ (st = .objectStart ∨ st = .objectKey) then
      match readValue (c :: cs) with
      | none => none
      | some n =>
        some (.str (L.unquote ((c :: cs).take n)),
              { rest := (c :: cs).drop n, off := off + n, tokenState := .objectColon,
                tokenStack := stk })
    else if tokenValueAllowed st then
      match readValue (c :: cs) with
      | none => none
      | some n =>
        match scalarToken L ((c :: cs).take n) with
        | none => none
        | some tok =>
          some (tok, { rest := (c :: cs).drop n, off := off + n, tokenState := tokenValueEnd st,
                       tokenStack := stk })
    else none

/-- Go `Decoder.Token`. -/
def Decoder.Token (L : Lib) (dec : Decoder) : Option (Token × Decoder) :=
  tokenLoop L dec.rest dec.off dec.tokenState dec.tokenStack

/-- Go `Decode(&msg)` with `msg json.RawMessage` on a fresh decoder over `input`: the text of the
first value, without the white space before it. -/
def decodeRaw (input : List Nat) : Option (List Nat) :=
  match readValue input with
  | none => none
  | some n => some ((input.take n).dropWhile isSpace)

/-! ## encoding/json: the two conversions, concretely -/

/-- Go `utf8.EncodeRune`: surrogates and values beyond U+10FFFF encode as U+FFFD. -/
def encodeRune (r : Nat) : List Nat :=
  if r < 128 then [r]
  else if r < 2048 then [192 + r / 64, 128 + r % 64]
  else if (55296 ≤ r ∧ r < 57344) ∨ 1114111 < r then [239, 191, 189]
  else if r < 65536 then [224 + r / 4096, 128 + r / 64 % 64, 128 + r % 64]
  else [240 + r / 262144, 128 + r / 4096 % 64, 128 + r / 64 % 64, 128 + r % 64]

/-- UTF-8 continuation byte. -/
def isCont (b : Nat) : Bool := decide (128 ≤ b) && decide (b ≤ 191)

/-- The size that Go `utf8.DecodeRune` reports for a well-formed encoding at the head of the
input, and `0` where it reports `(RuneError, 1)`. -/
def utf8Size (s : List Nat) : Nat :=
  match s with
  | [] => 0
  | a :: t =>
    if a < 128 then 1
    else if a < 194 then 0
    else if a < 224 then
      match t with
      | b :: _ => if isCont b then 2 else 0
      | _ => 0
    else if a < 240 then
      match t with
      | b :: c :: _ =>
        if (if a = 224 then decide (160 ≤ b) && decide (b ≤ 191)
            else if a = 237 then decide (128 ≤ b) && decide (b ≤ 159)
            else isCont b) && isCont c then 3 else 0
      | _ => 0
    else if a < 245 then
      match t with
      | b :: c :: d :: _ =>
        if (if a = 240 then decide (144 ≤ b) && decide (b ≤ 191)
            else if a = 244 then decide (128 ≤ b) && decide (b ≤ 143)
            else isCont b) && isCont c && isCont d then 4 else 0
      | _ => 0
    else 0

/-- Value of a hexadecimal digit. -/
def hexVal (c : Nat) : Nat := if isDigit c then c - 48 else if 97 ≤ c then c - 87 else c - 55

/-- Go `getu4`: the code unit of a `\uXXXX` escape at the head of the input. -/
def getu4 (s : List Nat) : Option Nat :=
  match s with
  | bs :: u :: a :: b :: c :: d :: _ =>
    if bs = 92 ∧ u = 117 ∧ isHex a ∧ isHex b ∧ isHex c ∧ isHex d then
      some (((hexVal a * 16 + hexVal b) * 16 + hexVal c) * 16 + hexVal d)
    else none
  | _ => none

/-- The escape characters of Go `unquoteBytes` other than `u`. -/
def unescape (c : Nat) : Option Nat :=
  if c = 34 ∨ c = 92 ∨ c = 47 ∨ c = 39 then some c
  else if c = 98 then some 8
  else if c = 102 then some 12
  else if c = 110 then some 10
  else if c = 114 then some 13
  else if c = 116 then some 9
  else none

/-- The main loop of Go `unquoteBytes` over the text between the quotes; the fuel is the length
of that text. Text that the scanner would have rejected ends the loop. -/
def unquoteLoop : Nat → List Nat → List Nat
  | 0, _ => []
  | _, [] => []
  | fuel + 1, c :: t =>
    if c = 92 then
      match t with
      | [] => []
      | e :: t2 =>
        if e = 117 then
          match getu4 (c :: t) with
          | none => []
          | some rr =>
            let after := t.drop 5
            if 55296 ≤ rr ∧ rr < 57344 then
              match getu4 after with
              | some rr1 =>
                if rr < 56320 ∧ 56320 ≤ rr1 ∧ rr1 < 57344 then
                  encodeRune ((rr - 55296) * 1024 + (rr1 - 56320) + 65536)
                    ++ unquoteLoop fuel (after.drop 6)
                else encodeRune 65533 ++ unquoteLoop fuel after
              | none => encodeRune 65533 ++ unquoteLoop fuel after
            else encodeRune rr ++ unquoteLoop fuel after
        else
          match unescape e with
          | some x => x :: unquoteLoop fuel t2
          | none => []
    else if c = 34 ∨ c < 32 then []
    else if c < 128 then c :: unquoteLoop fuel t
    else
      match utf8Size (c :: t) with
      | 0 => encodeRune 65533 ++ unquoteLoop fuel t
      | k + 1 => (c :: t).take (k + 1) ++ unquoteLoop fuel (t.drop k)

/-- Go `unquote` on the text of a string literal, quotes included. -/
def goUnquote (lit : List Nat) : List Nat :=
  unquoteLoop lit.length (lit.drop 1).dropLast

/-- Decimal value of a run of digits. -/
def digitsVal (ds : List Nat) : Nat := ds.foldl (fun a d => a * 10 + (d - 48)) 0

/-- The exponent as `strconv` reads it: digits stop counting once the value reaches 10000. -/
def clampExp (ds : List Nat) : Nat :=
  ds.foldl (fun e d => if e < 10000 then e * 10 + (d - 48) else e) 0

/-- The least magnitude that rounds to infinity in `float64`: `2^1024 - 2^970`. -/
def float64Overflow : Nat := 2 ^ 1024 - 2 ^ 970

/-- Whether `strconv.ParseFloat(s, 64)` returns no range error on the text of a JSON number:
the decimal value, rounded to nearest, is finite. -/
def goFloatOk (s : List Nat) : Bool :=
  let s := if s.head? = some 45 then s.tail else s
  let ip := s.takeWhile isDigit
  let s1 := s.dropWhile isDigit
  let fp := if s1.head? = some 46 then s1.tail.takeWhile isDigit else []
  let s2 := if s1.head? = some 46 then s1.tail.dropWhile isDigit else s1
  let eneg := decide ((s2.drop 1).head? = some 45)
  let ed := (s2.drop 1).dropWhile (fun c => c = 43 || c = 45)
  let m := digitsVal (ip ++ fp)
  let e := clampExp ed
  if eneg then decide (m < float64Overflow * 10 ^ (e + fp.length))
  else if fp.length ≤ e then decide (m * 10 ^ (e - fp.length) < float64Overflow)
  else decide (m < float64Overflow * 10 ^ (fp.length - e))

/-- The conversions of `encoding/json`. -/
def stdLib : Lib := { unquote := goUnquote, floatOk := goFloatOk }

/-! ## jsonptr.go -/

/-- Outcome of a Go call: a normal return with a value, a normal return with a non-nil error, a
run-time panic, or (for the fuelled walk only) exhausted fuel. -/
inductive Res (α : Type)
  | ok (a : α)
  | err
  | panic
  | fuel
  deriving DecidableEq, Repr

/-- Go `Context`: the source buffer and the `paths` map. -/
structure Context where
  data : List Nat
  paths : List (List Nat × Nat)
  deriving DecidableEq, Repr

/-- Go `Context.Register`: `c.paths[path] = i`. -/
def Context.Register (c : Context) (path : List Nat) (i : Nat) : Context :=
  { c with paths := (path, i) :: c.paths.filter (fun e => decide (e.1 ≠ path)) }

/-- The map read `v, ok := c.paths[path]`. -/
def Context.lookup (c : Context) (path : List Nat) : Option Nat :=
  (c.paths.find? (fun e => decide (e.1 = path))).map (fun e => e.2)

/-- Go `Context.Get`.  The slice `c.data[v:]` panics when `v` exceeds the length. -/
def Context.Get (c : Context) (path : List Nat) : Res (List Nat) :=
  match c.lookup path with
  | none => .err
  | some v =>
    if c.data.length < v then .panic
    else
      match decodeRaw (c.data.drop v) with
      | none => .err
      | some msg => .ok msg

/-- Go `Context.Unmarshal`; `store` is `encoding/json` storing the text of a value into the
destination `value` (`none` is an error, such as a type mismatch). -/
def Context.Unmarshal {β : Type} (c : Context) (path : List Nat) (store : List Nat → Option β) :
    Res β :=
  match c.lookup path with
  | none => .err
  | some v =>
    if c.data.length < v then .panic
    else
      match decodeRaw (c.data.drop v) with
      | none => .err
      | some msg =>
        match store msg with
        | none => .err
        | some x => .ok x

/-- Go `unicode.IsSpace(rune(r))` for a byte `r` (the Latin-1 range). -/
def unicodeIsSpace (r : Nat) : Bool :=
  r = 9 || r = 10 || r = 11 || r = 12 || r = 13 || r = 32 || r = 133 || r = 160

/-- The loop `for _, r := range c.data[pos:] { if unicode.IsSpace(rune(r)) { pos++ }; break }`:
only the first byte is looked at. -/
def skipOneSpace (data : List Nat) (pos : Nat) : Nat :=
  match data.drop pos with
  | [] => pos
  | r :: _ => if unicodeIsSpace r then pos + 1 else pos

/-- Go `fmt.Sprintf("%s/%d", path, i)`. -/
def elemPath (path : List Nat) (i : Nat) : List Nat :=
  path ++ 47 :: (Nat.toDigits 10 i).map Char.toNat

/-- Go `path+"/"+tok`. -/
def keyPath (path : List Nat) (key : List Nat) : List Nat := path ++ 47 :: key

mutual
/-- Go `parse`. -/
def parse (L : Lib) : Nat → Context → Decoder → List Nat → Res (Context × Decoder)
  | 0, _, _, _ => .fuel
  | fuel + 1, c, dec, path =>
    let pos := dec.InputOffset + 1
    if c.data.length < pos then .panic
    else
      let pos := skipOneSpace c.data pos
      match dec.Token L with
      | none => .err
      | some (tok, dec) =>
        match tok with
        | .delim d =>
          if d = 123 then parseObject L fuel (c.Register path pos) dec path
          else if d = 91 then parseArray L fuel (c.Register path pos) dec path 0
          else .err
        | _ => .ok (c.Register path pos, dec)
/-- Go `parseObject`. -/
def parseObject (L : Lib) : Nat → Context → Decoder → List Nat → Res (Context × Decoder)
  | 0, _, _, _ => .fuel
  | fuel + 1, c, dec, path =>
    match dec.Token L with
    | none => .err
    | some (tok, dec) =>
      match tok with
      | .delim d => if d = 125 then .ok (c, dec) else .err
      | .str key =>
        match parse L fuel c dec (keyPath path key) with
        | .ok (c, dec) => parseObject L fuel c dec path
        | .err => .err
        | .panic => .panic
        | .fuel => .fuel
      | .other => .err
/-- Go `parseArray`; `i` is the loop counter. -/
def parseArray (L : Lib) : Nat → Context → Decoder → List Nat → Nat → Res (Context × Decoder)
  | 0, _, _, _, _ => .fuel
  | fuel + 1, c, dec, path, i =>
    let pos := dec.InputOffset
    if 0 < i ∧ c.data.length < pos + 1 then .panic
    else
      let pos := if 0 < i then skipOneSpace c.data (pos + 1) else pos
      match dec.Token L with
      | none => .err
      | some (tok, dec) =>
        match tok with
        | .delim d =>
          if d = 93 then .ok (c, dec)
          else if d = 91 then
            match parseArray L fuel (c.Register (elemPath path i) pos) dec (elemPath path i) 0 with
            | .ok (c, dec) => parseArray L fuel c dec path (i + 1)
            | .err => .err
            | .panic => .panic
            | .fuel => .fuel
          else if d = 123 then
            match parseObject L fuel (c.Register (elemPath path i) pos) dec (elemPath path i) with
            | .ok (c, dec) => parseArray L fuel c dec path (i + 1)
            | .err => .err
            | .panic => .panic
            | .fuel => .fuel
          else .err
        | _ =>
          parseArray L fuel (c.Register (elemPath path i) pos) dec path (i + 1)
end

/-- Go `Parse`.  The walk consumes at least one byte per call, so `len(data) + 1` units of fuel
are never used up. -/
def Parse (L : Lib) (data : List Nat) : Res Context :=
  match parse L (data.length + 1) { data := data, paths := [] } (NewDecoder data) [] with
  | .ok (c, _) => .ok c
  | .err => .err
  | .panic => .panic
  | .fuel => .fuel

/-! ## Well-formed documents

The grammar of RFC 8259 at the level of bytes, as syntax trees that keep the white space of the
text, so that every well-formed document is the text of a tree. -/

/-- One character of a string literal: an unescaped byte, a two-character escape, or a
`\uXXXX` escape. -/
inductive SChar
  | plain (c : Nat)
  | esc (c : Nat)
  | uni (a b c d : Nat)
  deriving DecidableEq, Repr

/-- The text of a character of a string literal. -/
def SChar.text : SChar → List Nat
  | .plain c => [c]
  | .esc c => [92, c]
  | .uni a b c d => [92, 117, a, b, c, d]

/-- The grammar of a character of a string literal. -/
def SChar.ok : SChar → Bool
  | .plain c => decide (32 ≤ c) && decide (c ≠ 34) && decide (c ≠ 92)
  | .esc c => c = 34 || c = 92 || c = 47 || c = 98 || c = 102 || c = 110 || c = 114 || c = 116
  | .uni a b c d => isHex a && isHex b && isHex c && isHex d

/-- The text of a string literal with the given characters. -/
def strText (cs : List SChar) : List Nat := 34 :: (cs.flatMap SChar.text ++ [34])

/-- A number literal: sign, integer digits, fraction digits, exponent (the letter, the sign
character if any, the digits). -/
structure JNum where
  neg : Bool
  int : List Nat
  frac : Option (List Nat)
  exp : Option (Nat × Option Nat × List Nat)
  deriving DecidableEq, Repr

/-- The text of the fraction part. -/
def fracText : Option (List Nat) → List Nat
  | none => []
  | some ds => 46 :: ds

/-- The text of the exponent part. -/
def expText : Option (Nat × Option Nat × List Nat) → List Nat
  | none => []
  | some (e, none, ds) => e :: ds
  | some (e, some sg, ds) => e :: sg :: ds

/-- The text of a number literal. -/
def JNum.text (n : JNum) : List Nat :=
  (if n.neg then [45] else []) ++ (n.int ++ (fracText n.frac ++ expText n.exp))

/-- A non-empty run of decimal digits. -/
def digitsOk (ds : List Nat) : Bool := !ds.isEmpty && ds.all isDigit

/-- The grammar of a number literal. -/
def JNum.ok (n : JNum) : Bool :=
  (match n.int with
    | [] => false
    | d :: ds => if d = 48 then ds.isEmpty else decide (49 ≤ d) && decide (d ≤ 57) && ds.all isDigit)
  && (match n.frac with
    | none => true
    | some ds => digitsOk ds)
  && (match n.exp with
    | none => true
    | some (e, sg, ds) =>
      (e = 101 || e = 69) && (match sg with
        | none => true
        | some x => x = 43 || x = 45) && digitsOk ds)

mutual
/-- A JSON value with its white space. The elements of an array and the members of an object
carry the white space in front of them; `wclose` is the white space before the closing
bracket. -/
inductive JV
  | str (cs : List SChar)
  | num (n : JNum)
  | tru
  | fls
  | nul
  | arr (es : JElems) (wclose : List Nat)
  | obj (ms : JMembers) (wclose : List Nat)
/-- The elements of an array: `wc` is the white space before the comma (for the first element,
which has no comma, before `wv`), `wv` the white space before the value. -/
inductive JElems
  | nil
  | cons (wc wv : List Nat) (v : JV) (tl : JElems)
/-- The members of an object: `wc` is the white space before the comma, `wk` before the key,
`wcolon` before the colon, `wv` before the value. -/
inductive JMembers
  | nil
  | cons (wc wk : List Nat) (key : List SChar) (wcolon wv : List Nat) (v : JV) (tl : JMembers)
end

/-- The comma in front of every element or member but the first. -/
def sepText (first : Bool) : List Nat := if first then [] else [44]

mutual
/-- The text of a value. -/
def JV.text : JV → List Nat
  | .str cs => strText cs
  | .num n => n.text
  | .tru => [116, 114, 117, 101]
  | .fls => [102, 97, 108, 115, 101]
  | .nul => [110, 117, 108, 108]
  | .arr es wclose => 91 :: (es.text true ++ (wclose ++ [93]))
  | .obj ms wclose => 123 :: (ms.text true ++ (wclose ++ [125]))
/-- The text of the elements of an array. -/
def JElems.text : JElems → Bool → List Nat
  | .nil, _ => []
  | .cons wc wv v tl, first => wc ++ (sepText first ++ (wv ++ (v.text ++ tl.text false)))
/-- The text of the members of an object. -/
def JMembers.text : JMembers → Bool → List Nat
  | .nil, _ => []
  | .cons wc wk key wcolon wv v tl, first =>
    wc ++ (sepText first ++ (wk ++ (strText key ++ (wcolon ++ (58 :: (wv ++ (v.text ++ tl.text false)))))))
end

/-- A run of JSON white space. -/
def wsOk (w : List Nat) : Bool := w.all isSpace

mutual
/-- The grammar: scalars follow their grammar and every white-space field holds white space. -/
def JV.ok : JV → Bool
  | .str cs => cs.all SChar.ok
  | .num n => n.ok
  | .tru => true
  | .fls => true
  | .nul => true
  | .arr es wclose => es.ok && wsOk wclose
  | .obj ms wclose => ms.ok && wsOk wclose
/-- The grammar of array elements. -/
def JElems.ok : JElems → Bool
  | .nil => true
  | .cons wc wv v tl => wsOk wc && wsOk wv && v.ok && tl.ok
/-- The grammar of object members. -/
def JMembers.ok : JMembers → Bool
  | .nil => true
  | .cons wc wk key wcolon wv v tl =>
    wsOk wc && wsOk wk && key.all SChar.ok && wsOk wcolon && wsOk wv && v.ok && tl.ok
end

/-- A document: a value with white space around it. -/
structure Doc where
  pre : List Nat
  root : JV
  post : List Nat

/-- The text of a document. -/
def Doc.text (d : Doc) : List Nat := d.pre ++ (d.root.text ++ d.post)

/-- The grammar of a document. -/
def Doc.ok (d : Doc) : Bool := wsOk d.pre && d.root.ok && wsOk d.post

/-- The buffer is a single well-formed JSON value, optionally surrounded by white space. -/
def WellFormed (data : List Nat) : Prop := ∃ d : Doc, d.ok = true ∧ d.text = data

mutual
/-- Every number literal of the value is one that `floatOk` accepts. -/
def JV.floatsOk (L : Lib) : JV → Bool
  | .num n => L.floatOk n.text
  | .arr es _ => es.floatsOk L
  | .obj ms _ => ms.floatsOk L
  | _ => true
/-- Every number literal among the elements is one that `floatOk` accepts. -/
def JElems.floatsOk (L : Lib) : JElems → Bool
  | .nil => true
  | .cons _ _ v tl => v.floatsOk L && tl.floatsOk L
/-- Every number literal among the members is one that `floatOk` accepts. -/
def JMembers.floatsOk (L : Lib) : JMembers → Bool
  | .nil => true
  | .cons _ _ _ _ _ v tl => v.floatsOk L && tl.floatsOk L
end

mutual
/-- No white space stands immediately before a `,` or `:` delimiter. -/
def JV.tight : JV → Bool
  | .arr es _ => es.tight true
  | .obj ms _ => ms.tight true
  | _ => true
/-- No white space before the commas between elements. -/
def JElems.tight : JElems → Bool → Bool
  | .nil, _ => true
  | .cons wc _ v tl, first => (first || wc.isEmpty) && v.tight && tl.tight false
/-- No white space before the commas between members and before the colons. -/
def JMembers.tight : JMembers → Bool → Bool
  | .nil, _ => true
  | .cons wc _ _ wcolon _ v tl, first =>
    (first || wc.isEmpty) && wcolon.isEmpty && v.tight && tl.tight false
end

mutual
/-- Nesting depth of containers. -/
def JV.depth : JV → Nat
  | .arr es _ => es.depth + 1
  | .obj ms _ => ms.depth + 1
  | _ => 0
/-- Greatest depth among the elements. -/
def JElems.depth : JElems → Nat
  | .nil => 0
  | .cons _ _ v tl => max v.depth tl.depth
/-- Greatest depth among the members. -/
def JMembers.depth : JMembers → Nat
  | .nil => 0
  | .cons _ _ _ _ _ v tl => max v.depth tl.depth
end

mutual
/-- The values of a document in document order, each with its composed path (object keys as
decoded, array indices in decimal) and the offset of the first byte of its text; `p` and `s` are
the path and the offset of the value itself. -/
def JV.values (L : Lib) : JV → List Nat → Nat → List (List Nat × Nat × JV)
  | .arr es wclose, p, s => (p, s, .arr es wclose) :: es.values L p 0 (s + 1)
  | .obj ms wclose, p, s => (p, s, .obj ms wclose) :: ms.values L p true (s + 1)
  | .str cs, p, s => [(p, s, .str cs)]
  | .num n, p, s => [(p, s, .num n)]
  | .tru, p, s => [(p, s, .tru)]
  | .fls, p, s => [(p, s, .fls)]
  | .nul, p, s => [(p, s, .nul)]
/-- The values below the elements of an array at path `p`; `i` is the index of the first of
these elements and `off` the offset where their text starts. -/
def JElems.values (L : Lib) : JElems → List Nat → Nat → Nat → List (List Nat × Nat × JV)
  | .nil, _, _, _ => []
  | .cons wc wv v tl, p, i, off =>
    v.values L (elemPath p i) (off + (wc ++ (sepText (decide (i = 0)) ++ wv)).length)
      ++ tl.values L p (i + 1)
          (off + (wc ++ (sepText (decide (i = 0)) ++ wv)).length + v.text.length)
/-- The values below the members of an object at path `p`; `off` is the offset where their
text starts. -/
def JMembers.values (L : Lib) : JMembers → List Nat → Bool → Nat → List (List Nat × Nat × JV)
  | .nil, _, _, _ => []
  | .cons wc wk key wcolon wv v tl, p, first, off =>
    v.values L (keyPath p (L.unquote (strText key)))
        (off + (wc ++ (sepText first ++ (wk ++ (strText key ++ (wcolon ++ 58 :: wv))))).length)
      ++ tl.values L p false
          (off + (wc ++ (sepText first ++ (wk ++ (strText key ++ (wcolon ++ 58 :: wv))))).length
            + v.text.length)
end

/-- The values of a document with their paths and offsets; the root has the path `""`. -/
def Doc.values (L : Lib) (d : Doc) : List (List Nat × Nat × JV) :=
  d.root.values L [] d.pre.length

/-! ## Concrete buffers -/

/-- The buffer `{"a":1}`. -/
def docA : List Nat := [123, 34, 97, 34, 58, 49, 125]

/-- The buffer `{"a" : 1}`: white space on both sides of the colon. -/
def docSpacedColon : List Nat := [123, 34, 97, 34, 32, 58, 32, 49, 125]

/-- The buffer `{"a":  1}`: two spaces after the colon. -/
def docTwoSpaces : List Nat := [123, 34, 97, 34, 58, 32, 32, 49, 125]

/-- The buffer `1`. -/
def docOne : List Nat := [49]

/-- The buffer `{"a"`: a document cut off after an object key. -/
def docCutKey : List Nat := [123, 34, 97, 34]

/-- The buffer `[1`: a document cut off after an array element. -/
def docCutElem : List Nat := [91, 49]

/-- The buffer `{}x`: a well-formed value followed by a further byte. -/
def docTrailing : List Nat := [123, 125, 120]

/-- The path `/a`. -/
def pathA : List Nat := [47, 97]


/-- The buffer `[1,}`. -/
def docBadClose : List Nat := [91, 49, 44, 125]

/-! ## Calls of the walk -/

/-- A call of one of the three functions of the walk, with its arguments. -/
inductive Call
  | parse (c : Context) (dec : Decoder) (path : List Nat)
  | object (c : Context) (dec : Decoder) (path : List Nat)
  | array (c : Context) (dec : Decoder) (path : List Nat) (i : Nat)

/-- Running a call with the given fuel. -/
def runCall (L : Lib) (fuel : Nat) : Call → Res (Context × Decoder)
  | .parse c dec path => parse L fuel c dec path
  | .object c dec path => parseObject L fuel c dec path
  | .array c dec path i => parseArray L fuel c dec path i

/-- The offset that `parseArray` registers for the element with index `i`. -/
def elemOffset (c : Context) (dec : Decoder) (i : Nat) : Nat :=
  if 0 < i then skipOneSpace c.data (dec.InputOffset + 1) else dec.InputOffset

/-- Some call of `Token` returns an error while the given call runs: in the call itself, in a
call nested in it, or in a later round of its loop. -/
inductive TokenFails (L : Lib) : Nat → Call → Prop
  | parse_token {fuel c dec path} :
      ¬ c.data.length < dec.InputOffset + 1 → dec.Token L = none →
      TokenFails L (fuel + 1) (.parse c dec path)
  | parse_object {fuel c dec path dec1} :
      ¬ c.data.length < dec.InputOffset + 1 → dec.Token L = some (.delim 123, dec1) →
      TokenFails L fuel
        (.object (c.Register path (skipOneSpace c.data (dec.InputOffset + 1))) dec1 path) →
      TokenFails L (fuel + 1) (.parse c dec path)
  | parse_array {fuel c dec path dec1} :
      ¬ c.data.length < dec.InputOffset + 1 → dec.Token L = some (.delim 91, dec1) →
      TokenFails L fuel
        (.array (c.Register path (skipOneSpace c.data (dec.InputOffset + 1))) dec1 path 0) →
      TokenFails L (fuel + 1) (.parse c dec path)
  | object_token {fuel c dec path} :
      dec.Token L = none → TokenFails L (fuel + 1) (.object c dec path)
  | object_value {fuel c dec path key dec1} :
      dec.Token L = some (.str key, dec1) →
      TokenFails L fuel (.parse c dec1 (keyPath path key)) →
      TokenFails L (fuel + 1) (.object c dec path)
  | object_next {fuel c dec path key dec1 c2 dec2} :
      dec.Token L = some (.str key, dec1) →
      parse L fuel c dec1 (keyPath path key) = .ok (c2, dec2) →
      TokenFails L fuel (.object c2 dec2 path) →
      TokenFails L (fuel + 1) (.object c dec path)
  | array_token {fuel c dec path i} :
      ¬ (0 < i ∧ c.data.length < dec.InputOffset + 1) → dec.Token L = none →
      TokenFails L (fuel + 1) (.array c dec path i)
  | array_in_array {fuel c dec path i dec1} :
      ¬ (0 < i ∧ c.data.length < dec.InputOffset + 1) →
      dec.Token L = some (.delim 91, dec1) →
      TokenFails L fuel
        (.array (c.Register (elemPath path i) (elemOffset c dec i)) dec1 (elemPath path i) 0) →
      TokenFails L (fuel + 1) (.array c dec path i)
  | array_in_object {fuel c dec path i dec1} :
      ¬ (0 < i ∧ c.data.length < dec.InputOffset + 1) →
      dec.Token L = some (.delim 123, dec1) →
      TokenFails L fuel
        (.object (c.Register (elemPath path i) (elemOffset c dec i)) dec1 (elemPath path i)) →
      TokenFails L (fuel + 1) (.array c dec path i)
  | array_after_array {fuel c dec path i dec1 c2 dec2} :
      ¬ (0 < i ∧ c.data.length < dec.InputOffset + 1) →
      dec.Token L = some (.delim 91, dec1) →
      parseArray L fuel (c.Register (elemPath path i) (elemOffset c dec i)) dec1
        (elemPath path i) 0 = .ok (c2, dec2) →
      TokenFails L fuel (.array c2 dec2 path (i + 1)) →
      TokenFails L (fuel + 1) (.array c dec path i)
  | array_after_object {fuel c dec path i dec1 c2 dec2} :
      ¬ (0 < i ∧ c.data.length < dec.InputOffset + 1) →
      dec.Token L = some (.delim 123, dec1) →
      parseObject L fuel (c.Register (elemPath path i) (elemOffset c dec i)) dec1
        (elemPath path i) = .ok (c2, dec2) →
      TokenFails L fuel (.array c2 dec2 path (i + 1)) →
      TokenFails L (fuel + 1) (.array c dec path i)
  | array_after_scalar {fuel c dec path i tok dec1} :
      ¬ (0 < i ∧ c.data.length < dec.InputOffset + 1) →
      dec.Token L = some (tok, dec1) → (∀ d, tok ≠ .delim d) →
      TokenFails L fuel
        (.array (c.Register (elemPath path i) (elemOffset c dec i)) dec1 path (i + 1)) →
      TokenFails L (fuel + 1) (.array c dec path i)

/-- The invariant of the walk: the decoder has consumed `off` bytes of the buffer and every
registered offset lies within the buffer. -/
def WalkInv (c : Context) (dec : Decoder) : Prop :=
  dec.off + dec.rest.length = c.data.length ∧ ∀ e ∈ c.paths, e.2 ≤ c.data.length


/-- A byte that can start the text of a value. -/
def valueStart (c : Nat) : Bool :=
  c = 34 || c = 45 || isDigit c || c = 116 || c = 102 || c = 110 || c = 91 || c = 123

/-- What may follow the text of a value in a well-formed document: nothing, white space, a
comma or a closing bracket. -/
def Follow (x : List Nat) : Prop :=
  ∀ c t, x = c :: t → (isSpace c = true ∨ c = 44 ∨ c = 93 ∨ c = 125)

/-- A scanner state that stays put on white space. -/
def SkipsSpace (s : Scanner) : Prop :=
  ∀ c, isSpace c = true → s.next c = (s, .scanSkipSpace)

/-- The next byte does not continue a number literal. -/
def NumEnd (x : List Nat) : Prop :=
  ∀ c t, x = c :: t → isDigit c = false ∧ c ≠ 46 ∧ c ≠ 101 ∧ c ≠ 69

/-- The scanner states in which a number literal may end. -/
def numFinal (st : Step) : Bool :=
  match st with
  | .s0 | .s1 | .dot0 | .sE0 => true
  | _ => false

/-- Sequencing of two calls: the second runs on the result of the first, and an error, a panic
or exhausted fuel of the first is the outcome. -/
def Res.bind {α β : Type} (r : Res α) (f : α → Res β) : Res β :=
  match r with
  | .ok a => f a
  | .err => .err
  | .panic => .panic
  | .fuel => .fuel

/-- The scalar values. -/
def JV.isScalar : JV → Bool
  | .arr _ _ => false
  | .obj _ _ => false
  | _ => true

/-- The token that `Token` returns for a scalar value. -/
def scalarTok (L : Lib) : JV → Token
  | .str cs => .str (L.unquote (strText cs))
  | _ => .other

/-- What the walk records for a value: its composed path, the offset that is registered for it,
the offset where its text starts, and the value. -/
structure Entry where
  path : List Nat
  pos : Nat
  start : Nat
  value : JV

mutual
/-- The entries for the values inside a value whose text starts at offset `s`. -/
def JV.inner (L : Lib) (data : List Nat) : JV → List Nat → Nat → List Entry
  | .arr es _, p, s => es.entries L data p 0 (s + 1)
  | .obj ms _, p, s => ms.entries L data p true (s + 1)
  | _, _, _ => []
/-- The entries for the elements of an array from index `i` on, the decoder being at offset
`off`: the first element is registered at the decoder's offset, a later one at the decoder's
offset plus one, plus one more when a white-space byte stands there. -/
def JElems.entries (L : Lib) (data : List Nat) : JElems → List Nat → Nat → Nat → List Entry
  | .nil, _, _, _ => []
  | .cons wc wv v tl, p, i, off =>
    { path := elemPath p i
      pos := if 0 < i then skipOneSpace data (off + 1) else off
      start := off + (wc ++ (sepText (decide (i = 0)) ++ wv)).length
      value := v }
      :: (v.inner L data (elemPath p i) (off + (wc ++ (sepText (decide (i = 0)) ++ wv)).length)
        ++ tl.entries L data p (i + 1)
            (off + (wc ++ (sepText (decide (i = 0)) ++ wv)).length + v.text.length))
/-- The entries for the members of an object, the decoder being at offset `off`: a member's
value is registered at the offset after its key plus one, plus one more when a white-space byte
stands there. -/
def JMembers.entries (L : Lib) (data : List Nat) : JMembers → List Nat → Bool → Nat → List Entry
  | .nil, _, _, _ => []
  | .cons wc wk key wcolon wv v tl, p, first, off =>
    { path := keyPath p (L.unquote (strText key))
      pos := skipOneSpace data (off + (wc ++ (sepText first ++ (wk ++ strText key))).length + 1)
      start := off + (wc ++ (sepText first ++ (wk ++ (strText key ++ (wcolon ++ 58 :: wv))))).length
      value := v }
      :: (v.inner L data (keyPath p (L.unquote (strText key)))
            (off + (wc ++ (sepText first ++ (wk ++ (strText key ++ (wcolon ++ 58 :: wv))))).length)
        ++ tl.entries L data p false
            (off + (wc ++ (sepText first ++ (wk ++ (strText key ++ (wcolon ++ 58 :: wv))))).length
              + v.text.length))
end

/-- Registering the entries in order. -/
def registerAll (c : Context) (es : List Entry) : Context :=
  es.foldl (fun c e => c.Register e.path e.pos) c

/-- The statement of the walk for a value: `parse`, called with the decoder in front of the
value, registers the value at the decoder's offset plus one (plus one more at a white-space
byte), then the entries inside the value, and leaves the decoder behind the value. -/
def ValueWalk (L : Lib) (v : JV) : Prop :=
  ∀ (fuel : Nat) (c : Context) (pre x : List Nat) (off : Nat) (st0 st : TokState)
    (stk : List TokState) (path : List Nat),
    v.ok = true → v.floatsOk L = true → Follow x →
    (∀ y, tokenLoop L (pre ++ y) off st0 stk = tokenLoop L y (off + pre.length) st stk) →
    tokenValueAllowed st = true →
    stk.length + v.depth ≤ maxNestingDepth →
    off + (pre ++ (v.text ++ x)).length = c.data.length →
    (pre ++ v.text).length < fuel →
    parse L fuel c ⟨pre ++ (v.text ++ x), off, st0, stk⟩ path
      = .ok (registerAll (c.Register path (skipOneSpace c.data (off + 1)))
              (v.inner L c.data path (off + pre.length)),
            ⟨x, off + pre.length + v.text.length, tokenValueEnd st, stk⟩)

/-- The statement of the walk for the elements of an array from index `i` on. -/
def ElemsWalk (L : Lib) (es : JElems) : Prop :=
  ∀ (fuel : Nat) (c : Context) (w x : List Nat) (off i : Nat) (top : TokState)
    (stk : List TokState) (path : List Nat),
    es.ok = true → es.floatsOk L = true → wsOk w = true →
    stk.length + 1 + es.depth ≤ maxNestingDepth →
    off + (es.text (decide (i = 0)) ++ (w ++ 93 :: x)).length = c.data.length →
    (es.text (decide (i = 0)) ++ w).length + 1 < fuel →
    parseArray L fuel c
        ⟨es.text (decide (i = 0)) ++ (w ++ 93 :: x), off,
          if i = 0 then .arrayStart else .arrayComma, top :: stk⟩ path i
      = .ok (registerAll c (es.entries L c.data path i off),
            ⟨x, off + (es.text (decide (i = 0)) ++ w).length + 1, tokenValueEnd top, stk⟩)

/-- The statement of the walk for the members of an object. -/
def MembersWalk (L : Lib) (ms : JMembers) : Prop :=
  ∀ (fuel : Nat) (c : Context) (w x : List Nat) (off : Nat) (first : Bool) (top : TokState)
    (stk : List TokState) (path : List Nat),
    ms.ok = true → ms.floatsOk L = true → wsOk w = true →
    stk.length + 1 + ms.depth ≤ maxNestingDepth →
    off + (ms.text first ++ (w ++ 125 :: x)).length = c.data.length →
    (ms.text first ++ w).length + 1 < fuel →
    parseObject L fuel c
        ⟨ms.text first ++ (w ++ 125 :: x), off,
          if first then .objectStart else .objectComma, top :: stk⟩ path
      = .ok (registerAll c (ms.entries L c.data path first off),
            ⟨x, off + (ms.text first ++ w).length + 1, tokenValueEnd top, stk⟩)

/-- What `Parse` records for a document: the root under the path `""`, registered at offset 1
(2 when a white-space byte stands at offset 1), then the values inside it. -/
def Doc.entries (L : Lib) (d : Doc) : List Entry :=
  { path := [], pos := skipOneSpace d.text 1, start := d.pre.length, value := d.root }
    :: d.root.inner L d.text [] d.pre.length

/-- The path, the start offset and the value of an entry. -/
def Entry.toValue (e : Entry) : List Nat × Nat × JV := (e.path, e.start, e.value)

/-- The registered offset of the entry points at white space followed by the text of the value,
and what follows the value is the end of the input, white space, a comma or a closing
bracket. -/
def Entry.Good (data : List Nat) (e : Entry) : Prop :=
  e.value.ok = true ∧ ∃ ws rest, wsOk ws = true ∧ Follow rest ∧
    data.drop e.pos = ws ++ (e.value.text ++ rest) ∧ e.pos + ws.length = e.start

/-- The entries inside a value are good. -/
def GoodInner (L : Lib) (v : JV) : Prop :=
  ∀ (data p : List Nat) (s : Nat) (x : List Nat), data.drop s = v.text ++ x →
    v.ok = true → v.tight = true → ∀ e ∈ v.inner L data p s, e.Good data

/-- The entries of the elements of an array are good. -/
def GoodElems (L : Lib) (es : JElems) : Prop :=
  ∀ (data p : List Nat) (i off : Nat) (w x : List Nat),
    data.drop off = es.text (decide (i = 0)) ++ (w ++ 93 :: x) →
    es.ok = true → es.tight (decide (i = 0)) = true → wsOk w = true →
    ∀ e ∈ es.entries L data p i off, e.Good data

/-- The entries of the members of an object are good. -/
def GoodMembers (L : Lib) (ms : JMembers) : Prop :=
  ∀ (data p : List Nat) (first : Bool) (off : Nat) (w x : List Nat),
    data.drop off = ms.text first ++ (w ++ 125 :: x) →
    ms.ok = true → ms.tight first = true → wsOk w = true →
    ∀ e ∈ ms.entries L data p first off, e.Good data

/-- Number of elements of an array. -/
def JElems.length : JElems → Nat
  | .nil => 0
  | .cons _ _ _ tl => tl.length + 1

/-- The member of an object with the given decoded key; of several members with the same key
the last one counts. -/
def JMembers.find (L : Lib) : JMembers → List Nat → Option JV
  | .nil, _ => none
  | .cons _ _ key _ _ v tl, k =>
    match tl.find L k with
    | some u => some u
    | none => if L.unquote (strText key) = k then some v else none

/-- The element of an array whose index, counted from `i`, has the decimal text `seg`. -/
def JElems.child : JElems → List Nat → Nat → Option JV
  | .nil, _, _ => none
  | .cons _ _ v tl, seg, i =>
    if (Nat.toDigits 10 i).map Char.toNat = seg then some v else tl.child seg (i + 1)

/-- One step of tree navigation: the member of an object under a key, the element of an array
under a decimal index; nothing below a scalar. -/
def JV.child (L : Lib) (v : JV) (seg : List Nat) : Option JV :=
  match v with
  | .arr es _ => es.child seg 0
  | .obj ms _ => ms.find L seg
  | _ => none

/-- Tree navigation from a value along the segments. -/
def JV.navigate (L : Lib) : JV → List (List Nat) → Option JV
  | v, [] => some v
  | v, seg :: segs =>
    match v.child L seg with
    | none => none
    | some u => u.navigate L segs

/-- The path string `"/"+s1+...+"/"+sn` of the segments. -/
def pointer (segs : List (List Nat)) : List Nat := segs.flatMap (fun s => 47 :: s)

/-- The number literal `1`. -/
def numOne : JNum := { neg := false, int := [49], frac := none, exp := none }

/-- The number literal `1e999`, beyond the `float64` range. -/
def numHuge : JNum := { neg := false, int := [49], frac := none, exp := some (101, none, [57, 57, 57]) }

/-- The document `[1e999]`. -/
def hugeElemDoc : Doc :=
  { pre := [], root := .arr (.cons [] [] (.num numHuge) .nil) [], post := [] }

/-- The document `{"a":1e999}`. -/
def hugeMemberDoc : Doc :=
  { pre := [], root := .obj (.cons [] [] [.plain 97] [] [] (.num numHuge) .nil) [], post := [] }

/-- The document `{"a":{},"a/b":1}`: the second key contains a slash. -/
def slashKeyDoc : Doc :=
  { pre := []
    root := .obj (.cons [] [] [.plain 97] [] [] (.obj .nil [])
      (.cons [] [] [.plain 97, .plain 47, .plain 98] [] [] (.num numOne) .nil)) []
    post := [] }

/-- The number literal `5`. -/
def numFive : JNum := { neg := false, int := [53], frac := none, exp := none }

/-- The number literal `7`. -/
def numSeven : JNum := { neg := false, int := [55], frac := none, exp := none }

/-- The value `{"h": 7}`. -/
def objH7 : JV := .obj (.cons [] [] [.plain 104] [] [32] (.num numSeven) .nil) []

/-- The value `[5, {"h": 7}]`. -/
def arrF : JV := .arr (.cons [] [] (.num numFive) (.cons [] [32] objH7 .nil)) []

/-- The document `{"a": 1, "f": [5, {"h": 7}]}`. -/
def sampleDoc : Doc :=
  { pre := []
    root := .obj (.cons [] [] [.plain 97] [] [32] (.num numOne)
      (.cons [] [32] [.plain 102] [] [32] arrF .nil)) []
    post := [] }

/-- The path `/f/1`. -/
def pathF1 : List Nat := [47, 102, 47, 49]

/-- The text `{"h": 7}`. -/
def textH7 : List Nat := [123, 34, 104, 34, 58, 32, 55, 125]

/-- The sign character of an exponent as text. -/
def signText : Option Nat → List Nat
  | none => []
  | some g => [g]

/-- The grammar of an exponent part. -/
def expOk (exp : Option (Nat × Option Nat × List Nat)) : Prop :=
  ∀ e sg ds, exp = some (e, sg, ds) →
    (e = 101 ∨ e = 69) ∧ (∀ g, sg = some g → g = 43 ∨ g = 45) ∧ digitsOk ds = true

/-- The grammar of a fraction part. -/
def fracOk (frac : Option (List Nat)) : Prop := ∀ ds, frac = some ds → digitsOk ds = true

/-- The token returned for a value and the decoder after it: a scalar, or the opening bracket
of an array or of an object, pushed on the stack. -/
def ValueTok (L : Lib) (y : List Nat) (st : TokState) (stk : List TokState) (tok : Token)
    (d : Decoder) : Prop :=
  (∃ (v : JV) (x : List Nat), v.isScalar = true ∧ v.ok = true ∧ v.floatsOk L = true ∧
      y = v.text ++ x ∧ tok = scalarTok L v ∧ d.rest = x ∧ d.tokenState = tokenValueEnd st ∧
      d.tokenStack = stk)
  ∨ (∃ x, y = 91 :: x ∧ tok = .delim 91 ∧ d.rest = x ∧ d.tokenState = .arrayStart ∧
      d.tokenStack = st :: stk)
  ∨ (∃ x, y = 123 :: x ∧ tok = .delim 123 ∧ d.rest = x ∧ d.tokenState = .objectStart ∧
      d.tokenStack = st :: stk)

/-- What stands in front of the value when `parse` is called: white space at the root, and
white space, the colon and white space behind an object key. -/
def PrefixOk (st : TokState) (pre : List Nat) : Prop :=
  (st = .topValue ∧ wsOk pre = true)
  ∨ (st = .objectColon ∧ ∃ w1 w2, wsOk w1 = true ∧ wsOk w2 = true ∧ pre = w1 ++ 58 :: w2)

/-- The state in which the value is read after the prefix. -/
def valueState (st : TokState) : TokState := if st = .topValue then .topValue else .objectValue

/-- The buffer begins, after optional white space, with a well-formed JSON value (whose
numbers the decoder accepts). -/
def BeginsWithValue (L : Lib) (data : List Nat) : Prop :=
  ∃ (pre : List Nat) (v : JV) (rest : List Nat), wsOk pre = true ∧ v.ok = true ∧
    v.floatsOk L = true ∧ data = pre ++ (v.text ++ rest)

/-- The bytes `}{`: no JSON value begins with a closing brace. -/
def docStray : List Nat := [125, 123]

/-- The document `1`. -/
def oneDoc : Doc := { pre := [], root := .num numOne, post := [] }

/-- Spec's words: `Unmarshal(path, &v)` is `Get(path)` followed by decoding the returned bytes
into the destination with the standard decoder (`store`). -/
def unmarshalViaGet {β : Type} (c : Context) (path : List Nat) (store : List Nat → Option β) :
    Res β :=
  match c.Get path with
  | .ok msg =>
    match store msg with
    | none => .err
    | some x => .ok x
  | .err => .err
  | .panic => .panic
  | .fuel => .fuel

/-- Go values of type `any` as decoding into an empty interface makes them; a number is kept as
the text of its literal, of which the `float64` is a function. -/
inductive Any
  | null
  | bool (b : Bool)
  | number (lit : List Nat)
  | string (s : List Nat)
  | array (xs : List Any)
  | object (m : List (List Nat × Any))

/-- Go `rescanLiteral` inside a string literal, behind the opening quote: the number of bytes up
to and including the closing quote; a backslash takes the next byte with it. -/
def rescanString : List Nat → Nat
  | [] => 0
  | 34 :: _ => 1
  | 92 :: _ :: t => rescanString t + 2
  | _ :: t => rescanString t + 1

/-- Go `rescanLiteral`: the length of the literal at the head of the input. -/
def rescanLiteral (input : List Nat) : Nat :=
  match input with
  | [] => 0
  | c :: t =>
    if c = 34 then rescanString t + 1
    else if c = 116 then 4
    else if c = 102 then 5
    else if c = 110 then 4
    else (t.takeWhile (fun b => isDigit b || b = 46 || b = 101 || b = 69 || b = 43 || b = 45)).length + 1

/-- Go `literalInterface` on the text of a literal; `none` when `convertNumber` reports a number
outside the `float64` range. -/
def literalInterface (L : Lib) (item : List Nat) : Option Any :=
  match item with
  | [] => none
  | c :: _ =>
    if c = 110 then some .null
    else if c = 116 ∨ c = 102 then some (.bool (decide (c = 116)))
    else if c = 34 then some (.string (L.unquote item))
    else if L.floatOk item then some (.number item)
    else none

/-- Go `m[key] = v` on a map kept as a list. -/
def mapSet (m : List (List Nat × Any)) (key : List Nat) (v : Any) : List (List Nat × Any) :=
  (key, v) :: m.filter (fun e => decide (e.1 ≠ key))

mutual
/-- Go `valueInterface` on scanned text that starts at the first byte of a value: the value and
the text behind it; `none` when an error was saved (or on text the scanner would not pass). -/
def valueInterface (L : Lib) : Nat → List Nat → Option (Any × List Nat)
  | 0, _ => none
  | _, [] => none
  | fuel + 1, c :: t =>
    if c = 91 then arrayInterface L fuel (t.dropWhile isSpace) []
    else if c = 123 then objectInterface L fuel (t.dropWhile isSpace) []
    else
      match literalInterface L ((c :: t).take (rescanLiteral (c :: t))) with
      | none => none
      | some v => some (v, (c :: t).drop (rescanLiteral (c :: t)))
/-- Go `arrayInterface`, white space behind the opening bracket or the comma skipped; `acc`
holds the elements read so far, last first. -/
def arrayInterface (L : Lib) : Nat → List Nat → List Any → Option (Any × List Nat)
  | 0, _, _ => none
  | _, [], _ => none
  | fuel + 1, c :: t, acc =>
    if c = 93 then some (.array acc.reverse, t)
    else
      match valueInterface L fuel (c :: t) with
      | none => none
      | some (v, rest) =>
        match rest.dropWhile isSpace with
        | 93 :: r => some (.array (v :: acc).reverse, r)
        | 44 :: r => arrayInterface L fuel (r.dropWhile isSpace) (v :: acc)
        | _ => none
/-- Go `objectInterface`, white space behind the opening brace or the comma skipped; `m` holds
the members read so far. -/
def objectInterface (L : Lib) : Nat → List Nat → List (List Nat × Any) → Option (Any × List Nat)
  | 0, _, _ => none
  | _, [], _ => none
  | fuel + 1, c :: t, m =>
    if c = 125 then some (.object m, t)
    else if c = 34 then
      match ((c :: t).drop (rescanLiteral (c :: t))).dropWhile isSpace with
      | 58 :: r =>
        match valueInterface L fuel (r.dropWhile isSpace) with
        | none => none
        | some (v, rest) =>
          match rest.dropWhile isSpace with
          | 125 :: r2 =>
            some (.object (mapSet m (L.unquote ((c :: t).take (rescanLiteral (c :: t)))) v), r2)
          | 44 :: r2 =>
            objectInterface L fuel (r2.dropWhile isSpace)
              (mapSet m (L.unquote ((c :: t).take (rescanLiteral (c :: t)))) v)
          | _ => none
      | _ => none
    else none
end

/-- Go `d.unmarshal(&v)` with `v` of type `any` (the generic destination) on the text of one
scanned value: the decoded value, `none` for an error. -/
def storeAny (L : Lib) (msg : List Nat) : Option Any :=
  (valueInterface L (msg.length + 1) (msg.dropWhile isSpace)).map Prod.fst

/-- The call returned an error. -/
def Res.isErr {α : Type} : Res α → Bool
  | .err => true
  | _ => false

/-- The buffer `1 1e999`: the document `1` followed by a number beyond the `float64` range. -/
def docThenHuge : List Nat := [49, 32, 49, 101, 57, 57, 57]

/-- The decimal text of `i`, as bytes. -/
def decimal (i : Nat) : List Nat := (Nat.toDigits 10 i).map Char.toNat

/-- The keys of the members of an object, as decoded. -/
def JMembers.keys (L : Lib) : JMembers → List (List Nat)
  | .nil => []
  | .cons _ _ key _ _ _ tl => L.unquote (strText key) :: tl.keys L

mutual
/-- In every object of the value the decoded keys are pairwise different and hold no `/`. -/
def JV.keysOk (L : Lib) : JV → Bool
  | .arr es _ => es.keysOk L
  | .obj ms _ => ms.keysOk L
  | _ => true
/-- The condition on keys for the elements of an array. -/
def JElems.keysOk (L : Lib) : JElems → Bool
  | .nil => true
  | .cons _ _ v tl => v.keysOk L && tl.keysOk L
/-- The condition on keys for the members of an object. -/
def JMembers.keysOk (L : Lib) : JMembers → Bool
  | .nil => true
  | .cons _ _ key _ _ v tl =>
    decide (47 ∉ L.unquote (strText key)) && decide (L.unquote (strText key) ∉ tl.keys L)
      && v.keysOk L && tl.keysOk L
end

/-- The path `q` is `p` or `p` followed by further segments. -/
def PathExt (p q : List Nat) : Prop := q = p ∨ ∃ t, q = p ++ 47 :: t

/-- The paths of the values of a value at path `p` are `p` with further segments. -/
def ValuesExt (L : Lib) (v : JV) : Prop :=
  ∀ (p : List Nat) (s : Nat), ∀ e ∈ v.values L p s, PathExt p e.1

/-- The paths of the values below the elements of an array from index `i` on start with the
path of an element of index `i` or more. -/
def ElemsExt (L : Lib) (es : JElems) : Prop :=
  ∀ (p : List Nat) (i off : Nat), ∀ e ∈ es.values L p i off,
    ∃ j, i ≤ j ∧ PathExt (elemPath p j) e.1

/-- The paths of the values below the members of an object start with the path of a member. -/
def MembersExt (L : Lib) (ms : JMembers) : Prop :=
  ∀ (p : List Nat) (first : Bool) (off : Nat), ∀ e ∈ ms.values L p first off,
    ∃ k ∈ ms.keys L, PathExt (keyPath p k) e.1

/-- The paths of the values of a value are pairwise different. -/
def ValuesNodup (L : Lib) (v : JV) : Prop :=
  ∀ (p : List Nat) (s : Nat), v.keysOk L = true → ((v.values L p s).map Prod.fst).Nodup

/-- The paths of the values below the elements of an array are pairwise different. -/
def ElemsNodup (L : Lib) (es : JElems) : Prop :=
  ∀ (p : List Nat) (i off : Nat), es.keysOk L = true →
    ((es.values L p i off).map Prod.fst).Nodup

/-- The paths of the values below the members of an object are pairwise different. -/
def MembersNodup (L : Lib) (ms : JMembers) : Prop :=
  ∀ (p : List Nat) (first : Bool) (off : Nat), ms.keysOk L = true →
    ((ms.values L p first off).map Prod.fst).Nodup

/-- The number literal `2`. -/
def numTwo : JNum := { neg := false, int := [50], frac := none, exp := none }

/-- The document `{"a":1,"a":2}`: the key `a` stands twice. -/
def dupKeyDoc : Doc :=
  { pre := []
    root := .obj (.cons [] [] [.plain 97] [] [] (.num numOne)
      (.cons [] [] [.plain 97] [] [] (.num numTwo) .nil)) []
    post := [] }

/-- The document `{"a":{"b":1},"a/b":2}`: the key `a/b` holds a slash. -/
def slashDupDoc : Doc :=
  { pre := []
    root := .obj (.cons [] [] [.plain 97] [] []
        (.obj (.cons [] [] [.plain 98] [] [] (.num numOne) .nil) [])
      (.cons [] [] [.plain 97, .plain 47, .plain 98] [] [] (.num numTwo) .nil)) []
    post := [] }

/-- The path `/a/b`. -/
def pathAB : List Nat := [47, 97, 47, 98]

mutual
/-- Number of leaf (scalar) values of a value, the value itself counted. -/
def JV.leaves : JV → Nat
  | .arr es _ => es.leaves
  | .obj ms _ => ms.leaves
  | _ => 1
/-- Number of leaf values below the elements. -/
def JElems.leaves : JElems → Nat
  | .nil => 0
  | .cons _ _ v tl => v.leaves + tl.leaves
/-- Number of leaf values below the members. -/
def JMembers.leaves : JMembers → Nat
  | .nil => 0
  | .cons _ _ _ _ _ v tl => v.leaves + tl.leaves
end

mutual
/-- Number of container values (arrays and objects) of a value, the value itself counted. -/
def JV.containers : JV → Nat
  | .arr es _ => es.containers + 1
  | .obj ms _ => ms.containers + 1
  | _ => 0
/-- Number of container values below the elements. -/
def JElems.containers : JElems → Nat
  | .nil => 0
  | .cons _ _ v tl => v.containers + tl.containers
/-- Number of container values below the members. -/
def JMembers.containers : JMembers → Nat
  | .nil => 0
  | .cons _ _ _ _ _ v tl => v.containers + tl.containers
end

/-- Spec's words: the corrected offset for the cursor `cur`: the cursor plus 1, plus 1 more
exactly when the byte at `cur + 1` exists and is white space (for the code: a byte `r` with
`unicode.IsSpace(rune(r))`). -/
def correctedOffset (data : List Nat) (cur : Nat) : Nat :=
  match data[cur + 1]? with
  | some b => if unicodeIsSpace b then cur + 2 else cur + 1
  | none => cur + 1

/-- The buffer `[1, 2]`. -/
def docPair : List Nat := [91, 49, 44, 32, 50, 93]

/-- The decoder over `[1, 2]` after the first element has been read. -/
def decAfterFirst : Decoder :=
  { rest := [44, 32, 50, 93], off := 2, tokenState := .arrayComma, tokenStack := [.topValue] }

/-- The registered offset of the entry points at white space followed by the delimiter, `:` or
`,`, that stands in front of the value. -/
def Entry.AtDelim (data : List Nat) (e : Entry) : Prop :=
  ∃ (ws rest : List Nat) (delim : Nat), wsOk ws = true ∧ (delim = 58 ∨ delim = 44) ∧
    data.drop e.pos = ws ++ delim :: rest ∧ e.pos + ws.length < e.start

mutual
/-- The entries for the values inside a value whose delimiter has white space in front: the
value of an object member with white space between the key and the colon, and an array element
with white space in front of the comma before it. -/
def JV.spaced (L : Lib) (data : List Nat) : JV → List Nat → Nat → List Entry
  | .arr es _, p, s => es.spaced L data p 0 (s + 1)
  | .obj ms _, p, s => ms.spaced L data p true (s + 1)
  | _, _, _ => []
/-- The entries with white space before the comma among and below the elements of an array. -/
def JElems.spaced (L : Lib) (data : List Nat) : JElems → List Nat → Nat → Nat → List Entry
  | .nil, _, _, _ => []
  | .cons wc wv v tl, p, i, off =>
    (if 0 < i ∧ wc ≠ [] then
      [{ path := elemPath p i
         pos := if 0 < i then skipOneSpace data (off + 1) else off
         start := off + (wc ++ (sepText (decide (i = 0)) ++ wv)).length
         value := v }]
    else [])
      ++ (v.spaced L data (elemPath p i) (off + (wc ++ (sepText (decide (i = 0)) ++ wv)).length)
        ++ tl.spaced L data p (i + 1)
            (off + (wc ++ (sepText (decide (i = 0)) ++ wv)).length + v.text.length))
/-- The entries with white space before the colon among and below the members of an object. -/
def JMembers.spaced (L : Lib) (data : List Nat) : JMembers → List Nat → Bool → Nat → List Entry
  | .nil, _, _, _ => []
  | .cons wc wk key wcolon wv v tl, p, first, off =>
    (if wcolon ≠ [] then
      [{ path := keyPath p (L.unquote (strText key))
         pos := skipOneSpace data (off + (wc ++ (sepText first ++ (wk ++ strText key))).length + 1)
         start := off + (wc ++ (sepText first ++ (wk ++ (strText key ++ (wcolon ++ 58 :: wv))))).length
         value := v }]
    else [])
      ++ (v.spaced L data (keyPath p (L.unquote (strText key)))
            (off + (wc ++ (sepText first ++ (wk ++ (strText key ++ (wcolon ++ 58 :: wv))))).length)
        ++ tl.spaced L data p false
            (off + (wc ++ (sepText first ++ (wk ++ (strText key ++ (wcolon ++ 58 :: wv))))).length
              + v.text.length))
end

/-- The entries of a document whose delimiter has white space in front. -/
def Doc.spaced (L : Lib) (d : Doc) : List Entry := d.root.spaced L d.text [] d.pre.length

/-- The spaced entries inside a value point at their delimiter. -/
def SpacedInner (L : Lib) (v : JV) : Prop :=
  ∀ (data p : List Nat) (s : Nat) (x : List Nat), data.drop s = v.text ++ x →
    v.ok = true → ∀ e ∈ v.spaced L data p s, e.AtDelim data

/-- The spaced entries of the elements of an array point at their delimiter. -/
def SpacedElems (L : Lib) (es : JElems) : Prop :=
  ∀ (data p : List Nat) (i off : Nat) (w x : List Nat),
    data.drop off = es.text (decide (i = 0)) ++ (w ++ 93 :: x) →
    es.ok = true → ∀ e ∈ es.spaced L data p i off, e.AtDelim data

/-- The spaced entries of the members of an object point at their delimiter. -/
def SpacedMembers (L : Lib) (ms : JMembers) : Prop :=
  ∀ (data p : List Nat) (first : Bool) (off : Nat) (w x : List Nat),
    data.drop off = ms.text first ++ (w ++ 125 :: x) →
    ms.ok = true → ∀ e ∈ ms.spaced L data p first off, e.AtDelim data

/-- The document `{"a" : 1}`. -/
def spacedColonDoc : Doc :=
  { pre := []
    root := .obj (.cons [] [] [.plain 97] [32] [32] (.num numOne) .nil) []
    post := [] }

/-- The document `{"a" : 1,"a":2}`: white space before the first colon, and the key `a`
twice. -/
def dupSpacedDoc : Doc :=
  { pre := []
    root := .obj (.cons [] [] [.plain 97] [32] [32] (.num numOne)
      (.cons [] [] [.plain 97] [] [] (.num numTwo) .nil)) []
    post := [] }

/-- The document `{"a" : 1e999}`: white space before the colon, and a number beyond the
`float64` range. -/
def hugeSpacedDoc : Doc :=
  { pre := []
    root := .obj (.cons [] [] [.plain 97] [32] [32] (.num numHuge) .nil) []
    post := [] }


/-- The errors that `Get` and `Unmarshal` return: the error the function makes itself with
`fmt.Errorf` when the path is not in the map, or the error of the decoder. -/
inductive LookupErr
  | notFound
  | decode
  deriving DecidableEq, Repr

/-- The error value that Go `Context.Get` returns; `none` is `nil` (and a panic returns
nothing). -/
def Context.GetErr (c : Context) (path : List Nat) : Option LookupErr :=
  match c.lookup path with
  | none => some .notFound
  | some v =>
    if c.data.length < v then none
    else
      match decodeRaw (c.data.drop v) with
      | none => some .decode
      | some _ => none

/-- The error value that Go `Context.Unmarshal` returns; `none` is `nil`. -/
def Context.UnmarshalErr {β : Type} (c : Context) (path : List Nat)
    (store : List Nat → Option β) : Option LookupErr :=
  match c.lookup path with
  | none => some .notFound
  | some v =>
    if c.data.length < v then none
    else
      match decodeRaw (c.data.drop v) with
      | none => some .decode
      | some msg =>
        match store msg with
        | none => some .decode
        | some _ => none

/-- The walk of `parse` over a well-formed value returns an error when `floatOk` rejects one of
its numbers or when its brackets go deeper than `maxNestingDepth`. -/
def ValueFail (L : Lib) (v : JV) : Prop :=
  ∀ (fuel : Nat) (c : Context) (pre x : List Nat) (off : Nat) (st0 st : TokState)
    (stk : List TokState) (path : List Nat),
    v.ok = true → (v.floatsOk L = false ∨ maxNestingDepth < stk.length + v.depth) →
    stk.length ≤ maxNestingDepth → Follow x →
    (∀ y, tokenLoop L (pre ++ y) off st0 stk = tokenLoop L y (off + pre.length) st stk) →
    tokenValueAllowed st = true →
    off + (pre ++ (v.text ++ x)).length = c.data.length →
    (pre ++ v.text).length < fuel →
    parse L fuel c ⟨pre ++ (v.text ++ x), off, st0, stk⟩ path = .err

/-- The walk of `parseArray` over elements returns an error when `floatOk` rejects one of their
numbers or when their brackets go deeper than `maxNestingDepth`. -/
def ElemsFail (L : Lib) (es : JElems) : Prop :=
  ∀ (fuel : Nat) (c : Context) (w x : List Nat) (off i : Nat) (top : TokState)
    (stk : List TokState) (path : List Nat),
    es.ok = true → (es.floatsOk L = false ∨ maxNestingDepth < stk.length + 1 + es.depth) →
    stk.length + 1 ≤ maxNestingDepth → wsOk w = true →
    off + (es.text (decide (i = 0)) ++ (w ++ 93 :: x)).length = c.data.length →
    (es.text (decide (i = 0)) ++ w).length + 1 < fuel →
    parseArray L fuel c
        ⟨es.text (decide (i = 0)) ++ (w ++ 93 :: x), off,
          if i = 0 then .arrayStart else .arrayComma, top :: stk⟩ path i
      = .err

/-- The walk of `parseObject` over members returns an error when `floatOk` rejects one of their
numbers or when their brackets go deeper than `maxNestingDepth`. -/
def MembersFail (L : Lib) (ms : JMembers) : Prop :=
  ∀ (fuel : Nat) (c : Context) (w x : List Nat) (off : Nat) (first : Bool) (top : TokState)
    (stk : List TokState) (path : List Nat),
    ms.ok = true → (ms.floatsOk L = false ∨ maxNestingDepth < stk.length + 1 + ms.depth) →
    stk.length + 1 ≤ maxNestingDepth → wsOk w = true →
    off + (ms.text first ++ (w ++ 125 :: x)).length = c.data.length →
    (ms.text first ++ w).length + 1 < fuel →
    parseObject L fuel c
        ⟨ms.text first ++ (w ++ 125 :: x), off,
          if first then .objectStart else .objectComma, top :: stk⟩ path
      = .err

/-- The document of `n + 1` opening brackets followed by `n + 1` closing brackets: arrays
nested `n + 1` deep. -/
def deepArr : Nat → JV
  | 0 => .arr .nil []
  | n + 1 => .arr (.cons [] [] (deepArr n) .nil) []

/-- The document whose root is `deepArr n`. -/
def deepDoc (n : Nat) : Doc := { pre := [], root := deepArr n, post := [] }

/-- The document `{"a" : v}` with `v = deepArr n`: white space before the colon, and brackets
nested `n + 2` deep. -/
def deepSpacedDoc (n : Nat) : Doc :=
  { pre := []
    root := .obj (.cons [] [] [.plain 97] [32] [32] (deepArr n) .nil) []
    post := [] }

/-- Number of leaf values below a value, the value itself not counted. -/
def JV.leavesBelow : JV → Nat
  | .arr es _ => es.leaves
  | .obj ms _ => ms.leaves
  | _ => 0

/-- Number of container values below a value, the value itself not counted. -/
def JV.containersBelow : JV → Nat
  | .arr es _ => es.containers
  | .obj ms _ => ms.containers
  | _ => 0


/-- A value of `v` whose path is the path of `v` followed by the segments is the value that
tree navigation reaches from `v` along the segments. -/
def NavValue (L : Lib) (v : JV) : Prop :=
  ∀ (p : List Nat) (s : Nat) (segs : List (List Nat)), v.keysOk L = true →
    (∀ sg ∈ segs, 47 ∉ sg) → ∀ e ∈ v.values L p s, e.1 = p ++ pointer segs →
    v.navigate L segs = some e.2.2

/-- A value below the elements of an array whose path is the path of the array followed by
`seg` and further segments lies below the element that `seg` names. -/
def NavElems (L : Lib) (es : JElems) : Prop :=
  ∀ (p : List Nat) (i off : Nat) (seg : List Nat) (segs : List (List Nat)),
    es.keysOk L = true → 47 ∉ seg → (∀ sg ∈ segs, 47 ∉ sg) →
    ∀ e ∈ es.values L p i off, e.1 = p ++ 47 :: (seg ++ pointer segs) →
    ∃ u, es.child seg i = some u ∧ u.navigate L segs = some e.2.2

/-- A value below the members of an object whose path is the path of the object followed by
`seg` and further segments lies below the member that `seg` names. -/
def NavMembers (L : Lib) (ms : JMembers) : Prop :=
  ∀ (p : List Nat) (first : Bool) (off : Nat) (seg : List Nat) (segs : List (List Nat)),
    ms.keysOk L = true → 47 ∉ seg → (∀ sg ∈ segs, 47 ∉ sg) →
    ∀ e ∈ ms.values L p first off, e.1 = p ++ 47 :: (seg ++ pointer segs) →
    ∃ u, ms.find L seg = some u ∧ u.navigate L segs = some e.2.2

/-- The document `{"a":{"b":1},"a":{}}`: the key `a` twice, the second time with an empty
object. -/
def dupObjDoc : Doc :=
  { pre := []
    root := .obj (.cons [] [] [.plain 97] [] []
        (.obj (.cons [] [] [.plain 98] [] [] (.num numOne) .nil) [])
      (.cons [] [] [.plain 97] [] [] (.obj .nil []) .nil)) []
    post := [] }

/-- A Go slice of bytes: the number of its backing array in the memory, the offset of its first
element in that array, its length and its capacity. -/
structure Slice where
  arr : Nat
  off : Nat
  len : Nat
  cap : Nat
  deriving DecidableEq, Repr

/-- The memory of the program, as far as byte slices go: the backing arrays. -/
abbrev Memory := List (List Nat)

/-- The bytes that a slice shows. -/
def Memory.bytes (h : Memory) (s : Slice) : List Nat :=
  ((h.getD s.arr []).drop s.off).take s.len

/-- The slice lies within its backing array. -/
def Slice.Within (h : Memory) (s : Slice) : Prop := s.off + s.cap ≤ (h.getD s.arr []).length

/-- The elements that the slice `m` can reach (up to its capacity) are none of the elements
that the slice `b` shows: the two share no memory. -/
def Slice.Apart (m b : Slice) : Prop :=
  m.arr ≠ b.arr ∨ m.off + m.cap ≤ b.off ∨ b.off + b.len ≤ m.off

/-- The array `a` with the bytes `bs` written from offset `off` on. -/
def writeAt (a : List Nat) (off : Nat) (bs : List Nat) : List Nat :=
  a.take off ++ (bs ++ a.drop (off + bs.length))

/-- Go `append(s[0:0], bs...)`, the body of `json.RawMessage.UnmarshalJSON`: when the capacity
of `s` suffices, the bytes are written into the backing array of `s` from its first element on
and the result is a slice of that array; otherwise a new array is allocated for them. -/
def Memory.appendReset (h : Memory) (s : Slice) (bs : List Nat) : Memory × Slice :=
  if bs.length ≤ s.cap then
    (h.set s.arr (writeAt (h.getD s.arr []) s.off bs), { s with len := bs.length })
  else
    (h ++ [bs], { arr := h.length, off := 0, len := bs.length, cap := bs.length })

/-- The `nil` slice, the value of `var msg json.RawMessage`. -/
def nilSlice : Slice := { arr := 0, off := 0, len := 0, cap := 0 }

/-- Go `Context` in memory: `data` is the slice that `Parse` was given, `paths` the map. -/
structure MContext where
  data : Slice
  paths : List (List Nat × Nat)
  deriving DecidableEq, Repr

/-- The `Context` that a `Context` in memory shows: the bytes of its buffer and its map. -/
def MContext.view (h : Memory) (c : MContext) : Context :=
  { data := h.bytes c.data, paths := c.paths }

/-- Go `Parse` on a slice in memory: the `Context` keeps the caller's slice (`data: data`), it
does not copy the bytes. -/
def ParseM (L : Lib) (h : Memory) (data : Slice) : Res MContext :=
  match Parse L (h.bytes data) with
  | .ok c => .ok { data := data, paths := c.paths }
  | .err => .err
  | .panic => .panic
  | .fuel => .fuel

/-- A destination of `Unmarshal`: a `*json.RawMessage`, whose slice may lie anywhere in the
memory, or a value with memory of its own into which `store` decodes. -/
inductive Dest (β : Type)
  | raw (m : Slice)
  | own (store : List Nat → Option β)

/-- The destination shares no memory with the slice `b`. -/
def Dest.Apart {β : Type} (h : Memory) : Dest β → Slice → Prop
  | .raw m, b => m.Within h ∧ m.Apart b
  | .own _, _ => True

/-- Go `Context.Get` in memory: the memory after the call, the `Context` after the call and
the result. `msg` starts as the `nil` slice and `Decode(&msg)` stores the bytes of the value
with `append(msg[0:0], ...)`. -/
def MContext.Get (h : Memory) (c : MContext) (path : List Nat) :
    Memory × MContext × Res Slice :=
  match (c.view h).lookup path with
  | none => (h, c, .err)
  | some v =>
    if (h.bytes c.data).length < v then (h, c, .panic)
    else
      match decodeRaw ((h.bytes c.data).drop v) with
      | none => (h, c, .err)
      | some msg => ((h.appendReset nilSlice msg).1, c, .ok (h.appendReset nilSlice msg).2)

/-- Go `Context.Unmarshal` in memory: the memory after the call, the `Context` after the call
and the result, which for a `*json.RawMessage` is the slice it holds after the call. -/
def MContext.Unmarshal {β : Type} (h : Memory) (c : MContext) (path : List Nat)
    (dst : Dest β) : Memory × MContext × Res (Slice ⊕ β) :=
  match (c.view h).lookup path with
  | none => (h, c, .err)
  | some v =>
    if (h.bytes c.data).length < v then (h, c, .panic)
    else
      match decodeRaw ((h.bytes c.data).drop v) with
      | none => (h, c, .err)
      | some msg =>
        match dst with
        | .raw m => ((h.appendReset m msg).1, c, .ok (.inl (h.appendReset m msg).2))
        | .own store =>
          match store msg with
          | none => (h, c, .err)
          | some x => (h, c, .ok (.inr x))

/-- The memory that holds the one array `{"a":1}`. -/
def memA : Memory := [docA]

/-- The slice of all seven bytes of the array of `memA`. -/
def bufA : Slice := { arr := 0, off := 0, len := 7, cap := 7 }

/-- The `Context` that `Parse` returns for `bufA`. -/
def ctxA : MContext := { data := bufA, paths := [(pathA, 5), ([], 1)] }

/-- Go `json.RawMessage(buf[:0])` for the slice `bufA`: no length, and the capacity of the
buffer. -/
def aliasA : Slice := { arr := 0, off := 0, len := 0, cap := 7 }

/-- The memory `memA` with a second array of four bytes. -/
def memB : Memory := [docA, [0, 0, 0, 0]]

/-- A slice without length over the second array of `memB`. -/
def freshB : Slice := { arr := 1, off := 0, len := 0, cap := 4 }

/-! ## Evaluating the code on concrete buffers -/

set_option exponentiation.threshold 2000 in
set_option maxRecDepth 100000 in
/-- C1, at the failing inputs: on `{"a":1}` the root path `""` is registered and `Get("")`
returns the text `"a"` of the first key instead of the document; on `{"a" : 1}` the path `/a`
is registered at the colon and `Get("/a")` returns an error. -/
theorem get_roundtrip_fails :
    (∃ c, Parse stdLib docA = .ok c ∧ c.lookup [] = some 1 ∧ c.Get [] = .ok [34, 97, 34]) ∧
    (∃ c, Parse stdLib docSpacedColon = .ok c ∧ c.lookup pathA = some 5 ∧ c.Get pathA = .err) :=
  ⟨⟨⟨docA, [(pathA, 5), ([], 1)]⟩, by decide, by decide, by decide⟩,
   ⟨⟨docSpacedColon, [(pathA, 5), ([], 1)]⟩, by decide, by decide, by decide⟩⟩

set_option exponentiation.threshold 2000 in
set_option maxRecDepth 100000 in
/-- C3, at the failing input: on the document `1` the root path `""` is registered at offset 1,
the length of the buffer, and not at offset 0. -/
theorem root_registered_at_one :
    Parse stdLib docOne = .ok ⟨docOne, [([], 1)]⟩ ∧
      (Context.mk docOne [([], 1)]).lookup [] = some 1 := by
  decide

set_option exponentiation.threshold 2000 in
set_option maxRecDepth 100000 in
/-- C4, at the failing input: on `{"a":  1}` the offset registered for `/a` is 6, where the
buffer holds a space, while the text of the value starts at offset 7. -/
theorem offset_on_whitespace :
    ∃ c, Parse stdLib docTwoSpaces = .ok c ∧ c.lookup pathA = some 6 ∧
      docTwoSpaces.get? 6 = some 32 ∧ isSpace 32 = true ∧ docTwoSpaces.get? 7 = some 49 :=
  ⟨⟨docTwoSpaces, [(pathA, 6), ([], 1)]⟩, by decide, by decide, by decide, by decide, by decide⟩

set_option exponentiation.threshold 2000 in
set_option maxRecDepth 100000 in
/-- C8, at the failing inputs: `Parse` panics on the empty buffer, on `{"a"` and on `[1`, where
the slice `c.data[pos:]` is taken one past the end of the buffer. -/
theorem parse_panics :
    Parse stdLib [] = .panic ∧ Parse stdLib docCutKey = .panic ∧
      Parse stdLib docCutElem = .panic := by
  decide

/-! ## Errors of the token stream abort the walk -/

theorem run_err_of_tokenFails (L : Lib) {fuel : Nat} {call : Call}
    (h : TokenFails L fuel call) : runCall L fuel call = .err := by
  induction h with
  | parse_token hp ht => simp [runCall, parse, hp, ht]
  | parse_object hp ht _ ih =>
    simp only [runCall] at ih ⊢
    simp [parse, hp, ht, ih]
  | parse_array hp ht _ ih =>
    simp only [runCall] at ih ⊢
    simp [parse, hp, ht, ih]
  | object_token ht => simp [runCall, parseObject, ht]
  | object_value ht _ ih =>
    simp only [runCall] at ih ⊢
    simp [parseObject, ht, ih]
  | object_next ht hv _ ih =>
    simp only [runCall] at ih ⊢
    simp [parseObject, ht, hv, ih]
  | array_token hp ht => simp [runCall, parseArray, hp, ht]
  | array_in_array hp ht _ ih =>
    simp only [runCall, elemOffset] at ih ⊢
    simp [parseArray, hp, ht, ih]
  | array_in_object hp ht _ ih =>
    simp only [runCall, elemOffset] at ih ⊢
    simp [parseArray, hp, ht, ih]
  | array_after_array hp ht hv _ ih =>
    simp only [runCall, elemOffset] at ih hv ⊢
    simp [parseArray, hp, ht, hv, ih]
  | array_after_object hp ht hv _ ih =>
    simp only [runCall, elemOffset] at ih hv ⊢
    simp [parseArray, hp, ht, hv, ih]
  | @array_after_scalar fuel c dec path i tok dec1 hp ht hd _ ih =>
    simp only [runCall, elemOffset] at ih ⊢
    cases tok with
    | delim d => exact absurd rfl (hd d)
    | str s => simp [parseArray, hp, ht, ih]
    | other => simp [parseArray, hp, ht, ih]

/-- C7: when a call of `Token` returns an error anywhere in the walk started by `Parse` (in
`parse`, `parseObject` or `parseArray`, at any depth), `Parse` returns an error and no
`Context`. -/
theorem parse_fails_fast (L : Lib) (data : List Nat)
    (h : TokenFails L (data.length + 1)
      (.parse { data := data, paths := [] } (NewDecoder data) [])) :
    Parse L data = .err := by
  have := run_err_of_tokenFails L h
  simp only [runCall] at this
  simp [Parse, this]

set_option exponentiation.threshold 2000 in
set_option maxRecDepth 100000 in
theorem parse_fails_fast_witness :
    TokenFails stdLib (docBadClose.length + 1)
        (.parse { data := docBadClose, paths := [] } (NewDecoder docBadClose) []) ∧
      Parse stdLib docBadClose = .err :=
  have h : TokenFails stdLib (docBadClose.length + 1)
      (.parse { data := docBadClose, paths := [] } (NewDecoder docBadClose) []) :=
    @TokenFails.parse_array stdLib _ _ _ _ ⟨[49, 44, 125], 1, .arrayStart, [.topValue]⟩
      (by decide) (by decide)
      (@TokenFails.array_after_scalar stdLib _ _ _ _ _ .other
        ⟨[44, 125], 2, .arrayComma, [.topValue]⟩ (by decide) (by decide) (by intro d; simp)
        (.array_token (by decide) (by decide)))
  ⟨h, parse_fails_fast stdLib docBadClose h⟩

/-! ## Registered offsets stay inside the buffer -/

theorem readLoop_bounds (s : Scanner) (input : List Nat) (n m : Nat)
    (h : readLoop s input n = some m) : n ≤ m ∧ m ≤ n + input.length := by
  induction input generalizing s n with
  | nil =>
    simp only [readLoop] at h
    split at h <;> simp_all
  | cons c cs ih =>
    simp only [readLoop] at h
    split at h
    · simp at h; subst h; simp
    · split at h
      · split at h
        · simp at h; subst h; simp
        · have := ih _ _ h; simp; omega
      · split at h
        · simp at h
        · have := ih _ _ h; simp; omega

theorem readValue_le (input : List Nat) (n : Nat) (h : readValue input = some n) :
    n ≤ input.length := by
  have := readLoop_bounds _ _ _ _ h
  omega

theorem tokenLoop_offset (L : Lib) (rest : List Nat) (off : Nat) (st : TokState)
    (stk : List TokState) (tok : Token) (d : Decoder)
    (h : tokenLoop L rest off st stk = some (tok, d)) :
    d.off + d.rest.length = off + rest.length := by
  induction rest generalizing off st stk with
  | nil => simp [tokenLoop] at h
  | cons c cs ih =>
    unfold tokenLoop at h
    repeat' split at h
    all_goals first
      | (have h2 := ih _ _ _ h; simp only [List.length_cons]; omega)
      | (simp at h; done)
      | (simp only [Option.some.injEq, Prod.mk.injEq] at h; obtain ⟨-, rfl⟩ := h
         simp only [List.length_cons]; omega)
      | (simp only [Option.some.injEq, Prod.mk.injEq] at h; obtain ⟨-, rfl⟩ := h
         have := readValue_le _ _ ‹readValue (c :: cs) = some _›
         simp only [List.length_drop, List.length_cons] at this ⊢; omega)

theorem token_offset (L : Lib) (dec d : Decoder) (tok : Token)
    (h : dec.Token L = some (tok, d)) : d.off + d.rest.length = dec.off + dec.rest.length :=
  tokenLoop_offset L _ _ _ _ _ _ h

theorem skipOneSpace_le (data : List Nat) (pos : Nat) (h : pos ≤ data.length) :
    skipOneSpace data pos ≤ data.length := by
  unfold skipOneSpace
  split
  · exact h
  · rename_i r t hd
    split
    · have : (data.drop pos).length = (r :: t).length := by rw [hd]
      simp only [List.length_drop, List.length_cons] at this
      omega
    · exact h

theorem skipOneSpace_ge (data : List Nat) (pos : Nat) : pos ≤ skipOneSpace data pos := by
  unfold skipOneSpace
  split
  · exact le_refl _
  · split <;> omega

theorem register_data (c : Context) (p : List Nat) (i : Nat) : (c.Register p i).data = c.data :=
  rfl

theorem walkInv_register (c : Context) (dec d : Decoder) (p : List Nat) (i : Nat)
    (hi : i ≤ c.data.length) (h : WalkInv c dec)
    (hd : d.off + d.rest.length = dec.off + dec.rest.length) : WalkInv (c.Register p i) d := by
  refine ⟨by rw [register_data, hd]; exact h.1, ?_⟩
  intro e he
  simp only [Context.Register, List.mem_cons, List.mem_filter] at he
  rcases he with rfl | ⟨he, -⟩
  · exact hi
  · exact h.2 e he

theorem walk_inv (L : Lib) (fuel : Nat) :
    (∀ c dec path c1 dec1, WalkInv c dec → parse L fuel c dec path = .ok (c1, dec1) →
      WalkInv c1 dec1 ∧ c1.data = c.data) ∧
    (∀ c dec path c1 dec1, WalkInv c dec → parseObject L fuel c dec path = .ok (c1, dec1) →
      WalkInv c1 dec1 ∧ c1.data = c.data) ∧
    (∀ c dec path i c1 dec1, WalkInv c dec → parseArray L fuel c dec path i = .ok (c1, dec1) →
      WalkInv c1 dec1 ∧ c1.data = c.data) := by
  induction fuel with
  | zero => simp [parse, parseObject, parseArray]
  | succ fuel ih =>
    obtain ⟨ihP, ihO, ihA⟩ := ih
    refine ⟨?_, ?_, ?_⟩
    · intro c dec path c1 dec1 hinv h
      simp only [parse, Decoder.InputOffset] at h
      split at h
      · simp at h
      · rename_i hlen
        have hpos : skipOneSpace c.data (dec.off + 1) ≤ c.data.length :=
          skipOneSpace_le _ _ (by omega)
        split at h
        · simp at h
        · rename_i tok d ht
          have hd := token_offset L _ _ _ ht
          have hreg := walkInv_register c dec d path _ hpos hinv hd
          split at h
          · split at h
            · have := ihO _ _ _ _ _ hreg h
              exact ⟨this.1, by rw [this.2, register_data]⟩
            · split at h
              · have := ihA _ _ _ _ _ _ hreg h
                exact ⟨this.1, by rw [this.2, register_data]⟩
              · simp at h
          · simp only [Res.ok.injEq, Prod.mk.injEq] at h
            obtain ⟨rfl, rfl⟩ := h
            exact ⟨hreg, register_data _ _ _⟩
    · intro c dec path c1 dec1 hinv h
      simp only [parseObject] at h
      split at h
      · simp at h
      · rename_i tok d ht
        have hd := token_offset L _ _ _ ht
        have hinv1 : WalkInv c d := ⟨by rw [hd]; exact hinv.1, hinv.2⟩
        split at h
        · split at h
          · simp only [Res.ok.injEq, Prod.mk.injEq] at h
            obtain ⟨rfl, rfl⟩ := h
            exact ⟨hinv1, rfl⟩
          · simp at h
        · split at h
          · rename_i c2 d2 hv
            have h2 := ihP _ _ _ _ _ hinv1 hv
            have h3 := ihO _ _ _ _ _ h2.1 h
            exact ⟨h3.1, by rw [h3.2, h2.2]⟩
          all_goals simp at h
        · simp at h
    · intro c dec path i c1 dec1 hinv h
      simp only [parseArray, Decoder.InputOffset] at h
      split at h
      · simp at h
      · rename_i hlen
        have hpos : (if 0 < i then skipOneSpace c.data (dec.off + 1) else dec.off)
            ≤ c.data.length := by
          split
          · rename_i hi
            have h1 : ¬ c.data.length < dec.off + 1 := fun hc => hlen ⟨hi, hc⟩
            exact skipOneSpace_le _ _ (by omega)
          · have := hinv.1; omega
        split at h
        · simp at h
        · rename_i tok d ht
          have hd := token_offset L _ _ _ ht
          have hinv1 : WalkInv c d := ⟨by rw [hd]; exact hinv.1, hinv.2⟩
          have hreg := fun p => walkInv_register c dec d p _ hpos hinv hd
          split at h
          · split at h
            · simp only [Res.ok.injEq, Prod.mk.injEq] at h
              obtain ⟨rfl, rfl⟩ := h
              exact ⟨hinv1, rfl⟩
            · split at h
              · split at h
                · rename_i c2 d2 hv
                  have h2 := ihA _ _ _ _ _ _ (hreg _) hv
                  have h3 := ihA _ _ _ _ _ _ h2.1 h
                  exact ⟨h3.1, by rw [h3.2, h2.2, register_data]⟩
                all_goals simp at h
              · split at h
                · split at h
                  · rename_i c2 d2 hv
                    have h2 := ihO _ _ _ _ _ (hreg _) hv
                    have h3 := ihA _ _ _ _ _ _ h2.1 h
                    exact ⟨h3.1, by rw [h3.2, h2.2, register_data]⟩
                  all_goals simp at h
                · simp at h
          · have h3 := ihA _ _ _ _ _ _ (hreg _) h
            exact ⟨h3.1, by rw [h3.2, register_data]⟩

theorem parse_ok_inv (L : Lib) (data : List Nat) (c : Context) (h : Parse L data = .ok c) :
    c.data = data ∧ ∀ e ∈ c.paths, e.2 ≤ data.length := by
  unfold Parse at h
  split at h
  · rename_i c1 d1 hp
    simp only [Res.ok.injEq] at h
    subst h
    have hinv : WalkInv { data := data, paths := [] } (NewDecoder data) :=
      ⟨by simp [NewDecoder], by simp⟩
    have := (walk_inv L _).1 _ _ _ _ _ hinv hp
    refine ⟨this.2, ?_⟩
    have h1 := this.1.2
    rw [this.2] at h1
    exact h1
  all_goals simp at h

theorem lookup_mem (c : Context) (p : List Nat) (v : Nat) (h : c.lookup p = some v) :
    (p, v) ∈ c.paths := by
  unfold Context.lookup at h
  simp only [Option.map_eq_some'] at h
  obtain ⟨e, he, rfl⟩ := h
  have h1 := List.mem_of_find?_eq_some he
  have h2 := List.find?_some he
  simp only [decide_eq_true_eq] at h2
  subst h2
  exact h1

/-- C10: on a `Context` returned by a successful `Parse`, every registered offset `v` satisfies
`v <= len(data)`, so that for every path `Get` and `Unmarshal` (with any destination) return
normally, with a value or with an error. -/
theorem lookups_never_panic (L : Lib) (data : List Nat) (c : Context)
    (h : Parse L data = .ok c) (path : List Nat) :
    (∀ v, c.lookup path = some v → v ≤ c.data.length) ∧
    (c.Get path = .err ∨ ∃ b, c.Get path = .ok b) ∧
    (∀ (β : Type) (store : List Nat → Option β),
      c.Unmarshal path store = .err ∨ ∃ x, c.Unmarshal path store = .ok x) := by
  obtain ⟨hd, hb⟩ := parse_ok_inv L data c h
  have hv : ∀ v, c.lookup path = some v → v ≤ c.data.length := by
    intro v hl
    have := hb _ (lookup_mem c path v hl)
    rw [hd]; exact this
  refine ⟨hv, ?_, ?_⟩
  · unfold Context.Get
    cases hl : c.lookup path with
    | none => simp
    | some v =>
      have := hv v hl
      simp only [not_lt.mpr this, if_false]
      cases decodeRaw (c.data.drop v) <;> simp
  · intro β store
    unfold Context.Unmarshal
    cases hl : c.lookup path with
    | none => simp
    | some v =>
      have := hv v hl
      simp only [not_lt.mpr this, if_false]
      cases decodeRaw (c.data.drop v) with
      | none => simp
      | some msg =>
        simp only []
        split
        · exact Or.inl rfl
        · exact Or.inr ⟨_, rfl⟩

set_option exponentiation.threshold 2000 in
set_option maxRecDepth 100000 in
theorem lookups_never_panic_witness :
    Parse stdLib docOne = .ok ⟨docOne, [([], 1)]⟩ ∧
    ((∀ v, (Context.mk docOne [([], 1)]).lookup [] = some v →
        v ≤ (Context.mk docOne [([], 1)]).data.length) ∧
      ((Context.mk docOne [([], 1)]).Get [] = .err ∨
        ∃ b, (Context.mk docOne [([], 1)]).Get [] = .ok b) ∧
      (∀ (β : Type) (store : List Nat → Option β),
        (Context.mk docOne [([], 1)]).Unmarshal [] store = .err ∨
          ∃ x, (Context.mk docOne [([], 1)]).Unmarshal [] store = .ok x)) :=
  ⟨by decide, lookups_never_panic stdLib docOne ⟨docOne, [([], 1)]⟩ (by decide) []⟩

theorem num_text_head (n : JNum) (h : n.ok = true) :
    ∃ c t, n.text = c :: t ∧ (c = 45 ∨ isDigit c = true) := by
  obtain ⟨neg, int, frac, exp⟩ := n
  simp only [JNum.ok, Bool.and_eq_true] at h
  obtain ⟨⟨h1, -⟩, -⟩ := h
  cases neg with
  | true => exact ⟨45, _, rfl, Or.inl rfl⟩
  | false =>
    cases int with
    | nil => simp at h1
    | cons d ds =>
      refine ⟨d, _, rfl, Or.inr ?_⟩
      simp only at h1
      split at h1
      · subst d; decide
      · simp only [Bool.and_eq_true, decide_eq_true_eq] at h1
        simp [isDigit]; omega

theorem value_text_head (v : JV) (h : v.ok = true) :
    ∃ c t, v.text = c :: t ∧ valueStart c = true := by
  cases v with
  | str cs => exact ⟨34, _, rfl, by decide⟩
  | num n =>
    obtain ⟨c, t, h1, h2⟩ := num_text_head n (by simpa [JV.ok] using h)
    refine ⟨c, t, by simpa [JV.text] using h1, ?_⟩
    rcases h2 with rfl | h2
    · decide
    · simp [valueStart, h2]
  | tru => exact ⟨116, _, rfl, by decide⟩
  | fls => exact ⟨102, _, rfl, by decide⟩
  | nul => exact ⟨110, _, rfl, by decide⟩
  | arr es w => exact ⟨91, _, by rw [JV.text], by decide⟩
  | obj ms w => exact ⟨123, _, by rw [JV.text], by decide⟩

theorem valueStart_not_space (c : Nat) (h : valueStart c = true) : isSpace c = false := by
  simp only [valueStart, isDigit, Bool.or_eq_true, decide_eq_true_eq, Bool.and_eq_true] at h
  simp only [isSpace, Bool.or_eq_false_iff, decide_eq_false_iff_not]
  omega

/-! ### Steps of the scanner -/

theorem stateEndValue_step (st st1 : Step) (ps : List PState) (c : Nat) :
    stateEndValue ⟨st, ps⟩ c = stateEndValue ⟨st1, ps⟩ c := by
  cases ps with
  | nil => simp [stateEndValue]
  | cons p below => cases p <;> simp [stateEndValue, Scanner.fail]

theorem stateBeginValue_step (st st1 : Step) (ps : List PState) (c : Nat)
    (h : isSpace c = false) : stateBeginValue ⟨st, ps⟩ c = stateBeginValue ⟨st1, ps⟩ c := by
  simp [stateBeginValue, h, Scanner.pushParseState, Scanner.fail]

theorem readLoop_endValue_top (x : List Nat) (n : Nat) :
    readLoop ⟨.endValue, []⟩ x n = some n := by
  cases x with
  | nil => simp [readLoop, Scanner.next, stateEndValue, stateEndTop, isSpace]
  | cons c cs =>
    by_cases hc : isSpace c = true <;>
      simp [readLoop, Scanner.next, stateEndValue, stateEndTop, hc]

theorem readLoop_ws (s : Scanner) (hs : SkipsSpace s) (w x : List Nat) (n : Nat)
    (hw : wsOk w = true) : readLoop s (w ++ x) n = readLoop s x (n + w.length) := by
  induction w generalizing n with
  | nil => simp
  | cons c w ih =>
    simp only [wsOk, List.all_cons, Bool.and_eq_true] at hw
    have := hs c hw.1
    simp only [List.cons_append, readLoop, this]
    simp only [reduceCtorEq, ↓reduceIte, or_self, List.length_cons]
    change readLoop s (w ++ x) (n + 1) = _
    rw [ih _ (by simpa [wsOk] using hw.2)]
    congr 1; omega

theorem skips_beginValue (ps : List PState) : SkipsSpace ⟨.beginValue, ps⟩ := by
  intro c hc; simp [Scanner.next, stateBeginValue, hc]

theorem skips_beginValueOrEmpty (ps : List PState) : SkipsSpace ⟨.beginValueOrEmpty, ps⟩ := by
  intro c hc; simp [Scanner.next, hc]

theorem skips_beginStringOrEmpty (ps : List PState) : SkipsSpace ⟨.beginStringOrEmpty, ps⟩ := by
  intro c hc; simp [Scanner.next, hc]

theorem skips_beginString (ps : List PState) : SkipsSpace ⟨.beginString, ps⟩ := by
  intro c hc; simp [Scanner.next, stateBeginString, hc]

theorem skips_endValue (p : PState) (ps : List PState) : SkipsSpace ⟨.endValue, p :: ps⟩ := by
  intro c hc; simp [Scanner.next, stateEndValue, hc]

/-! ### String literals -/

theorem isHex_ge (c : Nat) (h : isHex c = true) : 48 ≤ c := by
  simp only [isHex, isDigit, Bool.or_eq_true, Bool.and_eq_true, decide_eq_true_eq] at h
  omega

theorem readLoop_schar (ps : List PState) (ch : SChar) (h : ch.ok = true) (x : List Nat)
    (n : Nat) :
    readLoop ⟨.inString, ps⟩ (ch.text ++ x) n = readLoop ⟨.inString, ps⟩ x (n + ch.text.length) := by
  cases ch with
  | plain c =>
    simp only [SChar.ok, Bool.and_eq_true, decide_eq_true_eq] at h
    obtain ⟨⟨h1, h2⟩, h3⟩ := h
    have h4 : ¬ c < 32 := by omega
    simp [SChar.text, readLoop, Scanner.next, h2, h3, h4]
  | esc c =>
    simp only [SChar.ok, Bool.or_eq_true, decide_eq_true_eq] at h
    have h' : c = 98 ∨ c = 102 ∨ c = 110 ∨ c = 114 ∨ c = 116 ∨ c = 92 ∨ c = 47 ∨ c = 34 := by
      omega
    simp [SChar.text, readLoop, Scanner.next, h']
  | uni a b c d =>
    simp only [SChar.ok, Bool.and_eq_true] at h
    obtain ⟨⟨⟨ha, hb⟩, hc⟩, hd⟩ := h
    simp [SChar.text, readLoop, Scanner.next, ha, hb, hc, hd]

theorem readLoop_strBody (ps : List PState) (cs : List SChar) (h : cs.all SChar.ok = true)
    (x : List Nat) (n : Nat) :
    readLoop ⟨.inString, ps⟩ (cs.flatMap SChar.text ++ 34 :: x) n
      = readLoop ⟨.endValue, ps⟩ x (n + (cs.flatMap SChar.text).length + 1) := by
  induction cs generalizing n with
  | nil => simp [readLoop, Scanner.next]
  | cons ch cs ih =>
    simp only [List.all_cons, Bool.and_eq_true] at h
    simp only [List.flatMap_cons, List.append_assoc]
    rw [readLoop_schar ps ch h.1, ih h.2]
    congr 1
    simp only [List.length_append]; omega

theorem strText_length (cs : List SChar) :
    (strText cs).length = (cs.flatMap SChar.text).length + 2 := by
  simp [strText]

/-- Scanning a string literal from a state that accepts an opening quote. -/
theorem readLoop_str (s : Scanner) (hq : s.next 34 = (⟨.inString, s.parseState⟩, .scanBeginLiteral))
    (cs : List SChar) (h : cs.all SChar.ok = true) (x : List Nat) (n : Nat) :
    readLoop s (strText cs ++ x) n
      = readLoop ⟨.endValue, s.parseState⟩ x (n + (strText cs).length) := by
  simp only [strText, List.cons_append, List.append_assoc, List.singleton_append]
  rw [readLoop, hq]
  simp only [reduceCtorEq, ↓reduceIte, or_self]
  rw [readLoop_strBody _ cs h]
  congr 1
  simp; omega

theorem quote_beginValue (ps : List PState) (st : Step) :
    stateBeginValue ⟨st, ps⟩ 34 = (⟨.inString, ps⟩, .scanBeginLiteral) := by
  simp [stateBeginValue, isSpace]

theorem quote_beginString (ps : List PState) (st : Step) :
    stateBeginString ⟨st, ps⟩ 34 = (⟨.inString, ps⟩, .scanBeginLiteral) := by
  simp [stateBeginString, isSpace]

/-! ### Number literals -/

theorem Follow.numEnd {x : List Nat} (h : Follow x) : NumEnd x := by
  intro c t hx
  have := h c t hx
  simp only [isSpace, Bool.or_eq_true, decide_eq_true_eq] at this
  simp only [isDigit, Bool.and_eq_false_iff, decide_eq_false_iff_not]
  omega

theorem readLoop_numEnd (st : Step) (hst : numFinal st = true) (ps : List PState)
    (x : List Nat) (hx : NumEnd x) (k : Nat) :
    readLoop ⟨st, ps⟩ x k = readLoop ⟨.endValue, ps⟩ x k := by
  cases x with
  | nil =>
    cases st <;> simp [numFinal] at hst <;>
      simp [readLoop, Scanner.next, state0, isDigit, stateEndValue_step _ .endValue]
  | cons c t =>
    obtain ⟨h1, h2, h3, h4⟩ := hx c t rfl
    cases st <;> simp [numFinal] at hst <;>
      simp [readLoop, Scanner.next, state0, h1, h2, h3, h4, stateEndValue_step _ .endValue]

theorem readLoop_digits (st : Step) (hst : st = .s1 ∨ st = .dot0 ∨ st = .sE0)
    (ps : List PState) (ds : List Nat) (hd : ds.all isDigit = true) (x : List Nat) (k : Nat) :
    readLoop ⟨st, ps⟩ (ds ++ x) k = readLoop ⟨st, ps⟩ x (k + ds.length) := by
  induction ds generalizing k with
  | nil => simp
  | cons d ds ih =>
    simp only [List.all_cons, Bool.and_eq_true] at hd
    have hstep : Scanner.next ⟨st, ps⟩ d = (⟨st, ps⟩, .scanContinue) := by
      rcases hst with rfl | rfl | rfl <;> simp [Scanner.next, hd.1]
    simp only [List.cons_append, readLoop, hstep]
    simp only [reduceCtorEq, ↓reduceIte, or_self, List.length_cons]
    change readLoop ⟨st, ps⟩ (ds ++ x) (k + 1) = _
    rw [ih hd.2]
    congr 1; omega

theorem isDigit_ne {d : Nat} (h : isDigit d = true) : d ≠ 46 ∧ d ≠ 101 ∧ d ≠ 69 ∧ d ≠ 43 ∧ d ≠ 45 := by
  simp only [isDigit, Bool.and_eq_true, decide_eq_true_eq] at h
  omega

theorem readLoop_exp (st : Step) (hst : st = .s0 ∨ st = .s1 ∨ st = .dot0) (ps : List PState)
    (e : Nat) (sg : Option Nat) (ds : List Nat)
    (he : e = 101 ∨ e = 69) (hsg : ∀ g, sg = some g → g = 43 ∨ g = 45)
    (hd : digitsOk ds = true) (x : List Nat) (k : Nat) :
    readLoop ⟨st, ps⟩ (expText (some (e, sg, ds)) ++ x) k
      = readLoop ⟨.sE0, ps⟩ x (k + (expText (some (e, sg, ds))).length) := by
  have hE : Scanner.next ⟨st, ps⟩ e = (⟨.sE, ps⟩, .scanContinue) := by
    have h46 : e ≠ 46 := by omega
    have hnd : isDigit e = false := by
      simp only [isDigit, Bool.and_eq_false_iff, decide_eq_false_iff_not]; omega
    rcases hst with rfl | rfl | rfl <;> simp [Scanner.next, state0, he, h46, hnd]
  cases ds with
  | nil => simp [digitsOk] at hd
  | cons d ds =>
    simp only [digitsOk, List.isEmpty_cons, Bool.not_false, List.all_cons, Bool.true_and,
      Bool.and_eq_true] at hd
    obtain ⟨h43, h45⟩ : d ≠ 43 ∧ d ≠ 45 := by
      have := isDigit_ne hd.1; omega
    cases sg with
    | none =>
      simp only [expText, List.cons_append, readLoop, hE]
      simp only [reduceCtorEq, ↓reduceIte, or_self]
      have : Scanner.next ⟨.sE, ps⟩ d = (⟨.sE0, ps⟩, .scanContinue) := by
        simp [Scanner.next, stateESign, hd.1, h43, h45]
      simp only [this, reduceCtorEq, ↓reduceIte, or_self]
      change readLoop ⟨.sE0, ps⟩ (ds ++ x) (k + 1 + 1) = _
      rw [readLoop_digits _ (Or.inr (Or.inr rfl)) _ _ hd.2]
      congr 1; simp; omega
    | some g =>
      have hg := hsg g rfl
      simp only [expText, List.cons_append, readLoop, hE]
      simp only [reduceCtorEq, ↓reduceIte, or_self]
      have h1 : Scanner.next ⟨.sE, ps⟩ g = (⟨.sESign, ps⟩, .scanContinue) := by
        simp [Scanner.next, hg]
      have h2 : Scanner.next ⟨.sESign, ps⟩ d = (⟨.sE0, ps⟩, .scanContinue) := by
        simp [Scanner.next, stateESign, hd.1]
      simp only [h1, h2, reduceCtorEq, ↓reduceIte, or_self]
      change readLoop ⟨.sE0, ps⟩ (ds ++ x) (k + 1 + 1 + 1) = _
      rw [readLoop_digits _ (Or.inr (Or.inr rfl)) _ _ hd.2]
      congr 1; simp; omega

theorem readLoop_frac (st : Step) (hst : st = .s0 ∨ st = .s1) (ps : List PState)
    (ds : List Nat) (hd : digitsOk ds = true) (x : List Nat) (k : Nat) :
    readLoop ⟨st, ps⟩ (fracText (some ds) ++ x) k
      = readLoop ⟨.dot0, ps⟩ x (k + (fracText (some ds)).length) := by
  have hE : Scanner.next ⟨st, ps⟩ 46 = (⟨.dot, ps⟩, .scanContinue) := by
    rcases hst with rfl | rfl <;> simp [Scanner.next, state0, isDigit]
  cases ds with
  | nil => simp [digitsOk] at hd
  | cons d ds =>
    simp only [digitsOk, List.isEmpty_cons, Bool.not_false, List.all_cons, Bool.true_and,
      Bool.and_eq_true] at hd
    simp only [fracText, List.cons_append, readLoop, hE]
    simp only [reduceCtorEq, ↓reduceIte, or_self]
    have h2 : Scanner.next ⟨.dot, ps⟩ d = (⟨.dot0, ps⟩, .scanContinue) := by
      simp [Scanner.next, hd.1]
    simp only [h2, reduceCtorEq, ↓reduceIte, or_self]
    change readLoop ⟨.dot0, ps⟩ (ds ++ x) (k + 1 + 1) = _
    rw [readLoop_digits _ (Or.inr (Or.inl rfl)) _ _ hd.2]
    congr 1; simp; omega

/-- The fraction and exponent of a number literal, from the state after the integer part. -/
theorem readLoop_numRest (st : Step) (hst : st = .s0 ∨ st = .s1) (ps : List PState)
    (frac : Option (List Nat)) (exp : Option (Nat × Option Nat × List Nat))
    (hf : ∀ ds, frac = some ds → digitsOk ds = true)
    (he : ∀ e sg ds, exp = some (e, sg, ds) →
      (e = 101 ∨ e = 69) ∧ (∀ g, sg = some g → g = 43 ∨ g = 45) ∧ digitsOk ds = true)
    (x : List Nat) (hx : NumEnd x) (k : Nat) :
    readLoop ⟨st, ps⟩ (fracText frac ++ (expText exp ++ x)) k
      = readLoop ⟨.endValue, ps⟩ x (k + (fracText frac ++ expText exp).length) := by
  have hfin0 : numFinal st = true := by rcases hst with rfl | rfl <;> rfl
  cases frac with
  | none =>
    cases exp with
    | none => simpa [fracText, expText] using readLoop_numEnd st hfin0 ps x hx k
    | some t =>
      obtain ⟨e, sg, ds⟩ := t
      obtain ⟨h1, h2, h3⟩ := he e sg ds rfl
      have hst' : st = .s0 ∨ st = .s1 ∨ st = .dot0 := by
        rcases hst with h | h
        · exact Or.inl h
        · exact Or.inr (Or.inl h)
      simp only [fracText, List.nil_append]
      rw [readLoop_exp st hst' ps e sg ds h1 h2 h3, readLoop_numEnd .sE0 rfl ps x hx]
  | some fs =>
    have hfs := hf fs rfl
    rw [readLoop_frac st hst ps fs hfs]
    cases exp with
    | none =>
      simp only [expText, List.nil_append, List.append_nil]
      rw [readLoop_numEnd .dot0 rfl ps x hx]
    | some t =>
      obtain ⟨e, sg, ds⟩ := t
      obtain ⟨h1, h2, h3⟩ := he e sg ds rfl
      rw [readLoop_exp .dot0 (Or.inr (Or.inr rfl)) ps e sg ds h1 h2 h3,
        readLoop_numEnd .sE0 rfl ps x hx]
      congr 1
      simp only [List.length_append]; omega

/-- Scanning a number literal that starts a value. -/
theorem readLoop_num (ps : List PState) (n : JNum) (hn : n.ok = true) (x : List Nat)
    (hx : NumEnd x) (k : Nat) :
    readLoop ⟨.beginValue, ps⟩ (n.text ++ x) k
      = readLoop ⟨.endValue, ps⟩ x (k + n.text.length) := by
  obtain ⟨neg, int, frac, exp⟩ := n
  simp only [JNum.ok, Bool.and_eq_true] at hn
  obtain ⟨⟨hi, hf⟩, he⟩ := hn
  have hf' : ∀ ds, frac = some ds → digitsOk ds = true := by
    intro ds h; subst h; exact hf
  have he' : ∀ e sg ds, exp = some (e, sg, ds) →
      (e = 101 ∨ e = 69) ∧ (∀ g, sg = some g → g = 43 ∨ g = 45) ∧ digitsOk ds = true := by
    intro e sg ds h; subst h
    simp only [Bool.and_eq_true, Bool.or_eq_true, decide_eq_true_eq] at he
    refine ⟨he.1.1, ?_, he.2⟩
    intro g hg; subst hg
    simpa using he.1.2
  -- the integer part, from the state `st0` reached after the optional sign
  have hint : ∀ st0 : Step, (∀ d, isDigit d = true →
        Scanner.next ⟨st0, ps⟩ d
          = (⟨if d = 48 then .s0 else .s1, ps⟩,
              if st0 = .neg then .scanContinue else .scanBeginLiteral)) →
      ∀ k, readLoop ⟨st0, ps⟩ (int ++ (fracText frac ++ (expText exp ++ x))) k
        = readLoop ⟨.endValue, ps⟩ x (k + (int ++ (fracText frac ++ expText exp)).length) := by
    intro st0 hstep k
    cases int with
    | nil => simp at hi
    | cons d ds =>
      simp only at hi
      have hdig : isDigit d = true := by
        split at hi
        · subst d; decide
        · simp only [Bool.and_eq_true, decide_eq_true_eq] at hi
          simp [isDigit]; omega
      have hop : (if st0 = Step.neg then Op.scanContinue else Op.scanBeginLiteral) ≠ .scanEnd ∧
          (if st0 = Step.neg then Op.scanContinue else Op.scanBeginLiteral) ≠ .scanEndObject ∧
          (if st0 = Step.neg then Op.scanContinue else Op.scanBeginLiteral) ≠ .scanEndArray ∧
          (if st0 = Step.neg then Op.scanContinue else Op.scanBeginLiteral) ≠ .scanError := by
        split <;> simp
      simp only [List.cons_append, readLoop, hstep d hdig]
      simp only [hop.1, hop.2.1, hop.2.2.1, hop.2.2.2, ↓reduceIte, or_self]
      split at hi
      · rename_i h48
        simp only [List.isEmpty_iff] at hi
        subst hi
        simp only [h48, ↓reduceIte, List.append_eq, List.nil_append]
        rw [readLoop_numRest .s0 (Or.inl rfl) ps frac exp hf' he' x hx]
        congr 1; simp; omega
      · rename_i h48
        simp only [Bool.and_eq_true, decide_eq_true_eq] at hi
        simp only [h48, ↓reduceIte]
        change readLoop ⟨.s1, ps⟩ (ds ++ (fracText frac ++ (expText exp ++ x))) (k + 1) = _
        rw [readLoop_digits _ (Or.inl rfl) _ _ hi.2,
          readLoop_numRest .s1 (Or.inr rfl) ps frac exp hf' he' x hx]
        congr 1; simp; omega
  cases neg with
  | false =>
    simp only [JNum.text, Bool.false_eq_true, ↓reduceIte, List.nil_append, List.append_assoc]
    apply hint
    intro d hd
    have h := isDigit_ne hd
    have hsp := valueStart_not_space d (by simp [valueStart, hd])
    simp only [isDigit, Bool.and_eq_true, decide_eq_true_eq] at hd
    by_cases h48 : d = 48
    · subst h48; simp [Scanner.next, stateBeginValue, isSpace]
    · have h1 : 49 ≤ d ∧ d ≤ 57 := by omega
      have : d ≠ 123 ∧ d ≠ 91 ∧ d ≠ 34 ∧ d ≠ 116 ∧ d ≠ 102 ∧ d ≠ 110 := by omega
      simp [Scanner.next, stateBeginValue, hsp, h48, h1, this, h.2.2.2.2]
  | true =>
    simp only [JNum.text, ↓reduceIte, List.cons_append, List.nil_append, List.append_assoc,
      List.length_cons]
    rw [readLoop]
    simp only [Scanner.next, stateBeginValue, isSpace]
    simp only [Nat.reduceEqDiff, decide_False, Bool.or_self, Bool.false_eq_true, ↓reduceIte,
      reduceCtorEq, or_self]
    rw [hint .neg ?_ (k + 1)]
    · congr 1; omega
    · intro d hd
      simp only [isDigit, Bool.and_eq_true, decide_eq_true_eq] at hd
      by_cases h48 : d = 48
      · subst h48; simp [Scanner.next]
      · have h1 : 49 ≤ d ∧ d ≤ 57 := by omega
        simp [Scanner.next, h48, h1]

/-! ### Values -/

theorem follow_ws_delim (w : List Nat) (hw : wsOk w = true) (c : Nat)
    (hc : c = 44 ∨ c = 93 ∨ c = 125) (y : List Nat) : Follow (w ++ c :: y) := by
  intro a t h
  cases w with
  | nil =>
    simp only [List.nil_append, List.cons.injEq] at h
    obtain ⟨rfl, -⟩ := h
    exact Or.inr hc
  | cons b w =>
    simp only [List.cons_append, List.cons.injEq] at h
    obtain ⟨rfl, -⟩ := h
    simp only [wsOk, List.all_cons, Bool.and_eq_true] at hw
    exact Or.inl hw.1

theorem follow_elems (es : JElems) (h : es.ok = true) (w : List Nat) (hw : wsOk w = true)
    (y : List Nat) : Follow (es.text false ++ (w ++ 93 :: y)) := by
  cases es with
  | nil => simpa [JElems.text] using follow_ws_delim w hw 93 (by simp) y
  | cons wc wv v tl =>
    simp only [JElems.ok, Bool.and_eq_true] at h
    simp only [JElems.text, sepText, Bool.false_eq_true, ↓reduceIte, List.append_assoc,
      List.singleton_append]
    exact follow_ws_delim wc h.1.1.1 44 (by simp) _

theorem follow_members (ms : JMembers) (h : ms.ok = true) (w : List Nat) (hw : wsOk w = true)
    (y : List Nat) : Follow (ms.text false ++ (w ++ 125 :: y)) := by
  cases ms with
  | nil => simpa [JMembers.text] using follow_ws_delim w hw 125 (by simp) y
  | cons wc wk key wcolon wv v tl =>
    simp only [JMembers.ok, Bool.and_eq_true] at h
    simp only [JMembers.text, sepText, Bool.false_eq_true, ↓reduceIte, List.append_assoc,
      List.singleton_append]
    exact follow_ws_delim wc h.1.1.1.1.1.1 44 (by simp) _

theorem readLoop_orEmpty (ps : List PState) (c : Nat) (t : List Nat) (hc : valueStart c = true)
    (k : Nat) :
    readLoop ⟨.beginValueOrEmpty, ps⟩ (c :: t) k = readLoop ⟨.beginValue, ps⟩ (c :: t) k := by
  have hsp := valueStart_not_space c hc
  have h93 : c ≠ 93 := by
    simp only [valueStart, isDigit, Bool.or_eq_true, decide_eq_true_eq, Bool.and_eq_true] at hc
    omega
  rw [readLoop, readLoop]
  simp only [Scanner.next, hsp, h93, Bool.false_eq_true, ↓reduceIte]
  rw [stateBeginValue_step .beginValueOrEmpty .beginValue ps c hsp]

theorem readLoop_closeArray (st : Step) (hst : st = .beginValueOrEmpty ∨ st = .endValue)
    (ps : List PState) (x : List Nat) (k : Nat) :
    readLoop ⟨st, .arrayValue :: ps⟩ (93 :: x) k = readLoop ⟨.endValue, ps⟩ x (k + 1) := by
  have hn : Scanner.next ⟨st, .arrayValue :: ps⟩ 93
      = (⟨if ps = [] then .endTop else .endValue, ps⟩, .scanEndArray) := by
    rcases hst with rfl | rfl <;> simp [Scanner.next, stateEndValue, isSpace]
  rw [readLoop, hn]
  cases ps with
  | nil => simp [stateEndValue, stateEndTop, isSpace, readLoop_endValue_top]
  | cons p ps => simp [stateEndValue, isSpace]

theorem readLoop_closeObject (ps : List PState) (s : Scanner)
    (hs : s = ⟨.beginStringOrEmpty, .objectKey :: ps⟩ ∨ s = ⟨.endValue, .objectValue :: ps⟩)
    (x : List Nat) (k : Nat) :
    readLoop s (125 :: x) k = readLoop ⟨.endValue, ps⟩ x (k + 1) := by
  have hn : s.next 125 = (⟨if ps = [] then .endTop else .endValue, ps⟩, .scanEndObject) := by
    rcases hs with rfl | rfl <;> simp [Scanner.next, stateEndValue, isSpace]
  rw [readLoop, hn]
  cases ps with
  | nil => simp [stateEndValue, stateEndTop, isSpace, readLoop_endValue_top]
  | cons p ps => simp [stateEndValue, isSpace]

theorem readLoop_step (s s1 : Scanner) (c : Nat) (op : Op) (x : List Nat) (k : Nat)
    (h : s.next c = (s1, op))
    (hop : op ≠ .scanEnd ∧ op ≠ .scanEndObject ∧ op ≠ .scanEndArray ∧ op ≠ .scanError) :
    readLoop s (c :: x) k = readLoop s1 x (k + 1) := by
  rw [readLoop, h]
  simp [hop.1, hop.2.1, hop.2.2.1, hop.2.2.2]

mutual
/-- The scanner runs over the text of a well-formed value and is then in the state after a
value, with the same stack. -/
theorem readLoop_value : ∀ (v : JV) (ps : List PState) (k : Nat) (x : List Nat),
    v.ok = true → ps.length + v.depth ≤ maxNestingDepth → Follow x →
    readLoop ⟨.beginValue, ps⟩ (v.text ++ x) k = readLoop ⟨.endValue, ps⟩ x (k + v.text.length)
  | .str cs, ps, k, x, hok, _, _ => by
    simp only [JV.text]
    exact readLoop_str ⟨.beginValue, ps⟩ (quote_beginValue ps _) cs (by simpa [JV.ok] using hok) x k
  | .num n, ps, k, x, hok, _, hx => by
    simp only [JV.text]
    exact readLoop_num ps n (by simpa [JV.ok] using hok) x hx.numEnd k
  | .tru, ps, k, x, _, _, _ => by
    simp [JV.text, readLoop, Scanner.next, stateBeginValue, isSpace, expectByte]
  | .fls, ps, k, x, _, _, _ => by
    simp [JV.text, readLoop, Scanner.next, stateBeginValue, isSpace, expectByte]
  | .nul, ps, k, x, _, _, _ => by
    simp [JV.text, readLoop, Scanner.next, stateBeginValue, isSpace, expectByte]
  | .arr es w, ps, k, x, hok, hd, _ => by
    simp only [JV.ok, Bool.and_eq_true] at hok
    simp only [JV.depth] at hd
    simp only [JV.text, List.cons_append, List.append_assoc, List.singleton_append,
      List.length_cons, List.length_append, List.length_singleton]
    rw [readLoop_step _ ⟨.beginValueOrEmpty, .arrayValue :: ps⟩ 91 .scanBeginArray _ _
      (by
        have : ps.length + 1 ≤ maxNestingDepth := by omega
        simp [Scanner.next, stateBeginValue, isSpace, Scanner.pushParseState, this])
      (by simp)]
    have h1 := readLoop_elems es true ps (k + 1) w x hok.1 hok.2
      (by simp only [List.length_cons]; omega)
    simp only [↓reduceIte] at h1
    simp only [List.nil_append, List.length_nil, Nat.zero_add]
    rw [h1]
    congr 1; omega
  | .obj ms w, ps, k, x, hok, hd, _ => by
    simp only [JV.ok, Bool.and_eq_true] at hok
    simp only [JV.depth] at hd
    simp only [JV.text, List.cons_append, List.append_assoc, List.singleton_append,
      List.length_cons, List.length_append, List.length_singleton]
    rw [readLoop_step _ ⟨.beginStringOrEmpty, .objectKey :: ps⟩ 123 .scanBeginObject _ _
      (by
        have : ps.length + 1 ≤ maxNestingDepth := by omega
        simp [Scanner.next, stateBeginValue, isSpace, Scanner.pushParseState, this])
      (by simp)]
    have h1 := readLoop_members ms true ps (k + 1) w x hok.1 hok.2
      (by simp only [List.length_cons]; omega)
    simp only [↓reduceIte] at h1
    simp only [List.nil_append, List.length_nil, Nat.zero_add]
    rw [h1]
    congr 1; omega
/-- The scanner runs over the elements of an array up to and including the closing bracket. -/
theorem readLoop_elems : ∀ (es : JElems) (first : Bool) (ps : List PState) (k : Nat)
    (w x : List Nat), es.ok = true → wsOk w = true →
    (PState.arrayValue :: ps).length + es.depth ≤ maxNestingDepth →
    readLoop ⟨if first then .beginValueOrEmpty else .endValue, .arrayValue :: ps⟩
        (es.text first ++ (w ++ 93 :: x)) k
      = readLoop ⟨.endValue, ps⟩ x (k + ((es.text first).length + (w.length + 1)))
  | .nil, first, ps, k, w, x, _, hw, _ => by
    have hsk : SkipsSpace ⟨if first then .beginValueOrEmpty else .endValue, .arrayValue :: ps⟩ := by
      cases first
      · exact skips_endValue _ _
      · exact skips_beginValueOrEmpty _
    simp only [JElems.text, List.nil_append, List.length_nil, Nat.zero_add]
    rw [readLoop_ws _ hsk w _ k hw, readLoop_closeArray _ (by cases first <;> simp)]
    congr 1
  | .cons wc wv v tl, first, ps, k, w, x, hok, hw, hd => by
    simp only [JElems.ok, Bool.and_eq_true] at hok
    obtain ⟨⟨⟨hwc, hwv⟩, hv⟩, htl⟩ := hok
    simp only [JElems.depth] at hd
    obtain ⟨c0, t0, ht0, hc0⟩ := value_text_head v hv
    have hvd : (PState.arrayValue :: ps).length + v.depth ≤ maxNestingDepth := by
      have := le_max_left v.depth tl.depth; omega
    have htd : (PState.arrayValue :: ps).length + tl.depth ≤ maxNestingDepth := by
      have := le_max_right v.depth tl.depth; omega
    have hrest := readLoop_elems tl false ps
    have hval := readLoop_value v (.arrayValue :: ps)
    simp only [JElems.text, List.append_assoc, List.length_append]
    cases first with
    | true =>
      simp only [sepText, ↓reduceIte, List.nil_append, List.length_nil]
      rw [readLoop_ws _ (skips_beginValueOrEmpty _) wc _ k hwc,
        readLoop_ws _ (skips_beginValueOrEmpty _) wv _ _ hwv]
      rw [ht0, List.cons_append, readLoop_orEmpty _ c0 _ hc0, ← List.cons_append, ← ht0]
      rw [hval _ _ hv hvd (follow_elems tl htl w hw x)]
      have := hrest (k + wc.length + wv.length + v.text.length) w x htl hw htd
      simp only [Bool.false_eq_true, ↓reduceIte] at this
      rw [this]
      congr 1; omega
    | false =>
      simp only [sepText, Bool.false_eq_true, ↓reduceIte, List.singleton_append,
        List.length_singleton]
      rw [readLoop_ws _ (skips_endValue _ _) wc _ k hwc]
      rw [readLoop_step _ ⟨.beginValue, .arrayValue :: ps⟩ 44 .scanArrayValue _ _
        (by simp [Scanner.next, stateEndValue, isSpace]) (by simp)]
      rw [readLoop_ws _ (skips_beginValue _) wv _ _ hwv]
      rw [hval _ _ hv hvd (follow_elems tl htl w hw x)]
      have := hrest (k + wc.length + 1 + wv.length + v.text.length) w x htl hw htd
      simp only [Bool.false_eq_true, ↓reduceIte] at this
      rw [this]
      congr 1; omega
/-- The scanner runs over the members of an object up to and including the closing brace. -/
theorem readLoop_members : ∀ (ms : JMembers) (first : Bool) (ps : List PState) (k : Nat)
    (w x : List Nat), ms.ok = true → wsOk w = true →
    (PState.objectKey :: ps).length + ms.depth ≤ maxNestingDepth →
    readLoop (if first then ⟨.beginStringOrEmpty, .objectKey :: ps⟩
        else ⟨.endValue, .objectValue :: ps⟩)
        (ms.text first ++ (w ++ 125 :: x)) k
      = readLoop ⟨.endValue, ps⟩ x (k + ((ms.text first).length + (w.length + 1)))
  | .nil, first, ps, k, w, x, _, hw, _ => by
    have hsk : SkipsSpace (if first then ⟨.beginStringOrEmpty, .objectKey :: ps⟩
        else ⟨.endValue, .objectValue :: ps⟩) := by
      cases first
      · exact skips_endValue _ _
      · exact skips_beginStringOrEmpty _
    simp only [JMembers.text, List.nil_append, List.length_nil, Nat.zero_add]
    rw [readLoop_ws _ hsk w _ k hw, readLoop_closeObject ps _ (by cases first <;> simp)]
    congr 1
  | .cons wc wk key wcolon wv v tl, first, ps, k, w, x, hok, hw, hd => by
    simp only [JMembers.ok, Bool.and_eq_true] at hok
    obtain ⟨⟨⟨⟨⟨⟨hwc, hwk⟩, hkey⟩, hwcolon⟩, hwv⟩, hv⟩, htl⟩ := hok
    simp only [JMembers.depth] at hd
    have hvd : (PState.objectValue :: ps).length + v.depth ≤ maxNestingDepth := by
      have := le_max_left v.depth tl.depth
      simp only [List.length_cons] at hd ⊢; omega
    have htd : (PState.objectKey :: ps).length + tl.depth ≤ maxNestingDepth := by
      have := le_max_right v.depth tl.depth; omega
    have hrest := readLoop_members tl false ps
    have hval := readLoop_value v (.objectValue :: ps)
    -- from the key on, the two cases agree
    have hkeyOn : ∀ (s : Scanner) (k1 : Nat), s.parseState = .objectKey :: ps →
        s.next 34 = (⟨.inString, s.parseState⟩, .scanBeginLiteral) →
        readLoop s (strText key ++ (wcolon ++ 58 :: (wv ++ (v.text ++ (tl.text false ++
          (w ++ 125 :: x)))))) k1
        = readLoop ⟨.endValue, ps⟩ x (k1 + (strText key).length + wcolon.length + 1 + wv.length
            + v.text.length + (tl.text false).length + w.length + 1) := by
      intro s k1 hps hq
      rw [readLoop_str s hq key hkey, hps]
      rw [readLoop_ws _ (skips_endValue _ _) wcolon _ _ hwcolon]
      rw [readLoop_step _ ⟨.beginValue, .objectValue :: ps⟩ 58 .scanObjectKey _ _
        (by simp [Scanner.next, stateEndValue, isSpace]) (by simp)]
      rw [readLoop_ws _ (skips_beginValue _) wv _ _ hwv]
      rw [hval _ _ hv hvd (follow_members tl htl w hw x)]
      have := hrest (k1 + (strText key).length + wcolon.length + 1 + wv.length + v.text.length)
        w x htl hw htd
      simp only [Bool.false_eq_true, ↓reduceIte] at this
      rw [this]
      congr 1; omega
    simp only [JMembers.text, List.append_assoc, List.cons_append, List.length_append,
      List.length_cons]
    cases first with
    | true =>
      simp only [sepText, ↓reduceIte, List.nil_append, List.length_nil]
      rw [readLoop_ws _ (skips_beginStringOrEmpty _) wc _ k hwc,
        readLoop_ws _ (skips_beginStringOrEmpty _) wk _ _ hwk]
      rw [hkeyOn _ _ rfl (by simp [Scanner.next, stateBeginString, isSpace])]
      congr 1; omega
    | false =>
      simp only [sepText, Bool.false_eq_true, ↓reduceIte, List.singleton_append,
        List.length_singleton]
      rw [readLoop_ws _ (skips_endValue _ _) wc _ k hwc]
      rw [readLoop_step _ ⟨.beginString, .objectKey :: ps⟩ 44 .scanObjectValue _ _
        (by simp [Scanner.next, stateEndValue, isSpace]) (by simp)]
      rw [readLoop_ws _ (skips_beginString _) wk _ _ hwk]
      rw [hkeyOn _ _ rfl (by simp [Scanner.next, stateBeginString, isSpace])]
      congr 1; omega
end



/-! ## `readValue`, `Decode` and `Token` on well-formed text -/

theorem readValue_value (v : JV) (hv : v.ok = true) (hd : v.depth ≤ maxNestingDepth)
    (w x : List Nat) (hw : wsOk w = true) (hx : Follow x) :
    readValue (w ++ (v.text ++ x)) = some (w.length + v.text.length) := by
  unfold readValue Scanner.reset
  rw [readLoop_ws _ (skips_beginValue _) w _ 0 hw,
    readLoop_value v [] _ x hv (by simpa using hd) hx, readLoop_endValue_top]
  simp

theorem dropWhile_ws_value (v : JV) (hv : v.ok = true) (w : List Nat) (hw : wsOk w = true) :
    (w ++ v.text).dropWhile isSpace = v.text := by
  obtain ⟨c, t, ht, hc⟩ := value_text_head v hv
  have hsp := valueStart_not_space c hc
  induction w with
  | nil => simp [ht, hsp]
  | cons a w ih =>
    simp only [wsOk, List.all_cons, Bool.and_eq_true] at hw
    simp only [List.cons_append, List.dropWhile_cons, hw.1, ↓reduceIte]
    exact ih (by simpa [wsOk] using hw.2)

/-- Decoding a raw message at white space followed by a well-formed value returns the text of
that value. -/
theorem decodeRaw_value (v : JV) (hv : v.ok = true) (hd : v.depth ≤ maxNestingDepth)
    (w x : List Nat) (hw : wsOk w = true) (hx : Follow x) :
    decodeRaw (w ++ (v.text ++ x)) = some v.text := by
  unfold decodeRaw
  rw [readValue_value v hv hd w x hw hx]
  simp only [Option.some.injEq]
  have : (w ++ (v.text ++ x)).take (w.length + v.text.length) = w ++ v.text := by
    rw [← List.append_assoc, ← List.length_append, List.take_left']
    rfl
  rw [this, dropWhile_ws_value v hv w hw]

theorem tokenLoop_ws (L : Lib) (w x : List Nat) (hw : wsOk w = true) (off : Nat)
    (st : TokState) (stk : List TokState) :
    tokenLoop L (w ++ x) off st stk = tokenLoop L x (off + w.length) st stk := by
  induction w generalizing off with
  | nil => simp
  | cons c w ih =>
    simp only [wsOk, List.all_cons, Bool.and_eq_true] at hw
    rw [List.cons_append]
    conv_lhs => unfold tokenLoop
    simp only [hw.1, ↓reduceIte, List.length_cons]
    rw [ih (by simpa [wsOk] using hw.2)]
    congr 1; omega

theorem scalarTok_not_delim (L : Lib) (v : JV) (d : Nat) : scalarTok L v ≠ .delim d := by
  cases v <;> simp [scalarTok]

theorem scalarToken_scalar (L : Lib) (v : JV) (hs : v.isScalar = true) (hv : v.ok = true)
    (hf : v.floatsOk L = true) : scalarToken L v.text = some (scalarTok L v) := by
  cases v with
  | str cs => simp [JV.text, strText, scalarToken, scalarTok]
  | num n =>
    obtain ⟨c, t, ht, hc⟩ := num_text_head n (by simpa [JV.ok] using hv)
    have hf' : L.floatOk (c :: t) = true := by rw [← ht]; simpa [JV.floatsOk] using hf
    have : c ≠ 34 ∧ ¬ (c = 110 ∨ c = 116 ∨ c = 102) := by
      rcases hc with rfl | hc
      · simp
      · simp only [isDigit, Bool.and_eq_true, decide_eq_true_eq] at hc; omega
    simp [JV.text, ht, scalarToken, scalarTok, this.1, this.2, hf']
  | tru => simp [JV.text, scalarToken, scalarTok]
  | fls => simp [JV.text, scalarToken, scalarTok]
  | nul => simp [JV.text, scalarToken, scalarTok]
  | arr es w => simp [JV.isScalar] at hs
  | obj ms w => simp [JV.isScalar] at hs

theorem scalar_head (v : JV) (hs : v.isScalar = true) (hv : v.ok = true) :
    ∃ c t, v.text = c :: t ∧ isSpace c = false ∧ c ≠ 91 ∧ c ≠ 93 ∧ c ≠ 123 ∧ c ≠ 125 ∧
      c ≠ 58 ∧ c ≠ 44 := by
  obtain ⟨c, t, ht, hc⟩ := value_text_head v hv
  refine ⟨c, t, ht, valueStart_not_space c hc, ?_⟩
  have h91 : c ≠ 91 ∧ c ≠ 123 := by
    cases v with
    | str cs => simp only [JV.text, strText, List.cons.injEq] at ht; omega
    | num n =>
      obtain ⟨c1, t1, ht1, hc1⟩ := num_text_head n (by simpa [JV.ok] using hv)
      simp only [JV.text] at ht
      rw [ht1] at ht
      simp only [List.cons.injEq] at ht
      obtain ⟨rfl, -⟩ := ht
      rcases hc1 with rfl | hc1
      · simp
      · simp only [isDigit, Bool.and_eq_true, decide_eq_true_eq] at hc1; omega
    | tru => simp only [JV.text, List.cons.injEq] at ht; omega
    | fls => simp only [JV.text, List.cons.injEq] at ht; omega
    | nul => simp only [JV.text, List.cons.injEq] at ht; omega
    | arr es w => simp [JV.isScalar] at hs
    | obj ms w => simp [JV.isScalar] at hs
  simp only [valueStart, isDigit, Bool.or_eq_true, decide_eq_true_eq, Bool.and_eq_true] at hc
  omega

theorem not_key_state (st : TokState) (h : tokenValueAllowed st = true) :
    ¬ (st = .objectStart ∨ st = .objectKey) := by
  cases st <;> simp [tokenValueAllowed] at h ⊢

/-- `Token` at the text of a scalar value, in a state that allows a value. -/
theorem tokenLoop_scalar (L : Lib) (v : JV) (hs : v.isScalar = true) (hv : v.ok = true)
    (hf : v.floatsOk L = true) (x : List Nat) (hx : Follow x) (off : Nat) (st : TokState)
    (stk : List TokState) (hst : tokenValueAllowed st = true) :
    tokenLoop L (v.text ++ x) off st stk
      = some (scalarTok L v, ⟨x, off + v.text.length, tokenValueEnd st, stk⟩) := by
  obtain ⟨c, t, ht, hsp, h1, h2, h3, h4, h5, h6⟩ := scalar_head v hs hv
  have hd : v.depth ≤ maxNestingDepth := by
    cases v <;> simp [JV.depth, JV.isScalar] at hs ⊢
  have hrv := readValue_value v hv hd [] x rfl hx
  simp only [List.nil_append, List.length_nil, Nat.zero_add] at hrv
  have hnk := not_key_state st hst
  have htake : (v.text ++ x).take v.text.length = v.text := List.take_left' rfl
  have hdrop : (v.text ++ x).drop v.text.length = x := List.drop_left' rfl
  have hsc := scalarToken_scalar L v hs hv hf
  rw [ht] at hrv htake hdrop hsc ⊢
  rw [List.cons_append] at hrv htake hdrop ⊢
  conv_lhs => unfold tokenLoop
  simp only [hsp, h1, h2, h3, h4, h5, h6, hnk, hst, hrv, htake, hdrop, hsc, and_false,
    Bool.false_eq_true, ↓reduceIte]

/-- `Token` at the text of an object key, where a key is expected. -/
theorem tokenLoop_key (L : Lib) (key : List SChar) (hk : key.all SChar.ok = true)
    (x : List Nat) (off : Nat) (st : TokState) (stk : List TokState)
    (hst : st = .objectStart ∨ st = .objectKey) :
    tokenLoop L (strText key ++ x) off st stk
      = some (.str (L.unquote (strText key)), ⟨x, off + (strText key).length, .objectColon, stk⟩) := by
  have hrl := readLoop_str ⟨.beginValue, []⟩ (quote_beginValue [] _) key hk x 0
  rw [readLoop_endValue_top] at hrl
  have hrv : readValue (strText key ++ x) = some (strText key).length := by
    unfold readValue Scanner.reset
    rw [hrl]; simp
  have htake : (strText key ++ x).take (strText key).length = strText key := List.take_left' rfl
  have hdrop : (strText key ++ x).drop (strText key).length = x := List.drop_left' rfl
  generalize hlen : (strText key).length = n at hrv htake hdrop ⊢
  obtain ⟨t, ht⟩ : ∃ t, strText key = 34 :: t := ⟨_, rfl⟩
  rw [ht] at hrv htake hdrop ⊢
  rw [List.cons_append] at hrv htake hdrop ⊢
  conv_lhs => unfold tokenLoop
  simp [isSpace, hst, hrv, htake, hdrop]

theorem tokenLoop_open (L : Lib) (c : Nat) (hc : c = 91 ∨ c = 123) (x : List Nat) (off : Nat)
    (st : TokState) (stk : List TokState) (hst : tokenValueAllowed st = true)
    (hd : stk.length + 1 ≤ maxNestingDepth) :
    tokenLoop L (c :: x) off st stk
      = some (.delim c, ⟨x, off + 1, if c = 91 then .arrayStart else .objectStart, st :: stk⟩) := by
  rcases hc with rfl | rfl <;> simp [tokenLoop, isSpace, hst, hd]

/-- `Token` at an opening bracket nested deeper than `maxNestingDepth` returns an error. -/
theorem tokenLoop_open_deep (L : Lib) (c : Nat) (hc : c = 91 ∨ c = 123) (x : List Nat)
    (off : Nat) (st : TokState) (stk : List TokState)
    (hd : ¬ stk.length + 1 ≤ maxNestingDepth) :
    tokenLoop L (c :: x) off st stk = none := by
  rcases hc with rfl | rfl <;> simp [tokenLoop, isSpace, hd]

theorem tokenLoop_closeArray (L : Lib) (x : List Nat) (off : Nat) (st top : TokState)
    (stk : List TokState) (hst : st = .arrayStart ∨ st = .arrayComma) :
    tokenLoop L (93 :: x) off st (top :: stk)
      = some (.delim 93, ⟨x, off + 1, tokenValueEnd top, stk⟩) := by
  simp [tokenLoop, isSpace, hst]

theorem tokenLoop_closeObject (L : Lib) (x : List Nat) (off : Nat) (st top : TokState)
    (stk : List TokState) (hst : st = .objectStart ∨ st = .objectComma) :
    tokenLoop L (125 :: x) off st (top :: stk)
      = some (.delim 125, ⟨x, off + 1, tokenValueEnd top, stk⟩) := by
  simp [tokenLoop, isSpace, hst]

theorem tokenLoop_colon (L : Lib) (x : List Nat) (off : Nat) (stk : List TokState) :
    tokenLoop L (58 :: x) off .objectColon stk = tokenLoop L x (off + 1) .objectValue stk := by
  conv_lhs => unfold tokenLoop
  simp [isSpace]

theorem tokenLoop_comma_array (L : Lib) (x : List Nat) (off : Nat) (stk : List TokState) :
    tokenLoop L (44 :: x) off .arrayComma stk = tokenLoop L x (off + 1) .arrayValue stk := by
  conv_lhs => unfold tokenLoop
  simp [isSpace]

theorem tokenLoop_comma_object (L : Lib) (x : List Nat) (off : Nat) (stk : List TokState) :
    tokenLoop L (44 :: x) off .objectComma stk = tokenLoop L x (off + 1) .objectKey stk := by
  conv_lhs => unfold tokenLoop
  simp [isSpace]

/-! ## The walk on well-formed text -/



theorem registerAll_nil (c : Context) : registerAll c [] = c := rfl

theorem registerAll_cons (c : Context) (e : Entry) (es : List Entry) :
    registerAll c (e :: es) = registerAll (c.Register e.path e.pos) es := rfl

theorem registerAll_append (c : Context) (es fs : List Entry) :
    registerAll c (es ++ fs) = registerAll (registerAll c es) fs := by
  simp [registerAll, List.foldl_append]

theorem registerAll_data (c : Context) (es : List Entry) : (registerAll c es).data = c.data := by
  induction es generalizing c with
  | nil => rfl
  | cons e es ih => rw [registerAll_cons, ih, register_data]

theorem elemPrefix (L : Lib) (wc wv y : List Nat) (hwc : wsOk wc = true) (hwv : wsOk wv = true)
    (i off : Nat) (stk : List TokState) :
    tokenLoop L (wc ++ (sepText (decide (i = 0)) ++ (wv ++ y))) off
        (if i = 0 then .arrayStart else .arrayComma) stk
      = tokenLoop L y (off + (wc ++ (sepText (decide (i = 0)) ++ wv)).length)
          (if i = 0 then .arrayStart else .arrayValue) stk := by
  by_cases hi : i = 0
  · simp only [hi, decide_True, sepText, ↓reduceIte, List.nil_append]
    rw [tokenLoop_ws L wc _ hwc, tokenLoop_ws L wv _ hwv]
    congr 1; simp; omega
  · simp only [hi, decide_False, sepText, Bool.false_eq_true, ↓reduceIte, List.singleton_append]
    rw [tokenLoop_ws L wc _ hwc, tokenLoop_comma_array, tokenLoop_ws L wv _ hwv]
    congr 1; simp; omega

theorem memberPrefix (L : Lib) (wc wk y : List Nat) (hwc : wsOk wc = true) (hwk : wsOk wk = true)
    (first : Bool) (off : Nat) (stk : List TokState) :
    tokenLoop L (wc ++ (sepText first ++ (wk ++ y))) off
        (if first then .objectStart else .objectComma) stk
      = tokenLoop L y (off + (wc ++ (sepText first ++ wk)).length)
          (if first then .objectStart else .objectKey) stk := by
  cases first with
  | true =>
    simp only [sepText, ↓reduceIte, List.nil_append]
    rw [tokenLoop_ws L wc _ hwc, tokenLoop_ws L wk _ hwk]
    congr 1; simp; omega
  | false =>
    simp only [sepText, Bool.false_eq_true, ↓reduceIte, List.singleton_append]
    rw [tokenLoop_ws L wc _ hwc, tokenLoop_comma_object, tokenLoop_ws L wk _ hwk]
    congr 1; simp; omega

theorem valuePrefix (L : Lib) (wcolon wv y : List Nat) (h1 : wsOk wcolon = true)
    (h2 : wsOk wv = true) (off : Nat) (stk : List TokState) :
    tokenLoop L (wcolon ++ 58 :: (wv ++ y)) off .objectColon stk
      = tokenLoop L y (off + (wcolon ++ 58 :: wv).length) .objectValue stk := by
  rw [tokenLoop_ws L wcolon _ h1, tokenLoop_colon, tokenLoop_ws L wv _ h2]
  congr 1; simp; omega

/-- The end of the loop of `parseObject`: the closing brace. -/
theorem parseObject_close (L : Lib) (fuel : Nat) (c : Context) (w x : List Nat)
    (hw : wsOk w = true) (off : Nat) (first : Bool) (top : TokState) (stk : List TokState)
    (path : List Nat) :
    parseObject L (fuel + 1) c
        ⟨w ++ 125 :: x, off, if first then .objectStart else .objectComma, top :: stk⟩ path
      = .ok (c, ⟨x, off + w.length + 1, tokenValueEnd top, stk⟩) := by
  have ht : tokenLoop L (w ++ 125 :: x) off (if first then .objectStart else .objectComma)
      (top :: stk) = some (.delim 125, ⟨x, off + w.length + 1, tokenValueEnd top, stk⟩) := by
    rw [tokenLoop_ws L w _ hw, tokenLoop_closeObject L _ _ _ _ _ (by cases first <;> simp)]
  simp [parseObject, Decoder.Token, ht]

/-- One round of the loop of `parseObject`: the key is read and `parse` is called on the value. -/
theorem parseObject_member (L : Lib) (fuel : Nat) (c : Context) (wc wk : List Nat)
    (key : List SChar) (y : List Nat) (hwc : wsOk wc = true) (hwk : wsOk wk = true)
    (hkey : key.all SChar.ok = true) (off : Nat) (first : Bool) (stk : List TokState)
    (path : List Nat) :
    parseObject L (fuel + 1) c
        ⟨wc ++ (sepText first ++ (wk ++ (strText key ++ y))), off,
          if first then .objectStart else .objectComma, stk⟩ path
      = (parse L fuel c
            ⟨y, off + (wc ++ (sepText first ++ (wk ++ strText key))).length, .objectColon, stk⟩
            (keyPath path (L.unquote (strText key)))).bind
          (fun r => parseObject L fuel r.1 r.2 path) := by
  have ht : tokenLoop L (wc ++ (sepText first ++ (wk ++ (strText key ++ y)))) off
      (if first then .objectStart else .objectComma) stk
      = some (.str (L.unquote (strText key)),
          ⟨y, off + (wc ++ (sepText first ++ (wk ++ strText key))).length, .objectColon, stk⟩) := by
    rw [memberPrefix L wc wk _ hwc hwk, tokenLoop_key L key hkey _ _ _ _ (by cases first <;> simp)]
    simp only [List.length_append, Option.some.injEq, Prod.mk.injEq, true_and, Decoder.mk.injEq,
      and_true]
    omega
  conv_lhs => unfold parseObject
  simp only [Decoder.Token, ht]
  generalize parse L fuel c _ _ = r
  rcases r with ⟨c1, d1⟩ | _ | _ | _ <;> rfl

/-- The end of the loop of `parseArray`: the closing bracket. -/
theorem parseArray_close (L : Lib) (fuel : Nat) (c : Context) (w x : List Nat)
    (hw : wsOk w = true) (off i : Nat) (top : TokState) (stk : List TokState)
    (path : List Nat) (hlen : off + 1 ≤ c.data.length) :
    parseArray L (fuel + 1) c
        ⟨w ++ 93 :: x, off, if i = 0 then .arrayStart else .arrayComma, top :: stk⟩ path i
      = .ok (c, ⟨x, off + w.length + 1, tokenValueEnd top, stk⟩) := by
  have ht : tokenLoop L (w ++ 93 :: x) off (if i = 0 then .arrayStart else .arrayComma)
      (top :: stk) = some (.delim 93, ⟨x, off + w.length + 1, tokenValueEnd top, stk⟩) := by
    rw [tokenLoop_ws L w _ hw, tokenLoop_closeArray L _ _ _ _ _ (by split <;> simp)]
  have hp : ¬ (0 < i ∧ c.data.length < off + 1) := by omega
  simp [parseArray, Decoder.Token, Decoder.InputOffset, ht, hp]

theorem arr_text_append (es : JElems) (w x : List Nat) :
    (JV.arr es w).text ++ x = 91 :: (es.text true ++ (w ++ 93 :: x)) := by
  simp [JV.text]

theorem obj_text_append (ms : JMembers) (w x : List Nat) :
    (JV.obj ms w).text ++ x = 123 :: (ms.text true ++ (w ++ 125 :: x)) := by
  simp [JV.text]

/-- `parse` on a scalar value: the value is registered and the call returns. -/
theorem parse_scalar (L : Lib) (fuel : Nat) (c : Context) (pre x : List Nat) (v : JV)
    (hs : v.isScalar = true) (hv : v.ok = true) (hf : v.floatsOk L = true) (hx : Follow x)
    (off : Nat) (st0 st : TokState) (stk : List TokState) (path : List Nat)
    (hpre : ∀ y, tokenLoop L (pre ++ y) off st0 stk = tokenLoop L y (off + pre.length) st stk)
    (hst : tokenValueAllowed st = true) (hlen : off + 1 ≤ c.data.length) :
    parse L (fuel + 1) c ⟨pre ++ (v.text ++ x), off, st0, stk⟩ path
      = .ok (c.Register path (skipOneSpace c.data (off + 1)),
          ⟨x, off + pre.length + v.text.length, tokenValueEnd st, stk⟩) := by
  have ht := tokenLoop_scalar L v hs hv hf x hx (off + pre.length) st stk hst
  rw [← hpre] at ht
  have hp : ¬ c.data.length < off + 1 := by omega
  have hnd := scalarTok_not_delim L v
  conv_lhs => unfold parse
  simp only [Decoder.Token, Decoder.InputOffset, hp, ↓reduceIte, ht]

/-- `parse` on an array: the array is registered and `parseArray` runs on its elements. -/
theorem parse_arr (L : Lib) (fuel : Nat) (c : Context) (pre y : List Nat)
    (off : Nat) (st0 st : TokState) (stk : List TokState) (path : List Nat)
    (hpre : ∀ y, tokenLoop L (pre ++ y) off st0 stk = tokenLoop L y (off + pre.length) st stk)
    (hst : tokenValueAllowed st = true) (hlen : off + 1 ≤ c.data.length)
    (hd : stk.length + 1 ≤ maxNestingDepth) :
    parse L (fuel + 1) c ⟨pre ++ 91 :: y, off, st0, stk⟩ path
      = parseArray L fuel (c.Register path (skipOneSpace c.data (off + 1)))
          ⟨y, off + pre.length + 1, .arrayStart, st :: stk⟩ path 0 := by
  have ht := tokenLoop_open L 91 (Or.inl rfl) y (off + pre.length) st stk hst hd
  rw [← hpre] at ht
  have hp : ¬ c.data.length < off + 1 := by omega
  conv_lhs => unfold parse
  simp [Decoder.Token, Decoder.InputOffset, hp, ht]

/-- `parse` on an object: the object is registered and `parseObject` runs on its members. -/
theorem parse_obj (L : Lib) (fuel : Nat) (c : Context) (pre y : List Nat)
    (off : Nat) (st0 st : TokState) (stk : List TokState) (path : List Nat)
    (hpre : ∀ y, tokenLoop L (pre ++ y) off st0 stk = tokenLoop L y (off + pre.length) st stk)
    (hst : tokenValueAllowed st = true) (hlen : off + 1 ≤ c.data.length)
    (hd : stk.length + 1 ≤ maxNestingDepth) :
    parse L (fuel + 1) c ⟨pre ++ 123 :: y, off, st0, stk⟩ path
      = parseObject L fuel (c.Register path (skipOneSpace c.data (off + 1)))
          ⟨y, off + pre.length + 1, .objectStart, st :: stk⟩ path := by
  have ht := tokenLoop_open L 123 (Or.inr rfl) y (off + pre.length) st stk hst hd
  rw [← hpre] at ht
  have hp : ¬ c.data.length < off + 1 := by omega
  conv_lhs => unfold parse
  simp [Decoder.Token, Decoder.InputOffset, hp, ht]

theorem elem_state_allowed (i : Nat) :
    tokenValueAllowed (if i = 0 then TokState.arrayStart else TokState.arrayValue) = true := by
  split <;> rfl

theorem elem_state_end (i : Nat) :
    tokenValueEnd (if i = 0 then TokState.arrayStart else TokState.arrayValue) = .arrayComma := by
  split <;> rfl

/-- One round of the loop of `parseArray` on a scalar element. -/
theorem parseArray_scalar (L : Lib) (fuel : Nat) (c : Context) (wc wv y : List Nat) (v : JV)
    (hwc : wsOk wc = true) (hwv : wsOk wv = true)
    (hs : v.isScalar = true) (hv : v.ok = true) (hf : v.floatsOk L = true) (hy : Follow y)
    (off i : Nat) (stk : List TokState) (path : List Nat) (hlen : off + 1 ≤ c.data.length) :
    parseArray L (fuel + 1) c
        ⟨wc ++ (sepText (decide (i = 0)) ++ (wv ++ (v.text ++ y))), off,
          if i = 0 then .arrayStart else .arrayComma, stk⟩ path i
      = parseArray L fuel
          (c.Register (elemPath path i) (if 0 < i then skipOneSpace c.data (off + 1) else off))
          ⟨y, off + (wc ++ (sepText (decide (i = 0)) ++ wv)).length + v.text.length,
            .arrayComma, stk⟩ path (i + 1) := by
  have ht := tokenLoop_scalar L v hs hv hf y hy
    (off + (wc ++ (sepText (decide (i = 0)) ++ wv)).length) _ stk (elem_state_allowed i)
  rw [← elemPrefix L wc wv _ hwc hwv, elem_state_end] at ht
  have hp : ¬ (0 < i ∧ c.data.length < off + 1) := by omega
  have hnd := scalarTok_not_delim L v
  conv_lhs => unfold parseArray
  simp only [Decoder.Token, Decoder.InputOffset, hp, ↓reduceIte, ht]

/-- One round of the loop of `parseArray` on an element that is an array. -/
theorem parseArray_arr (L : Lib) (fuel : Nat) (c : Context) (wc wv y : List Nat)
    (hwc : wsOk wc = true) (hwv : wsOk wv = true)
    (off i : Nat) (stk : List TokState) (path : List Nat) (hlen : off + 1 ≤ c.data.length)
    (hd : stk.length + 1 ≤ maxNestingDepth) :
    parseArray L (fuel + 1) c
        ⟨wc ++ (sepText (decide (i = 0)) ++ (wv ++ 91 :: y)), off,
          if i = 0 then .arrayStart else .arrayComma, stk⟩ path i
      = (parseArray L fuel
          (c.Register (elemPath path i) (if 0 < i then skipOneSpace c.data (off + 1) else off))
          ⟨y, off + (wc ++ (sepText (decide (i = 0)) ++ wv)).length + 1, .arrayStart,
            (if i = 0 then .arrayStart else .arrayValue) :: stk⟩ (elemPath path i) 0).bind
          (fun r => parseArray L fuel r.1 r.2 path (i + 1)) := by
  have ht := tokenLoop_open L 91 (Or.inl rfl) y
    (off + (wc ++ (sepText (decide (i = 0)) ++ wv)).length) _ stk (elem_state_allowed i) hd
  rw [← elemPrefix L wc wv _ hwc hwv] at ht
  have hp : ¬ (0 < i ∧ c.data.length < off + 1) := by omega
  conv_lhs => unfold parseArray
  simp only [Decoder.Token, Decoder.InputOffset, hp, ↓reduceIte, ht]
  simp only [Nat.reduceEqDiff, ↓reduceIte]
  generalize parseArray L fuel _ _ _ 0 = r
  rcases r with ⟨c1, d1⟩ | _ | _ | _ <;> rfl

/-- One round of the loop of `parseArray` on an element that is an object. -/
theorem parseArray_obj (L : Lib) (fuel : Nat) (c : Context) (wc wv y : List Nat)
    (hwc : wsOk wc = true) (hwv : wsOk wv = true)
    (off i : Nat) (stk : List TokState) (path : List Nat) (hlen : off + 1 ≤ c.data.length)
    (hd : stk.length + 1 ≤ maxNestingDepth) :
    parseArray L (fuel + 1) c
        ⟨wc ++ (sepText (decide (i = 0)) ++ (wv ++ 123 :: y)), off,
          if i = 0 then .arrayStart else .arrayComma, stk⟩ path i
      = (parseObject L fuel
          (c.Register (elemPath path i) (if 0 < i then skipOneSpace c.data (off + 1) else off))
          ⟨y, off + (wc ++ (sepText (decide (i = 0)) ++ wv)).length + 1, .objectStart,
            (if i = 0 then .arrayStart else .arrayValue) :: stk⟩ (elemPath path i)).bind
          (fun r => parseArray L fuel r.1 r.2 path (i + 1)) := by
  have ht := tokenLoop_open L 123 (Or.inr rfl) y
    (off + (wc ++ (sepText (decide (i = 0)) ++ wv)).length) _ stk (elem_state_allowed i) hd
  rw [← elemPrefix L wc wv _ hwc hwv] at ht
  have hp : ¬ (0 < i ∧ c.data.length < off + 1) := by omega
  conv_lhs => unfold parseArray
  simp only [Decoder.Token, Decoder.InputOffset, hp, ↓reduceIte, ht]
  simp only [Nat.reduceEqDiff, ↓reduceIte]
  generalize parseObject L fuel _ _ _ = r
  rcases r with ⟨c1, d1⟩ | _ | _ | _ <;> rfl

theorem valueWalk_scalar (L : Lib) (v : JV) (hs : v.isScalar = true) : ValueWalk L v := by
  intro fuel c pre x off st0 st stk path hv hf hx hpre hst _ hlen hfuel
  obtain ⟨c0, t0, ht0, -⟩ := value_text_head v hv
  obtain ⟨f, rfl⟩ : ∃ f, fuel = f + 1 := ⟨fuel - 1, by omega⟩
  have h1 : off + 1 ≤ c.data.length := by
    rw [← hlen, ht0]; simp only [List.length_append, List.length_cons]; omega
  rw [parse_scalar L f c pre x v hs hv hf hx off st0 st stk path hpre hst h1]
  have : v.inner L c.data path (off + pre.length) = [] := by
    cases v <;> simp [JV.isScalar] at hs <;> rfl
  rw [this, registerAll_nil]

theorem valueWalk_arr (L : Lib) (es : JElems) (w : List Nat) (ih : ElemsWalk L es) :
    ValueWalk L (.arr es w) := by
  intro fuel c pre x off st0 st stk path hv hf hx hpre hst hdep hlen hfuel
  simp only [JV.ok, Bool.and_eq_true] at hv
  simp only [JV.floatsOk] at hf
  simp only [JV.depth] at hdep
  obtain ⟨f, rfl⟩ : ∃ f, fuel = f + 1 := ⟨fuel - 1, by omega⟩
  rw [arr_text_append] at hlen ⊢
  have h1 : off + 1 ≤ c.data.length := by
    rw [← hlen]; simp only [List.length_append, List.length_cons]; omega
  rw [parse_arr L f c pre _ off st0 st stk path hpre hst h1 (by omega)]
  have := ih f (c.Register path (skipOneSpace c.data (off + 1))) w x (off + pre.length + 1) 0 st
    stk path hv.1 hf hv.2 (by omega)
    (by
      rw [register_data, ← hlen]
      simp only [decide_True, List.length_append, List.length_cons]; omega)
    (by
      simp only [JV.text, List.length_append, List.length_cons, decide_True,
        List.length_singleton] at hfuel ⊢
      omega)
  simp only [decide_True, ↓reduceIte, register_data] at this
  rw [this]
  simp only [JV.inner, JV.text, List.length_append, List.length_cons, List.length_singleton,
    List.length_nil, Res.ok.injEq, Prod.mk.injEq, true_and, Decoder.mk.injEq, and_true]
  omega

theorem valueWalk_obj (L : Lib) (ms : JMembers) (w : List Nat) (ih : MembersWalk L ms) :
    ValueWalk L (.obj ms w) := by
  intro fuel c pre x off st0 st stk path hv hf hx hpre hst hdep hlen hfuel
  simp only [JV.ok, Bool.and_eq_true] at hv
  simp only [JV.floatsOk] at hf
  simp only [JV.depth] at hdep
  obtain ⟨f, rfl⟩ : ∃ f, fuel = f + 1 := ⟨fuel - 1, by omega⟩
  rw [obj_text_append] at hlen ⊢
  have h1 : off + 1 ≤ c.data.length := by
    rw [← hlen]; simp only [List.length_append, List.length_cons]; omega
  rw [parse_obj L f c pre _ off st0 st stk path hpre hst h1 (by omega)]
  have := ih f (c.Register path (skipOneSpace c.data (off + 1))) w x (off + pre.length + 1) true
    st stk path hv.1 hf hv.2 (by omega)
    (by
      rw [register_data, ← hlen]
      simp only [List.length_append, List.length_cons]; omega)
    (by
      simp only [JV.text, List.length_append, List.length_cons,
        List.length_singleton] at hfuel ⊢
      omega)
  simp only [↓reduceIte, register_data] at this
  rw [this]
  simp only [JV.inner, JV.text, List.length_append, List.length_cons, List.length_singleton,
    List.length_nil, Res.ok.injEq, Prod.mk.injEq, true_and, Decoder.mk.injEq, and_true]
  omega

theorem elemsWalk_nil (L : Lib) : ElemsWalk L .nil := by
  intro fuel c w x off i top stk path _ _ hw _ hlen hfuel
  obtain ⟨f, rfl⟩ : ∃ f, fuel = f + 1 := ⟨fuel - 1, by omega⟩
  simp only [JElems.text, List.nil_append] at hlen ⊢
  have h1 : off + 1 ≤ c.data.length := by
    rw [← hlen]; simp only [List.length_append, List.length_cons]; omega
  rw [parseArray_close L f c w x hw off i top stk path h1]
  simp [JElems.entries, registerAll_nil]

theorem membersWalk_nil (L : Lib) : MembersWalk L .nil := by
  intro fuel c w x off first top stk path _ _ hw _ hlen hfuel
  obtain ⟨f, rfl⟩ : ∃ f, fuel = f + 1 := ⟨fuel - 1, by omega⟩
  simp only [JMembers.text, List.nil_append] at hlen ⊢
  rw [parseObject_close L f c w x hw off first top stk path]
  simp [JMembers.entries, registerAll_nil]

theorem Res.bind_ok {α β : Type} (a : α) (f : α → Res β) : (Res.ok a).bind f = f a := rfl

theorem elems_cons_text (wc wv : List Nat) (v : JV) (tl : JElems) (b : Bool) (z : List Nat) :
    (JElems.cons wc wv v tl).text b ++ z
      = wc ++ (sepText b ++ (wv ++ (v.text ++ (tl.text false ++ z)))) := by
  simp [JElems.text]

theorem members_cons_text (wc wk : List Nat) (key : List SChar) (wcolon wv : List Nat) (v : JV)
    (tl : JMembers) (b : Bool) (z : List Nat) :
    (JMembers.cons wc wk key wcolon wv v tl).text b ++ z
      = wc ++ (sepText b ++ (wk ++ (strText key ++
          ((wcolon ++ 58 :: wv) ++ (v.text ++ (tl.text false ++ z)))))) := by
  simp [JMembers.text]

theorem elemsWalk_cons_scalar (L : Lib) (wc wv : List Nat) (v : JV) (tl : JElems)
    (hs : v.isScalar = true) (ih : ElemsWalk L tl) : ElemsWalk L (.cons wc wv v tl) := by
  intro fuel c w x off i top stk path hok hf hw hdep hlen hfuel
  simp only [JElems.depth] at hdep
  simp only [JElems.ok, Bool.and_eq_true] at hok
  obtain ⟨⟨⟨hwc, hwv⟩, hv⟩, htl⟩ := hok
  simp only [JElems.floatsOk, Bool.and_eq_true] at hf
  obtain ⟨f, rfl⟩ : ∃ f, fuel = f + 1 := ⟨fuel - 1, by omega⟩
  rw [elems_cons_text] at hlen hfuel ⊢
  obtain ⟨c0, t0, ht0, -⟩ := value_text_head v hv
  have hvl : 0 < v.text.length := by rw [ht0]; simp
  have h1 : off + 1 ≤ c.data.length := by
    rw [← hlen]; simp only [List.length_append, List.length_cons]; omega
  rw [parseArray_scalar L f c wc wv _ v hwc hwv hs hv hf.1 (follow_elems tl htl w hw x) off i
    (top :: stk) path h1]
  have hinner : v.inner L c.data (elemPath path i)
      (off + (wc ++ (sepText (decide (i = 0)) ++ wv)).length) = [] := by
    cases v <;> simp [JV.isScalar] at hs <;> rfl
  have := ih f (c.Register (elemPath path i)
      (if 0 < i then skipOneSpace c.data (off + 1) else off)) w x
    (off + (wc ++ (sepText (decide (i = 0)) ++ wv)).length + v.text.length) (i + 1) top stk path
    htl hf.2 hw (by omega)
    (by
      rw [register_data, ← hlen]
      simp only [Nat.add_one_ne_zero, decide_False, List.length_append, List.length_cons]
      omega)
    (by
      simp only [Nat.add_one_ne_zero, decide_False, List.length_append,
        List.length_cons] at hfuel ⊢
      omega)
  simp only [Nat.add_one_ne_zero, decide_False, ↓reduceIte, register_data] at this
  rw [this]
  simp only [JElems.entries, hinner, List.nil_append, registerAll_cons]
  rw [elems_cons_text]
  simp only [List.length_append, Res.ok.injEq, Prod.mk.injEq, true_and, Decoder.mk.injEq,
    and_true]
  omega

theorem elemsWalk_cons_arr (L : Lib) (wc wv : List Nat) (es1 : JElems) (w1 : List Nat)
    (tl : JElems) (ih1 : ElemsWalk L es1) (ih : ElemsWalk L tl) :
    ElemsWalk L (.cons wc wv (.arr es1 w1) tl) := by
  intro fuel c w x off i top stk path hok hf hw hdep hlen hfuel
  simp only [JElems.depth, JV.depth] at hdep
  simp only [JElems.ok, JV.ok, Bool.and_eq_true] at hok
  obtain ⟨⟨⟨hwc, hwv⟩, hes1, hw1⟩, htl⟩ := hok
  simp only [JElems.floatsOk, JV.floatsOk, Bool.and_eq_true] at hf
  obtain ⟨f, rfl⟩ : ∃ f, fuel = f + 1 := ⟨fuel - 1, by omega⟩
  rw [elems_cons_text, arr_text_append] at hlen ⊢
  have h1 : off + 1 ≤ c.data.length := by
    rw [← hlen]; simp only [List.length_append, List.length_cons]; omega
  rw [parseArray_arr L f c wc wv _ hwc hwv off i (top :: stk) path h1
    (by simp only [List.length_cons]; omega)]
  have hin := ih1 f (c.Register (elemPath path i)
      (if 0 < i then skipOneSpace c.data (off + 1) else off)) w1
    (tl.text false ++ (w ++ 93 :: x))
    (off + (wc ++ (sepText (decide (i = 0)) ++ wv)).length + 1) 0
    (if i = 0 then .arrayStart else .arrayValue) (top :: stk) (elemPath path i)
    hes1 hf.1 hw1 (by simp only [List.length_cons]; omega)
    (by
      rw [register_data, ← hlen]
      simp only [decide_True, List.length_append, List.length_cons]
      omega)
    (by
      simp only [JElems.text, JV.text, decide_True, List.length_append, List.length_cons,
        List.length_singleton] at hfuel ⊢
      omega)
  simp only [decide_True, ↓reduceIte, register_data, elem_state_end] at hin
  rw [hin, Res.bind_ok]
  have := ih f (registerAll (c.Register (elemPath path i)
      (if 0 < i then skipOneSpace c.data (off + 1) else off))
      (es1.entries L c.data (elemPath path i) 0
        (off + (wc ++ (sepText (decide (i = 0)) ++ wv)).length + 1))) w x
    (off + (wc ++ (sepText (decide (i = 0)) ++ wv)).length + 1 + (es1.text true ++ w1).length + 1)
    (i + 1) top stk path htl hf.2 hw (by omega)
    (by
      rw [registerAll_data, register_data, ← hlen]
      simp only [Nat.add_one_ne_zero, decide_False, List.length_append, List.length_cons]
      omega)
    (by
      simp only [JElems.text, JV.text, Nat.add_one_ne_zero, decide_False, List.length_append,
        List.length_cons, List.length_singleton] at hfuel ⊢
      omega)
  simp only [Nat.add_one_ne_zero, decide_False, ↓reduceIte, register_data,
    registerAll_data] at this
  rw [this]
  simp only [JElems.entries, JV.inner, registerAll_cons, registerAll_append, JElems.text, JV.text,
    List.length_append, List.length_cons, List.length_singleton, List.length_nil, Res.ok.injEq,
    Prod.mk.injEq, Decoder.mk.injEq, and_true, true_and]
  refine ⟨?_, by omega⟩
  congr 2
  omega

theorem elemsWalk_cons_obj (L : Lib) (wc wv : List Nat) (ms1 : JMembers) (w1 : List Nat)
    (tl : JElems) (ih1 : MembersWalk L ms1) (ih : ElemsWalk L tl) :
    ElemsWalk L (.cons wc wv (.obj ms1 w1) tl) := by
  intro fuel c w x off i top stk path hok hf hw hdep hlen hfuel
  simp only [JElems.depth, JV.depth] at hdep
  simp only [JElems.ok, JV.ok, Bool.and_eq_true] at hok
  obtain ⟨⟨⟨hwc, hwv⟩, hms1, hw1⟩, htl⟩ := hok
  simp only [JElems.floatsOk, JV.floatsOk, Bool.and_eq_true] at hf
  obtain ⟨f, rfl⟩ : ∃ f, fuel = f + 1 := ⟨fuel - 1, by omega⟩
  rw [elems_cons_text, obj_text_append] at hlen ⊢
  have h1 : off + 1 ≤ c.data.length := by
    rw [← hlen]; simp only [List.length_append, List.length_cons]; omega
  rw [parseArray_obj L f c wc wv _ hwc hwv off i (top :: stk) path h1
    (by simp only [List.length_cons]; omega)]
  have hin := ih1 f (c.Register (elemPath path i)
      (if 0 < i then skipOneSpace c.data (off + 1) else off)) w1
    (tl.text false ++ (w ++ 93 :: x))
    (off + (wc ++ (sepText (decide (i = 0)) ++ wv)).length + 1) true
    (if i = 0 then .arrayStart else .arrayValue) (top :: stk) (elemPath path i)
    hms1 hf.1 hw1 (by simp only [List.length_cons]; omega)
    (by
      rw [register_data, ← hlen]
      simp only [List.length_append, List.length_cons]
      omega)
    (by
      simp only [JElems.text, JV.text, List.length_append, List.length_cons,
        List.length_singleton] at hfuel ⊢
      omega)
  simp only [↓reduceIte, register_data, elem_state_end] at hin
  rw [hin, Res.bind_ok]
  have := ih f (registerAll (c.Register (elemPath path i)
      (if 0 < i then skipOneSpace c.data (off + 1) else off))
      (ms1.entries L c.data (elemPath path i) true
        (off + (wc ++ (sepText (decide (i = 0)) ++ wv)).length + 1))) w x
    (off + (wc ++ (sepText (decide (i = 0)) ++ wv)).length + 1 + (ms1.text true ++ w1).length + 1)
    (i + 1) top stk path htl hf.2 hw (by omega)
    (by
      rw [registerAll_data, register_data, ← hlen]
      simp only [Nat.add_one_ne_zero, decide_False, List.length_append, List.length_cons]
      omega)
    (by
      simp only [JElems.text, JV.text, Nat.add_one_ne_zero, decide_False, List.length_append,
        List.length_cons, List.length_singleton] at hfuel ⊢
      omega)
  simp only [Nat.add_one_ne_zero, decide_False, ↓reduceIte, register_data,
    registerAll_data] at this
  rw [this]
  simp only [JElems.entries, JV.inner, registerAll_cons, registerAll_append, JElems.text, JV.text,
    List.length_append, List.length_cons, List.length_singleton, List.length_nil, Res.ok.injEq,
    Prod.mk.injEq, Decoder.mk.injEq, and_true, true_and]
  refine ⟨?_, by omega⟩
  congr 2
  omega

theorem membersWalk_cons (L : Lib) (wc wk : List Nat) (key : List SChar) (wcolon wv : List Nat)
    (v : JV) (tl : JMembers) (ihv : ValueWalk L v) (ih : MembersWalk L tl) :
    MembersWalk L (.cons wc wk key wcolon wv v tl) := by
  intro fuel c w x off first top stk path hok hf hw hdep hlen hfuel
  simp only [JMembers.depth] at hdep
  simp only [JMembers.ok, Bool.and_eq_true] at hok
  obtain ⟨⟨⟨⟨⟨⟨hwc, hwk⟩, hkey⟩, hwcolon⟩, hwv⟩, hv⟩, htl⟩ := hok
  simp only [JMembers.floatsOk, Bool.and_eq_true] at hf
  obtain ⟨f, rfl⟩ : ∃ f, fuel = f + 1 := ⟨fuel - 1, by omega⟩
  rw [members_cons_text] at hlen ⊢
  rw [parseObject_member L f c wc wk key _ hwc hwk hkey off first (top :: stk) path]
  have hval := ihv f c (wcolon ++ 58 :: wv) (tl.text false ++ (w ++ 125 :: x))
    (off + (wc ++ (sepText first ++ (wk ++ strText key))).length) .objectColon .objectValue
    (top :: stk) (keyPath path (L.unquote (strText key))) hv hf.1
    (follow_members tl htl w hw x)
    (by
      intro y
      have := valuePrefix L wcolon wv y hwcolon hwv
        (off + (wc ++ (sepText first ++ (wk ++ strText key))).length) (top :: stk)
      simpa using this)
    rfl
    (by simp only [List.length_cons]; omega)
    (by
      rw [← hlen]
      simp only [List.length_append, List.length_cons]
      omega)
    (by
      simp only [JMembers.text, List.length_append, List.length_cons, strText] at hfuel ⊢
      omega)
  rw [hval, Res.bind_ok]
  have := ih f (registerAll (c.Register (keyPath path (L.unquote (strText key)))
      (skipOneSpace c.data (off + (wc ++ (sepText first ++ (wk ++ strText key))).length + 1)))
      (v.inner L c.data (keyPath path (L.unquote (strText key)))
        (off + (wc ++ (sepText first ++ (wk ++ strText key))).length
          + (wcolon ++ 58 :: wv).length))) w x
    (off + (wc ++ (sepText first ++ (wk ++ strText key))).length + (wcolon ++ 58 :: wv).length
      + v.text.length) false top stk path htl hf.2 hw (by omega)
    (by
      rw [registerAll_data, register_data, ← hlen]
      simp only [List.length_append, List.length_cons]
      omega)
    (by
      simp only [JMembers.text, List.length_append, List.length_cons] at hfuel ⊢
      omega)
  simp only [Bool.false_eq_true, ↓reduceIte, register_data, registerAll_data] at this
  have hend : tokenValueEnd TokState.objectValue = .objectComma := rfl
  simp only [hend]
  rw [this]
  simp only [JMembers.entries, registerAll_cons, registerAll_append, JMembers.text,
    List.length_append, List.length_cons, List.length_singleton, List.length_nil, Res.ok.injEq,
    Prod.mk.injEq, Decoder.mk.injEq, and_true, true_and]
  refine ⟨?_, by omega⟩
  congr 2
  · congr 1
    omega
  · omega

mutual
/-- The walk of `parse` over a well-formed value. -/
theorem valueWalk (L : Lib) : ∀ v : JV, ValueWalk L v
  | .str _ => valueWalk_scalar L _ rfl
  | .num _ => valueWalk_scalar L _ rfl
  | .tru => valueWalk_scalar L _ rfl
  | .fls => valueWalk_scalar L _ rfl
  | .nul => valueWalk_scalar L _ rfl
  | .arr es w => valueWalk_arr L es w (elemsWalk L es)
  | .obj ms w => valueWalk_obj L ms w (membersWalk L ms)
/-- The walk of `parseArray` over the elements of a well-formed array. -/
theorem elemsWalk (L : Lib) : ∀ es : JElems, ElemsWalk L es
  | .nil => elemsWalk_nil L
  | .cons wc wv (.str _) tl => elemsWalk_cons_scalar L wc wv _ tl rfl (elemsWalk L tl)
  | .cons wc wv (.num _) tl => elemsWalk_cons_scalar L wc wv _ tl rfl (elemsWalk L tl)
  | .cons wc wv .tru tl => elemsWalk_cons_scalar L wc wv _ tl rfl (elemsWalk L tl)
  | .cons wc wv .fls tl => elemsWalk_cons_scalar L wc wv _ tl rfl (elemsWalk L tl)
  | .cons wc wv .nul tl => elemsWalk_cons_scalar L wc wv _ tl rfl (elemsWalk L tl)
  | .cons wc wv (.arr es1 w1) tl =>
    elemsWalk_cons_arr L wc wv es1 w1 tl (elemsWalk L es1) (elemsWalk L tl)
  | .cons wc wv (.obj ms1 w1) tl =>
    elemsWalk_cons_obj L wc wv ms1 w1 tl (membersWalk L ms1) (elemsWalk L tl)
/-- The walk of `parseObject` over the members of a well-formed object. -/
theorem membersWalk (L : Lib) : ∀ ms : JMembers, MembersWalk L ms
  | .nil => membersWalk_nil L
  | .cons wc wk key wcolon wv v tl =>
    membersWalk_cons L wc wk key wcolon wv v tl (valueWalk L v) (membersWalk L tl)
end



/-! ## `Parse` on a well-formed document -/

theorem follow_ws (w : List Nat) (hw : wsOk w = true) : Follow w := by
  intro c t h
  subst h
  simp only [wsOk, List.all_cons, Bool.and_eq_true] at hw
  exact Or.inl hw.1

/-- On a well-formed document whose numbers `floatOk` accepts and whose brackets are nested at
most `maxNestingDepth` deep, `Parse` succeeds and its map is the result of registering the
entries of the document in order. -/
theorem parse_doc (L : Lib) (d : Doc) (hok : d.ok = true) (hf : d.root.floatsOk L = true)
    (hdep : d.root.depth ≤ maxNestingDepth) :
    Parse L d.text = .ok (registerAll { data := d.text, paths := [] } (d.entries L)) := by
  simp only [Doc.ok, Bool.and_eq_true] at hok
  obtain ⟨⟨hpre, hroot⟩, hpost⟩ := hok
  have := valueWalk L d.root (d.text.length + 1) { data := d.text, paths := [] } d.pre d.post 0
    .topValue .topValue [] [] hroot hf (follow_ws _ hpost)
    (fun y => by rw [tokenLoop_ws L d.pre y hpre])
    rfl
    (by simpa using hdep)
    (by simp [Doc.text])
    (by simp only [Doc.text, List.length_append]; omega)
  unfold Parse NewDecoder
  simp only [Doc.text] at this ⊢
  rw [this]
  simp [Doc.entries, registerAll_cons, Doc.text]

/-! ### Entries and values -/

mutual
theorem inner_toValue (L : Lib) (data : List Nat) : ∀ (v : JV) (p : List Nat) (s : Nat),
    (p, s, v) :: (v.inner L data p s).map Entry.toValue = v.values L p s
  | .str _, p, s => by simp [JV.inner, JV.values]
  | .num _, p, s => by simp [JV.inner, JV.values]
  | .tru, p, s => by simp [JV.inner, JV.values]
  | .fls, p, s => by simp [JV.inner, JV.values]
  | .nul, p, s => by simp [JV.inner, JV.values]
  | .arr es w, p, s => by
    simp only [JV.inner, JV.values, List.cons.injEq, true_and]
    exact elems_toValue L data es p 0 (s + 1)
  | .obj ms w, p, s => by
    simp only [JV.inner, JV.values, List.cons.injEq, true_and]
    exact members_toValue L data ms p true (s + 1)
theorem elems_toValue (L : Lib) (data : List Nat) : ∀ (es : JElems) (p : List Nat) (i off : Nat),
    (es.entries L data p i off).map Entry.toValue = es.values L p i off
  | .nil, p, i, off => by simp [JElems.entries, JElems.values]
  | .cons wc wv v tl, p, i, off => by
    simp only [JElems.entries, JElems.values, List.map_cons, List.map_append]
    rw [elems_toValue L data tl, ← inner_toValue L data v]
    simp [Entry.toValue]
theorem members_toValue (L : Lib) (data : List Nat) : ∀ (ms : JMembers) (p : List Nat)
    (first : Bool) (off : Nat),
    (ms.entries L data p first off).map Entry.toValue = ms.values L p first off
  | .nil, p, first, off => by simp [JMembers.entries, JMembers.values]
  | .cons wc wk key wcolon wv v tl, p, first, off => by
    simp only [JMembers.entries, JMembers.values, List.map_cons, List.map_append]
    rw [members_toValue L data tl, ← inner_toValue L data v]
    simp [Entry.toValue]
end



theorem doc_toValue (L : Lib) (d : Doc) : (d.entries L).map Entry.toValue = d.values L := by
  simp only [Doc.entries, Doc.values, List.map_cons]
  exact inner_toValue L d.text d.root [] d.pre.length

/-! ### Lookups after registering -/

theorem lookup_register (c : Context) (p q : List Nat) (i : Nat) :
    (c.Register p i).lookup q = if q = p then some i else c.lookup q := by
  unfold Context.lookup Context.Register
  by_cases h : q = p
  · subst h; simp
  · have h' : p ≠ q := fun e => h e.symm
    have hfun : (fun a : List Nat × Nat =>
        decide (decide (a.1 ≠ p) = true ∧ decide (a.1 = q) = true))
        = (fun e => decide (e.1 = q)) := by
      funext a
      by_cases ha : a.1 = q
      · have : a.1 ≠ p := by rw [ha]; exact h
        simp [ha, h]
      · simp [ha]
    simp only [h, ↓reduceIte, List.find?_cons, h', decide_False, List.find?_filter, hfun]

theorem lookup_registerAll_of_not_mem (c : Context) (es : List Entry) (q : List Nat)
    (h : ∀ e ∈ es, e.path ≠ q) : (registerAll c es).lookup q = c.lookup q := by
  induction es generalizing c with
  | nil => rfl
  | cons e es ih =>
    rw [registerAll_cons, ih _ (fun e' he' => h e' (List.mem_cons_of_mem _ he')),
      lookup_register]
    have hne : ¬ q = e.path := fun hq => h e (List.mem_cons_self _ _) hq.symm
    simp only [hne, ↓reduceIte]

/-- The offset found under a path is the offset of the last entry with that path. -/
theorem lookup_registerAll_last (c : Context) (l1 l2 : List Entry) (e : Entry)
    (h : ∀ e' ∈ l2, e'.path ≠ e.path) :
    (registerAll c (l1 ++ e :: l2)).lookup e.path = some e.pos := by
  rw [registerAll_append, registerAll_cons, lookup_registerAll_of_not_mem _ _ _ h,
    lookup_register]
  simp

theorem lookup_registerAll_isSome (c : Context) (es : List Entry) (e : Entry) (h : e ∈ es) :
    ((registerAll c es).lookup e.path).isSome = true := by
  induction es using List.reverseRecOn generalizing c with
  | nil => simp at h
  | append_singleton es a ih =>
    rw [registerAll_append, registerAll_cons, registerAll_nil, lookup_register]
    by_cases hp : e.path = a.path
    · simp [hp]
    · simp only [hp, ↓reduceIte]
      rcases List.mem_append.mp h with h1 | h1
      · exact ih c h1
      · simp only [List.mem_singleton] at h1
        subst h1; exact absurd rfl hp

theorem lookup_empty (data : List Nat) (q : List Nat) :
    (Context.mk data []).lookup q = none := rfl

/-! ### Where the registered offsets point, without white space before delimiters -/

theorem drop_add {data X Y : List Nat} {off : Nat} (h : data.drop off = X ++ Y) :
    data.drop (off + X.length) = Y := by
  rw [← List.drop_drop, h, List.drop_left]

theorem isSpace_unicode {c : Nat} (h : isSpace c = true) : unicodeIsSpace c = true := by
  simp only [isSpace, Bool.or_eq_true, decide_eq_true_eq] at h
  simp only [unicodeIsSpace, Bool.or_eq_true, decide_eq_true_eq]
  omega

theorem valueStart_not_unicode {c : Nat} (h : valueStart c = true) :
    unicodeIsSpace c = false := by
  simp only [valueStart, isDigit, Bool.or_eq_true, decide_eq_true_eq, Bool.and_eq_true] at h
  simp only [unicodeIsSpace, Bool.or_eq_false_iff, decide_eq_false_iff_not]
  omega

/-- The offset correction behind a delimiter that stands right at the decoder's offset. -/
theorem skip_good (data : List Nat) (o c : Nat) (wv : List Nat) (v : JV) (rest : List Nat)
    (hd : data.drop o = c :: (wv ++ (v.text ++ rest))) (hwv : wsOk wv = true)
    (hv : v.ok = true) :
    ∃ ws, wsOk ws = true ∧ data.drop (skipOneSpace data (o + 1)) = ws ++ (v.text ++ rest) ∧
      skipOneSpace data (o + 1) + ws.length = o + 1 + wv.length := by
  have h1 : data.drop (o + 1) = wv ++ (v.text ++ rest) := by
    have := drop_add (X := [c]) (Y := wv ++ (v.text ++ rest)) (by simpa using hd)
    simpa using this
  obtain ⟨c0, t0, ht0, hc0⟩ := value_text_head v hv
  unfold skipOneSpace
  cases wv with
  | nil =>
    rw [h1, ht0]
    simp only [List.nil_append, List.cons_append, valueStart_not_unicode hc0,
      Bool.false_eq_true, ↓reduceIte]
    refine ⟨[], rfl, ?_, by simp⟩
    rw [h1, ht0]; simp
  | cons b wv =>
    simp only [wsOk, List.all_cons, Bool.and_eq_true] at hwv
    rw [h1]
    simp only [List.cons_append, isSpace_unicode hwv.1, ↓reduceIte]
    refine ⟨wv, by simpa [wsOk] using hwv.2, ?_, by simp; omega⟩
    have := drop_add (X := [b]) (Y := wv ++ (v.text ++ rest)) (by simpa using h1)
    simpa using this

theorem goodInner_scalar (L : Lib) (v : JV) (hs : v.isScalar = true) : GoodInner L v := by
  intro data p s x _ _ _ e he
  cases v <;> simp [JV.isScalar] at hs <;> simp [JV.inner] at he

theorem goodInner_arr (L : Lib) (es : JElems) (w : List Nat) (ih : GoodElems L es) :
    GoodInner L (.arr es w) := by
  intro data p s x hd hok ht e he
  simp only [JV.ok, Bool.and_eq_true] at hok
  simp only [JV.tight] at ht
  rw [arr_text_append] at hd
  have h1 := drop_add (X := [91]) (by simpa using hd)
  exact ih data p 0 (s + 1) w x (by simpa using h1) hok.1 (by simpa using ht) hok.2 e
    (by simpa [JV.inner] using he)

theorem goodInner_obj (L : Lib) (ms : JMembers) (w : List Nat) (ih : GoodMembers L ms) :
    GoodInner L (.obj ms w) := by
  intro data p s x hd hok ht e he
  simp only [JV.ok, Bool.and_eq_true] at hok
  simp only [JV.tight] at ht
  rw [obj_text_append] at hd
  have h1 := drop_add (X := [123]) (by simpa using hd)
  exact ih data p true (s + 1) w x (by simpa using h1) hok.1 ht hok.2 e
    (by simpa [JV.inner] using he)

theorem goodElems_nil (L : Lib) : GoodElems L .nil := by
  intro data p i off w x _ _ _ _ e he
  simp [JElems.entries] at he

theorem goodMembers_nil (L : Lib) : GoodMembers L .nil := by
  intro data p first off w x _ _ _ _ e he
  simp [JMembers.entries] at he

theorem goodElems_cons (L : Lib) (wc wv : List Nat) (v : JV) (tl : JElems)
    (ihv : GoodInner L v) (ih : GoodElems L tl) : GoodElems L (.cons wc wv v tl) := by
  intro data p i off w x hd hok ht hw e he
  simp only [JElems.ok, Bool.and_eq_true] at hok
  obtain ⟨⟨⟨hwc, hwv⟩, hv⟩, htl⟩ := hok
  simp only [JElems.tight, Bool.and_eq_true, Bool.or_eq_true, decide_eq_true_eq,
    List.isEmpty_iff] at ht
  obtain ⟨⟨hwc0, hvt⟩, htlt⟩ := ht
  rw [elems_cons_text] at hd
  have hfol := follow_elems tl htl w hw x
  -- the text of the value and of the later elements
  have hstart : data.drop (off + (wc ++ (sepText (decide (i = 0)) ++ wv)).length)
      = v.text ++ (tl.text false ++ (w ++ 93 :: x)) := by
    have := drop_add (X := wc ++ (sepText (decide (i = 0)) ++ wv))
      (Y := v.text ++ (tl.text false ++ (w ++ 93 :: x))) (by simpa using hd)
    exact this
  have hnext : data.drop (off + (wc ++ (sepText (decide (i = 0)) ++ wv)).length + v.text.length)
      = tl.text false ++ (w ++ 93 :: x) := drop_add hstart
  simp only [JElems.entries, List.mem_cons, List.mem_append] at he
  rcases he with rfl | he | he
  · refine ⟨hv, ?_⟩
    by_cases hi : i = 0
    · subst hi
      refine ⟨wc ++ wv, _, ?_, hfol, ?_, ?_⟩
      · simp only [wsOk, List.all_append, Bool.and_eq_true] at hwc hwv ⊢
        exact ⟨hwc, hwv⟩
      · simpa [sepText] using hd
      · simp [sepText]
    · have hwc' : wc = [] := by
        rcases hwc0 with h | h
        · exact absurd h hi
        · exact h
      subst hwc'
      have hi' : 0 < i := Nat.pos_of_ne_zero hi
      simp only [hi, decide_False, sepText, Bool.false_eq_true, ↓reduceIte, List.nil_append,
        List.singleton_append, hi'] at hd ⊢
      obtain ⟨ws, h1, h2, h3⟩ := skip_good data off 44 wv v _ hd hwv hv
      exact ⟨ws, _, h1, hfol, h2, by simp only [List.length_cons]; omega⟩
  · exact ihv data _ _ _ hstart hv hvt e he
  · exact ih data p (i + 1) _ w x (by simpa using hnext) htl (by simpa using htlt) hw e he

theorem goodMembers_cons (L : Lib) (wc wk : List Nat) (key : List SChar) (wcolon wv : List Nat)
    (v : JV) (tl : JMembers) (ihv : GoodInner L v) (ih : GoodMembers L tl) :
    GoodMembers L (.cons wc wk key wcolon wv v tl) := by
  intro data p first off w x hd hok ht hw e he
  simp only [JMembers.ok, Bool.and_eq_true] at hok
  obtain ⟨⟨⟨⟨⟨⟨hwc, hwk⟩, hkey⟩, hwcolon⟩, hwv⟩, hv⟩, htl⟩ := hok
  simp only [JMembers.tight, Bool.and_eq_true, List.isEmpty_iff] at ht
  obtain ⟨⟨⟨-, hcolon0⟩, hvt⟩, htlt⟩ := ht
  subst hcolon0
  rw [members_cons_text] at hd
  have hfol := follow_members tl htl w hw x
  have hkeyEnd : data.drop (off + (wc ++ (sepText first ++ (wk ++ strText key))).length)
      = 58 :: (wv ++ (v.text ++ (tl.text false ++ (w ++ 125 :: x)))) := by
    have := drop_add (X := wc ++ (sepText first ++ (wk ++ strText key)))
      (Y := 58 :: (wv ++ (v.text ++ (tl.text false ++ (w ++ 125 :: x))))) (by simpa using hd)
    exact this
  have hstart : data.drop
      (off + (wc ++ (sepText first ++ (wk ++ (strText key ++ ([] ++ 58 :: wv))))).length)
      = v.text ++ (tl.text false ++ (w ++ 125 :: x)) := by
    have := drop_add (X := wc ++ (sepText first ++ (wk ++ (strText key ++ ([] ++ 58 :: wv)))))
      (Y := v.text ++ (tl.text false ++ (w ++ 125 :: x))) (by simpa using hd)
    exact this
  have hnext := drop_add hstart
  simp only [JMembers.entries, List.mem_cons, List.mem_append] at he
  rcases he with rfl | he | he
  · refine ⟨hv, ?_⟩
    obtain ⟨ws, h1, h2, h3⟩ := skip_good data _ 58 wv v _ hkeyEnd hwv hv
    refine ⟨ws, _, h1, hfol, h2, ?_⟩
    simp only [List.length_append, List.length_cons, List.length_nil] at h3 ⊢
    omega
  · exact ihv data _ _ _ hstart hv hvt e he
  · exact ih data p false _ w x hnext htl htlt hw e he

mutual
theorem goodInner (L : Lib) : ∀ v : JV, GoodInner L v
  | .str _ => goodInner_scalar L _ rfl
  | .num _ => goodInner_scalar L _ rfl
  | .tru => goodInner_scalar L _ rfl
  | .fls => goodInner_scalar L _ rfl
  | .nul => goodInner_scalar L _ rfl
  | .arr es w => goodInner_arr L es w (goodElems L es)
  | .obj ms w => goodInner_obj L ms w (goodMembers L ms)
theorem goodElems (L : Lib) : ∀ es : JElems, GoodElems L es
  | .nil => goodElems_nil L
  | .cons wc wv v tl => goodElems_cons L wc wv v tl (goodInner L v) (goodElems L tl)
theorem goodMembers (L : Lib) : ∀ ms : JMembers, GoodMembers L ms
  | .nil => goodMembers_nil L
  | .cons wc wk key wcolon wv v tl =>
    goodMembers_cons L wc wk key wcolon wv v tl (goodInner L v) (goodMembers L tl)
end

/-! ## Completeness, exact spans and absent paths -/

theorem JV.values_head (L : Lib) (v : JV) (p : List Nat) (s : Nat) :
    ∃ t, v.values L p s = (p, s, v) :: t := by
  cases v <;> exact ⟨_, by rw [JV.values]⟩

mutual
theorem values_closed (L : Lib) : ∀ (v : JV) (p : List Nat) (s : Nat),
    ∀ e ∈ v.values L p s, ∀ e1 ∈ e.2.2.values L e.1 e.2.1, e1 ∈ v.values L p s
  | .str _, p, s => by intro e he; simp only [JV.values, List.mem_singleton] at he; subst he; simp [JV.values]
  | .num _, p, s => by intro e he; simp only [JV.values, List.mem_singleton] at he; subst he; simp [JV.values]
  | .tru, p, s => by intro e he; simp only [JV.values, List.mem_singleton] at he; subst he; simp [JV.values]
  | .fls, p, s => by intro e he; simp only [JV.values, List.mem_singleton] at he; subst he; simp [JV.values]
  | .nul, p, s => by intro e he; simp only [JV.values, List.mem_singleton] at he; subst he; simp [JV.values]
  | .arr es w, p, s => by
    intro e he e1 he1
    rw [JV.values] at he
    rcases List.mem_cons.mp he with rfl | he
    · exact he1
    · rw [JV.values]
      exact List.mem_cons_of_mem _ (elems_closed L es p 0 (s + 1) e he e1 he1)
  | .obj ms w, p, s => by
    intro e he e1 he1
    rw [JV.values] at he
    rcases List.mem_cons.mp he with rfl | he
    · exact he1
    · rw [JV.values]
      exact List.mem_cons_of_mem _ (members_closed L ms p true (s + 1) e he e1 he1)
theorem elems_closed (L : Lib) : ∀ (es : JElems) (p : List Nat) (i off : Nat),
    ∀ e ∈ es.values L p i off, ∀ e1 ∈ e.2.2.values L e.1 e.2.1, e1 ∈ es.values L p i off
  | .nil, p, i, off => by intro e he; simp [JElems.values] at he
  | .cons wc wv v tl, p, i, off => by
    intro e he e1 he1
    rw [JElems.values] at he ⊢
    rcases List.mem_append.mp he with he | he
    · exact List.mem_append_left _ (values_closed L v _ _ e he e1 he1)
    · exact List.mem_append_right _ (elems_closed L tl _ _ _ e he e1 he1)
theorem members_closed (L : Lib) : ∀ (ms : JMembers) (p : List Nat) (first : Bool) (off : Nat),
    ∀ e ∈ ms.values L p first off, ∀ e1 ∈ e.2.2.values L e.1 e.2.1,
      e1 ∈ ms.values L p first off
  | .nil, p, first, off => by intro e he; simp [JMembers.values] at he
  | .cons wc wk key wcolon wv v tl, p, first, off => by
    intro e he e1 he1
    rw [JMembers.values] at he ⊢
    rcases List.mem_append.mp he with he | he
    · exact List.mem_append_left _ (values_closed L v _ _ e he e1 he1)
    · exact List.mem_append_right _ (members_closed L tl _ _ _ e he e1 he1)
end



theorem elems_index (L : Lib) : ∀ (es : JElems) (p : List Nat) (i off k : Nat),
    k < es.length → ∃ s v, (elemPath p (i + k), s, v) ∈ es.values L p i off
  | .nil, _, _, _, _, hk => by simp [JElems.length] at hk
  | .cons wc wv v tl, p, i, off, k, hk => by
    rw [JElems.values]
    cases k with
    | zero =>
      obtain ⟨t, ht⟩ := JV.values_head L v (elemPath p i)
        (off + (wc ++ (sepText (decide (i = 0)) ++ wv)).length)
      exact ⟨_, v, List.mem_append_left _ (by rw [ht]; exact List.mem_cons_self _ _)⟩
    | succ k =>
      simp only [JElems.length, Nat.add_lt_add_iff_right] at hk
      obtain ⟨s, u, h⟩ := elems_index L tl p (i + 1)
        (off + (wc ++ (sepText (decide (i = 0)) ++ wv)).length + v.text.length) k hk
      refine ⟨s, u, List.mem_append_right _ ?_⟩
      have : i + (k + 1) = i + 1 + k := by omega
      rw [this]; exact h

/-! ## What the scanner accepts -/

theorem readLoop_nil_inString (st : Step) (k m : Nat)
    (hst : st = .inString ∨ st = .inStringEsc ∨ st = .inStringEscU ∨ st = .inStringEscU1 ∨
      st = .inStringEscU12 ∨ st = .inStringEscU123)
    (h : readLoop ⟨st, []⟩ [] k = some m) : False := by
  rcases hst with rfl | rfl | rfl | rfl | rfl | rfl <;>
    simp [readLoop, Scanner.next, Scanner.fail, isHex, isDigit] at h

/-- A successful scan inside a string literal has read the characters of a well-formed
literal up to the closing quote. -/
theorem str_inv : ∀ (len : Nat) (input : List Nat) (k m : Nat), input.length ≤ len →
    readLoop ⟨.inString, []⟩ input k = some m →
    ∃ (cs : List SChar) (rest : List Nat), cs.all SChar.ok = true ∧
      input = cs.flatMap SChar.text ++ 34 :: rest ∧
      m = k + (cs.flatMap SChar.text).length + 1
  | 0, input, k, m, hlen, h => by
    have : input = [] := List.length_eq_zero.mp (by omega)
    subst this
    exact (readLoop_nil_inString _ k m (Or.inl rfl) h).elim
  | len + 1, [], k, m, _, h => (readLoop_nil_inString _ k m (Or.inl rfl) h).elim
  | len + 1, c :: t, k, m, hlen, h => by
    simp only [List.length_cons, Nat.add_le_add_iff_right] at hlen
    by_cases h34 : c = 34
    · subst h34
      rw [readLoop_step _ ⟨.endValue, []⟩ 34 .scanContinue _ _ (by simp [Scanner.next])
        (by simp), readLoop_endValue_top] at h
      simp only [Option.some.injEq] at h
      exact ⟨[], t, rfl, rfl, by simp; omega⟩
    · by_cases h92 : c = 92
      · subst h92
        rw [readLoop_step _ ⟨.inStringEsc, []⟩ 92 .scanContinue _ _ (by simp [Scanner.next])
          (by simp)] at h
        cases t with
        | nil => exact (readLoop_nil_inString _ _ m (Or.inr (Or.inl rfl)) h).elim
        | cons e t2 =>
          by_cases he : e = 98 ∨ e = 102 ∨ e = 110 ∨ e = 114 ∨ e = 116 ∨ e = 92 ∨ e = 47 ∨ e = 34
          · rw [readLoop_step _ ⟨.inString, []⟩ e .scanContinue _ _
              (by simp [Scanner.next, he]) (by simp)] at h
            obtain ⟨cs, rest, h1, h2, h3⟩ := str_inv len t2 _ m
              (by simp only [List.length_cons] at hlen; omega) h
            refine ⟨.esc e :: cs, rest, ?_, ?_, ?_⟩
            · simp only [List.all_cons, h1, Bool.and_true, SChar.ok, Bool.or_eq_true,
                decide_eq_true_eq]
              omega
            · simp [SChar.text, h2]
            · simp [SChar.text, h3]; omega
          · by_cases hu : e = 117
            · subst hu
              rw [readLoop_step _ ⟨.inStringEscU, []⟩ 117 .scanContinue _ _
                (by simp [Scanner.next]) (by simp)] at h
              match t2, hlen, h with
              | [], _, h => exact (readLoop_nil_inString _ _ m (by simp) h).elim
              | [a], _, h =>
                by_cases ha : isHex a = true
                · rw [readLoop_step _ ⟨.inStringEscU1, []⟩ a .scanContinue _ _
                    (by simp [Scanner.next, ha]) (by simp)] at h
                  exact (readLoop_nil_inString _ _ m (by simp) h).elim
                · simp [readLoop, Scanner.next, Scanner.fail, ha] at h
              | [a, b], _, h =>
                by_cases ha : isHex a = true
                · rw [readLoop_step _ ⟨.inStringEscU1, []⟩ a .scanContinue _ _
                    (by simp [Scanner.next, ha]) (by simp)] at h
                  by_cases hb : isHex b = true
                  · rw [readLoop_step _ ⟨.inStringEscU12, []⟩ b .scanContinue _ _
                      (by simp [Scanner.next, hb]) (by simp)] at h
                    exact (readLoop_nil_inString _ _ m (by simp) h).elim
                  · simp [readLoop, Scanner.next, Scanner.fail, hb] at h
                · simp [readLoop, Scanner.next, Scanner.fail, ha] at h
              | [a, b, c1], _, h =>
                by_cases ha : isHex a = true
                · rw [readLoop_step _ ⟨.inStringEscU1, []⟩ a .scanContinue _ _
                    (by simp [Scanner.next, ha]) (by simp)] at h
                  by_cases hb : isHex b = true
                  · rw [readLoop_step _ ⟨.inStringEscU12, []⟩ b .scanContinue _ _
                      (by simp [Scanner.next, hb]) (by simp)] at h
                    by_cases hc : isHex c1 = true
                    · rw [readLoop_step _ ⟨.inStringEscU123, []⟩ c1 .scanContinue _ _
                        (by simp [Scanner.next, hc]) (by simp)] at h
                      exact (readLoop_nil_inString _ _ m (by simp) h).elim
                    · simp [readLoop, Scanner.next, Scanner.fail, hc] at h
                  · simp [readLoop, Scanner.next, Scanner.fail, hb] at h
                · simp [readLoop, Scanner.next, Scanner.fail, ha] at h
              | a :: b :: c1 :: d1 :: t3, hlen, h =>
                by_cases ha : isHex a = true
                · rw [readLoop_step _ ⟨.inStringEscU1, []⟩ a .scanContinue _ _
                    (by simp [Scanner.next, ha]) (by simp)] at h
                  by_cases hb : isHex b = true
                  · rw [readLoop_step _ ⟨.inStringEscU12, []⟩ b .scanContinue _ _
                      (by simp [Scanner.next, hb]) (by simp)] at h
                    by_cases hc : isHex c1 = true
                    · rw [readLoop_step _ ⟨.inStringEscU123, []⟩ c1 .scanContinue _ _
                        (by simp [Scanner.next, hc]) (by simp)] at h
                      by_cases hd : isHex d1 = true
                      · rw [readLoop_step _ ⟨.inString, []⟩ d1 .scanContinue _ _
                          (by simp [Scanner.next, hd]) (by simp)] at h
                        obtain ⟨cs, rest, h1, h2, h3⟩ := str_inv len t3 _ m
                          (by simp only [List.length_cons] at hlen; omega) h
                        refine ⟨.uni a b c1 d1 :: cs, rest, ?_, ?_, ?_⟩
                        · simp [SChar.ok, ha, hb, hc, hd, h1]
                        · simp [SChar.text, h2]
                        · simp [SChar.text, h3]; omega
                      · simp [readLoop, Scanner.next, Scanner.fail, hd] at h
                    · simp [readLoop, Scanner.next, Scanner.fail, hc] at h
                  · simp [readLoop, Scanner.next, Scanner.fail, hb] at h
                · simp [readLoop, Scanner.next, Scanner.fail, ha] at h
            · have hn : ¬ (e = 98 ∨ e = 102 ∨ e = 110 ∨ e = 114 ∨ e = 116 ∨ e = 92 ∨ e = 47 ∨
                  e = 34) := he
              simp [readLoop, Scanner.next, Scanner.fail, hn, hu] at h
      · by_cases hlt : c < 32
        · simp [readLoop, Scanner.next, Scanner.fail, h34, h92, hlt] at h
        · rw [readLoop_step _ ⟨.inString, []⟩ c .scanContinue _ _
            (by simp [Scanner.next, h34, h92, hlt]) (by simp)] at h
          obtain ⟨cs, rest, h1, h2, h3⟩ := str_inv len t _ m hlen h
          refine ⟨.plain c :: cs, rest, ?_, ?_, ?_⟩
          · simp only [List.all_cons, h1, Bool.and_true, SChar.ok, Bool.and_eq_true,
              decide_eq_true_eq]
            omega
          · simp [SChar.text, h2]
          · simp [SChar.text, h3]; omega

theorem expect_inv (st next : Step) (want : Nat)
    (hnext : ∀ c, Scanner.next ⟨st, []⟩ c = expectByte ⟨st, []⟩ c want next)
    (input : List Nat) (k m : Nat) (h : readLoop ⟨st, []⟩ input k = some m) :
    ∃ t, input = want :: t ∧ readLoop ⟨next, []⟩ t (k + 1) = some m := by
  cases input with
  | nil =>
    simp only [readLoop, hnext, expectByte] at h
    split at h <;> simp [Scanner.fail] at h
  | cons c t =>
    by_cases hc : c = want
    · subst hc
      rw [readLoop_step _ ⟨next, []⟩ c .scanContinue _ _ (by simp [hnext, expectByte])
        (by simp)] at h
      exact ⟨t, rfl, h⟩
    · simp [readLoop, hnext, expectByte, hc, Scanner.fail] at h

/-- A successful scan of `true`, `false` or `null` after the first letter. -/
theorem lit_inv (input : List Nat) (k m : Nat) :
    (readLoop ⟨.sT, []⟩ input k = some m →
      ∃ x, input = [114, 117, 101] ++ x ∧ m = k + 3) ∧
    (readLoop ⟨.sF, []⟩ input k = some m →
      ∃ x, input = [97, 108, 115, 101] ++ x ∧ m = k + 4) ∧
    (readLoop ⟨.sN, []⟩ input k = some m →
      ∃ x, input = [117, 108, 108] ++ x ∧ m = k + 3) := by
  refine ⟨?_, ?_, ?_⟩
  · intro h
    obtain ⟨t1, rfl, h1⟩ := expect_inv .sT .sTr 114 (fun c => rfl) _ _ _ h
    obtain ⟨t2, rfl, h2⟩ := expect_inv .sTr .sTru 117 (fun c => rfl) _ _ _ h1
    obtain ⟨t3, rfl, h3⟩ := expect_inv .sTru .endValue 101 (fun c => rfl) _ _ _ h2
    rw [readLoop_endValue_top] at h3
    exact ⟨t3, rfl, by simp at h3; omega⟩
  · intro h
    obtain ⟨t1, rfl, h1⟩ := expect_inv .sF .sFa 97 (fun c => rfl) _ _ _ h
    obtain ⟨t2, rfl, h2⟩ := expect_inv .sFa .sFal 108 (fun c => rfl) _ _ _ h1
    obtain ⟨t3, rfl, h3⟩ := expect_inv .sFal .sFals 115 (fun c => rfl) _ _ _ h2
    obtain ⟨t4, rfl, h4⟩ := expect_inv .sFals .endValue 101 (fun c => rfl) _ _ _ h3
    rw [readLoop_endValue_top] at h4
    exact ⟨t4, rfl, by simp at h4; omega⟩
  · intro h
    obtain ⟨t1, rfl, h1⟩ := expect_inv .sN .sNu 117 (fun c => rfl) _ _ _ h
    obtain ⟨t2, rfl, h2⟩ := expect_inv .sNu .sNul 108 (fun c => rfl) _ _ _ h1
    obtain ⟨t3, rfl, h3⟩ := expect_inv .sNul .endValue 108 (fun c => rfl) _ _ _ h2
    rw [readLoop_endValue_top] at h3
    exact ⟨t3, rfl, by simp at h3; omega⟩

/-! ### Number literals, read backwards -/

theorem split_digits (input : List Nat) :
    ∃ ds x, ds.all isDigit = true ∧ input = ds ++ x ∧ (∀ c t, x = c :: t → isDigit c = false) := by
  refine ⟨input.takeWhile isDigit, input.dropWhile isDigit, ?_, ?_, ?_⟩
  · rw [List.all_eq_true]
    intro c hc
    exact List.mem_takeWhile_imp hc
  · exact (List.takeWhile_append_dropWhile _ _).symm
  · intro c t h
    have := List.head_dropWhile_not isDigit input
    simp only [h, List.head_cons] at this
    simpa using this (by simp)

theorem readLoop_top_final (st : Step) (x : List Nat) (k m : Nat)
    (hnil : Scanner.next ⟨st, []⟩ 32 = stateEndValue ⟨st, []⟩ 32)
    (hcons : ∀ c t, x = c :: t → Scanner.next ⟨st, []⟩ c = stateEndValue ⟨st, []⟩ c)
    (h : readLoop ⟨st, []⟩ x k = some m) : m = k := by
  cases x with
  | nil =>
    simp only [readLoop, hnil, stateEndValue, stateEndTop, isSpace] at h
    simpa using h.symm
  | cons c t =>
    simp only [readLoop, hcons c t rfl, stateEndValue, stateEndTop] at h
    split at h <;> simpa using h.symm

theorem e0_inv (input : List Nat) (k m : Nat) (h : readLoop ⟨.sE0, []⟩ input k = some m) :
    ∃ ds x, ds.all isDigit = true ∧ input = ds ++ x ∧ m = k + ds.length := by
  obtain ⟨ds, x, hds, rfl, hx⟩ := split_digits input
  rw [readLoop_digits _ (Or.inr (Or.inr rfl)) _ _ hds] at h
  have := readLoop_top_final .sE0 x _ m (by simp [Scanner.next, isDigit])
    (fun c t hc => by simp [Scanner.next, hx c t hc]) h
  exact ⟨ds, x, hds, rfl, this⟩

theorem eSign_inv (input : List Nat) (k m : Nat)
    (h : readLoop ⟨.sESign, []⟩ input k = some m) :
    ∃ ds x, digitsOk ds = true ∧ input = ds ++ x ∧ m = k + ds.length := by
  cases input with
  | nil => simp [readLoop, Scanner.next, stateESign, isDigit, Scanner.fail] at h
  | cons d t =>
    by_cases hd : isDigit d = true
    · rw [readLoop_step _ ⟨.sE0, []⟩ d .scanContinue _ _
        (by simp [Scanner.next, stateESign, hd]) (by simp)] at h
      obtain ⟨ds, x, h1, rfl, h3⟩ := e0_inv t _ m h
      exact ⟨d :: ds, x, by simp [digitsOk, hd, h1], rfl, by simp; omega⟩
    · simp [readLoop, Scanner.next, stateESign, hd, Scanner.fail] at h

theorem expText_some (e : Nat) (sg : Option Nat) (ds : List Nat) :
    expText (some (e, sg, ds)) = e :: (signText sg ++ ds) := by
  cases sg <;> rfl

theorem e_inv (input : List Nat) (k m : Nat) (h : readLoop ⟨.sE, []⟩ input k = some m) :
    ∃ sg ds x, (∀ g, sg = some g → g = 43 ∨ g = 45) ∧ digitsOk ds = true ∧
      input = signText sg ++ (ds ++ x) ∧ m = k + (signText sg ++ ds).length := by
  cases input with
  | nil => simp [readLoop, Scanner.next, stateESign, isDigit, Scanner.fail] at h
  | cons g t =>
    by_cases hg : g = 43 ∨ g = 45
    · rw [readLoop_step _ ⟨.sESign, []⟩ g .scanContinue _ _
        (by simp [Scanner.next, hg]) (by simp)] at h
      obtain ⟨ds, x, h1, rfl, h3⟩ := eSign_inv t _ m h
      refine ⟨some g, ds, x, ?_, h1, rfl, by simp [signText]; omega⟩
      intro g' hg'; simp only [Option.some.injEq] at hg'; subst hg'; exact hg
    · have hstep : Scanner.next ⟨.sE, []⟩ g = Scanner.next ⟨.sESign, []⟩ g := by
        simp [Scanner.next, hg, stateESign, Scanner.fail]
      have h' : readLoop ⟨.sESign, []⟩ (g :: t) k = some m := by
        rw [readLoop] at h ⊢
        rw [hstep] at h
        by_cases hd : isDigit g = true
        · simpa [Scanner.next, stateESign, hd] using h
        · simp [Scanner.next, stateESign, hd, Scanner.fail] at h
      obtain ⟨ds, x, h1, h2, h3⟩ := eSign_inv _ _ m h'
      exact ⟨none, ds, x, by simp, h1, by simpa [signText] using h2, by simpa [signText] using h3⟩

theorem expOk_none : expOk none := by
  intro e sg ds he; cases he

/-- From a state in which a number may end, at a byte that is neither a digit nor a decimal
point: an optional exponent and the end of the number. -/
theorem exp_opt_inv (st : Step) (hst : st = .s0 ∨ st = .s1 ∨ st = .dot0) (x : List Nat)
    (hx : ∀ c t, x = c :: t → isDigit c = false ∧ (st = .dot0 ∨ c ≠ 46)) (k m : Nat)
    (h : readLoop ⟨st, []⟩ x k = some m) :
    ∃ exp y, expOk exp ∧ x = expText exp ++ y ∧ m = k + (expText exp).length := by
  cases x with
  | nil =>
    have := readLoop_top_final st [] k m
      (by rcases hst with rfl | rfl | rfl <;> simp [Scanner.next, state0, isDigit])
      (by intro c t hc; cases hc) h
    exact ⟨none, [], expOk_none, rfl, by simpa [expText] using this⟩
  | cons c t =>
    obtain ⟨hnd, h46⟩ := hx c t rfl
    by_cases he : c = 101 ∨ c = 69
    · have hc46 : c ≠ 46 := by omega
      rw [readLoop_step _ ⟨.sE, []⟩ c .scanContinue _ _
        (by rcases hst with rfl | rfl | rfl <;> simp [Scanner.next, state0, hnd, he, hc46])
        (by simp)] at h
      obtain ⟨sg, ds, y, h1, h2, h3, h4⟩ := e_inv t _ m h
      refine ⟨some (c, sg, ds), y, ?_, ?_, ?_⟩
      · intro e' sg' ds' heq
        simp only [Option.some.injEq, Prod.mk.injEq] at heq
        obtain ⟨rfl, rfl, rfl⟩ := heq
        exact ⟨he, h1, h2⟩
      · rw [expText_some, h3]; simp
      · rw [expText_some, h4]; simp; omega
    · have := readLoop_top_final st (c :: t) k m
        (by rcases hst with rfl | rfl | rfl <;> simp [Scanner.next, state0, isDigit])
        (by
          intro c' t' hc
          simp only [List.cons.injEq] at hc
          obtain ⟨rfl, rfl⟩ := hc
          rcases hst with rfl | rfl | rfl
          · have := h46.resolve_left (by simp)
            simp [Scanner.next, state0, he, this]
          · have := h46.resolve_left (by simp)
            simp [Scanner.next, state0, he, this, hnd]
          · simp [Scanner.next, he, hnd]) h
      exact ⟨none, c :: t, expOk_none, rfl, by simpa [expText] using this⟩

theorem fracOk_none : fracOk none := by
  intro ds hd; cases hd

/-- From the state after the integer part, at a byte that is not a digit: an optional fraction,
an optional exponent, and the end of the number. -/
theorem frac_exp_inv (st : Step) (hst : st = .s0 ∨ st = .s1) (x : List Nat)
    (hx : ∀ c t, x = c :: t → st = .s1 → isDigit c = false) (k m : Nat)
    (h : readLoop ⟨st, []⟩ x k = some m) :
    ∃ frac exp y, fracOk frac ∧ expOk exp ∧ x = fracText frac ++ (expText exp ++ y) ∧
      m = k + (fracText frac ++ expText exp).length := by
  have hdot : ∀ t, x = 46 :: t → ∃ frac exp y, fracOk frac ∧ expOk exp ∧
      x = fracText frac ++ (expText exp ++ y) ∧
      m = k + (fracText frac ++ expText exp).length := by
    intro t hxt
    subst hxt
    rw [readLoop_step _ ⟨.dot, []⟩ 46 .scanContinue _ _
      (by rcases hst with rfl | rfl <;> simp [Scanner.next, state0, isDigit]) (by simp)] at h
    cases t with
    | nil => simp [readLoop, Scanner.next, isDigit, Scanner.fail] at h
    | cons d t =>
      by_cases hd : isDigit d = true
      · rw [readLoop_step _ ⟨.dot0, []⟩ d .scanContinue _ _
          (by simp [Scanner.next, hd]) (by simp)] at h
        obtain ⟨ds, z, hds, rfl, hz⟩ := split_digits t
        rw [readLoop_digits _ (Or.inr (Or.inl rfl)) _ _ hds] at h
        obtain ⟨exp, y, h1, h2, h3⟩ := exp_opt_inv .dot0 (Or.inr (Or.inr rfl)) z
          (fun c t hc => ⟨hz c t hc, Or.inl rfl⟩) _ m h
        refine ⟨some (d :: ds), exp, y, ?_, h1, ?_, ?_⟩
        · intro ds' hds'
          simp only [Option.some.injEq] at hds'
          subst hds'
          simp [digitsOk, hd, hds]
        · simp [fracText, h2]
        · simp [fracText, h3]; omega
      · simp [readLoop, Scanner.next, hd, Scanner.fail] at h
  cases x with
  | nil =>
    have hst3 : st = .s0 ∨ st = .s1 ∨ st = .dot0 := by
      rcases hst with h | h
      · exact Or.inl h
      · exact Or.inr (Or.inl h)
    obtain ⟨exp, y, h1, h2, h3⟩ := exp_opt_inv st hst3 [] (by intro c t hc; cases hc) k m h
    exact ⟨none, exp, y, fracOk_none, h1, by simpa [fracText] using h2,
      by simpa [fracText] using h3⟩
  | cons c t =>
    by_cases h46 : c = 46
    · subst h46; exact hdot t rfl
    · by_cases hs : st = .s1
      · obtain ⟨exp, y, h1, h2, h3⟩ := exp_opt_inv st (Or.inr (Or.inl hs)) (c :: t)
          (by
            intro c' t' hc
            simp only [List.cons.injEq] at hc
            obtain ⟨rfl, rfl⟩ := hc
            exact ⟨hx _ _ rfl hs, Or.inr h46⟩) k m h
        exact ⟨none, exp, y, fracOk_none, h1, by simpa [fracText] using h2,
          by simpa [fracText] using h3⟩
      · have hs0 : st = .s0 := by
          rcases hst with h | h
          · exact h
          · exact absurd h hs
        subst hs0
        by_cases hd : isDigit c = true
        · -- a digit after `0` ends the number
          have := readLoop_top_final .s0 (c :: t) k m
            (by simp [Scanner.next, state0, isDigit])
            (by
              intro c' t' hc
              simp only [List.cons.injEq] at hc
              obtain ⟨rfl, rfl⟩ := hc
              have := isDigit_ne hd
              simp [Scanner.next, state0, this.1, this.2.1, this.2.2.1]) h
          exact ⟨none, none, c :: t, fracOk_none, expOk_none,
            rfl, by simpa [fracText, expText] using this⟩
        · obtain ⟨exp, y, h1, h2, h3⟩ := exp_opt_inv .s0 (Or.inl rfl) (c :: t)
            (by
              intro c' t' hc
              simp only [List.cons.injEq] at hc
              obtain ⟨rfl, rfl⟩ := hc
              exact ⟨by simpa using hd, Or.inr h46⟩) k m h
          exact ⟨none, exp, y, fracOk_none, h1, by simpa [fracText] using h2,
            by simpa [fracText] using h3⟩

theorem jnum_ok (neg : Bool) (d : Nat) (ds : List Nat) (frac : Option (List Nat))
    (exp : Option (Nat × Option Nat × List Nat))
    (hint : (d = 48 ∧ ds = []) ∨ (49 ≤ d ∧ d ≤ 57 ∧ ds.all isDigit = true))
    (hf : fracOk frac) (he : expOk exp) :
    JNum.ok { neg := neg, int := d :: ds, frac := frac, exp := exp } = true := by
  simp only [JNum.ok, Bool.and_eq_true]
  refine ⟨⟨?_, ?_⟩, ?_⟩
  · rcases hint with ⟨rfl, rfl⟩ | ⟨h1, h2, h3⟩
    · simp
    · have : d ≠ 48 := by omega
      simp [this, h1, h2, h3]
  · cases frac with
    | none => rfl
    | some fs => exact hf fs rfl
  · cases exp with
    | none => rfl
    | some t =>
      obtain ⟨e, sg, es⟩ := t
      obtain ⟨h1, h2, h3⟩ := he e sg es rfl
      simp only [Bool.and_eq_true, Bool.or_eq_true, decide_eq_true_eq]
      refine ⟨⟨h1, ?_⟩, h3⟩
      cases sg with
      | none => rfl
      | some g => simpa using h2 g rfl

/-- After the first digit of the integer part: the rest of the number. -/
theorem int_inv (st : Step) (d : Nat) (hst : (st = .s0 ∧ d = 48) ∨ (st = .s1 ∧ 49 ≤ d ∧ d ≤ 57))
    (neg : Bool) (input : List Nat) (k m : Nat) (h : readLoop ⟨st, []⟩ input k = some m) :
    ∃ (n : JNum) (y : List Nat), n.ok = true ∧ n.neg = neg ∧ n.int.head? = some d ∧
      (if neg then [45] else []) ++ d :: input = n.text ++ y ∧
      m + (if neg then 2 else 1) = k + n.text.length := by
  rcases hst with ⟨rfl, rfl⟩ | ⟨rfl, h1, h2⟩
  · obtain ⟨frac, exp, y, hf, he, hx, hm⟩ := frac_exp_inv .s0 (Or.inl rfl) input
      (by intro c t _ hs; cases hs) k m h
    refine ⟨⟨neg, [48], frac, exp⟩, y, jnum_ok neg 48 [] frac exp (Or.inl ⟨rfl, rfl⟩) hf he,
      rfl, rfl, ?_, ?_⟩
    · simp [JNum.text, hx]
    · cases neg <;> simp [JNum.text, hm] <;> omega
  · obtain ⟨ds, x, hds, rfl, hx⟩ := split_digits input
    rw [readLoop_digits _ (Or.inl rfl) _ _ hds] at h
    obtain ⟨frac, exp, y, hf, he, hx2, hm⟩ := frac_exp_inv .s1 (Or.inr rfl) x
      (by intro c t hc _; exact hx c t hc) _ m h
    refine ⟨⟨neg, d :: ds, frac, exp⟩, y,
      jnum_ok neg d ds frac exp (Or.inr ⟨h1, h2, hds⟩) hf he, rfl, rfl, ?_, ?_⟩
    · simp [JNum.text, hx2]
    · cases neg <;> simp [JNum.text, hm] <;> omega

/-- What `readValue` accepts at a byte that is neither white space nor an opening bracket is
the text of a well-formed scalar. -/
theorem scalar_inv (c : Nat) (t : List Nat) (n : Nat) (hsp : isSpace c = false)
    (h91 : c ≠ 91) (h123 : c ≠ 123) (h : readValue (c :: t) = some n) :
    ∃ (v : JV) (x : List Nat), v.isScalar = true ∧ v.ok = true ∧ c :: t = v.text ++ x ∧
      n = v.text.length := by
  unfold readValue Scanner.reset at h
  by_cases h34 : c = 34
  · subst h34
    rw [readLoop_step _ ⟨.inString, []⟩ 34 .scanBeginLiteral _ _
      (by simp [Scanner.next, stateBeginValue, isSpace]) (by simp)] at h
    obtain ⟨cs, rest, h1, h2, h3⟩ := str_inv t.length t _ n (le_refl _) h
    refine ⟨.str cs, rest, rfl, by simpa [JV.ok] using h1, ?_, ?_⟩
    · simp [JV.text, strText, h2]
    · simp [JV.text, strText, h3]; omega
  · by_cases h45 : c = 45
    · subst h45
      rw [readLoop_step _ ⟨.neg, []⟩ 45 .scanBeginLiteral _ _
        (by simp [Scanner.next, stateBeginValue, isSpace]) (by simp)] at h
      cases t with
      | nil => simp [readLoop, Scanner.next, Scanner.fail] at h
      | cons d t =>
        by_cases hd0 : d = 48
        · subst hd0
          rw [readLoop_step _ ⟨.s0, []⟩ 48 .scanContinue _ _
            (by simp [Scanner.next]) (by simp)] at h
          obtain ⟨num, y, h1, h2, h3, h4, h5⟩ := int_inv .s0 48 (Or.inl ⟨rfl, rfl⟩) true t _ n h
          refine ⟨.num num, y, rfl, by simpa [JV.ok] using h1, by simpa [JV.text] using h4, ?_⟩
          have hl := congrArg List.length h4
          simp only [↓reduceIte, List.length_append, List.length_cons, List.length_nil] at hl h5
          simp only [JV.text]; omega
        · by_cases hd1 : 49 ≤ d ∧ d ≤ 57
          · rw [readLoop_step _ ⟨.s1, []⟩ d .scanContinue _ _
              (by simp [Scanner.next, hd0, hd1]) (by simp)] at h
            obtain ⟨num, y, h1, h2, h3, h4, h5⟩ :=
              int_inv .s1 d (Or.inr ⟨rfl, hd1.1, hd1.2⟩) true t _ n h
            refine ⟨.num num, y, rfl, by simpa [JV.ok] using h1, by simpa [JV.text] using h4, ?_⟩
            have hl := congrArg List.length h4
            simp only [↓reduceIte, List.length_append, List.length_cons, List.length_nil] at hl h5
            simp only [JV.text]; omega
          · simp [readLoop, Scanner.next, hd0, hd1, Scanner.fail] at h
    · by_cases h48 : c = 48
      · subst h48
        rw [readLoop_step _ ⟨.s0, []⟩ 48 .scanBeginLiteral _ _
          (by simp [Scanner.next, stateBeginValue, isSpace]) (by simp)] at h
        obtain ⟨num, y, h1, h2, h3, h4, h5⟩ := int_inv .s0 48 (Or.inl ⟨rfl, rfl⟩) false t _ n h
        refine ⟨.num num, y, rfl, by simpa [JV.ok] using h1, by simpa [JV.text] using h4, ?_⟩
        have hl := congrArg List.length h4
        simp only [Bool.false_eq_true, ↓reduceIte, List.nil_append, List.length_append,
          List.length_cons] at hl h5
        simp only [JV.text]; omega
      · by_cases h116 : c = 116
        · subst h116
          rw [readLoop_step _ ⟨.sT, []⟩ 116 .scanBeginLiteral _ _
            (by simp [Scanner.next, stateBeginValue, isSpace]) (by simp)] at h
          obtain ⟨x, rfl, hm⟩ := (lit_inv t _ n).1 h
          exact ⟨.tru, x, rfl, rfl, rfl, by simp [JV.text, hm]⟩
        · by_cases h102 : c = 102
          · subst h102
            rw [readLoop_step _ ⟨.sF, []⟩ 102 .scanBeginLiteral _ _
              (by simp [Scanner.next, stateBeginValue, isSpace]) (by simp)] at h
            obtain ⟨x, rfl, hm⟩ := (lit_inv t _ n).2.1 h
            exact ⟨.fls, x, rfl, rfl, rfl, by simp [JV.text, hm]⟩
          · by_cases h110 : c = 110
            · subst h110
              rw [readLoop_step _ ⟨.sN, []⟩ 110 .scanBeginLiteral _ _
                (by simp [Scanner.next, stateBeginValue, isSpace]) (by simp)] at h
              obtain ⟨x, rfl, hm⟩ := (lit_inv t _ n).2.2 h
              exact ⟨.nul, x, rfl, rfl, rfl, by simp [JV.text, hm]⟩
            · by_cases hd1 : 49 ≤ c ∧ c ≤ 57
              · rw [readLoop_step _ ⟨.s1, []⟩ c .scanBeginLiteral _ _
                  (by simp [Scanner.next, stateBeginValue, hsp, h123, h91, h34, h45, h48, h116,
                    h102, h110, hd1]) (by simp)] at h
                obtain ⟨num, y, h1, h2, h3, h4, h5⟩ :=
                  int_inv .s1 c (Or.inr ⟨rfl, hd1.1, hd1.2⟩) false t _ n h
                refine ⟨.num num, y, rfl, by simpa [JV.ok] using h1,
                  by simpa [JV.text] using h4, ?_⟩
                have hl := congrArg List.length h4
                simp only [Bool.false_eq_true, ↓reduceIte, List.nil_append, List.length_append,
                  List.length_cons] at hl h5
                simp only [JV.text]; omega
              · simp [readLoop, Scanner.next, stateBeginValue, hsp, h123, h91, h34, h45, h48,
                  h116, h102, h110, hd1, Scanner.fail] at h

theorem scalarToken_inv (L : Lib) (v : JV) (hs : v.isScalar = true) (hv : v.ok = true)
    (tok : Token) (h : scalarToken L v.text = some tok) :
    v.floatsOk L = true ∧ tok = scalarTok L v := by
  cases v with
  | str cs =>
    simp only [JV.text, strText, scalarToken, ↓reduceIte, Option.some.injEq] at h
    exact ⟨rfl, h.symm⟩
  | num n =>
    obtain ⟨c, t, ht, hc⟩ := num_text_head n (by simpa [JV.ok] using hv)
    have hne : c ≠ 34 ∧ ¬ (c = 110 ∨ c = 116 ∨ c = 102) := by
      rcases hc with rfl | hc
      · simp
      · simp only [isDigit, Bool.and_eq_true, decide_eq_true_eq] at hc; omega
    simp only [JV.text, ht, scalarToken, hne.1, hne.2, ↓reduceIte] at h
    split at h
    · rename_i hfl
      simp only [Option.some.injEq] at h
      exact ⟨by simpa [JV.floatsOk, ht] using hfl, h.symm⟩
    · simp at h
  | tru =>
    simp [JV.text, scalarToken] at h
    exact ⟨rfl, h.symm⟩
  | fls =>
    simp [JV.text, scalarToken] at h
    exact ⟨rfl, h.symm⟩
  | nul =>
    simp [JV.text, scalarToken] at h
    exact ⟨rfl, h.symm⟩
  | arr es w => simp [JV.isScalar] at hs
  | obj ms w => simp [JV.isScalar] at hs

/-! ## What `Token` accepts -/

theorem tokenLoop_skip_inv (L : Lib) (rest : List Nat) (off : Nat) (st : TokState)
    (stk : List TokState) (r : Token × Decoder) (h : tokenLoop L rest off st stk = some r) :
    ∃ w c y, wsOk w = true ∧ rest = w ++ c :: y ∧ isSpace c = false ∧
      tokenLoop L (c :: y) (off + w.length) st stk = some r := by
  induction rest generalizing off with
  | nil => simp [tokenLoop] at h
  | cons a t ih =>
    by_cases ha : isSpace a = true
    · have h1 : tokenLoop L (a :: t) off st stk = tokenLoop L t (off + 1) st stk :=
        tokenLoop_ws L [a] t (by simp [wsOk, ha]) off st stk
      rw [h1] at h
      obtain ⟨w, c, y, hw, rfl, hc, hr⟩ := ih _ h
      refine ⟨a :: w, c, y, by simp [wsOk, ha] at hw ⊢; exact hw, rfl, hc, ?_⟩
      rw [← hr]; congr 1; simp; omega
    · exact ⟨[], a, t, rfl, rfl, by simpa using ha, by simpa using h⟩

theorem take_drop_of_append {x : List Nat} (a b : List Nat) (n : Nat) (h : x = a ++ b)
    (hn : n = a.length) : x.take n = a ∧ x.drop n = b := by
  subst h hn
  exact ⟨List.take_left' rfl, List.drop_left' rfl⟩

/-- `Token` at a byte that starts a value, in a state that allows a value. -/
theorem valueTok_inv (L : Lib) (c : Nat) (y : List Nat) (off : Nat) (st : TokState)
    (stk : List TokState) (tok : Token) (d : Decoder) (hsp : isSpace c = false)
    (hst : tokenValueAllowed st = true) (h93 : c = 93 → st ≠ .arrayStart)
    (h : tokenLoop L (c :: y) off st stk = some (tok, d)) :
    ValueTok L (c :: y) st stk tok d := by
  have hnk := not_key_state st hst
  have hns : ¬ (st = .objectStart ∨ st = .objectComma) := by
    cases st <;> simp [tokenValueAllowed] at hst ⊢
  have hnc : st ≠ .objectColon ∧ st ≠ .arrayComma ∧ st ≠ .objectComma := by
    cases st <;> simp [tokenValueAllowed] at hst ⊢
  unfold tokenLoop at h
  simp only [hsp, Bool.false_eq_true, ↓reduceIte, hst] at h
  by_cases h91 : c = 91
  · subst h91
    simp only [↓reduceIte] at h
    split at h
    · simp only [Option.some.injEq, Prod.mk.injEq] at h
      obtain ⟨rfl, rfl⟩ := h
      exact Or.inr (Or.inl ⟨y, rfl, rfl, rfl, rfl, rfl⟩)
    · simp at h
  · simp only [h91, ↓reduceIte] at h
    by_cases hc93 : c = 93
    · have hne := h93 hc93
      have : ¬ (st = .arrayStart ∨ st = .arrayComma) := by
        intro hh; rcases hh with hh | hh
        · exact hne hh
        · exact hnc.2.1 hh
      simp [hc93, this] at h
    · simp only [hc93, ↓reduceIte] at h
      by_cases h123 : c = 123
      · subst h123
        simp only [↓reduceIte] at h
        split at h
        · simp only [Option.some.injEq, Prod.mk.injEq] at h
          obtain ⟨rfl, rfl⟩ := h
          exact Or.inr (Or.inr ⟨y, rfl, rfl, rfl, rfl, rfl⟩)
        · simp at h
      · simp only [h123, ↓reduceIte] at h
        by_cases h125 : c = 125
        · simp [h125, hns] at h
        · simp only [h125, ↓reduceIte] at h
          by_cases h58 : c = 58
          · simp [h58, hnc.1] at h
          · simp only [h58, ↓reduceIte] at h
            by_cases h44 : c = 44
            · simp [h44, hnc.2.1, hnc.2.2] at h
            · simp only [h44, ↓reduceIte, hnk, and_false] at h
              cases hrv : readValue (c :: y) with
              | none => simp [hrv] at h
              | some n =>
                simp only [hrv] at h
                obtain ⟨v, x, hs, hv, hx, hn⟩ := scalar_inv c y n hsp h91 h123 hrv
                obtain ⟨htake, hdrop⟩ := take_drop_of_append v.text x n hx hn
                rw [htake, hdrop] at h
                cases hsc : scalarToken L v.text with
                | none => simp [hsc] at h
                | some tk =>
                  simp only [hsc, Option.some.injEq, Prod.mk.injEq] at h
                  obtain ⟨rfl, rfl⟩ := h
                  obtain ⟨hf, htk⟩ := scalarToken_inv L v hs hv tk hsc
                  exact Or.inl ⟨v, x, hs, hv, hf, hx, htk, rfl, rfl, rfl⟩

/-- `Token` where an array element or the end of the array is expected. -/
theorem elemTok_inv (L : Lib) (rest : List Nat) (off : Nat) (first : Bool) (top : TokState)
    (below : List TokState) (tok : Token) (d : Decoder)
    (h : tokenLoop L rest off (if first then .arrayStart else .arrayComma) (top :: below)
      = some (tok, d)) :
    (∃ w, wsOk w = true ∧ rest = w ++ 93 :: d.rest ∧ tok = .delim 93 ∧
        d.tokenState = tokenValueEnd top ∧ d.tokenStack = below)
    ∨ (∃ wc wv y, wsOk wc = true ∧ wsOk wv = true ∧ rest = wc ++ (sepText first ++ (wv ++ y)) ∧
        ValueTok L y (if first then .arrayStart else .arrayValue) (top :: below) tok d) := by
  obtain ⟨w, c, y, hw, rfl, hc, hr⟩ := tokenLoop_skip_inv L _ _ _ _ _ h
  by_cases h93 : c = 93
  · subst h93
    rw [tokenLoop_closeArray L _ _ _ _ _ (by cases first <;> simp)] at hr
    simp only [Option.some.injEq, Prod.mk.injEq] at hr
    obtain ⟨rfl, rfl⟩ := hr
    exact Or.inl ⟨w, hw, rfl, rfl, rfl, rfl⟩
  · cases first with
    | true =>
      have := valueTok_inv L c y _ .arrayStart _ tok d hc rfl (fun h => absurd h h93)
        (by simpa using hr)
      exact Or.inr ⟨w, [], c :: y, hw, rfl, by simp [sepText], by simpa using this⟩
    | false =>
      simp only [Bool.false_eq_true, ↓reduceIte] at hr
      by_cases h44 : c = 44
      · subst h44
        rw [tokenLoop_comma_array] at hr
        obtain ⟨w2, c2, y2, hw2, rfl, hc2, hr2⟩ := tokenLoop_skip_inv L _ _ _ _ _ hr
        have := valueTok_inv L c2 y2 _ .arrayValue _ tok d hc2 rfl (fun _ => by simp) hr2
        exact Or.inr ⟨w, w2, c2 :: y2, hw, hw2, by simp [sepText], by simpa using this⟩
      · unfold tokenLoop at hr
        simp [hc, h93, h44, tokenValueAllowed] at hr

/-- `Token` where an object key or the end of the object is expected. -/
theorem memberTok_inv (L : Lib) (rest : List Nat) (off : Nat) (first : Bool) (top : TokState)
    (below : List TokState) (tok : Token) (d : Decoder)
    (h : tokenLoop L rest off (if first then .objectStart else .objectComma) (top :: below)
      = some (tok, d)) :
    (∃ w, wsOk w = true ∧ rest = w ++ 125 :: d.rest ∧ tok = .delim 125 ∧
        d.tokenState = tokenValueEnd top ∧ d.tokenStack = below)
    ∨ (∃ (wc wk : List Nat) (key : List SChar), wsOk wc = true ∧ wsOk wk = true ∧
        key.all SChar.ok = true ∧
        rest = wc ++ (sepText first ++ (wk ++ (strText key ++ d.rest))) ∧
        tok = .str (L.unquote (strText key)) ∧ d.tokenState = .objectColon ∧
        d.tokenStack = top :: below) := by
  -- a key at a quote, in a state that expects a key
  have hkey : ∀ (y : List Nat) (o : Nat) (st : TokState),
      (st = .objectStart ∨ st = .objectKey) →
      tokenLoop L (34 :: y) o st (top :: below) = some (tok, d) →
      ∃ key : List SChar, key.all SChar.ok = true ∧ 34 :: y = strText key ++ d.rest ∧
        tok = .str (L.unquote (strText key)) ∧ d.tokenState = .objectColon ∧
        d.tokenStack = top :: below := by
    intro y o st hst hk
    unfold tokenLoop at hk
    simp only [isSpace, Nat.reduceEqDiff, decide_False, Bool.or_self, Bool.false_eq_true,
      ↓reduceIte, hst, and_self] at hk
    cases hrv : readValue (34 :: y) with
    | none => simp [hrv] at hk
    | some n =>
      simp only [hrv, Option.some.injEq, Prod.mk.injEq] at hk
      obtain ⟨rfl, rfl⟩ := hk
      obtain ⟨v, x, hs, hv, hx, hn⟩ := scalar_inv 34 y n (by decide) (by decide) (by decide) hrv
      obtain ⟨htake, hdrop⟩ := take_drop_of_append v.text x n hx hn
      cases v with
      | str cs =>
        refine ⟨cs, by simpa [JV.ok] using hv, ?_, ?_, rfl, rfl⟩
        · simp only [hdrop]; simpa [JV.text] using hx
        · simp only [htake, JV.text]
      | num nn =>
        obtain ⟨c1, t1, ht1, hc1⟩ := num_text_head nn (by simpa [JV.ok] using hv)
        simp only [JV.text, ht1, List.cons_append, List.cons.injEq] at hx
        rcases hc1 with rfl | hc1
        · simp at hx
        · rw [← hx.1] at hc1; simp [isDigit] at hc1
      | tru => simp [JV.text] at hx
      | fls => simp [JV.text] at hx
      | nul => simp [JV.text] at hx
      | arr es w => simp [JV.isScalar] at hs
      | obj ms w => simp [JV.isScalar] at hs
  -- no other byte is accepted where a key is expected
  have hother : ∀ (c : Nat) (y : List Nat) (o : Nat) (st : TokState),
      (st = .objectStart ∨ st = .objectKey ∨ st = .objectComma) → isSpace c = false →
      c ≠ 34 → c ≠ 125 → (c = 44 → st ≠ .objectComma) →
      tokenLoop L (c :: y) o st (top :: below) = some (tok, d) → False := by
    intro c y o st hst hsp h34 h125 h44 hk
    unfold tokenLoop at hk
    rcases hst with rfl | rfl | rfl
    · simp [hsp, h34, h125, tokenValueAllowed] at hk
    · simp [hsp, h34, h125, tokenValueAllowed] at hk
    · by_cases hc44 : c = 44
      · exact h44 hc44 rfl
      · simp [hsp, h34, h125, hc44, tokenValueAllowed] at hk
  obtain ⟨w, c, y, hw, rfl, hc, hr⟩ := tokenLoop_skip_inv L _ _ _ _ _ h
  by_cases h125 : c = 125
  · subst h125
    rw [tokenLoop_closeObject L _ _ _ _ _ (by cases first <;> simp)] at hr
    simp only [Option.some.injEq, Prod.mk.injEq] at hr
    obtain ⟨rfl, rfl⟩ := hr
    exact Or.inl ⟨w, hw, rfl, rfl, rfl, rfl⟩
  · cases first with
    | true =>
      simp only [↓reduceIte] at hr
      by_cases h34 : c = 34
      · subst h34
        obtain ⟨key, h1, h2, h3, h4, h5⟩ := hkey y _ .objectStart (Or.inl rfl) hr
        exact Or.inr ⟨w, [], key, hw, rfl, h1, by simp [sepText, h2], h3, h4, h5⟩
      · exact (hother c y _ .objectStart (Or.inl rfl) hc h34 h125 (fun _ => by simp) hr).elim
    | false =>
      simp only [Bool.false_eq_true, ↓reduceIte] at hr
      by_cases h44 : c = 44
      · subst h44
        rw [tokenLoop_comma_object] at hr
        obtain ⟨w2, c2, y2, hw2, rfl, hc2, hr2⟩ := tokenLoop_skip_inv L _ _ _ _ _ hr
        by_cases h34 : c2 = 34
        · subst h34
          obtain ⟨key, h1, h2, h3, h4, h5⟩ := hkey y2 _ .objectKey (Or.inr rfl) hr2
          exact Or.inr ⟨w, w2, key, hw, hw2, h1, by simp [sepText, h2], h3, h4, h5⟩
        · by_cases h125' : c2 = 125
          · subst h125'
            unfold tokenLoop at hr2
            simp [isSpace] at hr2
          · exact (hother c2 y2 _ .objectKey (Or.inr (Or.inl rfl)) hc2 h34 h125'
              (fun _ => by simp) hr2).elim
      · by_cases h34 : c = 34
        · subst h34
          unfold tokenLoop at hr
          simp [isSpace, tokenValueAllowed] at hr
        · exact (hother c y _ .objectComma (Or.inr (Or.inr rfl)) hc h34 h125
            (fun h => absurd h h44) hr).elim

theorem parseTok_inv (L : Lib) (rest : List Nat) (off : Nat) (st0 : TokState)
    (stk : List TokState) (tok : Token) (d : Decoder)
    (hst : st0 = .topValue ∨ st0 = .objectColon)
    (h : tokenLoop L rest off st0 stk = some (tok, d)) :
    ∃ pre y, PrefixOk st0 pre ∧ rest = pre ++ y ∧ ValueTok L y (valueState st0) stk tok d := by
  obtain ⟨w, c, y, hw, rfl, hc, hr⟩ := tokenLoop_skip_inv L _ _ _ _ _ h
  rcases hst with rfl | rfl
  · have := valueTok_inv L c y _ .topValue stk tok d hc rfl (fun _ => by simp) hr
    exact ⟨w, c :: y, Or.inl ⟨rfl, hw⟩, rfl, this⟩
  · by_cases h58 : c = 58
    · subst h58
      rw [tokenLoop_colon] at hr
      obtain ⟨w2, c2, y2, hw2, rfl, hc2, hr2⟩ := tokenLoop_skip_inv L _ _ _ _ _ hr
      have := valueTok_inv L c2 y2 _ .objectValue stk tok d hc2 rfl (fun _ => by simp) hr2
      exact ⟨w ++ 58 :: w2, c2 :: y2, Or.inr ⟨rfl, w, w2, hw, hw2, rfl⟩, by simp, this⟩
    · unfold tokenLoop at hr
      simp [hc, h58, tokenValueAllowed] at hr

theorem wsOk_append {a b : List Nat} (ha : wsOk a = true) (hb : wsOk b = true) :
    wsOk (a ++ b) = true := by
  simp only [wsOk, List.all_append, Bool.and_eq_true] at ha hb ⊢
  exact ⟨ha, hb⟩

/-- Soundness of the walk: whatever text the three functions walk over with success is
well-formed text. -/
theorem walk_sound (L : Lib) (fuel : Nat) :
    (∀ (c : Context) (dec : Decoder) (path : List Nat) (c1 : Context) (dec1 : Decoder),
      (dec.tokenState = .topValue ∨ dec.tokenState = .objectColon) →
      parse L fuel c dec path = .ok (c1, dec1) →
      ∃ (pre : List Nat) (v : JV), PrefixOk dec.tokenState pre ∧ v.ok = true ∧ v.floatsOk L = true ∧
        dec.rest = pre ++ (v.text ++ dec1.rest) ∧
        dec1.tokenState = tokenValueEnd (valueState dec.tokenState) ∧
        dec1.tokenStack = dec.tokenStack) ∧
    (∀ (c : Context) (dec : Decoder) (path : List Nat) (c1 : Context) (dec1 : Decoder)
      (first : Bool) (top : TokState) (below : List TokState),
      dec.tokenState = (if first then .objectStart else .objectComma) →
      dec.tokenStack = top :: below →
      parseObject L fuel c dec path = .ok (c1, dec1) →
      ∃ (ms : JMembers) (w : List Nat), ms.ok = true ∧ ms.floatsOk L = true ∧ wsOk w = true ∧
        dec.rest = ms.text first ++ (w ++ 125 :: dec1.rest) ∧
        dec1.tokenState = tokenValueEnd top ∧ dec1.tokenStack = below) ∧
    (∀ (c : Context) (dec : Decoder) (path : List Nat) (i : Nat) (c1 : Context) (dec1 : Decoder)
      (first : Bool) (top : TokState) (below : List TokState),
      dec.tokenState = (if first then .arrayStart else .arrayComma) →
      dec.tokenStack = top :: below →
      parseArray L fuel c dec path i = .ok (c1, dec1) →
      ∃ (es : JElems) (w : List Nat), es.ok = true ∧ es.floatsOk L = true ∧ wsOk w = true ∧
        dec.rest = es.text first ++ (w ++ 93 :: dec1.rest) ∧
        dec1.tokenState = tokenValueEnd top ∧ dec1.tokenStack = below) := by
  induction fuel with
  | zero => simp [parse, parseObject, parseArray]
  | succ fuel ih =>
    obtain ⟨ihP, ihO, ihA⟩ := ih
    refine ⟨?_, ?_, ?_⟩
    · intro c dec path c1 dec1 hst h
      obtain ⟨rest, off, st0, stk⟩ := dec
      simp only at hst
      unfold parse at h
      simp only [Decoder.InputOffset, Decoder.Token] at h
      split at h
      · simp at h
      · cases ht : tokenLoop L rest off st0 stk with
        | none => simp [ht] at h
        | some r =>
          obtain ⟨tok, d⟩ := r
          simp only [ht] at h
          obtain ⟨pre, y, hpre, rfl, hvt⟩ := parseTok_inv L _ _ _ _ _ _ hst ht
          rcases hvt with ⟨v, x, hs, hv, hf, rfl, rfl, hx, hts, htk⟩ |
            ⟨x, rfl, rfl, hx, hts, htk⟩ | ⟨x, rfl, rfl, hx, hts, htk⟩
          · have hnd := scalarTok_not_delim L v
            simp only [hnd] at h
            simp only [Res.ok.injEq, Prod.mk.injEq] at h
            obtain ⟨-, rfl⟩ := h
            exact ⟨pre, v, hpre, hv, hf, by rw [hx], hts, htk⟩
          · simp only [Nat.reduceEqDiff, ↓reduceIte] at h
            obtain ⟨es, w, h1, h2, h3, h4, h5, h6⟩ :=
              ihA _ d path 0 c1 dec1 true (valueState st0) stk (by simpa using hts) htk h
            refine ⟨pre, .arr es w, hpre, by simp [JV.ok, h1, h3], by simpa [JV.floatsOk] using h2,
              ?_, h5, h6⟩
            rw [arr_text_append, ← h4, hx]
          · simp only [↓reduceIte] at h
            obtain ⟨ms, w, h1, h2, h3, h4, h5, h6⟩ :=
              ihO _ d path c1 dec1 true (valueState st0) stk (by simpa using hts) htk h
            refine ⟨pre, .obj ms w, hpre, by simp [JV.ok, h1, h3], by simpa [JV.floatsOk] using h2,
              ?_, h5, h6⟩
            rw [obj_text_append, ← h4, hx]
    · intro c dec path c1 dec1 first top below hst hstk h
      obtain ⟨rest, off, st0, stk⟩ := dec
      simp only at hst hstk
      subst hst hstk
      unfold parseObject at h
      simp only [Decoder.Token] at h
      cases ht : tokenLoop L rest off (if first then .objectStart else .objectComma)
          (top :: below) with
      | none => simp [ht] at h
      | some r =>
        obtain ⟨tok, d⟩ := r
        simp only [ht] at h
        rcases memberTok_inv L _ _ _ _ _ _ _ ht with ⟨w, hw, rfl, rfl, hts, htk⟩ |
          ⟨wc, wk, key, hwc, hwk, hkey, rfl, rfl, hts, htk⟩
        · simp only [↓reduceIte, Res.ok.injEq, Prod.mk.injEq] at h
          obtain ⟨-, rfl⟩ := h
          exact ⟨.nil, w, rfl, rfl, hw, by simp [JMembers.text], hts, htk⟩
        · simp only at h
          cases hp : parse L fuel c d (keyPath path (L.unquote (strText key))) with
          | ok r2 =>
            obtain ⟨c2, d2⟩ := r2
            simp only [hp] at h
            obtain ⟨pre, v, hpre, hv, hf, hrest, hts2, htk2⟩ :=
              ihP c d _ c2 d2 (Or.inr hts) hp
            rw [hts] at hts2 hpre
            rw [htk] at htk2
            obtain ⟨ms, w, h1, h2, h3, h4, h5, h6⟩ :=
              ihO c2 d2 path c1 dec1 false top below (by simpa [valueState] using hts2) htk2 h
            rcases hpre with ⟨hh, -⟩ | ⟨-, w1, w2, hw1, hw2, rfl⟩
            · cases hh
            · refine ⟨.cons wc wk key w1 w2 v ms, w, ?_, ?_, h3, ?_, h5, h6⟩
              · simp [JMembers.ok, hwc, hwk, hkey, hw1, hw2, hv, h1]
              · simp [JMembers.floatsOk, hf, h2]
              · rw [members_cons_text, ← h4, hrest]
          | err => simp [hp] at h
          | panic => simp [hp] at h
          | fuel => simp [hp] at h
    · intro c dec path i c1 dec1 first top below hst hstk h
      obtain ⟨rest, off, st0, stk⟩ := dec
      simp only at hst hstk
      subst hst hstk
      unfold parseArray at h
      simp only [Decoder.Token, Decoder.InputOffset] at h
      split at h
      · simp at h
      · cases ht : tokenLoop L rest off (if first then .arrayStart else .arrayComma)
            (top :: below) with
        | none => simp [ht] at h
        | some r =>
          obtain ⟨tok, d⟩ := r
          simp only [ht] at h
          rcases elemTok_inv L _ _ _ _ _ _ _ ht with ⟨w, hw, rfl, rfl, hts, htk⟩ |
            ⟨wc, wv, y, hwc, hwv, rfl, hvt⟩
          · simp only [↓reduceIte, Res.ok.injEq, Prod.mk.injEq] at h
            obtain ⟨-, rfl⟩ := h
            exact ⟨.nil, w, rfl, rfl, hw, by simp [JElems.text], hts, htk⟩
          · have hend : tokenValueEnd (if first then TokState.arrayStart else .arrayValue)
                = .arrayComma := by cases first <;> rfl
            rcases hvt with ⟨v, x, hs, hv, hf, rfl, rfl, hx, hts, htk⟩ |
              ⟨x, rfl, rfl, hx, hts, htk⟩ | ⟨x, rfl, rfl, hx, hts, htk⟩
            · have hnd := scalarTok_not_delim L v
              simp only [hnd] at h
              rw [hend] at hts
              obtain ⟨es, w, h1, h2, h3, h4, h5, h6⟩ :=
                ihA _ d path (i + 1) c1 dec1 false top below (by simpa using hts) htk h
              refine ⟨.cons wc wv v es, w, ?_, ?_, h3, ?_, h5, h6⟩
              · simp [JElems.ok, hwc, hwv, hv, h1]
              · simp [JElems.floatsOk, hf, h2]
              · rw [elems_cons_text, ← h4, hx]
            · simp only [Nat.reduceEqDiff, ↓reduceIte] at h
              cases hp : parseArray L fuel
                  (c.Register (elemPath path i) (if 0 < i then skipOneSpace c.data (off + 1) else off))
                  d (elemPath path i) 0 with
              | ok r2 =>
                obtain ⟨c2, d2⟩ := r2
                simp only [hp] at h
                obtain ⟨es1, w1, g1, g2, g3, g4, g5, g6⟩ :=
                  ihA _ d _ 0 c2 d2 true _ _ (by simpa using hts) htk hp
                rw [hend] at g5
                obtain ⟨es, w, h1, h2, h3, h4, h5, h6⟩ :=
                  ihA c2 d2 path (i + 1) c1 dec1 false top below (by simpa using g5) g6 h
                refine ⟨.cons wc wv (.arr es1 w1) es, w, ?_, ?_, h3, ?_, h5, h6⟩
                · simp [JElems.ok, JV.ok, hwc, hwv, g1, g3, h1]
                · simp [JElems.floatsOk, JV.floatsOk, g2, h2]
                · rw [elems_cons_text, arr_text_append, ← h4, ← g4, hx]
              | err => simp [hp] at h
              | panic => simp [hp] at h
              | fuel => simp [hp] at h
            · simp only [Nat.reduceEqDiff, ↓reduceIte] at h
              cases hp : parseObject L fuel
                  (c.Register (elemPath path i) (if 0 < i then skipOneSpace c.data (off + 1) else off))
                  d (elemPath path i) with
              | ok r2 =>
                obtain ⟨c2, d2⟩ := r2
                simp only [hp] at h
                obtain ⟨ms1, w1, g1, g2, g3, g4, g5, g6⟩ :=
                  ihO _ d _ c2 d2 true _ _ (by simpa using hts) htk hp
                rw [hend] at g5
                obtain ⟨es, w, h1, h2, h3, h4, h5, h6⟩ :=
                  ihA c2 d2 path (i + 1) c1 dec1 false top below (by simpa using g5) g6 h
                refine ⟨.cons wc wv (.obj ms1 w1) es, w, ?_, ?_, h3, ?_, h5, h6⟩
                · simp [JElems.ok, JV.ok, hwc, hwv, g1, g3, h1]
                · simp [JElems.floatsOk, JV.floatsOk, g2, h2]
                · rw [elems_cons_text, obj_text_append, ← h4, ← g4, hx]
              | err => simp [hp] at h
              | panic => simp [hp] at h
              | fuel => simp [hp] at h

theorem stateBeginValue_not_end (s : Scanner) (c : Nat) :
    (stateBeginValue s c).2 ≠ .scanEnd := by
  unfold stateBeginValue Scanner.pushParseState Scanner.fail
  repeat' split
  all_goals simp

theorem readValue_pos (c : Nat) (cs : List Nat) (n : Nat)
    (h : readValue (c :: cs) = some n) : 0 < n := by
  have h0 : (Scanner.reset.next c).2 ≠ .scanEnd := stateBeginValue_not_end _ c
  unfold readValue readLoop at h
  generalize Scanner.reset.next c = r at h h0
  obtain ⟨s1, op⟩ := r
  simp only at h h0
  rw [if_neg h0] at h
  repeat' split at h
  all_goals first
    | (simp at h; done)
    | (have h2 := (readLoop_bounds _ _ _ _ h).1; omega)
    | (simp at h; omega)

theorem tokenLoop_shrinks (L : Lib) (rest : List Nat) (off : Nat) (st : TokState)
    (stk : List TokState) (tok : Token) (d : Decoder)
    (h : tokenLoop L rest off st stk = some (tok, d)) :
    d.rest.length < rest.length := by
  induction rest generalizing off st stk with
  | nil => simp [tokenLoop] at h
  | cons c cs ih =>
    unfold tokenLoop at h
    repeat' split at h
    all_goals first
      | (have h2 := ih _ _ _ h; simp only [List.length_cons]; omega)
      | (simp at h; done)
      | (simp only [Option.some.injEq, Prod.mk.injEq] at h; obtain ⟨-, rfl⟩ := h
         simp only [List.length_cons]; omega)
      | (simp only [Option.some.injEq, Prod.mk.injEq] at h; obtain ⟨-, rfl⟩ := h
         have h3 := readValue_pos _ _ _ ‹readValue (c :: cs) = some _›
         simp only [List.length_drop, List.length_cons] at h3 ⊢; omega)

/-- Every successful call of the walk consumes at least one byte. -/
theorem walk_shrinks (L : Lib) (fuel : Nat) :
    (∀ (c : Context) (dec : Decoder) (path : List Nat) (c1 : Context) (dec1 : Decoder),
      parse L fuel c dec path = .ok (c1, dec1) → dec1.rest.length < dec.rest.length) ∧
    (∀ (c : Context) (dec : Decoder) (path : List Nat) (c1 : Context) (dec1 : Decoder),
      parseObject L fuel c dec path = .ok (c1, dec1) → dec1.rest.length < dec.rest.length) ∧
    (∀ (c : Context) (dec : Decoder) (path : List Nat) (i : Nat) (c1 : Context)
      (dec1 : Decoder),
      parseArray L fuel c dec path i = .ok (c1, dec1) → dec1.rest.length < dec.rest.length) := by
  induction fuel with
  | zero => simp [parse, parseObject, parseArray]
  | succ fuel ih =>
    obtain ⟨ihP, ihO, ihA⟩ := ih
    refine ⟨?_, ?_, ?_⟩
    · intro c dec path c1 dec1 h
      unfold parse at h
      simp only at h
      split at h
      · simp at h
      · cases ht : dec.Token L with
        | none => simp [ht] at h
        | some r =>
          obtain ⟨tok, d⟩ := r
          have hs := tokenLoop_shrinks L _ _ _ _ _ _ ht
          simp only [ht] at h
          cases tok with
          | delim b =>
            simp only at h
            split at h
            · have := ihO _ _ _ _ _ h; omega
            · split at h
              · have := ihA _ _ _ _ _ _ h; omega
              · simp at h
          | str k =>
            simp only [Res.ok.injEq, Prod.mk.injEq] at h
            obtain ⟨-, rfl⟩ := h
            exact hs
          | other =>
            simp only [Res.ok.injEq, Prod.mk.injEq] at h
            obtain ⟨-, rfl⟩ := h
            exact hs
    · intro c dec path c1 dec1 h
      unfold parseObject at h
      cases ht : dec.Token L with
      | none => simp [ht] at h
      | some r =>
        obtain ⟨tok, d⟩ := r
        have hs := tokenLoop_shrinks L _ _ _ _ _ _ ht
        simp only [ht] at h
        cases tok with
        | delim b =>
          simp only at h
          split at h
          · simp only [Res.ok.injEq, Prod.mk.injEq] at h
            obtain ⟨-, rfl⟩ := h
            exact hs
          · simp at h
        | str k =>
          simp only at h
          cases hp : parse L fuel c d (keyPath path k) with
          | ok r2 =>
            obtain ⟨c2, d2⟩ := r2
            simp only [hp] at h
            have h1 := ihP _ _ _ _ _ hp
            have h2 := ihO _ _ _ _ _ h
            omega
          | err => simp [hp] at h
          | panic => simp [hp] at h
          | fuel => simp [hp] at h
        | other => simp at h
    · intro c dec path i c1 dec1 h
      unfold parseArray at h
      simp only at h
      split at h
      · simp at h
      · cases ht : dec.Token L with
        | none => simp [ht] at h
        | some r =>
          obtain ⟨tok, d⟩ := r
          have hs := tokenLoop_shrinks L _ _ _ _ _ _ ht
          simp only [ht] at h
          cases tok with
          | delim b =>
            simp only at h
            split at h
            · simp only [Res.ok.injEq, Prod.mk.injEq] at h
              obtain ⟨-, rfl⟩ := h
              exact hs
            · split at h
              · split at h
                · rename_i c2 d2 hp
                  have h1 := ihA _ _ _ _ _ _ hp
                  have h2 := ihA _ _ _ _ _ _ h
                  omega
                all_goals simp at h
              · split at h
                · split at h
                  · rename_i c2 d2 hp
                    have h1 := ihO _ _ _ _ _ hp
                    have h2 := ihA _ _ _ _ _ _ h
                    omega
                  all_goals simp at h
                · simp at h
          | str k =>
            simp only at h
            have h2 := ihA _ _ _ _ _ _ h
            omega
          | other =>
            simp only at h
            have h2 := ihA _ _ _ _ _ _ h
            omega

/-- Fuel above the number of unread bytes is never used up. -/
theorem walk_fuel (L : Lib) (fuel : Nat) :
    (∀ (c : Context) (dec : Decoder) (path : List Nat), dec.rest.length < fuel →
      parse L fuel c dec path ≠ .fuel) ∧
    (∀ (c : Context) (dec : Decoder) (path : List Nat), dec.rest.length < fuel →
      parseObject L fuel c dec path ≠ .fuel) ∧
    (∀ (c : Context) (dec : Decoder) (path : List Nat) (i : Nat), dec.rest.length < fuel →
      parseArray L fuel c dec path i ≠ .fuel) := by
  induction fuel with
  | zero => simp
  | succ fuel ih =>
    obtain ⟨ihP, ihO, ihA⟩ := ih
    refine ⟨?_, ?_, ?_⟩
    · intro c dec path hl h
      unfold parse at h
      simp only at h
      split at h
      · simp at h
      · cases ht : dec.Token L with
        | none => simp [ht] at h
        | some r =>
          obtain ⟨tok, d⟩ := r
          have hs := tokenLoop_shrinks L _ _ _ _ _ _ ht
          simp only [ht] at h
          cases tok with
          | delim b =>
            simp only at h
            split at h
            · exact ihO _ _ _ (by omega) h
            · split at h
              · exact ihA _ _ _ _ (by omega) h
              · simp at h
          | str k => simp at h
          | other => simp at h
    · intro c dec path hl h
      unfold parseObject at h
      cases ht : dec.Token L with
      | none => simp [ht] at h
      | some r =>
        obtain ⟨tok, d⟩ := r
        have hs := tokenLoop_shrinks L _ _ _ _ _ _ ht
        simp only [ht] at h
        cases tok with
        | delim b =>
          simp only at h
          split at h <;> simp at h
        | str k =>
          simp only at h
          cases hp : parse L fuel c d (keyPath path k) with
          | ok r2 =>
            obtain ⟨c2, d2⟩ := r2
            simp only [hp] at h
            have h1 := (walk_shrinks L fuel).1 _ _ _ _ _ hp
            exact ihO _ _ _ (by omega) h
          | err => simp [hp] at h
          | panic => simp [hp] at h
          | fuel => exact ihP _ _ _ (by omega) hp
        | other => simp at h
    · intro c dec path i hl h
      unfold parseArray at h
      simp only at h
      split at h
      · simp at h
      · cases ht : dec.Token L with
        | none => simp [ht] at h
        | some r =>
          obtain ⟨tok, d⟩ := r
          have hs := tokenLoop_shrinks L _ _ _ _ _ _ ht
          simp only [ht] at h
          cases tok with
          | delim b =>
            simp only at h
            split at h
            · simp at h
            · split at h
              · split at h
                · rename_i c2 d2 hp
                  have h1 := (walk_shrinks L fuel).2.2 _ _ _ _ _ _ hp
                  exact ihA _ _ _ _ (by omega) h
                · simp at h
                · simp at h
                · rename_i hp
                  exact ihA _ _ _ _ (by omega) hp
              · split at h
                · split at h
                  · rename_i c2 d2 hp
                    have h1 := (walk_shrinks L fuel).2.1 _ _ _ _ _ hp
                    exact ihA _ _ _ _ (by omega) h
                  · simp at h
                  · simp at h
                  · rename_i hp
                    exact ihO _ _ _ (by omega) hp
                · simp at h
          | str k =>
            simp only at h
            exact ihA _ _ _ _ (by omega) h
          | other =>
            simp only at h
            exact ihA _ _ _ _ (by omega) h

/-- The fuel `Parse` passes is enough: `Parse` returns a `Context`, returns an error, or
panics. -/
theorem Parse_total (L : Lib) (data : List Nat) : Parse L data ≠ .fuel := by
  unfold Parse
  have := (walk_fuel L (data.length + 1)).1 { data := data, paths := [] } (NewDecoder data) []
    (by simp [NewDecoder])
  cases hw : parse L (data.length + 1) { data := data, paths := [] } (NewDecoder data) [] with
  | ok r => simp
  | err => simp
  | panic => simp
  | fuel => exact absurd hw this

theorem ws_nil_of_head {w x y : List Nat} {c : Nat} (hw : wsOk w = true)
    (hc : isSpace c = false) (h : w ++ x = c :: y) : w = [] := by
  cases w with
  | nil => rfl
  | cons a t =>
    simp only [wsOk, List.all_cons, Bool.and_eq_true] at hw
    simp only [List.cons_append, List.cons.injEq] at h
    rw [h.1, hc] at hw
    exact absurd hw.1 (by simp)

theorem docStray_not_value (L : Lib) : ¬ BeginsWithValue L docStray := by
  rintro ⟨pre, v, rest, hpre, hv, -, h⟩
  have h0 := ws_nil_of_head hpre (by decide) h.symm
  subst h0
  obtain ⟨c, t, h1, h2⟩ := value_text_head v hv
  rw [h1] at h
  simp only [docStray, List.nil_append, List.cons_append, List.cons.injEq] at h
  rw [← h.1] at h2
  exact absurd h2 (by decide)

/-- C9, amended: a buffer that does not begin, after optional white space, with a well-formed
JSON value whose number literals the decoder accepts is rejected: `Parse` returns no
`Context`; it returns an error or, on a buffer that breaks off, panics. -/
theorem parse_rejects_malformed (L : Lib) (data : List Nat) (h : ¬ BeginsWithValue L data) :
    Parse L data = .err ∨ Parse L data = .panic := by
  have htot := Parse_total L data
  cases hp : Parse L data with
  | err => exact Or.inl rfl
  | panic => exact Or.inr rfl
  | fuel => exact absurd hp htot
  | ok c =>
    exfalso
    apply h
    unfold Parse at hp
    cases hw : parse L (data.length + 1) { data := data, paths := [] } (NewDecoder data) [] with
    | ok r =>
      obtain ⟨c1, d1⟩ := r
      obtain ⟨pre, v, hpre, hv, hf, hrest, -, -⟩ :=
        (walk_sound L _).1 _ _ _ _ _ (Or.inl rfl) hw
      rcases hpre with ⟨-, hpre⟩ | ⟨hh, -⟩
      · exact ⟨pre, v, d1.rest, hpre, hv, hf, hrest⟩
      · cases hh
    | err => simp [hw] at hp
    | panic => simp [hw] at hp
    | fuel => simp [hw] at hp

/-- C9, witness: the buffer `}{` begins with no value and `Parse` returns an error. -/
theorem parse_rejects_malformed_witness :
    ¬ BeginsWithValue stdLib docStray ∧
      (Parse stdLib docStray = .err ∨ Parse stdLib docStray = .panic) :=
  ⟨docStray_not_value stdLib, parse_rejects_malformed stdLib docStray (docStray_not_value stdLib)⟩

/-- C9, counterexample: the buffer `{}x` is not a single well-formed JSON value with white
space around it (a byte that is no white space follows the value), and `Parse` returns a
`Context` for it, with the root registered. -/
theorem trailing_bytes_accepted :
    ¬ WellFormed docTrailing ∧
      Parse stdLib docTrailing = .ok { data := docTrailing, paths := [([], 1)] } := by
  refine ⟨?_, by decide⟩
  rintro ⟨⟨pre, root, post⟩, hok, ht⟩
  simp only [Doc.ok, Bool.and_eq_true] at hok
  obtain ⟨⟨hpre, hroot⟩, hpost⟩ := hok
  simp only [Doc.text, docTrailing] at ht
  have h0 := ws_nil_of_head hpre (by decide) ht
  subst h0
  rw [List.nil_append] at ht
  cases root with
  | str cs => simp [JV.text, strText] at ht
  | num n =>
    obtain ⟨c, t, h1, h2⟩ := num_text_head n (by simpa [JV.ok] using hroot)
    simp only [JV.text, h1, List.cons_append, List.cons.injEq] at ht
    rw [ht.1] at h2
    revert h2
    decide
  | tru => simp [JV.text] at ht
  | fls => simp [JV.text] at ht
  | nul => simp [JV.text] at ht
  | arr es w => simp [JV.text] at ht
  | obj ms w =>
    simp only [JV.ok, Bool.and_eq_true] at hroot
    obtain ⟨hms, hw⟩ := hroot
    simp only [JV.text, List.cons_append, List.cons.injEq, true_and, List.append_assoc] at ht
    cases ms with
    | nil =>
      simp only [JMembers.text, List.nil_append] at ht
      cases w with
      | nil =>
        simp only [List.nil_append, List.cons_append, List.cons.injEq, true_and] at ht
        subst ht
        exact absurd hpost (by decide)
      | cons a t =>
        have := ws_nil_of_head hw (by decide) ht
        cases this
    | cons wc wk key wcolon wv v tl =>
      simp only [JMembers.ok, Bool.and_eq_true] at hms
      simp only [JMembers.text, sepText, ↓reduceIte, List.nil_append, List.append_assoc] at ht
      have h1 := ws_nil_of_head hms.1.1.1.1.1.1 (by decide) ht
      subst h1
      rw [List.nil_append] at ht
      have h2 := ws_nil_of_head hms.1.1.1.1.1.2 (by decide) ht
      subst h2
      simp [strText] at ht



set_option exponentiation.threshold 2000 in
set_option maxRecDepth 100000 in
/-- C11, at the failing input: the one-byte document `1` is well formed and `Parse` returns a
`Context` for it whose map registers the root at offset 1, the length of the buffer; the
registered offset is not below the length. -/
theorem root_offset_not_below_length :
    oneDoc.ok = true ∧ oneDoc.text = docOne ∧
      ∃ c, Parse stdLib docOne = .ok c ∧ c.lookup [] = some 1 ∧ c.data.length = 1 ∧
        ∃ e ∈ c.paths, ¬ e.2 < c.data.length :=
  ⟨by decide, by decide, ⟨docOne, [([], 1)]⟩, by decide, by decide, by decide,
    ([], 1), by decide, by decide⟩

/-- C14, amended: `Unmarshal(path, &v)` is `Get(path)` followed by decoding the returned bytes
into the destination: both fail with the not-found error exactly when the path is not
registered, `Unmarshal` returns an error (or panics) when `Get` does, and when `Get` returns
bytes `Unmarshal` returns what the decoder makes of them for the destination, an error when it
rejects them and the decoded value otherwise. -/
theorem unmarshal_via_get (c : Context) (path : List Nat) (β : Type)
    (store : List Nat → Option β) :
    c.Unmarshal path store = unmarshalViaGet c path store ∧
    (c.GetErr path = some .notFound ↔ c.lookup path = none) ∧
    (c.UnmarshalErr path store = some .notFound ↔ c.lookup path = none) ∧
    (c.Get path = .err ↔ (c.GetErr path).isSome = true) ∧
    (c.Unmarshal path store = .err ↔ (c.UnmarshalErr path store).isSome = true) ∧
    (c.lookup path = none → c.Get path = .err ∧ c.Unmarshal path store = .err) ∧
    (c.Get path = .err → c.Unmarshal path store = .err) ∧
    (c.Get path = .panic → c.Unmarshal path store = .panic) ∧
    (∀ msg, c.Get path = .ok msg →
      (store msg = none → c.Unmarshal path store = .err) ∧
      (∀ x, store msg = some x → c.Unmarshal path store = .ok x)) := by
  have key : c.Unmarshal path store = unmarshalViaGet c path store := by
    unfold Context.Unmarshal unmarshalViaGet Context.Get
    cases c.lookup path with
    | none => rfl
    | some v =>
      simp only
      split
      · rfl
      · cases decodeRaw (c.data.drop v) with
        | none => rfl
        | some msg => rfl
  refine ⟨key, ?_, ?_, ?_, ?_, ?_, ?_, ?_, ?_⟩
  · unfold Context.GetErr
    cases c.lookup path with
    | none => simp
    | some v =>
      simp only
      split
      · simp
      · cases decodeRaw (c.data.drop v) <;> simp
  · unfold Context.UnmarshalErr
    cases c.lookup path with
    | none => simp
    | some v =>
      simp only
      split
      · simp
      · cases decodeRaw (c.data.drop v) with
        | none => simp
        | some msg => cases hs : store msg <;> simp [hs]
  · unfold Context.GetErr Context.Get
    cases c.lookup path with
    | none => simp
    | some v =>
      simp only
      split
      · simp
      · cases decodeRaw (c.data.drop v) <;> simp
  · unfold Context.UnmarshalErr Context.Unmarshal
    cases c.lookup path with
    | none => simp
    | some v =>
      simp only
      split
      · simp
      · cases decodeRaw (c.data.drop v) with
        | none => simp
        | some msg => cases hs : store msg <;> simp [hs]
  · intro h
    simp [Context.Get, Context.Unmarshal, h]
  · intro h
    rw [key]; simp [unmarshalViaGet, h]
  · intro h
    rw [key]; simp [unmarshalViaGet, h]
  · intro msg h
    rw [key]
    refine ⟨fun hs => ?_, fun x hs => ?_⟩ <;> simp [unmarshalViaGet, h, hs]

set_option exponentiation.threshold 2000 in
set_option maxRecDepth 100000 in
/-- C14, counterexample: `Parse` returns a `Context` for the buffer `1 1e999` with the root
registered at offset 2; `Get("")` returns the bytes `1e999` and no error, while `Unmarshal`
with the generic destination returns an error, the number being outside the `float64`
range. -/
theorem generic_unmarshal_fails_where_get_succeeds :
    ∃ c, Parse stdLib docThenHuge = .ok c ∧ c.lookup [] = some 2 ∧
      c.Get [] = .ok [49, 101, 57, 57, 57] ∧
      (c.Unmarshal [] (storeAny stdLib)).isErr = true :=
  ⟨⟨docThenHuge, [([], 2)]⟩, by decide, by decide, by decide, by decide⟩

theorem toDigitsCore_append : ∀ (n fuel fuel2 : Nat) (ds : List Char), n < fuel → n < fuel2 →
    Nat.toDigitsCore 10 fuel n ds = Nat.toDigitsCore 10 fuel2 n [] ++ ds := by
  intro n
  induction n using Nat.strong_induction_on with
  | _ n ih =>
    intro fuel fuel2 ds h1 h2
    obtain ⟨f, rfl⟩ : ∃ f, fuel = f + 1 := ⟨fuel - 1, by omega⟩
    obtain ⟨f2, rfl⟩ : ∃ f, fuel2 = f + 1 := ⟨fuel2 - 1, by omega⟩
    simp only [Nat.toDigitsCore]
    by_cases h0 : n / 10 = 0
    · simp [h0]
    · simp only [h0, ↓reduceIte]
      have hlt : n / 10 < n := Nat.div_lt_self (by omega) (by decide)
      rw [ih (n / 10) hlt f f2 _ (by omega) (by omega),
        ih (n / 10) hlt f2 f2 [Nat.digitChar (n % 10)] (by omega) (by omega)]
      simp

theorem toDigits_small (n : Nat) (h : n < 10) : Nat.toDigits 10 n = [Nat.digitChar n] := by
  have h0 : n / 10 = 0 := Nat.div_eq_of_lt h
  simp [Nat.toDigits, Nat.toDigitsCore, h0, Nat.mod_eq_of_lt h]

theorem toDigits_big (n : Nat) (h : 10 ≤ n) :
    Nat.toDigits 10 n = Nat.toDigits 10 (n / 10) ++ [Nat.digitChar (n % 10)] := by
  have h0 : n / 10 ≠ 0 := by
    intro h1
    have := Nat.div_add_mod n 10
    omega
  have hlt : n / 10 < n := Nat.div_lt_self (by omega) (by decide)
  simp only [Nat.toDigits, Nat.toDigitsCore, h0, ↓reduceIte]
  exact toDigitsCore_append (n / 10) n (n / 10 + 1) _ hlt (by omega)

theorem digitChar_toNat (d : Nat) (h : d < 10) : (Nat.digitChar d).toNat = 48 + d := by
  interval_cases d <;> rfl

theorem decimal_small (n : Nat) (h : n < 10) : decimal n = [48 + n] := by
  simp [decimal, toDigits_small n h, digitChar_toNat n h]

theorem decimal_big (n : Nat) (h : 10 ≤ n) : decimal n = decimal (n / 10) ++ [48 + n % 10] := by
  simp [decimal, toDigits_big n h, digitChar_toNat (n % 10) (Nat.mod_lt _ (by decide))]

theorem decimal_ne_nil (n : Nat) : decimal n ≠ [] := by
  by_cases h : n < 10
  · simp [decimal_small n h]
  · simp [decimal_big n (by omega)]

theorem decimal_no_slash : ∀ (n : Nat), ∀ b ∈ decimal n, b ≠ 47 := by
  intro n
  induction n using Nat.strong_induction_on with
  | _ n ih =>
    intro b hb
    by_cases h : n < 10
    · rw [decimal_small n h] at hb
      simp only [List.mem_singleton] at hb
      omega
    · rw [decimal_big n (by omega)] at hb
      rcases List.mem_append.mp hb with hb | hb
      · exact ih (n / 10) (Nat.div_lt_self (by omega) (by decide)) b hb
      · simp only [List.mem_singleton] at hb
        omega

theorem decimal_inj : ∀ (n m : Nat), decimal n = decimal m → n = m := by
  intro n
  induction n using Nat.strong_induction_on with
  | _ n ih =>
    intro m h
    by_cases hn : n < 10
    · by_cases hm : m < 10
      · rw [decimal_small n hn, decimal_small m hm] at h
        simp only [List.cons.injEq, and_true] at h
        omega
      · rw [decimal_small n hn, decimal_big m (by omega)] at h
        have := congrArg List.length h
        have hne := decimal_ne_nil (m / 10)
        simp only [List.length_singleton, List.length_append] at this
        have : (decimal (m / 10)).length = 0 := by omega
        exact absurd (List.length_eq_zero.mp this) hne
    · by_cases hm : m < 10
      · rw [decimal_big n (by omega), decimal_small m hm] at h
        have := congrArg List.length h
        have hne := decimal_ne_nil (n / 10)
        simp only [List.length_singleton, List.length_append] at this
        have : (decimal (n / 10)).length = 0 := by omega
        exact absurd (List.length_eq_zero.mp this) hne
      · rw [decimal_big n (by omega), decimal_big m (by omega)] at h
        have h1 := List.append_inj' h rfl
        have h2 := ih (n / 10) (Nat.div_lt_self (by omega) (by decide)) (m / 10) h1.1
        have h3 : n % 10 = m % 10 := by
          have := h1.2
          simp only [List.cons.injEq, and_true] at this
          omega
        have := Nat.div_add_mod n 10
        have := Nat.div_add_mod m 10
        omega



theorem elemPath_decimal (p : List Nat) (i : Nat) : elemPath p i = p ++ 47 :: decimal i := rfl

theorem ext_refl (p : List Nat) : PathExt p p := Or.inl rfl

theorem ext_seg {p s q : List Nat} (h : PathExt (p ++ 47 :: s) q) : ∃ t, q = p ++ 47 :: t := by
  rcases h with rfl | ⟨t, rfl⟩
  · exact ⟨s, rfl⟩
  · exact ⟨s ++ 47 :: t, by simp⟩

theorem ext_ne {p s q : List Nat} (h : PathExt (p ++ 47 :: s) q) : q ≠ p := by
  obtain ⟨t, rfl⟩ := ext_seg h
  intro h1
  have := congrArg List.length h1
  simp at this

/-- Two segments without `/` that are followed by the end of the path or by `/` in the same
path are equal. -/
theorem seg_unique : ∀ (s1 s2 x y : List Nat), 47 ∉ s1 → 47 ∉ s2 →
    (x = [] ∨ ∃ t, x = 47 :: t) → (y = [] ∨ ∃ t, y = 47 :: t) → s1 ++ x = s2 ++ y → s1 = s2
  | [], [], _, _, _, _, _, _, _ => rfl
  | [], b :: s2, x, y, _, h2, hx, _, h => by
    rcases hx with rfl | ⟨t, rfl⟩
    · simp at h
    · simp only [List.nil_append, List.cons_append, List.cons.injEq] at h
      exact absurd (h.1 ▸ List.mem_cons_self _ _) h2
  | a :: s1, [], x, y, h1, _, _, hy, h => by
    rcases hy with rfl | ⟨t, rfl⟩
    · simp at h
    · simp only [List.nil_append, List.cons_append, List.cons.injEq] at h
      exact absurd (h.1 ▸ List.mem_cons_self _ _) h1
  | a :: s1, b :: s2, x, y, h1, h2, hx, hy, h => by
    simp only [List.cons_append, List.cons.injEq] at h
    have := seg_unique s1 s2 x y (fun hm => h1 (List.mem_cons_of_mem _ hm))
      (fun hm => h2 (List.mem_cons_of_mem _ hm)) hx hy h.2
    rw [h.1, this]

theorem ext_seg_unique {p s1 s2 q : List Nat} (h1 : PathExt (p ++ 47 :: s1) q)
    (h2 : PathExt (p ++ 47 :: s2) q) (n1 : 47 ∉ s1) (n2 : 47 ∉ s2) : s1 = s2 := by
  have key : ∃ x y, (x = [] ∨ ∃ t, x = 47 :: t) ∧ (y = [] ∨ ∃ t, y = 47 :: t) ∧
      s1 ++ x = s2 ++ y := by
    rcases h1 with rfl | ⟨t1, rfl⟩
    · rcases h2 with h2 | ⟨t2, h2⟩
      · refine ⟨[], [], Or.inl rfl, Or.inl rfl, ?_⟩
        simpa using h2
      · refine ⟨[], 47 :: t2, Or.inl rfl, Or.inr ⟨_, rfl⟩, ?_⟩
        simpa using h2
    · rcases h2 with h2 | ⟨t2, h2⟩
      · refine ⟨47 :: t1, [], Or.inr ⟨_, rfl⟩, Or.inl rfl, ?_⟩
        simpa using h2
      · refine ⟨47 :: t1, 47 :: t2, Or.inr ⟨_, rfl⟩, Or.inr ⟨_, rfl⟩, ?_⟩
        simpa using h2
  obtain ⟨x, y, hx, hy, h⟩ := key
  exact seg_unique s1 s2 x y n1 n2 hx hy h

theorem ext_trans {p q r : List Nat} (h1 : PathExt p q) (h2 : PathExt q r) : PathExt p r := by
  rcases h1 with rfl | ⟨t, rfl⟩
  · exact h2
  · rcases h2 with rfl | ⟨u, rfl⟩
    · exact Or.inr ⟨t, rfl⟩
    · exact Or.inr ⟨t ++ 47 :: u, by simp⟩

theorem valuesExt_scalar (L : Lib) (v : JV) (hs : v.isScalar = true) : ValuesExt L v := by
  intro p s e he
  cases v <;> simp [JV.isScalar] at hs <;>
    (simp only [JV.values, List.mem_singleton] at he; subst he; exact ext_refl _)

theorem valuesExt_arr (L : Lib) (es : JElems) (w : List Nat) (ih : ElemsExt L es) :
    ValuesExt L (.arr es w) := by
  intro p s e he
  rw [JV.values] at he
  rcases List.mem_cons.mp he with rfl | he
  · exact ext_refl _
  · obtain ⟨j, -, hj⟩ := ih p 0 (s + 1) e he
    exact Or.inr (ext_seg hj)

theorem valuesExt_obj (L : Lib) (ms : JMembers) (w : List Nat) (ih : MembersExt L ms) :
    ValuesExt L (.obj ms w) := by
  intro p s e he
  rw [JV.values] at he
  rcases List.mem_cons.mp he with rfl | he
  · exact ext_refl _
  · obtain ⟨k, -, hk⟩ := ih p true (s + 1) e he
    exact Or.inr (ext_seg hk)

theorem elemsExt_cons (L : Lib) (wc wv : List Nat) (v : JV) (tl : JElems)
    (ihv : ValuesExt L v) (ih : ElemsExt L tl) : ElemsExt L (.cons wc wv v tl) := by
  intro p i off e he
  rw [JElems.values] at he
  rcases List.mem_append.mp he with he | he
  · exact ⟨i, le_refl _, ihv _ _ e he⟩
  · obtain ⟨j, hj, h⟩ := ih p (i + 1) _ e he
    exact ⟨j, by omega, h⟩

theorem membersExt_cons (L : Lib) (wc wk : List Nat) (key : List SChar) (wcolon wv : List Nat)
    (v : JV) (tl : JMembers) (ihv : ValuesExt L v) (ih : MembersExt L tl) :
    MembersExt L (.cons wc wk key wcolon wv v tl) := by
  intro p first off e he
  rw [JMembers.values] at he
  rcases List.mem_append.mp he with he | he
  · exact ⟨_, List.mem_cons_self _ _, ihv _ _ e he⟩
  · obtain ⟨k, hk, h⟩ := ih p false _ e he
    exact ⟨k, List.mem_cons_of_mem _ hk, h⟩

mutual
theorem valuesExt (L : Lib) : ∀ v : JV, ValuesExt L v
  | .str _ => valuesExt_scalar L _ rfl
  | .num _ => valuesExt_scalar L _ rfl
  | .tru => valuesExt_scalar L _ rfl
  | .fls => valuesExt_scalar L _ rfl
  | .nul => valuesExt_scalar L _ rfl
  | .arr es w => valuesExt_arr L es w (elemsExt L es)
  | .obj ms w => valuesExt_obj L ms w (membersExt L ms)
theorem elemsExt (L : Lib) : ∀ es : JElems, ElemsExt L es
  | .nil => by intro p i off e he; simp [JElems.values] at he
  | .cons wc wv v tl => elemsExt_cons L wc wv v tl (valuesExt L v) (elemsExt L tl)
theorem membersExt (L : Lib) : ∀ ms : JMembers, MembersExt L ms
  | .nil => by intro p first off e he; simp [JMembers.values] at he
  | .cons wc wk key wcolon wv v tl =>
    membersExt_cons L wc wk key wcolon wv v tl (valuesExt L v) (membersExt L tl)
end



theorem keys_no_slash (L : Lib) : ∀ (ms : JMembers), ms.keysOk L = true →
    ∀ k ∈ ms.keys L, 47 ∉ k
  | .nil, _, k, hk => by simp [JMembers.keys] at hk
  | .cons _ _ key _ _ v tl, h, k, hk => by
    simp only [JMembers.keysOk, Bool.and_eq_true, decide_eq_true_eq] at h
    simp only [JMembers.keys, List.mem_cons] at hk
    rcases hk with rfl | hk
    · exact h.1.1.1
    · exact keys_no_slash L tl h.2 k hk

theorem valuesNodup_scalar (L : Lib) (v : JV) (hs : v.isScalar = true) : ValuesNodup L v := by
  intro p s _
  cases v <;> simp [JV.isScalar] at hs <;> simp [JV.values]

theorem valuesNodup_arr (L : Lib) (es : JElems) (w : List Nat) (ih : ElemsNodup L es) :
    ValuesNodup L (.arr es w) := by
  intro p s hk
  rw [JV.values, List.map_cons, List.nodup_cons]
  refine ⟨?_, ih p 0 (s + 1) (by simpa [JV.keysOk] using hk)⟩
  intro hmem
  obtain ⟨e, he, hp⟩ := List.mem_map.mp hmem
  obtain ⟨j, -, hj⟩ := elemsExt L es p 0 (s + 1) e he
  exact ext_ne hj hp

theorem valuesNodup_obj (L : Lib) (ms : JMembers) (w : List Nat) (ih : MembersNodup L ms) :
    ValuesNodup L (.obj ms w) := by
  intro p s hk
  rw [JV.values, List.map_cons, List.nodup_cons]
  refine ⟨?_, ih p true (s + 1) (by simpa [JV.keysOk] using hk)⟩
  intro hmem
  obtain ⟨e, he, hp⟩ := List.mem_map.mp hmem
  obtain ⟨k, -, hj⟩ := membersExt L ms p true (s + 1) e he
  exact ext_ne hj hp

theorem elemsNodup_cons (L : Lib) (wc wv : List Nat) (v : JV) (tl : JElems)
    (ihv : ValuesNodup L v) (ih : ElemsNodup L tl) : ElemsNodup L (.cons wc wv v tl) := by
  intro p i off hk
  simp only [JElems.keysOk, Bool.and_eq_true] at hk
  rw [JElems.values, List.map_append, List.nodup_append]
  refine ⟨ihv _ _ hk.1, ih _ _ _ hk.2, ?_⟩
  intro q h1 h2
  obtain ⟨e1, he1, rfl⟩ := List.mem_map.mp h1
  obtain ⟨e2, he2, h12⟩ := List.mem_map.mp h2
  have x1 := valuesExt L v _ _ e1 he1
  obtain ⟨j, hj, x2⟩ := elemsExt L tl p (i + 1) _ e2 he2
  rw [h12, elemPath_decimal] at x2
  rw [elemPath_decimal] at x1
  have := ext_seg_unique x1 x2 (fun h => decimal_no_slash i 47 h rfl)
    (fun h => decimal_no_slash j 47 h rfl)
  have := decimal_inj _ _ this
  omega

theorem membersNodup_cons (L : Lib) (wc wk : List Nat) (key : List SChar) (wcolon wv : List Nat)
    (v : JV) (tl : JMembers) (ihv : ValuesNodup L v) (ih : MembersNodup L tl) :
    MembersNodup L (.cons wc wk key wcolon wv v tl) := by
  intro p first off hk
  simp only [JMembers.keysOk, Bool.and_eq_true, decide_eq_true_eq] at hk
  obtain ⟨⟨⟨hns, hnk⟩, hv⟩, htl⟩ := hk
  rw [JMembers.values, List.map_append, List.nodup_append]
  refine ⟨ihv _ _ hv, ih _ _ _ htl, ?_⟩
  intro q h1 h2
  obtain ⟨e1, he1, rfl⟩ := List.mem_map.mp h1
  obtain ⟨e2, he2, h12⟩ := List.mem_map.mp h2
  have x1 := valuesExt L v _ _ e1 he1
  obtain ⟨k, hk, x2⟩ := membersExt L tl p false _ e2 he2
  rw [h12] at x2
  have := ext_seg_unique x1 x2 hns (keys_no_slash L tl htl k hk)
  rw [this] at hnk
  exact hnk hk

mutual
theorem valuesNodup (L : Lib) : ∀ v : JV, ValuesNodup L v
  | .str _ => valuesNodup_scalar L _ rfl
  | .num _ => valuesNodup_scalar L _ rfl
  | .tru => valuesNodup_scalar L _ rfl
  | .fls => valuesNodup_scalar L _ rfl
  | .nul => valuesNodup_scalar L _ rfl
  | .arr es w => valuesNodup_arr L es w (elemsNodup L es)
  | .obj ms w => valuesNodup_obj L ms w (membersNodup L ms)
theorem elemsNodup (L : Lib) : ∀ es : JElems, ElemsNodup L es
  | .nil => by intro p i off _; simp [JElems.values]
  | .cons wc wv v tl => elemsNodup_cons L wc wv v tl (valuesNodup L v) (elemsNodup L tl)
theorem membersNodup (L : Lib) : ∀ ms : JMembers, MembersNodup L ms
  | .nil => by intro p first off _; simp [JMembers.values]
  | .cons wc wk key wcolon wv v tl =>
    membersNodup_cons L wc wk key wcolon wv v tl (valuesNodup L v) (membersNodup L tl)
end



theorem entries_paths (L : Lib) (d : Doc) :
    (d.entries L).map Entry.path = (d.values L).map Prod.fst := by
  rw [← doc_toValue, List.map_map]
  rfl

theorem register_fresh (c : Context) (p : List Nat) (i : Nat)
    (h : ∀ x ∈ c.paths, x.1 ≠ p) : (c.Register p i).paths = (p, i) :: c.paths := by
  unfold Context.Register
  simp only [List.cons.injEq, true_and]
  apply List.filter_eq_self.mpr
  intro x hx
  simpa using h x hx

/-- Registering entries with pairwise different paths, none of them in the map, adds one
pair to the map for each entry. -/
theorem registerAll_fresh : ∀ (es : List Entry) (c : Context),
    (es.map Entry.path).Nodup → (∀ e ∈ es, ∀ x ∈ c.paths, x.1 ≠ e.path) →
    (registerAll c es).paths = (es.map (fun e => (e.path, e.pos))).reverse ++ c.paths
  | [], c, _, _ => by simp [registerAll_nil]
  | e :: es, c, hnd, hfresh => by
    rw [List.map_cons, List.nodup_cons] at hnd
    rw [registerAll_cons, registerAll_fresh es _ hnd.2]
    · rw [register_fresh c e.path e.pos (hfresh e (List.mem_cons_self _ _))]
      simp
    · intro e1 he1 x hx
      rw [register_fresh c e.path e.pos (hfresh e (List.mem_cons_self _ _))] at hx
      rcases List.mem_cons.mp hx with rfl | hx
      · intro h
        have h2 : e.path = e1.path := h
        rw [h2] at hnd
        exact hnd.1 (List.mem_map_of_mem _ he1)
      · exact hfresh e1 (List.mem_cons_of_mem _ he1) x hx

/-- On a well-formed document with accepted numbers and pairwise different paths the map of
`Parse` holds one pair for each value, in reverse document order. -/
theorem parse_doc_paths (L : Lib) (d : Doc) (hok : d.ok = true)
    (hf : d.root.floatsOk L = true) (hdep : d.root.depth ≤ maxNestingDepth)
    (hk : d.root.keysOk L = true) :
    ∃ c, Parse L d.text = .ok c ∧ c.data = d.text ∧
      c.paths = ((d.entries L).map (fun e => (e.path, e.pos))).reverse := by
  refine ⟨_, parse_doc L d hok hf hdep, registerAll_data _ _, ?_⟩
  rw [registerAll_fresh]
  · simp
  · rw [entries_paths]
    exact valuesNodup L d.root [] d.pre.length hk
  · intro e _ x hx
    simp at hx





mutual
theorem values_length (L : Lib) : ∀ (v : JV) (p : List Nat) (s : Nat),
    (v.values L p s).length = v.leaves + v.containers
  | .str _, p, s => by simp [JV.values, JV.leaves, JV.containers]
  | .num _, p, s => by simp [JV.values, JV.leaves, JV.containers]
  | .tru, p, s => by simp [JV.values, JV.leaves, JV.containers]
  | .fls, p, s => by simp [JV.values, JV.leaves, JV.containers]
  | .nul, p, s => by simp [JV.values, JV.leaves, JV.containers]
  | .arr es w, p, s => by
    rw [JV.values, List.length_cons, elems_values_length L es p 0 (s + 1), JV.leaves,
      JV.containers]
    omega
  | .obj ms w, p, s => by
    rw [JV.values, List.length_cons, members_values_length L ms p true (s + 1), JV.leaves,
      JV.containers]
    omega
theorem elems_values_length (L : Lib) : ∀ (es : JElems) (p : List Nat) (i off : Nat),
    (es.values L p i off).length = es.leaves + es.containers
  | .nil, p, i, off => by simp [JElems.values, JElems.leaves, JElems.containers]
  | .cons wc wv v tl, p, i, off => by
    rw [JElems.values, List.length_append, values_length L v, elems_values_length L tl,
      JElems.leaves, JElems.containers]
    omega
theorem members_values_length (L : Lib) : ∀ (ms : JMembers) (p : List Nat) (first : Bool)
    (off : Nat), (ms.values L p first off).length = ms.leaves + ms.containers
  | .nil, p, first, off => by simp [JMembers.values, JMembers.leaves, JMembers.containers]
  | .cons wc wk key wcolon wv v tl, p, first, off => by
    rw [JMembers.values, List.length_append, values_length L v, members_values_length L tl,
      JMembers.leaves, JMembers.containers]
    omega
end



theorem skipOneSpace_corrected (data : List Nat) (cur : Nat) :
    skipOneSpace data (cur + 1) = correctedOffset data cur := by
  unfold skipOneSpace correctedOffset
  cases h : data.drop (cur + 1) with
  | nil =>
    have h1 : data[cur + 1]? = none := by
      rw [List.getElem?_eq_none_iff]
      exact List.drop_eq_nil_iff.mp h
    rw [h1]
  | cons r t =>
    have h1 : data[cur + 1]? = some r := by
      have h2 := List.getElem?_drop (L := data) (i := cur + 1) (j := 0)
      rw [h] at h2
      simpa using h2.symm
    rw [h1]

/-- The calls of the walk change the map only under paths below their own path: `parse` under
its path and the paths below it, `parseObject` under the paths below its path, `parseArray`
with counter `i` under the paths of the elements of index `i` or more and below them. -/
theorem walk_frame (L : Lib) (fuel : Nat) :
    (∀ (c : Context) (dec : Decoder) (path : List Nat) (c1 : Context) (dec1 : Decoder),
      parse L fuel c dec path = .ok (c1, dec1) →
      ∀ q : List Nat, ¬ PathExt path q → c1.lookup q = c.lookup q) ∧
    (∀ (c : Context) (dec : Decoder) (path : List Nat) (c1 : Context) (dec1 : Decoder),
      parseObject L fuel c dec path = .ok (c1, dec1) →
      ∀ q : List Nat, (¬ ∃ t, q = path ++ 47 :: t) → c1.lookup q = c.lookup q) ∧
    (∀ (c : Context) (dec : Decoder) (path : List Nat) (i : Nat) (c1 : Context)
      (dec1 : Decoder),
      parseArray L fuel c dec path i = .ok (c1, dec1) →
      ∀ q : List Nat, (¬ ∃ j, i ≤ j ∧ PathExt (elemPath path j) q) → c1.lookup q = c.lookup q) := by
  induction fuel with
  | zero => simp [parse, parseObject, parseArray]
  | succ fuel ih =>
    obtain ⟨ihP, ihO, ihA⟩ := ih
    have hreg : ∀ (c : Context) (p q : List Nat) (n : Nat), ¬ PathExt p q →
        (c.Register p n).lookup q = c.lookup q := by
      intro c p q n hq
      rw [lookup_register]
      have : ¬ q = p := fun h => hq (Or.inl h)
      simp [this]
    have hsub : ∀ (p q : List Nat), (¬ ∃ t, q = p ++ 47 :: t) → ∀ s, ¬ PathExt (p ++ 47 :: s) q :=
      fun p q hq s h => hq (ext_seg h)
    refine ⟨?_, ?_, ?_⟩
    · intro c dec path c1 dec1 h q hq
      unfold parse at h
      simp only at h
      split at h
      · simp at h
      · cases ht : dec.Token L with
        | none => simp [ht] at h
        | some r =>
          obtain ⟨tok, d⟩ := r
          simp only [ht] at h
          have hq2 : ¬ ∃ t, q = path ++ 47 :: t := fun ⟨t, ht⟩ => hq (Or.inr ⟨t, ht⟩)
          cases tok with
          | delim b =>
            simp only at h
            split at h
            · rw [ihO _ _ _ _ _ h q hq2, hreg _ _ _ _ hq]
            · split at h
              · rw [ihA _ _ _ _ _ _ h q (fun ⟨j, _, hj⟩ => hq2 (ext_seg hj)), hreg _ _ _ _ hq]
              · simp at h
          | str k =>
            simp only [Res.ok.injEq, Prod.mk.injEq] at h
            obtain ⟨rfl, -⟩ := h
            exact hreg _ _ _ _ hq
          | other =>
            simp only [Res.ok.injEq, Prod.mk.injEq] at h
            obtain ⟨rfl, -⟩ := h
            exact hreg _ _ _ _ hq
    · intro c dec path c1 dec1 h q hq
      unfold parseObject at h
      cases ht : dec.Token L with
      | none => simp [ht] at h
      | some r =>
        obtain ⟨tok, d⟩ := r
        simp only [ht] at h
        cases tok with
        | delim b =>
          simp only at h
          split at h
          · simp only [Res.ok.injEq, Prod.mk.injEq] at h
            obtain ⟨rfl, -⟩ := h
            rfl
          · simp at h
        | str k =>
          simp only at h
          cases hp : parse L fuel c d (keyPath path k) with
          | ok r2 =>
            obtain ⟨c2, d2⟩ := r2
            simp only [hp] at h
            rw [ihO _ _ _ _ _ h q hq, ihP _ _ _ _ _ hp q (hsub path q hq k)]
          | err => simp [hp] at h
          | panic => simp [hp] at h
          | fuel => simp [hp] at h
        | other => simp at h
    · intro c dec path i c1 dec1 h q hq
      have hqi : ¬ PathExt (elemPath path i) q := fun hx => hq ⟨i, le_refl _, hx⟩
      have hnext : ¬ ∃ j, i + 1 ≤ j ∧ PathExt (elemPath path j) q :=
        fun ⟨j, hj, hx⟩ => hq ⟨j, by omega, hx⟩
      have hin : ¬ ∃ t, q = elemPath path i ++ 47 :: t := fun ⟨t, ht⟩ => hqi (Or.inr ⟨t, ht⟩)
      unfold parseArray at h
      simp only at h
      split at h
      · simp at h
      · cases ht : dec.Token L with
        | none => simp [ht] at h
        | some r =>
          obtain ⟨tok, d⟩ := r
          simp only [ht] at h
          cases tok with
          | delim b =>
            simp only at h
            split at h
            · simp only [Res.ok.injEq, Prod.mk.injEq] at h
              obtain ⟨rfl, -⟩ := h
              rfl
            · split at h
              · split at h
                · rename_i c2 d2 hp
                  rw [ihA _ _ _ _ _ _ h q hnext,
                    ihA _ _ _ _ _ _ hp q (fun ⟨j, _, hj⟩ => hin (ext_seg hj)),
                    hreg _ _ _ _ hqi]
                all_goals simp at h
              · split at h
                · split at h
                  · rename_i c2 d2 hp
                    rw [ihA _ _ _ _ _ _ h q hnext, ihO _ _ _ _ _ hp q hin, hreg _ _ _ _ hqi]
                  all_goals simp at h
                · simp at h
          | str k =>
            simp only at h
            rw [ihA _ _ _ _ _ _ h q hnext, hreg _ _ _ _ hqi]
          | other =>
            simp only at h
            rw [ihA _ _ _ _ _ _ h q hnext, hreg _ _ _ _ hqi]

theorem not_ext_self (p : List Nat) : ¬ ∃ t, p = p ++ 47 :: t := by
  rintro ⟨t, ht⟩
  have := congrArg List.length ht
  simp at this

theorem not_ext_later_elem (path : List Nat) (i : Nat) :
    ¬ ∃ j, i + 1 ≤ j ∧ PathExt (elemPath path j) (elemPath path i) := by
  rintro ⟨j, hj, hx⟩
  rw [elemPath_decimal, elemPath_decimal] at hx
  have := ext_seg_unique hx (ext_refl _) (fun h => decimal_no_slash j 47 h rfl)
    (fun h => decimal_no_slash i 47 h rfl)
  have := decimal_inj _ _ this
  omega

theorem corrected_iff (data : List Nat) (cur : Nat) :
    (correctedOffset data cur = cur + 2 ↔
        ∃ b, data[cur + 1]? = some b ∧ unicodeIsSpace b = true) ∧
      (correctedOffset data cur = cur + 1 ∨ correctedOffset data cur = cur + 2) := by
  unfold correctedOffset
  cases hb : data[cur + 1]? with
  | none => simp
  | some b =>
    simp only
    by_cases hs : unicodeIsSpace b = true
    · simp [hs]
    · simp [hs]

/-- C17: in every call of `parse` that returns normally (the call for the root included) the
offset registered for the path of the call is the decoder's cursor plus 1, plus 1 more exactly
when the byte at cursor plus 1 exists and is white space; in every round of `parseArray` that
reads an element and returns normally the offset registered for the element is the same
correction of the cursor when the index is above 0, and the cursor itself at index 0.  The
correction is at most 2: the loop skips at most one white-space byte. -/
theorem offset_correction (L : Lib) (fuel : Nat) (c : Context) (dec : Decoder)
    (path : List Nat) (i : Nat) (c1 : Context) (dec1 : Decoder) :
    (parse L fuel c dec path = .ok (c1, dec1) →
      c1.lookup path = some (correctedOffset c.data dec.InputOffset)) ∧
    (parseArray L fuel c dec path i = .ok (c1, dec1) →
      (∃ tok d, dec.Token L = some (tok, d) ∧ tok ≠ .delim 93) →
      c1.lookup (elemPath path i)
        = some (if 0 < i then correctedOffset c.data dec.InputOffset else dec.InputOffset)) ∧
    ((correctedOffset c.data dec.InputOffset = dec.InputOffset + 2 ↔
        ∃ b, c.data[dec.InputOffset + 1]? = some b ∧ unicodeIsSpace b = true) ∧
      (correctedOffset c.data dec.InputOffset = dec.InputOffset + 1 ∨
        correctedOffset c.data dec.InputOffset = dec.InputOffset + 2)) := by
  refine ⟨?_, ?_, ?_⟩
  · intro h
    cases fuel with
    | zero => simp [parse] at h
    | succ fuel =>
      obtain ⟨-, hO, hA⟩ := walk_frame L fuel
      unfold parse at h
      simp only at h
      split at h
      · simp at h
      · rw [skipOneSpace_corrected] at h
        cases ht : dec.Token L with
        | none => simp [ht] at h
        | some r =>
          obtain ⟨tok, d⟩ := r
          simp only [ht] at h
          cases tok with
          | delim b =>
            simp only at h
            split at h
            · rw [hO _ _ _ _ _ h path (not_ext_self path), lookup_register]
              simp
            · split at h
              · rw [hA _ _ _ _ _ _ h path (fun ⟨j, _, hj⟩ => not_ext_self path (ext_seg hj)),
                  lookup_register]
                simp
              · simp at h
          | str k =>
            simp only [Res.ok.injEq, Prod.mk.injEq] at h
            obtain ⟨rfl, -⟩ := h
            rw [lookup_register]; simp
          | other =>
            simp only [Res.ok.injEq, Prod.mk.injEq] at h
            obtain ⟨rfl, -⟩ := h
            rw [lookup_register]; simp
  · intro h ⟨tok, d, ht, hne⟩
    cases fuel with
    | zero => simp [parseArray] at h
    | succ fuel =>
      obtain ⟨-, hO, hA⟩ := walk_frame L fuel
      have hlater := not_ext_later_elem path i
      have hinner : ¬ ∃ t, elemPath path i = elemPath path i ++ 47 :: t := not_ext_self _
      unfold parseArray at h
      simp only at h
      split at h
      · simp at h
      · rw [skipOneSpace_corrected] at h
        simp only [ht] at h
        cases tok with
        | delim b =>
          simp only at h
          split at h
          · rename_i hb
            subst hb
            exact absurd rfl hne
          · split at h
            · split at h
              · rename_i c2 d2 hp
                rw [hA _ _ _ _ _ _ h _ hlater,
                  hA _ _ _ _ _ _ hp _ (fun ⟨j, _, hj⟩ => hinner (ext_seg hj)), lookup_register]
                simp
              all_goals simp at h
            · split at h
              · split at h
                · rename_i c2 d2 hp
                  rw [hA _ _ _ _ _ _ h _ hlater, hO _ _ _ _ _ hp _ hinner, lookup_register]
                  simp
                all_goals simp at h
              · simp at h
        | str k =>
          simp only at h
          rw [hA _ _ _ _ _ _ h _ hlater, lookup_register]
          simp
        | other =>
          simp only at h
          rw [hA _ _ _ _ _ _ h _ hlater, lookup_register]
          simp
  · exact corrected_iff _ _

set_option exponentiation.threshold 2000 in
set_option maxRecDepth 100000 in
/-- C17, witness: the call of `parse` for the root of `{"a":1}` registers the root at the
cursor 0 plus 1, and the round of `parseArray` for the element of index 1 of `[1, 2]`, the
cursor being 2 and a space standing at offset 3, registers the element at offset 4. -/
theorem offset_correction_witness :
    (parse stdLib 8 ⟨docA, []⟩ (NewDecoder docA) []
        = .ok (⟨docA, [(pathA, 5), ([], 1)]⟩, ⟨[], 7, .topValue, []⟩) ∧
      (Context.mk docA [(pathA, 5), ([], 1)]).lookup [] = some (correctedOffset docA 0) ∧
      correctedOffset docA 0 = 1) ∧
    (parseArray stdLib 8 ⟨docPair, [([47, 48], 1), ([], 1)]⟩ decAfterFirst [] 1
        = .ok (⟨docPair, [([47, 49], 4), ([47, 48], 1), ([], 1)]⟩, ⟨[], 6, .topValue, []⟩) ∧
      (Context.mk docPair [([47, 49], 4), ([47, 48], 1), ([], 1)]).lookup (elemPath [] 1)
        = some (if 0 < 1 then correctedOffset docPair 2 else 2) ∧
      correctedOffset docPair 2 = 4) :=
  ⟨⟨by decide,
      (offset_correction stdLib 8 ⟨docA, []⟩ (NewDecoder docA) [] 0
        ⟨docA, [(pathA, 5), ([], 1)]⟩ ⟨[], 7, .topValue, []⟩).1 (by decide),
      by decide⟩,
    ⟨by decide,
      (offset_correction stdLib 8 ⟨docPair, [([47, 48], 1), ([], 1)]⟩ decAfterFirst [] 1
        ⟨docPair, [([47, 49], 4), ([47, 48], 1), ([], 1)]⟩ ⟨[], 6, .topValue, []⟩).2.1
        (by decide)
        ⟨.other, ⟨[93], 5, .arrayComma, [.topValue]⟩, by decide, by decide⟩,
      by decide⟩⟩



mutual
theorem spaced_sub_inner (L : Lib) (data : List Nat) : ∀ (v : JV) (p : List Nat) (s : Nat),
    ∀ e ∈ v.spaced L data p s, e ∈ v.inner L data p s
  | .str _, p, s => by simp [JV.spaced]
  | .num _, p, s => by simp [JV.spaced]
  | .tru, p, s => by simp [JV.spaced]
  | .fls, p, s => by simp [JV.spaced]
  | .nul, p, s => by simp [JV.spaced]
  | .arr es w, p, s => by
    intro e he
    rw [JV.spaced] at he
    rw [JV.inner]
    exact spaced_sub_elems L data es p 0 (s + 1) e he
  | .obj ms w, p, s => by
    intro e he
    rw [JV.spaced] at he
    rw [JV.inner]
    exact spaced_sub_members L data ms p true (s + 1) e he
theorem spaced_sub_elems (L : Lib) (data : List Nat) : ∀ (es : JElems) (p : List Nat)
    (i off : Nat), ∀ e ∈ es.spaced L data p i off, e ∈ es.entries L data p i off
  | .nil, p, i, off => by simp [JElems.spaced]
  | .cons wc wv v tl, p, i, off => by
    intro e he
    rw [JElems.spaced] at he
    rw [JElems.entries]
    rcases List.mem_append.mp he with he | he
    · split at he
      · rw [List.mem_singleton] at he
        subst he
        exact List.mem_cons_self _ _
      · simp at he
    · refine List.mem_cons_of_mem _ ?_
      rcases List.mem_append.mp he with he | he
      · exact List.mem_append_left _ (spaced_sub_inner L data v _ _ e he)
      · exact List.mem_append_right _ (spaced_sub_elems L data tl _ _ _ e he)
theorem spaced_sub_members (L : Lib) (data : List Nat) : ∀ (ms : JMembers) (p : List Nat)
    (first : Bool) (off : Nat), ∀ e ∈ ms.spaced L data p first off,
      e ∈ ms.entries L data p first off
  | .nil, p, first, off => by simp [JMembers.spaced]
  | .cons wc wk key wcolon wv v tl, p, first, off => by
    intro e he
    rw [JMembers.spaced] at he
    rw [JMembers.entries]
    rcases List.mem_append.mp he with he | he
    · split at he
      · rw [List.mem_singleton] at he
        subst he
        exact List.mem_cons_self _ _
      · simp at he
    · refine List.mem_cons_of_mem _ ?_
      rcases List.mem_append.mp he with he | he
      · exact List.mem_append_left _ (spaced_sub_inner L data v _ _ e he)
      · exact List.mem_append_right _ (spaced_sub_members L data tl _ _ _ e he)
end



theorem spaced_sub_entries (L : Lib) (d : Doc) : ∀ e ∈ d.spaced L, e ∈ d.entries L := by
  intro e he
  rw [Doc.entries]
  exact List.mem_cons_of_mem _ (spaced_sub_inner L d.text d.root [] d.pre.length e he)

/-- The offset correction at white space in front of a delimiter: the corrected offset does not
pass the delimiter. -/
theorem skip_delim (data : List Nat) (o b : Nat) (w rest : List Nat) (delim : Nat)
    (hd : data.drop o = b :: (w ++ delim :: rest)) (hw : wsOk w = true)
    (hdl : delim = 58 ∨ delim = 44) :
    ∃ ws, wsOk ws = true ∧ data.drop (skipOneSpace data (o + 1)) = ws ++ delim :: rest ∧
      skipOneSpace data (o + 1) + ws.length = o + 1 + w.length := by
  have h1 : data.drop (o + 1) = w ++ delim :: rest := by
    have := drop_add (X := [b]) (Y := w ++ delim :: rest) (by simpa using hd)
    simpa using this
  have hnd : unicodeIsSpace delim = false := by
    rcases hdl with rfl | rfl <;> decide
  unfold skipOneSpace
  cases w with
  | nil =>
    rw [h1]
    simp only [List.nil_append, hnd, Bool.false_eq_true, ↓reduceIte]
    exact ⟨[], rfl, by rw [h1], by simp⟩
  | cons b2 w =>
    simp only [wsOk, List.all_cons, Bool.and_eq_true] at hw
    rw [h1]
    simp only [List.cons_append, isSpace_unicode hw.1, ↓reduceIte]
    refine ⟨w, by simpa [wsOk] using hw.2, ?_, by simp; omega⟩
    have := drop_add (X := [b2]) (Y := w ++ delim :: rest) (by simpa using h1)
    simpa using this

theorem decodeRaw_delim (ws rest : List Nat) (delim : Nat) (hw : wsOk ws = true)
    (hdl : delim = 58 ∨ delim = 44) : decodeRaw (ws ++ delim :: rest) = none := by
  unfold decodeRaw readValue Scanner.reset
  rw [readLoop_ws _ (skips_beginValue _) ws _ 0 hw]
  rcases hdl with rfl | rfl <;>
    simp [readLoop, Scanner.next, stateBeginValue, Scanner.fail, isSpace]

theorem spacedInner_scalar (L : Lib) (v : JV) (hs : v.isScalar = true) : SpacedInner L v := by
  intro data p s x _ _ e he
  cases v <;> simp [JV.isScalar] at hs <;> simp [JV.spaced] at he

theorem spacedInner_arr (L : Lib) (es : JElems) (w : List Nat) (ih : SpacedElems L es) :
    SpacedInner L (.arr es w) := by
  intro data p s x hd hok e he
  simp only [JV.ok, Bool.and_eq_true] at hok
  rw [arr_text_append] at hd
  have h1 := drop_add (X := [91]) (by simpa using hd)
  exact ih data p 0 (s + 1) w x (by simpa using h1) hok.1 e (by simpa [JV.spaced] using he)

theorem spacedInner_obj (L : Lib) (ms : JMembers) (w : List Nat) (ih : SpacedMembers L ms) :
    SpacedInner L (.obj ms w) := by
  intro data p s x hd hok e he
  simp only [JV.ok, Bool.and_eq_true] at hok
  rw [obj_text_append] at hd
  have h1 := drop_add (X := [123]) (by simpa using hd)
  exact ih data p true (s + 1) w x (by simpa using h1) hok.1 e (by simpa [JV.spaced] using he)

theorem spacedElems_cons (L : Lib) (wc wv : List Nat) (v : JV) (tl : JElems)
    (ihv : SpacedInner L v) (ih : SpacedElems L tl) : SpacedElems L (.cons wc wv v tl) := by
  intro data p i off w x hd hok e he
  simp only [JElems.ok, Bool.and_eq_true] at hok
  obtain ⟨⟨⟨hwc, hwv⟩, hv⟩, htl⟩ := hok
  rw [elems_cons_text] at hd
  have hstart : data.drop (off + (wc ++ (sepText (decide (i = 0)) ++ wv)).length)
      = v.text ++ (tl.text false ++ (w ++ 93 :: x)) := by
    have := drop_add (X := wc ++ (sepText (decide (i = 0)) ++ wv))
      (Y := v.text ++ (tl.text false ++ (w ++ 93 :: x))) (by simpa using hd)
    exact this
  have hnext : data.drop (off + (wc ++ (sepText (decide (i = 0)) ++ wv)).length + v.text.length)
      = tl.text false ++ (w ++ 93 :: x) := drop_add hstart
  rw [JElems.spaced] at he
  rcases List.mem_append.mp he with he | he
  · split at he
    · rename_i hcond
      obtain ⟨hi, hne⟩ := hcond
      rw [List.mem_singleton] at he
      subst he
      have hi0 : ¬ i = 0 := by omega
      cases wc with
      | nil => exact absurd rfl hne
      | cons b w1 =>
        simp only [wsOk, List.all_cons, Bool.and_eq_true] at hwc
        simp only [hi0, decide_False, sepText, Bool.false_eq_true, ↓reduceIte,
          List.singleton_append, List.cons_append, hi] at hd ⊢
        obtain ⟨ws, h1, h2, h3⟩ := skip_delim data off b w1 _ 44 hd
          (by simpa [wsOk] using hwc.2) (Or.inr rfl)
        refine ⟨ws, _, 44, h1, Or.inr rfl, h2, ?_⟩
        simp only [List.length_cons, List.length_append]
        omega
    · simp at he
  · rcases List.mem_append.mp he with he | he
    · exact ihv data _ _ _ hstart hv e he
    · exact ih data p (i + 1) _ w x (by simpa using hnext) htl e he

theorem spacedMembers_cons (L : Lib) (wc wk : List Nat) (key : List SChar)
    (wcolon wv : List Nat) (v : JV) (tl : JMembers) (ihv : SpacedInner L v)
    (ih : SpacedMembers L tl) : SpacedMembers L (.cons wc wk key wcolon wv v tl) := by
  intro data p first off w x hd hok e he
  simp only [JMembers.ok, Bool.and_eq_true] at hok
  obtain ⟨⟨⟨⟨⟨⟨hwc, hwk⟩, hkey⟩, hwcolon⟩, hwv⟩, hv⟩, htl⟩ := hok
  rw [members_cons_text] at hd
  have hkeyEnd : data.drop (off + (wc ++ (sepText first ++ (wk ++ strText key))).length)
      = (wcolon ++ 58 :: wv) ++ (v.text ++ (tl.text false ++ (w ++ 125 :: x))) := by
    have := drop_add (X := wc ++ (sepText first ++ (wk ++ strText key)))
      (Y := (wcolon ++ 58 :: wv) ++ (v.text ++ (tl.text false ++ (w ++ 125 :: x))))
      (by simpa using hd)
    exact this
  have hstart : data.drop
      (off + (wc ++ (sepText first ++ (wk ++ (strText key ++ (wcolon ++ 58 :: wv))))).length)
      = v.text ++ (tl.text false ++ (w ++ 125 :: x)) := by
    have := drop_add (X := wc ++ (sepText first ++ (wk ++ (strText key ++ (wcolon ++ 58 :: wv)))))
      (Y := v.text ++ (tl.text false ++ (w ++ 125 :: x))) (by simpa using hd)
    exact this
  have hnext := drop_add hstart
  rw [JMembers.spaced] at he
  rcases List.mem_append.mp he with he | he
  · split at he
    · rename_i hne
      rw [List.mem_singleton] at he
      subst he
      cases wcolon with
      | nil => exact absurd rfl hne
      | cons b w1 =>
        simp only [wsOk, List.all_cons, Bool.and_eq_true] at hwcolon
        simp only [List.cons_append, List.append_assoc] at hkeyEnd
        obtain ⟨ws, h1, h2, h3⟩ := skip_delim data _ b w1 _ 58 hkeyEnd
          (by simpa [wsOk] using hwcolon.2) (Or.inl rfl)
        refine ⟨ws, _, 58, h1, Or.inl rfl, h2, ?_⟩
        simp only [List.length_cons, List.length_append] at h3 ⊢
        omega
    · simp at he
  · rcases List.mem_append.mp he with he | he
    · exact ihv data _ _ _ hstart hv e he
    · exact ih data p false _ w x hnext htl e he

mutual
theorem spacedInner (L : Lib) : ∀ v : JV, SpacedInner L v
  | .str _ => spacedInner_scalar L _ rfl
  | .num _ => spacedInner_scalar L _ rfl
  | .tru => spacedInner_scalar L _ rfl
  | .fls => spacedInner_scalar L _ rfl
  | .nul => spacedInner_scalar L _ rfl
  | .arr es w => spacedInner_arr L es w (spacedElems L es)
  | .obj ms w => spacedInner_obj L ms w (spacedMembers L ms)
theorem spacedElems (L : Lib) : ∀ es : JElems, SpacedElems L es
  | .nil => by intro data p i off w x _ _ e he; simp [JElems.spaced] at he
  | .cons wc wv v tl => spacedElems_cons L wc wv v tl (spacedInner L v) (spacedElems L tl)
theorem spacedMembers (L : Lib) : ∀ ms : JMembers, SpacedMembers L ms
  | .nil => by intro data p first off w x _ _ e he; simp [JMembers.spaced] at he
  | .cons wc wk key wcolon wv v tl =>
    spacedMembers_cons L wc wk key wcolon wv v tl (spacedInner L v) (spacedMembers L tl)
end



theorem scalarToken_rejected (L : Lib) (v : JV) (hs : v.isScalar = true) (hv : v.ok = true)
    (hf : v.floatsOk L = false) : scalarToken L v.text = none := by
  cases v with
  | num n =>
    obtain ⟨c, t, ht, hc⟩ := num_text_head n (by simpa [JV.ok] using hv)
    have hf' : L.floatOk (c :: t) = false := by rw [← ht]; simpa [JV.floatsOk] using hf
    have : c ≠ 34 ∧ ¬ (c = 110 ∨ c = 116 ∨ c = 102) := by
      rcases hc with rfl | hc
      · simp
      · simp only [isDigit, Bool.and_eq_true, decide_eq_true_eq] at hc; omega
    simp [JV.text, ht, scalarToken, this.1, this.2, hf']
  | str cs => simp [JV.floatsOk] at hf
  | tru => simp [JV.floatsOk] at hf
  | fls => simp [JV.floatsOk] at hf
  | nul => simp [JV.floatsOk] at hf
  | arr es w => simp [JV.isScalar] at hs
  | obj ms w => simp [JV.isScalar] at hs

/-- `Token` at the text of a number that `floatOk` rejects returns an error. -/
theorem tokenLoop_rejected (L : Lib) (v : JV) (hs : v.isScalar = true) (hv : v.ok = true)
    (hf : v.floatsOk L = false) (x : List Nat) (hx : Follow x) (off : Nat) (st : TokState)
    (stk : List TokState) (hst : tokenValueAllowed st = true) :
    tokenLoop L (v.text ++ x) off st stk = none := by
  obtain ⟨c, t, ht, hsp, h1, h2, h3, h4, h5, h6⟩ := scalar_head v hs hv
  have hd : v.depth ≤ maxNestingDepth := by
    cases v <;> simp [JV.depth, JV.isScalar] at hs ⊢
  have hrv := readValue_value v hv hd [] x rfl hx
  simp only [List.nil_append, List.length_nil, Nat.zero_add] at hrv
  have hnk := not_key_state st hst
  have htake : (v.text ++ x).take v.text.length = v.text := List.take_left' rfl
  have hsc := scalarToken_rejected L v hs hv hf
  rw [ht] at hrv htake hsc ⊢
  rw [List.cons_append] at hrv htake ⊢
  conv_lhs => unfold tokenLoop
  simp only [hsp, h1, h2, h3, h4, h5, h6, hnk, hst, hrv, htake, hsc, and_false,
    Bool.false_eq_true, ↓reduceIte]

theorem scalar_depth (v : JV) (hs : v.isScalar = true) : v.depth = 0 := by
  cases v <;> simp [JV.isScalar] at hs <;> rfl

/-- `parse` at an opening bracket nested deeper than `maxNestingDepth` returns an error. -/
theorem parse_open_deep (L : Lib) (fuel : Nat) (c : Context) (pre y : List Nat) (b : Nat)
    (hb : b = 91 ∨ b = 123)
    (off : Nat) (st0 st : TokState) (stk : List TokState) (path : List Nat)
    (hpre : ∀ y, tokenLoop L (pre ++ y) off st0 stk = tokenLoop L y (off + pre.length) st stk)
    (hlen : off + 1 ≤ c.data.length) (hd : ¬ stk.length + 1 ≤ maxNestingDepth) :
    parse L (fuel + 1) c ⟨pre ++ b :: y, off, st0, stk⟩ path = .err := by
  have ht := tokenLoop_open_deep L b hb y (off + pre.length) st stk hd
  rw [← hpre] at ht
  have hp : ¬ c.data.length < off + 1 := by omega
  conv_lhs => unfold parse
  simp [Decoder.Token, Decoder.InputOffset, hp, ht]

/-- `parseArray` at an element that opens a bracket nested deeper than `maxNestingDepth`
returns an error. -/
theorem parseArray_open_deep (L : Lib) (fuel : Nat) (c : Context) (wc wv y : List Nat)
    (b : Nat) (hb : b = 91 ∨ b = 123) (hwc : wsOk wc = true) (hwv : wsOk wv = true)
    (off i : Nat) (stk : List TokState) (path : List Nat) (hlen : off + 1 ≤ c.data.length)
    (hd : ¬ stk.length + 1 ≤ maxNestingDepth) :
    parseArray L (fuel + 1) c
        ⟨wc ++ (sepText (decide (i = 0)) ++ (wv ++ b :: y)), off,
          if i = 0 then .arrayStart else .arrayComma, stk⟩ path i
      = .err := by
  have ht := tokenLoop_open_deep L b hb y
    (off + (wc ++ (sepText (decide (i = 0)) ++ wv)).length)
    (if i = 0 then .arrayStart else .arrayValue) stk hd
  rw [← elemPrefix L wc wv _ hwc hwv] at ht
  have hp : ¬ (0 < i ∧ c.data.length < off + 1) := by omega
  conv_lhs => unfold parseArray
  simp only [Decoder.Token, Decoder.InputOffset, hp, ↓reduceIte, ht]

theorem valueFail_scalar (L : Lib) (v : JV) (hs : v.isScalar = true) : ValueFail L v := by
  intro fuel c pre x off st0 st stk path hv hbad hk hx hpre hst hlen hfuel
  have hf : v.floatsOk L = false := by
    rcases hbad with h | h
    · exact h
    · rw [scalar_depth v hs] at h; omega
  obtain ⟨c0, t0, ht0, -⟩ := value_text_head v hv
  obtain ⟨f, rfl⟩ : ∃ f, fuel = f + 1 := ⟨fuel - 1, by omega⟩
  have h1 : ¬ c.data.length < off + 1 := by
    rw [← hlen, ht0]; simp only [List.length_append, List.length_cons]; omega
  have ht := tokenLoop_rejected L v hs hv hf x hx (off + pre.length) st stk hst
  rw [← hpre] at ht
  conv_lhs => unfold parse
  simp only [Decoder.Token, Decoder.InputOffset, h1, ↓reduceIte, ht]

theorem valueFail_arr (L : Lib) (es : JElems) (w : List Nat) (ih : ElemsFail L es) :
    ValueFail L (.arr es w) := by
  intro fuel c pre x off st0 st stk path hv hbad hk hx hpre hst hlen hfuel
  simp only [JV.ok, Bool.and_eq_true] at hv
  simp only [JV.floatsOk, JV.depth] at hbad
  obtain ⟨f, rfl⟩ : ∃ f, fuel = f + 1 := ⟨fuel - 1, by omega⟩
  rw [arr_text_append] at hlen ⊢
  have h1 : off + 1 ≤ c.data.length := by
    rw [← hlen]; simp only [List.length_append, List.length_cons]; omega
  by_cases hd : stk.length + 1 ≤ maxNestingDepth
  · rw [parse_arr L f c pre _ off st0 st stk path hpre hst h1 hd]
    have := ih f (c.Register path (skipOneSpace c.data (off + 1))) w x (off + pre.length + 1) 0
      st stk path hv.1 (by rcases hbad with h | h; exact Or.inl h; exact Or.inr (by omega)) hd
      hv.2
      (by
        rw [register_data, ← hlen]
        simp only [decide_True, List.length_append, List.length_cons]; omega)
      (by
        simp only [JV.text, List.length_append, List.length_cons, decide_True,
          List.length_singleton] at hfuel ⊢
        omega)
    simp only [decide_True, ↓reduceIte, register_data] at this
    rw [this]
  · exact parse_open_deep L f c pre _ 91 (Or.inl rfl) off st0 st stk path hpre h1 hd

theorem valueFail_obj (L : Lib) (ms : JMembers) (w : List Nat) (ih : MembersFail L ms) :
    ValueFail L (.obj ms w) := by
  intro fuel c pre x off st0 st stk path hv hbad hk hx hpre hst hlen hfuel
  simp only [JV.ok, Bool.and_eq_true] at hv
  simp only [JV.floatsOk, JV.depth] at hbad
  obtain ⟨f, rfl⟩ : ∃ f, fuel = f + 1 := ⟨fuel - 1, by omega⟩
  rw [obj_text_append] at hlen ⊢
  have h1 : off + 1 ≤ c.data.length := by
    rw [← hlen]; simp only [List.length_append, List.length_cons]; omega
  by_cases hd : stk.length + 1 ≤ maxNestingDepth
  · rw [parse_obj L f c pre _ off st0 st stk path hpre hst h1 hd]
    have := ih f (c.Register path (skipOneSpace c.data (off + 1))) w x (off + pre.length + 1)
      true st stk path hv.1
      (by rcases hbad with h | h; exact Or.inl h; exact Or.inr (by omega)) hd hv.2
      (by
        rw [register_data, ← hlen]
        simp only [List.length_append, List.length_cons]; omega)
      (by
        simp only [JV.text, List.length_append, List.length_cons,
          List.length_singleton] at hfuel ⊢
        omega)
    simp only [↓reduceIte, register_data] at this
    rw [this]
  · exact parse_open_deep L f c pre _ 123 (Or.inr rfl) off st0 st stk path hpre h1 hd

theorem elemsFail_cons_scalar (L : Lib) (wc wv : List Nat) (v : JV) (tl : JElems)
    (hs : v.isScalar = true) (ih : ElemsFail L tl) : ElemsFail L (.cons wc wv v tl) := by
  intro fuel c w x off i top stk path hok hbad hk hw hlen hfuel
  simp only [JElems.ok, Bool.and_eq_true] at hok
  obtain ⟨⟨⟨hwc, hwv⟩, hv⟩, htl⟩ := hok
  simp only [JElems.floatsOk, JElems.depth, scalar_depth v hs] at hbad
  obtain ⟨f, rfl⟩ : ∃ f, fuel = f + 1 := ⟨fuel - 1, by omega⟩
  rw [elems_cons_text] at hlen hfuel ⊢
  obtain ⟨c0, t0, ht0, -⟩ := value_text_head v hv
  have hvl : 0 < v.text.length := by rw [ht0]; simp
  have h1 : off + 1 ≤ c.data.length := by
    rw [← hlen]; simp only [List.length_append, List.length_cons]; omega
  cases hfv : v.floatsOk L with
  | false =>
    have ht := tokenLoop_rejected L v hs hv hfv _ (follow_elems tl htl w hw x)
      (off + (wc ++ (sepText (decide (i = 0)) ++ wv)).length) _ (top :: stk)
      (elem_state_allowed i)
    rw [← elemPrefix L wc wv _ hwc hwv] at ht
    have hp : ¬ (0 < i ∧ c.data.length < off + 1) := by omega
    conv_lhs => unfold parseArray
    simp only [Decoder.Token, Decoder.InputOffset, hp, ↓reduceIte, ht]
  | true =>
    have hbtl : tl.floatsOk L = false ∨ maxNestingDepth < stk.length + 1 + tl.depth := by
      rcases hbad with h | h
      · left; simpa [hfv] using h
      · right; simpa using h
    rw [parseArray_scalar L f c wc wv _ v hwc hwv hs hv hfv (follow_elems tl htl w hw x) off i
      (top :: stk) path h1]
    have := ih f (c.Register (elemPath path i)
        (if 0 < i then skipOneSpace c.data (off + 1) else off)) w x
      (off + (wc ++ (sepText (decide (i = 0)) ++ wv)).length + v.text.length) (i + 1) top stk
      path htl hbtl hk hw
      (by
        rw [register_data, ← hlen]
        simp only [Nat.add_one_ne_zero, decide_False, List.length_append, List.length_cons]
        omega)
      (by
        simp only [Nat.add_one_ne_zero, decide_False, List.length_append,
          List.length_cons] at hfuel ⊢
        omega)
    simp only [Nat.add_one_ne_zero, decide_False, ↓reduceIte, register_data] at this
    rw [this]

theorem elemsFail_cons_arr (L : Lib) (wc wv : List Nat) (es1 : JElems) (w1 : List Nat)
    (tl : JElems) (ih1 : ElemsFail L es1) (ih : ElemsFail L tl) :
    ElemsFail L (.cons wc wv (.arr es1 w1) tl) := by
  intro fuel c w x off i top stk path hok hbad hk hw hlen hfuel
  simp only [JElems.ok, JV.ok, Bool.and_eq_true] at hok
  obtain ⟨⟨⟨hwc, hwv⟩, hes1, hw1⟩, htl⟩ := hok
  simp only [JElems.floatsOk, JV.floatsOk, JElems.depth, JV.depth] at hbad
  obtain ⟨f, rfl⟩ : ∃ f, fuel = f + 1 := ⟨fuel - 1, by omega⟩
  rw [elems_cons_text, arr_text_append] at hlen ⊢
  have h1 : off + 1 ≤ c.data.length := by
    rw [← hlen]; simp only [List.length_append, List.length_cons]; omega
  by_cases hd : (top :: stk).length + 1 ≤ maxNestingDepth
  · rw [parseArray_arr L f c wc wv _ hwc hwv off i (top :: stk) path h1 hd]
    simp only [List.length_cons] at hd
    have hlen1 : off + (wc ++ (sepText (decide (i = 0)) ++ wv)).length + 1 +
        (es1.text (decide (0 = 0)) ++ (w1 ++ 93 :: (tl.text false ++ (w ++ 93 :: x)))).length =
        (c.Register (elemPath path i)
          (if 0 < i then skipOneSpace c.data (off + 1) else off)).data.length := by
      rw [register_data, ← hlen]
      simp only [decide_True, List.length_append, List.length_cons]
      omega
    have hfuel1 : (es1.text (decide (0 = 0)) ++ w1).length + 1 < f := by
      simp only [JElems.text, JV.text, decide_True, List.length_append, List.length_cons,
        List.length_singleton] at hfuel ⊢
      omega
    by_cases hgood : es1.floatsOk L = true ∧
        (top :: stk).length + 1 + es1.depth ≤ maxNestingDepth
    · have hbtl : tl.floatsOk L = false ∨ maxNestingDepth < stk.length + 1 + tl.depth := by
        simp only [List.length_cons] at hgood
        rcases hbad with h | h
        · left; simpa [hgood.1] using h
        · right
          have := hgood.2
          omega
      have hin := elemsWalk L es1 f _ w1 (tl.text false ++ (w ++ 93 :: x))
        (off + (wc ++ (sepText (decide (i = 0)) ++ wv)).length + 1) 0
        (if i = 0 then .arrayStart else .arrayValue) (top :: stk) (elemPath path i)
        hes1 hgood.1 hw1 hgood.2 hlen1 hfuel1
      simp only [decide_True, ↓reduceIte, register_data, elem_state_end] at hin
      rw [hin, Res.bind_ok]
      have := ih f (registerAll (c.Register (elemPath path i)
          (if 0 < i then skipOneSpace c.data (off + 1) else off))
          (es1.entries L c.data (elemPath path i) 0
            (off + (wc ++ (sepText (decide (i = 0)) ++ wv)).length + 1))) w x
        (off + (wc ++ (sepText (decide (i = 0)) ++ wv)).length + 1
          + (es1.text true ++ w1).length + 1)
        (i + 1) top stk path htl hbtl hk hw
        (by
          rw [registerAll_data, register_data, ← hlen]
          simp only [Nat.add_one_ne_zero, decide_False, List.length_append, List.length_cons]
          omega)
        (by
          simp only [JElems.text, JV.text, Nat.add_one_ne_zero, decide_False,
            List.length_append, List.length_cons, List.length_singleton] at hfuel ⊢
          omega)
      simp only [Nat.add_one_ne_zero, decide_False, ↓reduceIte, register_data,
        registerAll_data] at this
      rw [this]
    · have hb1 : es1.floatsOk L = false ∨
          maxNestingDepth < (top :: stk).length + 1 + es1.depth := by
        by_cases hf1 : es1.floatsOk L = true
        · right
          exact Nat.lt_of_not_le (fun h => hgood ⟨hf1, h⟩)
        · left; simpa using hf1
      have hin := ih1 f _ w1 (tl.text false ++ (w ++ 93 :: x))
        (off + (wc ++ (sepText (decide (i = 0)) ++ wv)).length + 1) 0
        (if i = 0 then .arrayStart else .arrayValue) (top :: stk) (elemPath path i)
        hes1 hb1 (by simp only [List.length_cons]; omega) hw1 hlen1 hfuel1
      simp only [decide_True, ↓reduceIte] at hin
      rw [hin]
      rfl
  · exact parseArray_open_deep L f c wc wv _ 91 (Or.inl rfl) hwc hwv off i (top :: stk) path h1
      hd

theorem elemsFail_cons_obj (L : Lib) (wc wv : List Nat) (ms1 : JMembers) (w1 : List Nat)
    (tl : JElems) (ih1 : MembersFail L ms1) (ih : ElemsFail L tl) :
    ElemsFail L (.cons wc wv (.obj ms1 w1) tl) := by
  intro fuel c w x off i top stk path hok hbad hk hw hlen hfuel
  simp only [JElems.ok, JV.ok, Bool.and_eq_true] at hok
  obtain ⟨⟨⟨hwc, hwv⟩, hms1, hw1⟩, htl⟩ := hok
  simp only [JElems.floatsOk, JV.floatsOk, JElems.depth, JV.depth] at hbad
  obtain ⟨f, rfl⟩ : ∃ f, fuel = f + 1 := ⟨fuel - 1, by omega⟩
  rw [elems_cons_text, obj_text_append] at hlen ⊢
  have h1 : off + 1 ≤ c.data.length := by
    rw [← hlen]; simp only [List.length_append, List.length_cons]; omega
  by_cases hd : (top :: stk).length + 1 ≤ maxNestingDepth
  · rw [parseArray_obj L f c wc wv _ hwc hwv off i (top :: stk) path h1 hd]
    simp only [List.length_cons] at hd
    have hlen1 : off + (wc ++ (sepText (decide (i = 0)) ++ wv)).length + 1 +
        (ms1.text true ++ (w1 ++ 125 :: (tl.text false ++ (w ++ 93 :: x)))).length =
        (c.Register (elemPath path i)
          (if 0 < i then skipOneSpace c.data (off + 1) else off)).data.length := by
      rw [register_data, ← hlen]
      simp only [List.length_append, List.length_cons]
      omega
    have hfuel1 : (ms1.text true ++ w1).length + 1 < f := by
      simp only [JElems.text, JV.text, List.length_append, List.length_cons,
        List.length_singleton] at hfuel ⊢
      omega
    by_cases hgood : ms1.floatsOk L = true ∧
        (top :: stk).length + 1 + ms1.depth ≤ maxNestingDepth
    · have hbtl : tl.floatsOk L = false ∨ maxNestingDepth < stk.length + 1 + tl.depth := by
        simp only [List.length_cons] at hgood
        rcases hbad with h | h
        · left; simpa [hgood.1] using h
        · right
          have := hgood.2
          omega
      have hin := membersWalk L ms1 f _ w1 (tl.text false ++ (w ++ 93 :: x))
        (off + (wc ++ (sepText (decide (i = 0)) ++ wv)).length + 1) true
        (if i = 0 then .arrayStart else .arrayValue) (top :: stk) (elemPath path i)
        hms1 hgood.1 hw1 hgood.2 hlen1 hfuel1
      simp only [↓reduceIte, register_data, elem_state_end] at hin
      rw [hin, Res.bind_ok]
      have := ih f (registerAll (c.Register (elemPath path i)
          (if 0 < i then skipOneSpace c.data (off + 1) else off))
          (ms1.entries L c.data (elemPath path i) true
            (off + (wc ++ (sepText (decide (i = 0)) ++ wv)).length + 1))) w x
        (off + (wc ++ (sepText (decide (i = 0)) ++ wv)).length + 1
          + (ms1.text true ++ w1).length + 1)
        (i + 1) top stk path htl hbtl hk hw
        (by
          rw [registerAll_data, register_data, ← hlen]
          simp only [Nat.add_one_ne_zero, decide_False, List.length_append, List.length_cons]
          omega)
        (by
          simp only [JElems.text, JV.text, Nat.add_one_ne_zero, decide_False,
            List.length_append, List.length_cons, List.length_singleton] at hfuel ⊢
          omega)
      simp only [Nat.add_one_ne_zero, decide_False, ↓reduceIte, register_data,
        registerAll_data] at this
      rw [this]
    · have hb1 : ms1.floatsOk L = false ∨
          maxNestingDepth < (top :: stk).length + 1 + ms1.depth := by
        by_cases hf1 : ms1.floatsOk L = true
        · right
          exact Nat.lt_of_not_le (fun h => hgood ⟨hf1, h⟩)
        · left; simpa using hf1
      have hin := ih1 f _ w1 (tl.text false ++ (w ++ 93 :: x))
        (off + (wc ++ (sepText (decide (i = 0)) ++ wv)).length + 1) true
        (if i = 0 then .arrayStart else .arrayValue) (top :: stk) (elemPath path i)
        hms1 hb1 (by simp only [List.length_cons]; omega) hw1 hlen1 hfuel1
      simp only [↓reduceIte] at hin
      rw [hin]
      rfl
  · exact parseArray_open_deep L f c wc wv _ 123 (Or.inr rfl) hwc hwv off i (top :: stk) path h1
      hd

theorem membersFail_cons (L : Lib) (wc wk : List Nat) (key : List SChar) (wcolon wv : List Nat)
    (v : JV) (tl : JMembers) (ihv : ValueFail L v) (ih : MembersFail L tl) :
    MembersFail L (.cons wc wk key wcolon wv v tl) := by
  intro fuel c w x off first top stk path hok hbad hk hw hlen hfuel
  simp only [JMembers.ok, Bool.and_eq_true] at hok
  obtain ⟨⟨⟨⟨⟨⟨hwc, hwk⟩, hkey⟩, hwcolon⟩, hwv⟩, hv⟩, htl⟩ := hok
  simp only [JMembers.floatsOk, JMembers.depth] at hbad
  obtain ⟨f, rfl⟩ : ∃ f, fuel = f + 1 := ⟨fuel - 1, by omega⟩
  rw [members_cons_text] at hlen ⊢
  rw [parseObject_member L f c wc wk key _ hwc hwk hkey off first (top :: stk) path]
  have hpre : ∀ y, tokenLoop L ((wcolon ++ 58 :: wv) ++ y)
      (off + (wc ++ (sepText first ++ (wk ++ strText key))).length) .objectColon (top :: stk)
      = tokenLoop L y (off + (wc ++ (sepText first ++ (wk ++ strText key))).length
          + (wcolon ++ 58 :: wv).length) .objectValue (top :: stk) := by
    intro y
    have := valuePrefix L wcolon wv y hwcolon hwv
      (off + (wc ++ (sepText first ++ (wk ++ strText key))).length) (top :: stk)
    simpa using this
  have hlen1 : off + (wc ++ (sepText first ++ (wk ++ strText key))).length +
      ((wcolon ++ 58 :: wv) ++ (v.text ++ (tl.text false ++ (w ++ 125 :: x)))).length
      = c.data.length := by
    rw [← hlen]
    simp only [List.length_append, List.length_cons]
    omega
  have hfuel1 : ((wcolon ++ 58 :: wv) ++ v.text).length < f := by
    simp only [JMembers.text, List.length_append, List.length_cons, strText] at hfuel ⊢
    omega
  by_cases hgood : v.floatsOk L = true ∧ (top :: stk).length + v.depth ≤ maxNestingDepth
  · have hbtl : tl.floatsOk L = false ∨ maxNestingDepth < stk.length + 1 + tl.depth := by
      simp only [List.length_cons] at hgood
      rcases hbad with h | h
      · left; simpa [hgood.1] using h
      · right
        have := hgood.2
        omega
    have hval := valueWalk L v f c (wcolon ++ 58 :: wv) (tl.text false ++ (w ++ 125 :: x))
      (off + (wc ++ (sepText first ++ (wk ++ strText key))).length) .objectColon .objectValue
      (top :: stk) (keyPath path (L.unquote (strText key))) hv hgood.1
      (follow_members tl htl w hw x) hpre rfl hgood.2 hlen1 hfuel1
    rw [hval, Res.bind_ok]
    have := ih f (registerAll (c.Register (keyPath path (L.unquote (strText key)))
        (skipOneSpace c.data (off + (wc ++ (sepText first ++ (wk ++ strText key))).length + 1)))
        (v.inner L c.data (keyPath path (L.unquote (strText key)))
          (off + (wc ++ (sepText first ++ (wk ++ strText key))).length
            + (wcolon ++ 58 :: wv).length))) w x
      (off + (wc ++ (sepText first ++ (wk ++ strText key))).length + (wcolon ++ 58 :: wv).length
        + v.text.length) false top stk path htl hbtl hk hw
      (by
        rw [registerAll_data, register_data, ← hlen]
        simp only [List.length_append, List.length_cons]
        omega)
      (by
        simp only [JMembers.text, List.length_append, List.length_cons] at hfuel ⊢
        omega)
    simp only [Bool.false_eq_true, ↓reduceIte, register_data, registerAll_data] at this
    have hend : tokenValueEnd TokState.objectValue = .objectComma := rfl
    simp only [hend]
    rw [this]
  · have hbv : v.floatsOk L = false ∨ maxNestingDepth < (top :: stk).length + v.depth := by
      by_cases hf1 : v.floatsOk L = true
      · right
        exact Nat.lt_of_not_le (fun h => hgood ⟨hf1, h⟩)
      · left; simpa using hf1
    have hval := ihv f c (wcolon ++ 58 :: wv) (tl.text false ++ (w ++ 125 :: x))
      (off + (wc ++ (sepText first ++ (wk ++ strText key))).length) .objectColon .objectValue
      (top :: stk) (keyPath path (L.unquote (strText key))) hv hbv
      (by simp only [List.length_cons]; omega)
      (follow_members tl htl w hw x) hpre rfl hlen1 hfuel1
    rw [hval]
    rfl

mutual
theorem valueFail (L : Lib) : ∀ v : JV, ValueFail L v
  | .str _ => valueFail_scalar L _ rfl
  | .num _ => valueFail_scalar L _ rfl
  | .tru => valueFail_scalar L _ rfl
  | .fls => valueFail_scalar L _ rfl
  | .nul => valueFail_scalar L _ rfl
  | .arr es w => valueFail_arr L es w (elemsFail L es)
  | .obj ms w => valueFail_obj L ms w (membersFail L ms)
theorem elemsFail (L : Lib) : ∀ es : JElems, ElemsFail L es
  | .nil => by
    intro fuel c w x off i top stk path _ hbad hk
    simp only [JElems.floatsOk, JElems.depth] at hbad
    rcases hbad with h | h
    · simp at h
    · omega
  | .cons wc wv (.str _) tl => elemsFail_cons_scalar L wc wv _ tl rfl (elemsFail L tl)
  | .cons wc wv (.num _) tl => elemsFail_cons_scalar L wc wv _ tl rfl (elemsFail L tl)
  | .cons wc wv .tru tl => elemsFail_cons_scalar L wc wv _ tl rfl (elemsFail L tl)
  | .cons wc wv .fls tl => elemsFail_cons_scalar L wc wv _ tl rfl (elemsFail L tl)
  | .cons wc wv .nul tl => elemsFail_cons_scalar L wc wv _ tl rfl (elemsFail L tl)
  | .cons wc wv (.arr es1 w1) tl =>
    elemsFail_cons_arr L wc wv es1 w1 tl (elemsFail L es1) (elemsFail L tl)
  | .cons wc wv (.obj ms1 w1) tl =>
    elemsFail_cons_obj L wc wv ms1 w1 tl (membersFail L ms1) (elemsFail L tl)
theorem membersFail (L : Lib) : ∀ ms : JMembers, MembersFail L ms
  | .nil => by
    intro fuel c w x off first top stk path _ hbad hk
    simp only [JMembers.floatsOk, JMembers.depth] at hbad
    rcases hbad with h | h
    · simp at h
    · omega
  | .cons wc wk key wcolon wv v tl =>
    membersFail_cons L wc wk key wcolon wv v tl (valueFail L v) (membersFail L tl)
end



/-- On a well-formed document with a number literal that `floatOk` rejects, or with brackets
nested deeper than `maxNestingDepth`, `Parse` returns an error. -/
theorem parse_doc_rejected (L : Lib) (d : Doc) (hok : d.ok = true)
    (hbad : d.root.floatsOk L = false ∨ maxNestingDepth < d.root.depth) :
    Parse L d.text = .err := by
  simp only [Doc.ok, Bool.and_eq_true] at hok
  obtain ⟨⟨hpre, hroot⟩, hpost⟩ := hok
  have := valueFail L d.root (d.text.length + 1) { data := d.text, paths := [] } d.pre d.post 0
    .topValue .topValue [] [] hroot (by simpa using hbad) (by simp [maxNestingDepth])
    (follow_ws _ hpost)
    (fun y => by rw [tokenLoop_ws L d.pre y hpre])
    rfl
    (by simp [Doc.text])
    (by simp only [Doc.text, List.length_append]; omega)
  unfold Parse NewDecoder
  simp only [Doc.text] at this ⊢
  rw [this]

/-- On a well-formed document `Parse` returns a `Context` exactly when `floatOk` accepts every
number literal and the brackets are nested at most `maxNestingDepth` deep. -/
theorem parse_doc_ok_iff (L : Lib) (d : Doc) (hok : d.ok = true) :
    (∃ c, Parse L d.text = .ok c) ↔
      (d.root.floatsOk L = true ∧ d.root.depth ≤ maxNestingDepth) := by
  constructor
  · rintro ⟨c, hc⟩
    by_cases hf : d.root.floatsOk L = true
    · by_cases hd : d.root.depth ≤ maxNestingDepth
      · exact ⟨hf, hd⟩
      · rw [parse_doc_rejected L d hok (Or.inr (by omega))] at hc
        exact absurd hc (by simp)
    · rw [parse_doc_rejected L d hok (Or.inl (by simpa using hf))] at hc
      exact absurd hc (by simp)
  · intro h
    exact ⟨_, parse_doc L d hok h.1 h.2⟩



/-! ## Nesting depth -/

mutual
theorem values_depth (L : Lib) : ∀ (v : JV) (p : List Nat) (s : Nat),
    ∀ e ∈ v.values L p s, e.2.2.depth ≤ v.depth
  | .str _, p, s => by
    intro e he; simp only [JV.values, List.mem_singleton] at he; subst he; exact Nat.le_refl _
  | .num _, p, s => by
    intro e he; simp only [JV.values, List.mem_singleton] at he; subst he; exact Nat.le_refl _
  | .tru, p, s => by
    intro e he; simp only [JV.values, List.mem_singleton] at he; subst he; exact Nat.le_refl _
  | .fls, p, s => by
    intro e he; simp only [JV.values, List.mem_singleton] at he; subst he; exact Nat.le_refl _
  | .nul, p, s => by
    intro e he; simp only [JV.values, List.mem_singleton] at he; subst he; exact Nat.le_refl _
  | .arr es w, p, s => by
    intro e he
    rw [JV.values] at he
    rcases List.mem_cons.mp he with rfl | he
    · exact Nat.le_refl _
    · have := elems_depth L es p 0 (s + 1) e he
      rw [JV.depth]
      omega
  | .obj ms w, p, s => by
    intro e he
    rw [JV.values] at he
    rcases List.mem_cons.mp he with rfl | he
    · exact Nat.le_refl _
    · have := members_depth L ms p true (s + 1) e he
      rw [JV.depth]
      omega
theorem elems_depth (L : Lib) : ∀ (es : JElems) (p : List Nat) (i off : Nat),
    ∀ e ∈ es.values L p i off, e.2.2.depth ≤ es.depth
  | .nil, p, i, off => by intro e he; simp [JElems.values] at he
  | .cons wc wv v tl, p, i, off => by
    intro e he
    rw [JElems.values] at he
    rw [JElems.depth]
    rcases List.mem_append.mp he with he | he
    · have := values_depth L v _ _ e he
      omega
    · have := elems_depth L tl _ _ _ e he
      omega
theorem members_depth (L : Lib) : ∀ (ms : JMembers) (p : List Nat) (first : Bool) (off : Nat),
    ∀ e ∈ ms.values L p first off, e.2.2.depth ≤ ms.depth
  | .nil, p, first, off => by intro e he; simp [JMembers.values] at he
  | .cons wc wk key wcolon wv v tl, p, first, off => by
    intro e he
    rw [JMembers.values] at he
    rw [JMembers.depth]
    rcases List.mem_append.mp he with he | he
    · have := values_depth L v _ _ e he
      omega
    · have := members_depth L tl _ _ _ e he
      omega
end



theorem deepArr_ok : ∀ n, (deepArr n).ok = true
  | 0 => by decide
  | n + 1 => by simp [deepArr, JV.ok, JElems.ok, wsOk, deepArr_ok n]

theorem deepArr_floatsOk (L : Lib) : ∀ n, (deepArr n).floatsOk L = true
  | 0 => by simp [deepArr, JV.floatsOk, JElems.floatsOk]
  | n + 1 => by simp [deepArr, JV.floatsOk, JElems.floatsOk, deepArr_floatsOk L n]

theorem deepArr_tight : ∀ n, (deepArr n).tight = true
  | 0 => by decide
  | n + 1 => by simp [deepArr, JV.tight, JElems.tight, deepArr_tight n]

theorem deepArr_keysOk (L : Lib) : ∀ n, (deepArr n).keysOk L = true
  | 0 => by simp [deepArr, JV.keysOk, JElems.keysOk]
  | n + 1 => by simp [deepArr, JV.keysOk, JElems.keysOk, deepArr_keysOk L n]

theorem deepArr_depth : ∀ n, (deepArr n).depth = n + 1
  | 0 => by simp [deepArr, JV.depth, JElems.depth]
  | n + 1 => by simp [deepArr, JV.depth, JElems.depth, deepArr_depth n]

theorem deepArr_text : ∀ n,
    (deepArr n).text = List.replicate (n + 1) 91 ++ List.replicate (n + 1) 93
  | 0 => by decide
  | n + 1 => by
    have h1 : (deepArr (n + 1)).text = 91 :: ((deepArr n).text ++ [93]) := by
      simp [deepArr, JV.text, JElems.text, sepText]
    rw [h1, deepArr_text n, List.replicate_succ (n := n + 1), List.append_assoc,
      ← List.replicate_succ' (n := n + 1)]
    rfl

theorem deepDoc_ok (n : Nat) : (deepDoc n).ok = true := by
  simp [deepDoc, Doc.ok, wsOk, deepArr_ok n]

theorem deepDoc_text (n : Nat) :
    (deepDoc n).text = List.replicate (n + 1) 91 ++ List.replicate (n + 1) 93 := by
  simp [deepDoc, Doc.text, deepArr_text n]

theorem deepDoc_depth (n : Nat) : (deepDoc n).root.depth = n + 1 := deepArr_depth n

/-- The values of `deepDoc (n + 1)`: the root, the array below it at the path `/0`, and values
with other paths. -/
theorem deepDoc_values (L : Lib) (n : Nat) :
    ∃ l2, (deepDoc (n + 1)).values L
        = [([], 0, (deepDoc (n + 1)).root)] ++ ([47, 48], 1, deepArr n) :: l2 ∧
      ∀ e ∈ [([], 0, (deepDoc (n + 1)).root)] ++ l2, e.1 ≠ [47, 48] := by
  obtain ⟨t, ht⟩ := JV.values_head L (deepArr n) [47, 48] 1
  have hp : elemPath [] 0 = [47, 48] := by decide
  have hv : (deepDoc (n + 1)).values L
      = [([], 0, (deepDoc (n + 1)).root)] ++ ([47, 48], 1, deepArr n) :: t := by
    simp [deepDoc, Doc.values, deepArr, JV.values, JElems.values, sepText, hp, ht]
  have hnd := valuesNodup L (deepDoc (n + 1)).root [] 0 (deepArr_keysOk L (n + 1))
  have hv2 : (deepDoc (n + 1)).root.values L [] 0
      = ([], 0, (deepDoc (n + 1)).root) :: ([47, 48], 1, deepArr n) :: t := hv
  rw [hv2] at hnd
  simp only [List.map_cons, List.nodup_cons, List.mem_cons, List.mem_map, not_or] at hnd
  refine ⟨t, hv, ?_⟩
  intro e he
  simp only [List.singleton_append, List.mem_cons] at he
  rcases he with rfl | he
  · simp
  · intro h
    exact hnd.2.1 ⟨e, he, h⟩

theorem deepArr_spaced (L : Lib) (data : List Nat) : ∀ (n : Nat) (p : List Nat) (s : Nat),
    (deepArr n).spaced L data p s = []
  | 0, p, s => by simp [deepArr, JV.spaced, JElems.spaced]
  | n + 1, p, s => by
    simp [deepArr, JV.spaced, JElems.spaced, deepArr_spaced L data n]

theorem deepSpacedDoc_ok (n : Nat) : (deepSpacedDoc n).ok = true := by
  have h : ([SChar.plain 97].all SChar.ok) = true := by decide
  simp [deepSpacedDoc, Doc.ok, JV.ok, JMembers.ok, wsOk, isSpace, deepArr_ok n, h]

theorem deepSpacedDoc_floatsOk (L : Lib) (n : Nat) :
    (deepSpacedDoc n).root.floatsOk L = true := by
  have h := deepArr_floatsOk L n
  rw [deepSpacedDoc, JV.floatsOk, JMembers.floatsOk, h]
  rfl

theorem deepSpacedDoc_depth (n : Nat) : (deepSpacedDoc n).root.depth = n + 2 := by
  simp [deepSpacedDoc, JV.depth, JMembers.depth, deepArr_depth n]

theorem deepSpacedDoc_spaced (n : Nat) :
    (deepSpacedDoc n).spaced stdLib
      = [{ path := pathA, pos := 5, start := 7, value := deepArr n }] := by
  have hk : keyPath [] (stdLib.unquote [34, 97, 34]) = pathA := by decide
  have ht : (deepSpacedDoc n).text
      = 123 :: 34 :: 97 :: 34 :: 32 :: 58 :: 32 :: ((deepArr n).text ++ [125]) := by
    simp [deepSpacedDoc, Doc.text, JV.text, JMembers.text, sepText, strText, SChar.text]
  have hs : skipOneSpace (deepSpacedDoc n).text 5 = 5 := by
    rw [ht]
    simp [skipOneSpace, unicodeIsSpace]
  have hd : (deepSpacedDoc n).spaced stdLib
      = (deepSpacedDoc n).root.spaced stdLib (deepSpacedDoc n).text [] 0 := rfl
  rw [hd]
  generalize (deepSpacedDoc n).text = data at hs ⊢
  simp [deepSpacedDoc, JV.spaced, JMembers.spaced, deepArr_spaced, sepText, hk, strText,
    SChar.text, hs]



/-! ## Claims on the map of a well-formed document -/

set_option maxRecDepth 100000 in
theorem sampleDoc_values :
    sampleDoc.values stdLib
      = [([], 0, sampleDoc.root), (pathA, 6, .num numOne), ([47, 102], 14, arrF),
          ([47, 102, 47, 48], 15, .num numFive)]
        ++ (pathF1, 18, objH7) :: [([47, 102, 47, 49, 47, 104], 24, .num numSeven)] := by
  rfl

/-- C5, amended: on a well-formed document whose number literals are all within the `float64`
range and whose brackets are nested at most `maxNestingDepth` (10000) deep, `Parse` succeeds
and the composed path of every value of the document (object keys as decoded, array indices in
decimal, `""` for the root) is a key of the map; the elements of an array with `n` elements at
path `p` are registered as `p/0` .. `p/(n-1)`. -/
theorem paths_complete (L : Lib) (d : Doc) (hok : d.ok = true)
    (hf : d.root.floatsOk L = true) (hdep : d.root.depth ≤ maxNestingDepth) :
    ∃ c, Parse L d.text = .ok c ∧
      (∀ e ∈ d.values L, (c.lookup e.1).isSome = true) ∧
      (c.lookup []).isSome = true ∧
      (∀ p s es w, (p, s, JV.arr es w) ∈ d.values L →
        ∀ k, k < es.length → (c.lookup (elemPath p k)).isSome = true) := by
  refine ⟨_, parse_doc L d hok hf hdep, ?_⟩
  have hall : ∀ e ∈ d.values L,
      ((registerAll { data := d.text, paths := [] } (d.entries L)).lookup e.1).isSome = true := by
    intro e he
    rw [← doc_toValue, List.mem_map] at he
    obtain ⟨en, hen, rfl⟩ := he
    exact lookup_registerAll_isSome _ _ en hen
  refine ⟨hall, ?_, ?_⟩
  · obtain ⟨t, ht⟩ := JV.values_head L d.root [] d.pre.length
    exact hall ([], d.pre.length, d.root) (by rw [Doc.values, ht]; exact List.mem_cons_self _ _)
  · intro p s es w hmem k hk
    obtain ⟨s1, v1, h1⟩ := elems_index L es p 0 (s + 1) k hk
    rw [Nat.zero_add] at h1
    have h2 : (elemPath p k, s1, v1) ∈ (JV.arr es w).values L p s := by
      rw [JV.values]; exact List.mem_cons_of_mem _ h1
    exact hall _ (values_closed L d.root [] d.pre.length _ hmem _ h2)

set_option exponentiation.threshold 2000 in
set_option maxRecDepth 100000 in
/-- C5, counterexample: the document `[1e999]` is well formed and its element is a value with
the path `/0`, but `Parse` returns an error (the decoder rejects the number), so no map holds
the path. The document of 10001 opening brackets followed by 10001 closing brackets is well
formed, all its (no) numbers are in range, and the array below the root is a value with the
path `/0`; `Parse` returns an error (the decoder stops at the 10001st opening bracket). -/
theorem paths_complete_fails :
    (hugeElemDoc.ok = true ∧ hugeElemDoc.text = [91, 49, 101, 57, 57, 57, 93] ∧
      ([47, 48], 1, JV.num numHuge) ∈ hugeElemDoc.values stdLib ∧
      Parse stdLib hugeElemDoc.text = .err) ∧
    ((deepDoc 10000).ok = true ∧ (deepDoc 10000).root.floatsOk stdLib = true ∧
      (deepDoc 10000).text = List.replicate 10001 91 ++ List.replicate 10001 93 ∧
      ([47, 48], 1, deepArr 9999) ∈ (deepDoc 10000).values stdLib ∧
      Parse stdLib (deepDoc 10000).text = .err) :=
  ⟨⟨by decide, by decide, by simp [hugeElemDoc, Doc.values, JV.values, JElems.values, elemPath,
      sepText, Nat.toDigits, Nat.toDigitsCore, Nat.digitChar], by decide⟩,
    ⟨deepDoc_ok 10000, deepArr_floatsOk stdLib 10000, deepDoc_text 10000,
      (match deepDoc_values stdLib 9999 with
        | ⟨_, hv, _⟩ => by
          rw [hv]
          exact List.mem_append_right _ (List.mem_cons_self _ _)),
      parse_doc_rejected stdLib (deepDoc 10000) (deepDoc_ok 10000)
        (Or.inr (by rw [deepDoc_depth]; decide))⟩⟩

set_option exponentiation.threshold 2000 in
set_option maxRecDepth 100000 in
/-- C5, witness: the document `{"a": 1, "f": [5, {"h": 7}]}`. -/
theorem paths_complete_witness :
    sampleDoc.ok = true ∧ sampleDoc.root.floatsOk stdLib = true ∧
      sampleDoc.root.depth ≤ maxNestingDepth ∧
      ∃ c, Parse stdLib sampleDoc.text = .ok c ∧ (c.lookup pathF1).isSome = true ∧
        (c.lookup []).isSome = true :=
  ⟨by decide, by decide, by decide,
    match paths_complete stdLib sampleDoc (by decide) (by decide) (by decide) with
    | ⟨c, hp, hall, hroot, _⟩ =>
      ⟨c, hp, hall (pathF1, 18, objH7) (by rw [sampleDoc_values]; simp), hroot⟩⟩

/-- C2, amended: on a well-formed document with no white space immediately before a `,` or `:`
delimiter, with all number literals within the `float64` range and with brackets nested at most
`maxNestingDepth` (10000) deep, for every value other than the root whose composed path is the
path of no other value, `Get` returns exactly the text of the value as it stands in the buffer
at the offset where the value starts. -/
theorem get_exact_span (L : Lib) (d : Doc) (hok : d.ok = true)
    (hf : d.root.floatsOk L = true) (hdep : d.root.depth ≤ maxNestingDepth)
    (htight : d.root.tight = true) :
    ∃ c, Parse L d.text = .ok c ∧
      ∀ (l1 l2 : List (List Nat × Nat × JV)) (p : List Nat) (s : Nat) (v : JV),
        d.values L = l1 ++ (p, s, v) :: l2 → l1 ≠ [] →
        (∀ e ∈ l1 ++ l2, e.1 ≠ p) →
        c.Get p = .ok v.text ∧ (d.text.drop s).take v.text.length = v.text := by
  refine ⟨_, parse_doc L d hok hf hdep, ?_⟩
  intro l1 l2 p s v hval hne huniq
  have hdepth : v.depth ≤ maxNestingDepth := by
    have := values_depth L d.root [] d.pre.length (p, s, v) (by
      have h2 : d.root.values L [] d.pre.length = l1 ++ (p, s, v) :: l2 := hval
      rw [h2]
      exact List.mem_append_right _ (List.mem_cons_self _ _))
    exact Nat.le_trans this hdep
  rw [← doc_toValue, List.map_eq_append_iff] at hval
  obtain ⟨m1, m2', hent, hm1, hm2'⟩ := hval
  rw [List.map_eq_cons_iff] at hm2'
  obtain ⟨en, m2, rfl, hen, hm2⟩ := hm2'
  -- the entry is not the root entry, so it is one of the entries inside the root
  have hin : en ∈ d.root.inner L d.text [] d.pre.length := by
    cases m1 with
    | nil => simp at hm1; exact absurd hm1 hne
    | cons r m1 =>
      have : (r :: m1) ++ en :: m2 = d.entries L := hent.symm
      rw [Doc.entries, List.cons_append, List.cons.injEq] at this
      rw [← this.2]
      exact List.mem_append_right _ (List.mem_cons_self _ _)
  simp only [Doc.ok, Bool.and_eq_true] at hok
  have hgood := goodInner L d.root d.text [] d.pre.length d.post
    (by rw [Doc.text, List.drop_left])
    hok.1.2 htight en hin
  obtain ⟨hvok, ws, rest, hws, hfol, hdrop, hpos⟩ := hgood
  simp only [Entry.toValue, Prod.mk.injEq] at hen
  obtain ⟨hp, hs, hv⟩ := hen
  subst hp hs hv
  have hlook : (registerAll { data := d.text, paths := [] } (d.entries L)).lookup en.path
      = some en.pos := by
    rw [hent]
    apply lookup_registerAll_last
    intro e1 he1
    have := huniq e1.toValue (by
      rw [← hm2]
      exact List.mem_append_right _ (List.mem_map_of_mem _ he1))
    exact this
  have hlen : ¬ d.text.length < en.pos := by
    intro hlt
    have : d.text.drop en.pos = [] := List.drop_eq_nil_of_le (by omega)
    rw [this] at hdrop
    obtain ⟨c0, t0, ht0, -⟩ := value_text_head en.value hvok
    rw [ht0] at hdrop
    simp at hdrop
  refine ⟨?_, ?_⟩
  · simp only [Context.Get, hlook, registerAll_data, hlen, ↓reduceIte, hdrop,
      decodeRaw_value en.value hvok hdepth ws rest hws hfol]
  · have h2 := drop_add hdrop
    rw [hpos] at h2
    rw [h2, List.take_left']
    rfl

set_option exponentiation.threshold 2000 in
set_option maxRecDepth 100000 in
/-- C2, counterexample: the document `{"a":1e999}` is well formed, has no white space before a
delimiter, and its only member value has the path `/a`, shared with no other value; but `Parse`
returns an error, so `Get("/a")` returns nothing. The document of 10001 opening brackets
followed by 10001 closing brackets is well formed, has no white space and no number, and the
array below its root has the path `/0`, shared with no other value; `Parse` returns an error
there too (the decoder stops at the 10001st opening bracket). -/
theorem get_exact_span_fails :
    (hugeMemberDoc.ok = true ∧ hugeMemberDoc.root.tight = true ∧
      hugeMemberDoc.values stdLib
        = [([], 0, hugeMemberDoc.root)] ++ (pathA, 5, JV.num numHuge) :: [] ∧
      Parse stdLib hugeMemberDoc.text = .err) ∧
    ((deepDoc 10000).ok = true ∧ (deepDoc 10000).root.tight = true ∧
      (deepDoc 10000).root.floatsOk stdLib = true ∧
      (deepDoc 10000).text = List.replicate 10001 91 ++ List.replicate 10001 93 ∧
      (∃ l2, (deepDoc 10000).values stdLib
          = [([], 0, (deepDoc 10000).root)] ++ ([47, 48], 1, deepArr 9999) :: l2 ∧
        ∀ e ∈ [([], 0, (deepDoc 10000).root)] ++ l2, e.1 ≠ [47, 48]) ∧
      Parse stdLib (deepDoc 10000).text = .err) :=
  ⟨⟨by decide, by decide, by rfl, by decide⟩,
    ⟨deepDoc_ok 10000, deepArr_tight 10000, deepArr_floatsOk stdLib 10000, deepDoc_text 10000,
      deepDoc_values stdLib 9999,
      parse_doc_rejected stdLib (deepDoc 10000) (deepDoc_ok 10000)
        (Or.inr (by rw [deepDoc_depth]; decide))⟩⟩

set_option exponentiation.threshold 2000 in
set_option maxRecDepth 100000 in
/-- C2, witness: the value `{"h": 7}` at the path `/f/1` of the document
`{"a": 1, "f": [5, {"h": 7}]}`. -/
theorem get_exact_span_witness :
    sampleDoc.ok = true ∧ sampleDoc.root.floatsOk stdLib = true ∧
      sampleDoc.root.depth ≤ maxNestingDepth ∧ sampleDoc.root.tight = true ∧
      ∃ c, Parse stdLib sampleDoc.text = .ok c ∧ c.Get pathF1 = .ok textH7 ∧
        (sampleDoc.text.drop 18).take textH7.length = textH7 :=
  ⟨by decide, by decide, by decide, by decide,
    match get_exact_span stdLib sampleDoc (by decide) (by decide) (by decide) (by decide) with
    | ⟨c, hp, h⟩ =>
      ⟨c, hp,
        h _ _ pathF1 18 objH7 sampleDoc_values (by simp)
          (by
            intro e he
            simp only [List.cons_append, List.nil_append, List.mem_cons, List.mem_singleton,
              List.not_mem_nil, or_false] at he
            rcases he with rfl | rfl | rfl | rfl | rfl <;> decide)⟩⟩

/-- C12, amended: on a well-formed document in which the decoded keys of each object are
pairwise different and hold no `/`, `Parse` never registers the same path twice: different
values of the document have different paths, and every path of the map that `Parse` returns is
the path of exactly one value. -/
theorem paths_unique (L : Lib) (d : Doc) (hok : d.ok = true) (hk : d.root.keysOk L = true) :
    ((d.entries L).map Entry.path).Nodup ∧
    (∀ e1 ∈ d.values L, ∀ e2 ∈ d.values L, e1.1 = e2.1 → e1 = e2) ∧
    (∀ c, Parse L d.text = .ok c →
      c.paths.map Prod.fst = ((d.values L).map Prod.fst).reverse ∧
      (c.paths.map Prod.fst).Nodup ∧
      (∀ x ∈ c.paths, ∃! e, e ∈ d.values L ∧ e.1 = x.1)) := by
  have hnd : ((d.values L).map Prod.fst).Nodup := valuesNodup L d.root [] d.pre.length hk
  have hinj : ∀ e1 ∈ d.values L, ∀ e2 ∈ d.values L, e1.1 = e2.1 → e1 = e2 :=
    fun e1 h1 e2 h2 h => List.inj_on_of_nodup_map hnd h1 h2 h
  refine ⟨by rw [entries_paths]; exact hnd, hinj, ?_⟩
  intro c hc
  have hf := (parse_doc_ok_iff L d hok).mp ⟨c, hc⟩
  obtain ⟨c1, hp, -, hpaths⟩ := parse_doc_paths L d hok hf.1 hf.2 hk
  rw [hp] at hc
  simp only [Res.ok.injEq] at hc
  subst hc
  have hfst : c1.paths.map Prod.fst = ((d.values L).map Prod.fst).reverse := by
    rw [hpaths, List.map_reverse, List.map_map, ← entries_paths]
    rfl
  refine ⟨hfst, by rw [hfst]; exact List.nodup_reverse.mpr hnd, ?_⟩
  intro x hx
  have hx1 : x.1 ∈ c1.paths.map Prod.fst := List.mem_map_of_mem _ hx
  rw [hfst, List.mem_reverse] at hx1
  obtain ⟨e, he, hex⟩ := List.mem_map.mp hx1
  exact ⟨e, ⟨he, hex⟩, fun e2 h2 => hinj e2 h2.1 e he (h2.2.trans hex.symm)⟩

set_option exponentiation.threshold 2000 in
set_option maxRecDepth 100000 in
/-- C12, counterexample: in `{"a":1,"a":2}` the values `1` and `2` both have the path `/a`,
and in `{"a":{"b":1},"a/b":2}` the values `1` and `2` both have the path `/a/b`; `Parse`
registers the path twice and the map keeps the second offset. -/
theorem same_path_registered_twice :
    (dupKeyDoc.ok = true ∧
      dupKeyDoc.values stdLib
        = [([], 0, dupKeyDoc.root), (pathA, 5, .num numOne), (pathA, 11, .num numTwo)] ∧
      Parse stdLib dupKeyDoc.text = .ok ⟨dupKeyDoc.text, [(pathA, 11), ([], 1)]⟩) ∧
    (slashDupDoc.ok = true ∧
      (slashDupDoc.values stdLib).map (fun e => (e.1, e.2.1))
        = [([], 0), (pathA, 5), (pathAB, 10), (pathAB, 19)] ∧
      Parse stdLib slashDupDoc.text
        = .ok ⟨slashDupDoc.text, [(pathAB, 19), (pathA, 5), ([], 1)]⟩) :=
  ⟨⟨by decide, by rfl, by decide⟩, ⟨by decide, by rfl, by decide⟩⟩

set_option exponentiation.threshold 2000 in
set_option maxRecDepth 100000 in
/-- C12, witness: the document `{"a": 1, "f": [5, {"h": 7}]}`, for which `Parse` returns a
`Context`. -/
theorem paths_unique_witness :
    sampleDoc.ok = true ∧ sampleDoc.root.keysOk stdLib = true ∧
      (∃ c, Parse stdLib sampleDoc.text = .ok c) ∧
      ((sampleDoc.entries stdLib).map Entry.path).Nodup ∧
      (∀ e1 ∈ sampleDoc.values stdLib, ∀ e2 ∈ sampleDoc.values stdLib,
        e1.1 = e2.1 → e1 = e2) ∧
      (∀ c, Parse stdLib sampleDoc.text = .ok c →
        c.paths.map Prod.fst = ((sampleDoc.values stdLib).map Prod.fst).reverse ∧
        (c.paths.map Prod.fst).Nodup ∧
        (∀ x ∈ c.paths, ∃! e, e ∈ sampleDoc.values stdLib ∧ e.1 = x.1)) :=
  ⟨by decide, by decide,
    ⟨_, parse_doc stdLib sampleDoc (by decide) (by decide) (by decide)⟩,
    paths_unique stdLib sampleDoc (by decide) (by decide)⟩

theorem below_count (v : JV) :
    v.leavesBelow + v.containersBelow + 1 = v.leaves + v.containers := by
  cases v <;> simp [JV.leavesBelow, JV.containersBelow, JV.leaves, JV.containers] <;> omega

/-- C13, amended: on a well-formed document in which the decoded keys of each object are
pairwise different and hold no `/`, with `N` leaf values and `M` container values below the
root, the map that `Parse` returns has exactly `N + M + 1` entries, one for each value, the
`+ 1` being the root; `Parse` returns a map when all number literals are within the `float64`
range and the brackets are nested at most `maxNestingDepth` (10000) deep. -/
theorem entry_count (L : Lib) (d : Doc) (hok : d.ok = true) (hk : d.root.keysOk L = true) :
    (∀ c, Parse L d.text = .ok c →
      c.paths.length = d.root.leavesBelow + d.root.containersBelow + 1 ∧
      c.paths.length = (d.values L).length) ∧
    (d.root.floatsOk L = true → d.root.depth ≤ maxNestingDepth →
      ∃ c, Parse L d.text = .ok c) := by
  refine ⟨?_, fun hf hdep => ⟨_, parse_doc L d hok hf hdep⟩⟩
  intro c hc
  have hf := (parse_doc_ok_iff L d hok).mp ⟨c, hc⟩
  obtain ⟨c1, hp, -, hpaths⟩ := parse_doc_paths L d hok hf.1 hf.2 hk
  rw [hp] at hc
  simp only [Res.ok.injEq] at hc
  subst hc
  have hlen : c1.paths.length = (d.values L).length := by
    rw [hpaths, List.length_reverse, List.length_map, ← doc_toValue, List.length_map]
  refine ⟨?_, hlen⟩
  rw [hlen, Doc.values, values_length, below_count]

set_option exponentiation.threshold 2000 in
set_option maxRecDepth 100000 in
/-- C13, counterexample: the document `{"a":1,"a":2}` has two leaf values and no container
below its root, and the map has two entries, not three; the document `{"a":{"b":1},"a/b":2}`
has two leaf values and one container below its root, and the map has three entries, not
four. -/
theorem entry_count_fails :
    (dupKeyDoc.ok = true ∧ dupKeyDoc.root.leavesBelow = 2 ∧
      dupKeyDoc.root.containersBelow = 0 ∧
      ∃ c, Parse stdLib dupKeyDoc.text = .ok c ∧ c.paths.length = 2 ∧
        c.paths.length ≠ dupKeyDoc.root.leavesBelow + dupKeyDoc.root.containersBelow + 1) ∧
    (slashDupDoc.ok = true ∧ slashDupDoc.root.leavesBelow = 2 ∧
      slashDupDoc.root.containersBelow = 1 ∧
      ∃ c, Parse stdLib slashDupDoc.text = .ok c ∧ c.paths.length = 3 ∧
        c.paths.length
          ≠ slashDupDoc.root.leavesBelow + slashDupDoc.root.containersBelow + 1) :=
  ⟨⟨by decide, by decide, by decide, ⟨dupKeyDoc.text, [(pathA, 11), ([], 1)]⟩, by decide,
      by decide, by decide⟩,
    ⟨by decide, by decide, by decide,
      ⟨slashDupDoc.text, [(pathAB, 19), (pathA, 5), ([], 1)]⟩, by decide, by decide,
      by decide⟩⟩

set_option exponentiation.threshold 2000 in
set_option maxRecDepth 100000 in
/-- C13, witness: the document `{"a": 1, "f": [5, {"h": 7}]}` has three leaf values and two
containers below its root, and `Parse` returns a map of six entries for it. -/
theorem entry_count_witness :
    sampleDoc.ok = true ∧ sampleDoc.root.keysOk stdLib = true ∧
      sampleDoc.root.leavesBelow = 3 ∧ sampleDoc.root.containersBelow = 2 ∧
      (∃ c, Parse stdLib sampleDoc.text = .ok c ∧ c.paths.length = 6) ∧
      (∀ c, Parse stdLib sampleDoc.text = .ok c →
        c.paths.length = sampleDoc.root.leavesBelow + sampleDoc.root.containersBelow + 1 ∧
        c.paths.length = (sampleDoc.values stdLib).length) ∧
      (sampleDoc.root.floatsOk stdLib = true → sampleDoc.root.depth ≤ maxNestingDepth →
        ∃ c, Parse stdLib sampleDoc.text = .ok c) :=
  ⟨by decide, by decide, by decide, by decide,
    (match parse_doc_paths stdLib sampleDoc (by decide) (by decide) (by decide) (by decide) with
      | ⟨c, hp, _, hpaths⟩ => ⟨c, hp, by rw [hpaths]; rfl⟩),
    entry_count stdLib sampleDoc (by decide) (by decide)⟩

/-- C18, amended: on a well-formed document with all number literals within the `float64`
range and with brackets nested at most `maxNestingDepth` (10000) deep `Parse` succeeds; for
every object member whose key is followed by white space before its `:` and every array element
with white space before the `,` in front of it, the offset registered for the value is the
position of that delimiter or of white space before it; and unless the same path is registered
again later in the walk, `Get` and `Unmarshal` on that path return an error instead of the
value. -/
theorem spaced_entry_errors (L : Lib) (d : Doc) (hok : d.ok = true)
    (hf : d.root.floatsOk L = true) (hdep : d.root.depth ≤ maxNestingDepth) :
    ∃ c, Parse L d.text = .ok c ∧ ∀ e ∈ d.spaced L,
      e ∈ d.entries L ∧ e.AtDelim d.text ∧
      ∀ l1 l2, d.entries L = l1 ++ e :: l2 → (∀ e2 ∈ l2, e2.path ≠ e.path) →
        c.lookup e.path = some e.pos ∧ c.Get e.path = .err ∧
        ∀ (β : Type) (store : List Nat → Option β), c.Unmarshal e.path store = .err := by
  refine ⟨_, parse_doc L d hok hf hdep, ?_⟩
  intro e he
  simp only [Doc.ok, Bool.and_eq_true] at hok
  have hat : e.AtDelim d.text :=
    spacedInner L d.root d.text [] d.pre.length d.post (by rw [Doc.text, List.drop_left])
      hok.1.2 e he
  refine ⟨spaced_sub_entries L d e he, hat, ?_⟩
  intro l1 l2 hsplit huniq
  obtain ⟨ws, rest, delim, hws, hdl, hdrop, -⟩ := hat
  have hlook : (registerAll { data := d.text, paths := [] } (d.entries L)).lookup e.path
      = some e.pos := by
    rw [hsplit]
    exact lookup_registerAll_last _ l1 l2 e huniq
  have hlen : ¬ d.text.length < e.pos := by
    intro hlt
    have : d.text.drop e.pos = [] := List.drop_eq_nil_of_le (by omega)
    rw [this] at hdrop
    simp at hdrop
  refine ⟨hlook, ?_, ?_⟩
  · simp only [Context.Get, hlook, registerAll_data, hlen, ↓reduceIte, hdrop,
      decodeRaw_delim ws rest delim hws hdl]
  · intro β store
    simp only [Context.Unmarshal, hlook, registerAll_data, hlen, ↓reduceIte, hdrop,
      decodeRaw_delim ws rest delim hws hdl]

set_option exponentiation.threshold 2000 in
set_option maxRecDepth 100000 in
/-- C18, counterexample: in `{"a" : 1,"a":2}` the key `a` is followed by white space before its
colon, but the path `/a` is registered again for the second member and `Get("/a")` returns `2`
and no error; in `{"a" : 1e999}` the key is followed by white space before its colon and
`Parse` returns an error; in `{"a" : [[...]]}` with 10000 arrays one inside the other (10001
opening brackets with the `{`) the key is followed by white space before its colon, there is no
number, and `Parse` returns an error. -/
theorem spaced_key_without_decode_error :
    (dupSpacedDoc.ok = true ∧
      dupSpacedDoc.spaced stdLib
        = [{ path := pathA, pos := 5, start := 7, value := .num numOne }] ∧
      ∃ c, Parse stdLib dupSpacedDoc.text = .ok c ∧ c.Get pathA = .ok [50]) ∧
    (hugeSpacedDoc.ok = true ∧
      hugeSpacedDoc.spaced stdLib
        = [{ path := pathA, pos := 5, start := 7, value := .num numHuge }] ∧
      Parse stdLib hugeSpacedDoc.text = .err) ∧
    ((deepSpacedDoc 9999).ok = true ∧ (deepSpacedDoc 9999).root.floatsOk stdLib = true ∧
      (deepSpacedDoc 9999).spaced stdLib
        = [{ path := pathA, pos := 5, start := 7, value := deepArr 9999 }] ∧
      Parse stdLib (deepSpacedDoc 9999).text = .err) :=
  ⟨⟨by decide, by rfl, ⟨dupSpacedDoc.text, [(pathA, 13), ([], 1)]⟩, by decide, by decide⟩,
    ⟨by decide, by rfl, by decide⟩,
    ⟨deepSpacedDoc_ok 9999,
      deepSpacedDoc_floatsOk stdLib 9999,
      deepSpacedDoc_spaced 9999,
      parse_doc_rejected stdLib (deepSpacedDoc 9999) (deepSpacedDoc_ok 9999)
        (Or.inr (by rw [deepSpacedDoc_depth]; decide))⟩⟩

set_option exponentiation.threshold 2000 in
set_option maxRecDepth 100000 in
/-- C18, witness: the document `{"a" : 1}`, where the value of `a` is registered at offset 5,
the position of the colon. -/
theorem spaced_entry_errors_witness :
    spacedColonDoc.ok = true ∧ spacedColonDoc.root.floatsOk stdLib = true ∧
      spacedColonDoc.root.depth ≤ maxNestingDepth ∧
      spacedColonDoc.text = docSpacedColon ∧
      spacedColonDoc.spaced stdLib
        = [{ path := pathA, pos := 5, start := 7, value := .num numOne }] ∧
      ∃ c, Parse stdLib spacedColonDoc.text = .ok c ∧ ∀ e ∈ spacedColonDoc.spaced stdLib,
        e ∈ spacedColonDoc.entries stdLib ∧ e.AtDelim spacedColonDoc.text ∧
        ∀ l1 l2, spacedColonDoc.entries stdLib = l1 ++ e :: l2 →
          (∀ e2 ∈ l2, e2.path ≠ e.path) →
          c.lookup e.path = some e.pos ∧ c.Get e.path = .err ∧
          ∀ (β : Type) (store : List Nat → Option β), c.Unmarshal e.path store = .err :=
  ⟨by decide, by decide, by decide, by decide, by rfl,
    spaced_entry_errors stdLib spacedColonDoc (by decide) (by decide) (by decide)⟩



/-! ## Paths and tree navigation -/

theorem pointer_cons (s : List Nat) (segs : List (List Nat)) :
    pointer (s :: segs) = 47 :: (s ++ pointer segs) := by
  simp [pointer]

theorem pointer_head (segs : List (List Nat)) :
    pointer segs = [] ∨ ∃ t, pointer segs = 47 :: t := by
  cases segs with
  | nil => exact Or.inl rfl
  | cons s segs => exact Or.inr ⟨_, pointer_cons s segs⟩

theorem pointer_ext (p seg : List Nat) (segs : List (List Nat)) :
    PathExt (p ++ 47 :: seg) (p ++ 47 :: (seg ++ pointer segs)) := by
  rcases pointer_head segs with h | ⟨t, h⟩
  · left; rw [h]; simp
  · right; exact ⟨t, by rw [h]; simp⟩

theorem navigate_nil (L : Lib) (v : JV) : v.navigate L [] = some v := by
  rw [JV.navigate]

theorem navigate_cons (L : Lib) (v u : JV) (seg : List Nat) (segs : List (List Nat))
    (h : v.child L seg = some u) : v.navigate L (seg :: segs) = u.navigate L segs := by
  rw [JV.navigate, h]

theorem find_none (L : Lib) : ∀ (ms : JMembers) (k : List Nat), k ∉ ms.keys L →
    ms.find L k = none
  | .nil, _, _ => rfl
  | .cons _ _ key _ _ v tl, k, h => by
    simp only [JMembers.keys, List.mem_cons, not_or] at h
    rw [JMembers.find, find_none L tl k h.2]
    simp only
    rw [if_neg (fun hk => h.1 hk.symm)]

/-- A path that ends at `p` names no further segment. -/
theorem pointer_at_self (p : List Nat) (segs : List (List Nat)) (h : p = p ++ pointer segs) :
    segs = [] := by
  cases segs with
  | nil => rfl
  | cons s segs =>
    rw [pointer_cons] at h
    have := congrArg List.length h
    simp at this

/-- A path below `p` names a first segment. -/
theorem pointer_below (p q t : List Nat) (segs : List (List Nat))
    (h : PathExt (p ++ 47 :: t) q) (hq : q = p ++ pointer segs) :
    ∃ seg rest, segs = seg :: rest := by
  cases segs with
  | nil =>
    rw [pointer, List.flatMap_nil, List.append_nil] at hq
    subst hq
    rcases h with h | ⟨u, h⟩
    · have := congrArg List.length h
      simp at this
    · have := congrArg List.length h
      simp at this
  | cons s rest => exact ⟨s, rest, rfl⟩

theorem navValue_scalar (L : Lib) (v : JV) (hs : v.isScalar = true) : NavValue L v := by
  intro p s segs _ _ e he hp
  have hev : e = (p, s, v) := by
    cases v <;> simp [JV.isScalar] at hs <;>
      (simp only [JV.values, List.mem_singleton] at he; exact he)
  subst hev
  rw [pointer_at_self p segs hp, navigate_nil]

theorem navValue_arr (L : Lib) (es : JElems) (w : List Nat) (ih : NavElems L es) :
    NavValue L (.arr es w) := by
  intro p s segs hk hsegs e he hp
  rw [JV.values] at he
  rcases List.mem_cons.mp he with rfl | he
  · rw [pointer_at_self p segs hp, navigate_nil]
  · obtain ⟨j, -, hj⟩ := elemsExt L es p 0 (s + 1) e he
    rw [elemPath_decimal] at hj
    obtain ⟨seg, rest, rfl⟩ := pointer_below p e.1 _ segs hj hp
    rw [pointer_cons] at hp
    obtain ⟨u, hu, hnav⟩ := ih p 0 (s + 1) seg rest (by simpa [JV.keysOk] using hk)
      (hsegs seg (List.mem_cons_self _ _))
      (fun sg hsg => hsegs sg (List.mem_cons_of_mem _ hsg)) e he hp
    rw [navigate_cons L _ u seg rest (by rw [JV.child]; exact hu)]
    exact hnav

theorem navValue_obj (L : Lib) (ms : JMembers) (w : List Nat) (ih : NavMembers L ms) :
    NavValue L (.obj ms w) := by
  intro p s segs hk hsegs e he hp
  rw [JV.values] at he
  rcases List.mem_cons.mp he with rfl | he
  · rw [pointer_at_self p segs hp, navigate_nil]
  · obtain ⟨k, -, hj⟩ := membersExt L ms p true (s + 1) e he
    rw [keyPath] at hj
    obtain ⟨seg, rest, rfl⟩ := pointer_below p e.1 _ segs hj hp
    rw [pointer_cons] at hp
    obtain ⟨u, hu, hnav⟩ := ih p true (s + 1) seg rest (by simpa [JV.keysOk] using hk)
      (hsegs seg (List.mem_cons_self _ _))
      (fun sg hsg => hsegs sg (List.mem_cons_of_mem _ hsg)) e he hp
    rw [navigate_cons L _ u seg rest (by rw [JV.child]; exact hu)]
    exact hnav

theorem navElems_cons (L : Lib) (wc wv : List Nat) (v : JV) (tl : JElems)
    (ihv : NavValue L v) (ih : NavElems L tl) : NavElems L (.cons wc wv v tl) := by
  intro p i off seg segs hk hseg hsegs e he hp
  simp only [JElems.keysOk, Bool.and_eq_true] at hk
  have x2 : PathExt (p ++ 47 :: seg) e.1 := by rw [hp]; exact pointer_ext p seg segs
  rw [JElems.values] at he
  rcases List.mem_append.mp he with he | he
  · have x1 := valuesExt L v _ _ e he
    rw [elemPath_decimal] at x1
    have hd : decimal i = seg :=
      ext_seg_unique x1 x2 (fun h => decimal_no_slash i 47 h rfl) hseg
    refine ⟨v, ?_, ?_⟩
    · rw [JElems.child]
      exact if_pos hd
    · refine ihv _ _ segs hk.1 hsegs e he ?_
      rw [hp, elemPath_decimal, hd]
      simp
  · obtain ⟨j, hj, x1⟩ := elemsExt L tl p (i + 1) _ e he
    rw [elemPath_decimal] at x1
    have hd : decimal j = seg :=
      ext_seg_unique x1 x2 (fun h => decimal_no_slash j 47 h rfl) hseg
    have hne : ¬ decimal i = seg := by
      intro h
      have := decimal_inj i j (h.trans hd.symm)
      omega
    obtain ⟨u, hu, hnav⟩ := ih p (i + 1) _ seg segs hk.2 hseg hsegs e he hp
    refine ⟨u, ?_, hnav⟩
    rw [JElems.child]
    exact (if_neg hne).trans hu

theorem navMembers_cons (L : Lib) (wc wk : List Nat) (key : List SChar) (wcolon wv : List Nat)
    (v : JV) (tl : JMembers) (ihv : NavValue L v) (ih : NavMembers L tl) :
    NavMembers L (.cons wc wk key wcolon wv v tl) := by
  intro p first off seg segs hk hseg hsegs e he hp
  simp only [JMembers.keysOk, Bool.and_eq_true, decide_eq_true_eq] at hk
  obtain ⟨⟨⟨hns, hnk⟩, hv⟩, htl⟩ := hk
  have x2 : PathExt (p ++ 47 :: seg) e.1 := by rw [hp]; exact pointer_ext p seg segs
  rw [JMembers.values] at he
  rcases List.mem_append.mp he with he | he
  · have x1 := valuesExt L v _ _ e he
    rw [keyPath] at x1
    have hd : L.unquote (strText key) = seg := ext_seg_unique x1 x2 hns hseg
    refine ⟨v, ?_, ?_⟩
    · rw [JMembers.find, find_none L tl seg (by rw [← hd]; exact hnk)]
      simp only
      rw [if_pos hd]
    · refine ihv _ _ segs hv hsegs e he ?_
      rw [hp, keyPath, hd]
      simp
  · obtain ⟨u, hu, hnav⟩ := ih p false _ seg segs htl hseg hsegs e he hp
    refine ⟨u, ?_, hnav⟩
    rw [JMembers.find, hu]

mutual
theorem navValue (L : Lib) : ∀ v : JV, NavValue L v
  | .str _ => navValue_scalar L _ rfl
  | .num _ => navValue_scalar L _ rfl
  | .tru => navValue_scalar L _ rfl
  | .fls => navValue_scalar L _ rfl
  | .nul => navValue_scalar L _ rfl
  | .arr es w => navValue_arr L es w (navElems L es)
  | .obj ms w => navValue_obj L ms w (navMembers L ms)
theorem navElems (L : Lib) : ∀ es : JElems, NavElems L es
  | .nil => by intro p i off seg segs _ _ _ e he; simp [JElems.values] at he
  | .cons wc wv v tl => navElems_cons L wc wv v tl (navValue L v) (navElems L tl)
theorem navMembers (L : Lib) : ∀ ms : JMembers, NavMembers L ms
  | .nil => by intro p first off seg segs _ _ _ e he; simp [JMembers.values] at he
  | .cons wc wk key wcolon wv v tl =>
    navMembers_cons L wc wk key wcolon wv v tl (navValue L v) (navMembers L tl)
end



/-- In a document whose keys are pairwise different in each object and hold no `/`, a path of
slash-free segments along which tree navigation finds nothing is the path of no value. -/
theorem absent_not_value (L : Lib) (d : Doc) (hk : d.root.keysOk L = true)
    (segs : List (List Nat)) (hseg : ∀ sg ∈ segs, 47 ∉ sg)
    (hnav : d.root.navigate L segs = none) : ∀ e ∈ d.values L, e.1 ≠ pointer segs := by
  intro e he hp
  have := navValue L d.root [] d.pre.length segs hk hseg e he (by simpa using hp)
  rw [hnav] at this
  exact absurd this (by simp)

/-- C6, amended: on a well-formed document in which the decoded keys of each object are
pairwise different and hold no `/`, a path (its segments being what stands between the
slashes) along which tree navigation from the root finds nothing, because a segment names a
key absent from the object it addresses, is not the index of an element of the array it
addresses, or addresses a scalar, is not found in the map that `Parse` returns: `Get` and
`Unmarshal` return an error and no value. `Parse` returns a map when all number literals are
within the `float64` range and the brackets are nested at most `maxNestingDepth` (10000)
deep. -/
theorem absent_path_errors (L : Lib) (d : Doc) (hok : d.ok = true)
    (hk : d.root.keysOk L = true) (segs : List (List Nat)) (hseg : ∀ sg ∈ segs, 47 ∉ sg)
    (hnav : d.root.navigate L segs = none) :
    (∀ c, Parse L d.text = .ok c →
      c.lookup (pointer segs) = none ∧ c.Get (pointer segs) = .err ∧
      ∀ (β : Type) (store : List Nat → Option β),
        c.Unmarshal (pointer segs) store = .err) ∧
    (d.root.floatsOk L = true → d.root.depth ≤ maxNestingDepth →
      ∃ c, Parse L d.text = .ok c) := by
  refine ⟨?_, fun hf hdep => ⟨_, parse_doc L d hok hf hdep⟩⟩
  intro c hc
  have hf := (parse_doc_ok_iff L d hok).mp ⟨c, hc⟩
  rw [parse_doc L d hok hf.1 hf.2] at hc
  simp only [Res.ok.injEq] at hc
  subst hc
  have habs := absent_not_value L d hk segs hseg hnav
  have hl : (registerAll { data := d.text, paths := [] } (d.entries L)).lookup (pointer segs)
      = none := by
    rw [lookup_registerAll_of_not_mem]
    · rfl
    · intro en hen
      have := habs en.toValue (by rw [← doc_toValue]; exact List.mem_map_of_mem _ hen)
      exact this
  refine ⟨hl, ?_, ?_⟩
  · simp [Context.Get, hl]
  · intro β store
    simp [Context.Unmarshal, hl]

set_option exponentiation.threshold 2000 in
set_option maxRecDepth 100000 in
/-- C6, counterexample: in `{"a":{},"a/b":1}` the path `/a/b` names the key `b`, absent from
the object under `a`, yet it is the path composed for the key `a/b`, and `Get` returns the
value `1`. In `{"a":{"b":1},"a":{}}` the path `/a` addresses the empty object (`Get("/a")`
returns `{}`), from which the key `b` is absent, yet `Get("/a/b")` returns the value `1` of the
first member. -/
theorem absent_path_found :
    (slashKeyDoc.ok = true ∧ slashKeyDoc.root.navigate stdLib [[97], [98]] = none ∧
      ∃ c, Parse stdLib slashKeyDoc.text = .ok c ∧ c.Get (pointer [[97]]) = .ok [123, 125] ∧
        c.Get (pointer [[97], [98]]) = .ok [49]) ∧
    (dupObjDoc.ok = true ∧ dupObjDoc.root.navigate stdLib [[97], [98]] = none ∧
      ∃ c, Parse stdLib dupObjDoc.text = .ok c ∧ c.Get (pointer [[97]]) = .ok [123, 125] ∧
        c.Get (pointer [[97], [98]]) = .ok [49]) :=
  ⟨⟨by decide, by rfl,
      ⟨slashKeyDoc.text, [([47, 97, 47, 98], 14), ([47, 97], 5), ([], 1)]⟩, by decide,
      by decide, by decide⟩,
    ⟨by decide, by rfl,
      ⟨dupObjDoc.text, [([47, 97], 17), ([47, 97, 47, 98], 10), ([], 1)]⟩, by decide,
      by decide, by decide⟩⟩

set_option exponentiation.threshold 2000 in
set_option maxRecDepth 100000 in
/-- C6, witness: in the document `{"a": 1, "f": [5, {"h": 7}]}` the key `g` is absent from the
root, the array under `f` has no element of index 2, and `a` is a scalar with nothing under
it. -/
theorem absent_path_errors_witness :
    sampleDoc.ok = true ∧ sampleDoc.root.keysOk stdLib = true ∧
      (∃ c, Parse stdLib sampleDoc.text = .ok c) ∧
      (sampleDoc.root.navigate stdLib [[103]] = none ∧
        ∀ c, Parse stdLib sampleDoc.text = .ok c →
          c.lookup (pointer [[103]]) = none ∧ c.Get (pointer [[103]]) = .err ∧
          ∀ (β : Type) (store : List Nat → Option β),
            c.Unmarshal (pointer [[103]]) store = .err) ∧
      (sampleDoc.root.navigate stdLib [[102], [50]] = none ∧
        ∀ c, Parse stdLib sampleDoc.text = .ok c →
          c.lookup (pointer [[102], [50]]) = none ∧ c.Get (pointer [[102], [50]]) = .err ∧
          ∀ (β : Type) (store : List Nat → Option β),
            c.Unmarshal (pointer [[102], [50]]) store = .err) ∧
      (sampleDoc.root.navigate stdLib [[97], [120]] = none ∧
        ∀ c, Parse stdLib sampleDoc.text = .ok c →
          c.lookup (pointer [[97], [120]]) = none ∧ c.Get (pointer [[97], [120]]) = .err ∧
          ∀ (β : Type) (store : List Nat → Option β),
            c.Unmarshal (pointer [[97], [120]]) store = .err) :=
  ⟨by decide, by decide,
    (absent_path_errors stdLib sampleDoc (by decide) (by decide) [[103]] (by decide)
      (by rfl)).2 (by decide) (by decide),
    ⟨by rfl, (absent_path_errors stdLib sampleDoc (by decide) (by decide) [[103]] (by decide)
      (by rfl)).1⟩,
    ⟨by rfl, (absent_path_errors stdLib sampleDoc (by decide) (by decide) [[102], [50]]
      (by decide) (by rfl)).1⟩,
    ⟨by rfl, (absent_path_errors stdLib sampleDoc (by decide) (by decide) [[97], [120]]
      (by decide) (by rfl)).1⟩⟩



/-! ## Memory: byte slices that share a backing array -/

/-! ## Lookups and the memory of the buffer -/

theorem writeAt_get_lt (a : List Nat) (off : Nat) (bs : List Nat) (j : Nat) (hj : j < off)
    (ho : off ≤ a.length) : (writeAt a off bs)[j]? = a[j]? := by
  unfold writeAt
  rw [List.getElem?_append_left (by rw [List.length_take]; omega), List.getElem?_take_of_lt hj]

theorem writeAt_get_ge (a : List Nat) (off : Nat) (bs : List Nat) (j : Nat)
    (hj : off + bs.length ≤ j) (ho : off ≤ a.length) : (writeAt a off bs)[j]? = a[j]? := by
  unfold writeAt
  have h1 : (a.take off).length = off := by rw [List.length_take]; omega
  rw [List.getElem?_append_right (by omega), List.getElem?_append_right (by omega),
    List.getElem?_drop, h1]
  congr 1
  omega

/-- Writing into an array outside a window leaves the bytes of the window as they were. -/
theorem writeAt_window (a : List Nat) (off : Nat) (bs : List Nat) (x l : Nat)
    (ho : off ≤ a.length) (h : off + bs.length ≤ x ∨ x + l ≤ off) :
    ((writeAt a off bs).drop x).take l = (a.drop x).take l := by
  apply List.ext_getElem?
  intro k
  by_cases hk : k < l
  · rw [List.getElem?_take_of_lt hk, List.getElem?_take_of_lt hk, List.getElem?_drop,
      List.getElem?_drop]
    rcases h with h | h
    · exact writeAt_get_ge a off bs (x + k) (by omega) ho
    · exact writeAt_get_lt a off bs (x + k) (by omega) ho
  · rw [List.getElem?_eq_none_iff.mpr (by rw [List.length_take]; omega),
      List.getElem?_eq_none_iff.mpr (by rw [List.length_take]; omega)]

theorem bytes_set_other (h : Memory) (b : Slice) (i : Nat) (a : List Nat) (hi : i ≠ b.arr) :
    Memory.bytes (h.set i a) b = h.bytes b := by
  unfold Memory.bytes
  rw [List.getD_eq_getElem?_getD, List.getD_eq_getElem?_getD, List.getElem?_set_ne hi]

theorem bytes_set_same (h : Memory) (b : Slice) (a : List Nat) (hb : b.arr < h.length) :
    Memory.bytes (h.set b.arr a) b = (a.drop b.off).take b.len := by
  unfold Memory.bytes
  rw [List.getD_eq_getElem?_getD, List.getElem?_set_self (by simpa using hb)]
  rfl

theorem bytes_append (h : Memory) (b : Slice) (a : List Nat) (hb : b.arr < h.length) :
    Memory.bytes (h ++ [a]) b = h.bytes b := by
  unfold Memory.bytes
  rw [List.getD_eq_getElem?_getD, List.getD_eq_getElem?_getD, List.getElem?_append_left hb]

/-- Go `append(m[0:0], bs...)` on a slice `m` that shares no memory with the slice `b` leaves
the bytes of `b` as they were. -/
theorem appendReset_apart (h : Memory) (m b : Slice) (bs : List Nat) (hb : b.arr < h.length)
    (hm : m.Within h) (ha : m.Apart b) : (h.appendReset m bs).1.bytes b = h.bytes b := by
  unfold Memory.appendReset
  split
  · rename_i hcap
    by_cases harr : m.arr = b.arr
    · have hwin : m.off + bs.length ≤ b.off ∨ b.off + b.len ≤ m.off := by
        rcases ha with ha | ha | ha
        · exact absurd harr ha
        · left; omega
        · right; exact ha
      simp only
      rw [harr, bytes_set_same h b _ hb]
      unfold Slice.Within at hm
      rw [harr] at hm
      rw [writeAt_window _ _ _ _ _ (by omega) hwin]
      rfl
    · exact bytes_set_other h b _ _ harr
  · exact bytes_append h b bs hb

/-- The `nil` slice shares no memory with any slice. -/
theorem nilSlice_apart (h : Memory) (b : Slice) : nilSlice.Within h ∧ nilSlice.Apart b :=
  ⟨by simp [Slice.Within, nilSlice], Or.inr (Or.inl (by simp [nilSlice]))⟩

/-- The slice that `Get` returns shows the bytes that `Get` of the value model returns, and
`Get` in memory fails as `Get` of the value model does. -/
theorem getM_view (h : Memory) (c : MContext) (path : List Nat) :
    (∀ s, (c.Get h path).2.2 = .ok s →
      (c.view h).Get path = .ok ((c.Get h path).1.bytes s)) ∧
    ((c.Get h path).2.2 = .err → (c.view h).Get path = .err) ∧
    ((c.Get h path).2.2 = .panic → (c.view h).Get path = .panic) := by
  unfold MContext.Get Context.Get
  cases (c.view h).lookup path with
  | none => simp
  | some v =>
    simp only [MContext.view]
    split
    · simp
    · cases hd : decodeRaw ((h.bytes c.data).drop v) with
      | none => simp
      | some msg =>
        simp only [Res.ok.injEq, and_true, reduceCtorEq, false_implies]
        rintro s rfl
        unfold Memory.appendReset
        split
        · rename_i hl
          have : msg = [] := by
            simp only [nilSlice] at hl
            exact List.length_eq_zero.mp (by omega)
          subst this
          simp [Memory.bytes]
        · simp [Memory.bytes]

/-- C15, amended: for every `Context` whose buffer is in memory, every path and every
destination that shares no memory with the buffer (a `json.RawMessage` whose slice lies apart
from the buffer, or a value with memory of its own), `Get` and `Unmarshal` leave the bytes of
the buffer and the `Context` (its slice and its map) as they were, whether they return a
value, return an error or panic. -/
theorem lookups_read_only (h : Memory) (c : MContext) (path : List Nat)
    (hbuf : c.data.arr < h.length) :
    ((c.Get h path).1.bytes c.data = h.bytes c.data ∧ (c.Get h path).2.1 = c ∧
      (c.Get h path).2.1.view (c.Get h path).1 = c.view h) ∧
    ∀ (β : Type) (dst : Dest β), dst.Apart h c.data →
      (c.Unmarshal h path dst).1.bytes c.data = h.bytes c.data ∧
      (c.Unmarshal h path dst).2.1 = c ∧
      (c.Unmarshal h path dst).2.1.view (c.Unmarshal h path dst).1 = c.view h := by
  have hget : (c.Get h path).1.bytes c.data = h.bytes c.data ∧ (c.Get h path).2.1 = c := by
    unfold MContext.Get
    cases (c.view h).lookup path with
    | none => exact ⟨rfl, rfl⟩
    | some v =>
      simp only
      split
      · exact ⟨rfl, rfl⟩
      · cases decodeRaw ((h.bytes c.data).drop v) with
        | none => exact ⟨rfl, rfl⟩
        | some msg =>
          exact ⟨appendReset_apart h nilSlice c.data msg hbuf (nilSlice_apart h c.data).1
            (nilSlice_apart h c.data).2, rfl⟩
  refine ⟨⟨hget.1, hget.2, ?_⟩, ?_⟩
  · rw [hget.2]
    simp only [MContext.view, hget.1]
  · intro β dst hapart
    have hun : (c.Unmarshal h path dst).1.bytes c.data = h.bytes c.data ∧
        (c.Unmarshal h path dst).2.1 = c := by
      unfold MContext.Unmarshal
      cases (c.view h).lookup path with
      | none => exact ⟨rfl, rfl⟩
      | some v =>
        simp only
        split
        · exact ⟨rfl, rfl⟩
        · cases decodeRaw ((h.bytes c.data).drop v) with
          | none => exact ⟨rfl, rfl⟩
          | some msg =>
            cases dst with
            | raw m => exact ⟨appendReset_apart h m c.data msg hbuf hapart.1 hapart.2, rfl⟩
            | own store =>
              simp only
              cases store msg <;> exact ⟨rfl, rfl⟩
    refine ⟨hun.1, hun.2, ?_⟩
    rw [hun.2]
    simp only [MContext.view, hun.1]

set_option exponentiation.threshold 2000 in
set_option maxRecDepth 100000 in
/-- C15, counterexample: `Parse(buf)` for a slice `buf` that holds `{"a":1}`, then
`msg := json.RawMessage(buf[:0])` and `c.Unmarshal("/a", &msg)`. `Parse` returns a `Context`
that holds the slice `buf`; the destination is a slice of the same array with no length and
the capacity of `buf`; `Unmarshal` returns no error, and `append(msg[0:0], ...)` has written
the byte `1` over the first byte of the buffer, which now reads `1"a":1}`. -/
theorem unmarshal_overwrites_buffer :
    ParseM stdLib memA bufA = .ok ctxA ∧ memA.bytes ctxA.data = docA ∧
      (ctxA.Unmarshal memA pathA (Dest.raw aliasA : Dest Unit)).2.2
        = .ok (.inl { arr := 0, off := 0, len := 1, cap := 7 }) ∧
      (ctxA.Unmarshal memA pathA (Dest.raw aliasA : Dest Unit)).1.bytes ctxA.data
        = [49, 34, 97, 34, 58, 49, 125] ∧
      (ctxA.Unmarshal memA pathA (Dest.raw aliasA : Dest Unit)).1.bytes ctxA.data
        ≠ memA.bytes ctxA.data :=
  ⟨by decide, by decide, by decide, by decide, by decide⟩

set_option exponentiation.threshold 2000 in
set_option maxRecDepth 100000 in
/-- C15, witness: the `Context` of `{"a":1}` and a `json.RawMessage` over an array of its own:
`Unmarshal("/a", &msg)` writes the byte `1` into that array and the buffer is as it was. -/
theorem lookups_read_only_witness :
    ctxA.data.arr < memB.length ∧ (Dest.raw freshB : Dest Unit).Apart memB ctxA.data ∧
      (ctxA.Unmarshal memB pathA (Dest.raw freshB : Dest Unit)).1 = [docA, [49, 0, 0, 0]] ∧
      (ctxA.Unmarshal memB pathA (Dest.raw freshB : Dest Unit)).2.2
        = .ok (.inl { arr := 1, off := 0, len := 1, cap := 4 }) ∧
      ((ctxA.Get memB pathA).1.bytes ctxA.data = memB.bytes ctxA.data ∧
        (ctxA.Get memB pathA).2.1 = ctxA ∧
        (ctxA.Get memB pathA).2.1.view (ctxA.Get memB pathA).1 = ctxA.view memB) ∧
      ∀ (β : Type) (dst : Dest β), dst.Apart memB ctxA.data →
        (ctxA.Unmarshal memB pathA dst).1.bytes ctxA.data = memB.bytes ctxA.data ∧
        (ctxA.Unmarshal memB pathA dst).2.1 = ctxA ∧
        (ctxA.Unmarshal memB pathA dst).2.1.view (ctxA.Unmarshal memB pathA dst).1
          = ctxA.view memB :=
  ⟨by decide, ⟨by unfold Slice.Within; decide, Or.inl (by decide)⟩, by decide, by decide,
    lookups_read_only memB ctxA pathA (by decide)⟩

end Jsonptr
